import Mathlib

/-!
smallR: a shallow embedding of the evaluator core.

The development follows `internal/rt` of the repository: the value model of
`value.go`, the environments of `env.go` and the evaluator of `eval.go`.

Go values are pointers, so the embedding keeps a store of objects and of
environment frames; a `Ptr` is what a Go variable of type `Value` holds.
Functions that only read their (already forced) operands are embedded as pure
functions on the objects the pointers refer to.

`float64` is kept abstract: the class `Float64` lists the operations the
evaluator applies to doubles, and every statement holds for every carrier.
-/

namespace SmallR

/-! ## Tokens (internal/token) -/

/-- The token kinds of `token.go` (`token.Type`). -/
inductive TokenType where
  | ILLEGAL | EOF | NL | SEMI
  | IDENT | NUMBER | STRING
  | IF | ELSE | FOR | IN | WHILE | REPEAT | BREAK | NEXT | FUNCTION | RETURN
  | TRUE | FALSE | NULL | NA
  | ASSIGN_LEFT | ASSIGN_RIGHT | ASSIGN_EQ | ASSIGN_SUPER
  | PLUS | MINUS | STAR | SLASH | CARET | MOD | INTDIV | INOP | COLON | BANG
  | AND | ANDAND | OR | OROR | PIPE
  | LT | LTE | GT | GTE | EQ | NEQ
  | DOLLAR | COMMA | LPAREN | RPAREN | LBRACE | RBRACE | LBRACK | RBRACK
  | LDBRACK | RDBRACK
  deriving DecidableEq, Repr

/-- The string value of a token kind, as `token.go` declares it. -/
def TokenType.text : TokenType → String
  | .ILLEGAL => "ILLEGAL"
  | .EOF => "EOF"
  | .NL => "NL"
  | .SEMI => ";"
  | .IDENT => "IDENT"
  | .NUMBER => "NUMBER"
  | .STRING => "STRING"
  | .IF => "if"
  | .ELSE => "else"
  | .FOR => "for"
  | .IN => "in"
  | .WHILE => "while"
  | .REPEAT => "repeat"
  | .BREAK => "break"
  | .NEXT => "next"
  | .FUNCTION => "function"
  | .RETURN => "return"
  | .TRUE => "TRUE"
  | .FALSE => "FALSE"
  | .NULL => "NULL"
  | .NA => "NA"
  | .ASSIGN_LEFT => "<-"
  | .ASSIGN_RIGHT => "->"
  | .ASSIGN_EQ => "="
  | .ASSIGN_SUPER => "<<-"
  | .PLUS => "+"
  | .MINUS => "-"
  | .STAR => "*"
  | .SLASH => "/"
  | .CARET => "^"
  | .MOD => "%%"
  | .INTDIV => "%/%"
  | .INOP => "%in%"
  | .COLON => ":"
  | .BANG => "!"
  | .AND => "&"
  | .ANDAND => "&&"
  | .OR => "|"
  | .OROR => "||"
  | .PIPE => "|>"
  | .LT => "<"
  | .LTE => "<="
  | .GT => ">"
  | .GTE => ">="
  | .EQ => "=="
  | .NEQ => "!="
  | .DOLLAR => "$"
  | .COMMA => ","
  | .LPAREN => "("
  | .RPAREN => ")"
  | .LBRACE => "\x7b"
  | .RBRACE => "\x7d"
  | .LBRACK => "["
  | .RBRACK => "]"
  | .LDBRACK => "[["
  | .RDBRACK => "]]"

/-! ## float64 -/

/-- The operations on `float64` used by the runtime. `ofInt` is the conversion
`float64(x)` of an `int64`, `toInt` the conversion `int64(f)`, `fmod` is
`math.Mod`, `pow` is `math.Pow`, `floor` is `math.Floor`, `lt` and `eq` are the
comparisons `<` and `==`, `format` is `strconv.FormatFloat(f, 'g', -1, 64)`,
`parse` is `strconv.ParseFloat(s, 64)`, `isNaN` is `math.IsNaN` and `isInf` is
`math.IsInf(f, sign)`. -/
class Float64 (F : Type) where
  ofInt : Int → F
  toInt : F → Int
  add : F → F → F
  sub : F → F → F
  mul : F → F → F
  div : F → F → F
  pow : F → F → F
  fmod : F → F → F
  floor : F → F
  neg : F → F
  lt : F → F → Bool
  eq : F → F → Bool
  format : F → String
  parse : String → Option F
  isNaN : F → Bool
  isInf : F → Int → Bool

/-- Wrap an integer into the range of `int64` (two's complement). -/
def wrapInt64 (x : Int) : Int := (x + 2 ^ 63) % 2 ^ 64 - 2 ^ 63

/-! ## AST (internal/ast); source positions are left out -/

mutual
/-- The expression nodes of `ast.go`. `Nil` is the nil `ast.Expr`, which the
parser leaves in place of an operand it could not parse. -/
inductive Expr (F : Type) where
  | Nil
  | Ident (name : String)
  | NumberLit (text : String) (value : F) (isInt : Bool)
  | StringLit (value : String)
  | BoolLit (value : Bool)
  | NullLit
  | NALit
  | UnaryExpr (op : TokenType) (x : Expr F)
  | BinaryExpr (op : TokenType) (left right : Expr F)
  | AssignExpr (op : TokenType) (left right : Expr F)
  | BlockExpr (exprs : List (Expr F))
  | IfExpr (cond thenE : Expr F) (elseE : Option (Expr F))
  | ForExpr (var : String) (seq body : Expr F)
  | WhileExpr (cond body : Expr F)
  | RepeatExpr (body : Expr F)
  | BreakExpr
  | NextExpr
  | ReturnExpr (x : Option (Expr F))
  | FuncExpr (params : List (Param F)) (body : Expr F)
  | CallExpr (fn : Expr F) (args : List (Arg F))
  | IndexExpr (x index : Expr F) (double : Bool)
  | DollarExpr (x : Expr F) (name : String)
/-- A formal parameter (`ast.Param`, copied to `rt.Param` by `Eval`). -/
inductive Param (F : Type) where
  | mk (name : String) (dflt : Option (Expr F)) (dots : Bool)
/-- A call argument (`ast.Arg`). -/
inductive Arg (F : Type) where
  | mk (name : String) (value : Expr F)
end

/-- Field `Name` of a parameter. -/
def Param.Name {F : Type} : Param F → String
  | .mk n _ _ => n

/-- Field `Default` of a parameter (`none` is Go's nil). -/
def Param.Default {F : Type} : Param F → Option (Expr F)
  | .mk _ d _ => d

/-- Field `Dots` of a parameter. -/
def Param.Dots {F : Type} : Param F → Bool
  | .mk _ _ d => d

/-- Field `Name` of an argument. -/
def Arg.Name {F : Type} : Arg F → String
  | .mk n _ => n

/-- Field `Value` of an argument. -/
def Arg.Value {F : Type} : Arg F → Expr F
  | .mk _ v => v

/-! ## Values (value.go) -/

/-- What a Go variable of interface type `Value` holds: the nil interface, one
of the two singletons `NullValue` and `MissingValue`, or the address of an
object in the store. -/
inductive Ptr where
  | nil
  | NullValue
  | MissingValue
  | addr (a : Nat)
  deriving DecidableEq, Repr

/-- `ControlKind` of eval.go. -/
inductive ControlKind where
  | ctrlNone | ctrlBreak | ctrlNext | ctrlReturn
  deriving DecidableEq, Repr

/-- A Go `error`: either a message (`fmt.Errorf`, `errors.New`) or a
`*ControlError`. -/
inductive Err where
  | msg (s : String)
  | control (kind : ControlKind) (value : Ptr)
  deriving DecidableEq, Repr

/-- The outcome of running Go code: a normal return, a returned `error`, a
runtime panic (nothing in the repository recovers), or the embedding running
out of fuel. -/
inductive Res (α : Type) where
  | ok (a : α)
  | error (e : Err)
  | panic (why : String)
  | outOfFuel
  deriving Repr

/-- Sequencing of outcomes. -/
def Res.bind {α β : Type} (r : Res α) (f : α → Res β) : Res β :=
  match r with
  | .ok a => f a
  | .error e => .error e
  | .panic w => .panic w
  | .outOfFuel => .outOfFuel

instance : Monad Res where
  pure := Res.ok
  bind := Res.bind

/-- `fmt.Errorf(...)` with the formatted message. -/
def Res.errorf {α : Type} (s : String) : Res α := .error (.msg s)

structure LogicalElem where
  Val : Bool
  NA : Bool
  deriving DecidableEq, Repr

structure IntElem where
  Val : Int
  NA : Bool
  deriving DecidableEq, Repr

structure FloatElem (F : Type) where
  Val : F
  NA : Bool
  deriving DecidableEq, Repr

structure StringElem where
  Val : String
  NA : Bool
  deriving DecidableEq, Repr

/-- `ArgValue` of value.go. -/
structure ArgValue where
  Name : String
  Val : Ptr
  deriving DecidableEq, Repr

/-- The attribute map `Base.attrs`, as an association list. -/
abbrev Attrs := List (String × Ptr)

/-- The objects a `Value` pointer can refer to. Attribute maps are kept for the
vector types. A promise carries its `forced`, `val` and `err` fields. -/
inductive Obj (F : Type) where
  | Null
  | Missing
  | LogicalVec (data : List LogicalElem) (attrs : Attrs)
  | IntVec (data : List IntElem) (attrs : Attrs)
  | DoubleVec (data : List (FloatElem F)) (attrs : Attrs)
  | CharVec (data : List StringElem) (attrs : Attrs)
  | ListVec (data : List Ptr) (attrs : Attrs)
  | ExprValue (expr : Expr F)
  | Promise (expr : Expr F) (env : Nat) (forced : Bool) (val : Ptr) (err : Option Err)
  | Dots (args : List ArgValue)
  | BuiltinFunc (fnName : String)
  | ClosureFunc (params : List (Param F)) (body : Expr F) (env : Nat)

section Pure

variable {F : Type} [Float64 F]

/-- Method `Type()`. -/
def Obj.Type : Obj F → String
  | .Null => "null"
  | .Missing => "missing"
  | .LogicalVec _ _ => "logical"
  | .IntVec _ _ => "integer"
  | .DoubleVec _ _ => "double"
  | .CharVec _ _ => "character"
  | .ListVec _ _ => "list"
  | .ExprValue _ => "expr"
  | .Promise _ _ _ _ _ => "promise"
  | .Dots _ => "dots"
  | .BuiltinFunc _ => "function"
  | .ClosureFunc _ _ _ => "function"

/-- Method `Len()`. -/
def Obj.Len : Obj F → Nat
  | .Null => 0
  | .Missing => 0
  | .LogicalVec d _ => d.length
  | .IntVec d _ => d.length
  | .DoubleVec d _ => d.length
  | .CharVec d _ => d.length
  | .ListVec d _ => d.length
  | .ExprValue _ => 1
  | .Promise _ _ _ _ _ => 1
  | .Dots args => args.length
  | .BuiltinFunc _ => 1
  | .ClosureFunc _ _ _ => 1

/-- The element `FloatElem{NA: true}`; its `Val` is the zero value. -/
def FloatElem.na : FloatElem F := ⟨Float64.ofInt 0, true⟩

/-- The element `LogicalElem{NA: true}`. -/
def LogicalElem.na : LogicalElem := ⟨false, true⟩

/-- The element `IntElem{NA: true}`. -/
def IntElem.na : IntElem := ⟨0, true⟩

/-- The element `StringElem{NA: true}`. -/
def StringElem.na : StringElem := ⟨"", true⟩

/-- `LogicalScalar(v)`. -/
def LogicalScalar (v : Bool) : Obj F := .LogicalVec [⟨v, false⟩] []

/-- `LogicalNA()`. -/
def LogicalNA : Obj F := .LogicalVec [LogicalElem.na] []

/-- `IntScalar(v)`. -/
def IntScalar (v : Int) : Obj F := .IntVec [⟨v, false⟩] []

/-- `IntNA()`. -/
def IntNA : Obj F := .IntVec [IntElem.na] []

/-- `DoubleScalar(v)`. -/
def DoubleScalar (v : F) : Obj F := .DoubleVec [⟨v, false⟩] []

/-- `DoubleNA()`. -/
def DoubleNA : Obj F := .DoubleVec [FloatElem.na] []

/-- `CharScalar(v)`. -/
def CharScalar (v : String) : Obj F := .CharVec [⟨v, false⟩] []

/-- `CharNA()`. -/
def CharNA : Obj F := .CharVec [StringElem.na] []

/-- Go's `i % n` on non-negative ints: a zero divisor panics. -/
def goMod (i n : Nat) : Res Nat :=
  if n = 0 then .panic "integer divide by zero" else .ok (i % n)

/-- Go's slice indexing `xs[i]`: out of range panics. -/
def goIndex {α : Type} (xs : List α) (i : Nat) : Res α :=
  match xs.get? i with
  | some x => .ok x
  | none => .panic "index out of range"

/-- The loop `for i := start; i < start + count; i++ { out[i] = f(i) }` over a
preallocated slice, where the body may return early or panic. -/
def forEachIndex {β : Type} (f : Nat → Res β) : Nat → Nat → Res (List β)
  | 0, _ => .ok []
  | k + 1, i => (f i).bind fun x => (forEachIndex f k (i + 1)).bind fun rest => .ok (x :: rest)

/-- The type switch of `asDoubleVec`, on a forced value. -/
def asDoubleVec : Obj F → Res (List (FloatElem F))
  | .DoubleVec d _ => .ok d
  | .IntVec d _ =>
    .ok (d.map fun e => if e.NA then FloatElem.na else ⟨Float64.ofInt e.Val, false⟩)
  | .LogicalVec d _ =>
    .ok (d.map fun e =>
      if e.NA then FloatElem.na
      else if e.Val then ⟨Float64.ofInt 1, false⟩ else ⟨Float64.ofInt 0, false⟩)
  | v => Res.errorf ("cannot coerce " ++ v.Type ++ " to double")

/-- The type switch of `asLogicalVec`, on a forced value. -/
def asLogicalVec : Obj F → Res (List LogicalElem)
  | .LogicalVec d _ => .ok d
  | .IntVec d _ =>
    .ok (d.map fun e => if e.NA then LogicalElem.na else ⟨e.Val != 0, false⟩)
  | .DoubleVec d _ =>
    .ok (d.map fun e =>
      if e.NA then LogicalElem.na else ⟨!(Float64.eq e.Val (Float64.ofInt 0)), false⟩)
  | v => Res.errorf ("cannot coerce " ++ v.Type ++ " to logical")

/-- `strconv.FormatInt(v, 10)`. -/
def formatInt (v : Int) : String := toString v

/-- The type switch of `asCharVec`, on a forced value. -/
def asCharVec : Obj F → Res (List StringElem)
  | .CharVec d _ => .ok d
  | .DoubleVec d _ =>
    .ok (d.map fun e => if e.NA then StringElem.na else ⟨Float64.format e.Val, false⟩)
  | .IntVec d _ =>
    .ok (d.map fun e => if e.NA then StringElem.na else ⟨formatInt e.Val, false⟩)
  | .LogicalVec d _ =>
    .ok (d.map fun e =>
      if e.NA then StringElem.na else if e.Val then ⟨"TRUE", false⟩ else ⟨"FALSE", false⟩)
  | v => Res.errorf ("cannot coerce " ++ v.Type ++ " to character")

/-- The type switch of `coerceToIntVec`, on a forced value. -/
def coerceToIntVec : Obj F → Res (List IntElem)
  | .IntVec d _ => .ok d
  | .DoubleVec d _ =>
    .ok (d.map fun e => if e.NA then IntElem.na else ⟨Float64.toInt e.Val, false⟩)
  | .LogicalVec d _ =>
    .ok (d.map fun e =>
      if e.NA then IntElem.na else if e.Val then ⟨1, false⟩ else ⟨0, false⟩)
  | v => Res.errorf ("cannot coerce " ++ v.Type ++ " to integer")

/-- The body of `asFloatElem` after forcing. -/
def asFloatElem (v : Obj F) : Res (FloatElem F) :=
  if v.Len ≠ 1 then Res.errorf ("expected scalar, got length " ++ toString v.Len)
  else
    match v with
    | .DoubleVec d _ => goIndex d 0
    | .IntVec d _ =>
      (goIndex d 0).bind fun e =>
        if e.NA then .ok FloatElem.na else .ok ⟨Float64.ofInt e.Val, false⟩
    | .LogicalVec d _ =>
      (goIndex d 0).bind fun e =>
        if e.NA then .ok FloatElem.na
        else if e.Val then .ok ⟨Float64.ofInt 1, false⟩ else .ok ⟨Float64.ofInt 0, false⟩
    | .CharVec d _ =>
      (goIndex d 0).bind fun e =>
        if e.NA then .ok FloatElem.na
        else
          match (Float64.parse e.Val : Option F) with
          | some f => .ok ⟨f, false⟩
          | none => Res.errorf ("cannot coerce '" ++ e.Val ++ "' to double")
    | v => Res.errorf ("cannot coerce " ++ v.Type ++ " to double")

/-- The body of `asLogicalScalar` after forcing: the pair `(value, isNA)`. -/
def asLogicalScalar (v : Obj F) : Res (Bool × Bool) :=
  if v.Len ≠ 1 then Res.errorf ("expected scalar logical, got length " ++ toString v.Len)
  else
    match v with
    | .LogicalVec d _ => (goIndex d 0).bind fun e => .ok (e.Val, e.NA)
    | .IntVec d _ =>
      (goIndex d 0).bind fun e => if e.NA then .ok (false, true) else .ok (e.Val != 0, false)
    | .DoubleVec d _ =>
      (goIndex d 0).bind fun e =>
        if e.NA then .ok (false, true)
        else .ok (!(Float64.eq e.Val (Float64.ofInt 0)), false)
    | .CharVec d _ =>
      (goIndex d 0).bind fun e =>
        if e.NA then .ok (false, true)
        else if e.Val = "TRUE" ∨ e.Val = "T" ∨ e.Val = "true" ∨ e.Val = "1" then .ok (true, false)
        else if e.Val = "FALSE" ∨ e.Val = "F" ∨ e.Val = "false" ∨ e.Val = "0" then
          .ok (false, false)
        else Res.errorf ("cannot coerce '" ++ e.Val ++ "' to logical")
    | v => Res.errorf ("cannot coerce " ++ v.Type ++ " to logical")

/-- The `switch op` of the loop body of `evalNumericBinary`; `none` is the
`default` branch. -/
def numericOp (op : TokenType) (x y : F) : Option F :=
  match op with
  | .PLUS => some (Float64.add x y)
  | .MINUS => some (Float64.sub x y)
  | .STAR => some (Float64.mul x y)
  | .SLASH => some (Float64.div x y)
  | .CARET => some (Float64.pow x y)
  | .MOD => some (Float64.fmod x y)
  | .INTDIV => some (Float64.floor (Float64.div x y))
  | _ => none

/-- One iteration of the recycling loop of `evalNumericBinary`. -/
def numericStep (op : TokenType) (av bv : List (FloatElem F)) (i : Nat) : Res (FloatElem F) :=
  (goMod i av.length).bind fun ia => (goIndex av ia).bind fun ae =>
  (goMod i bv.length).bind fun ib => (goIndex bv ib).bind fun be =>
    if ae.NA || be.NA then .ok FloatElem.na
    else
      match numericOp op ae.Val be.Val with
      | some r => .ok ⟨r, false⟩
      | none => Res.errorf ("unsupported numeric op " ++ op.text)

/-- The `:` branch of `evalNumericBinary`: the integers from `start` to `stop`
in steps of one, after the capacity computation `n` (a negative capacity makes
`make` panic). -/
def colonSeq (start stop : Int) : Res (List IntElem) :=
  let step : Int := if stop < start then -1 else 1
  let n := wrapInt64 (wrapInt64 (Int.tdiv (wrapInt64 (stop - start)) step) + 1)
  if n < 0 then .panic "makeslice: cap out of range"
  else .ok ((List.range ((stop - start).natAbs + 1)).map fun (k : Nat) =>
    (⟨start + step * (k : Int), false⟩ : IntElem))

/-- `evalNumericBinary` on forced operands. -/
def evalNumericBinary (op : TokenType) (a b : Obj F) : Res (Obj F) :=
  if op = .COLON then
    (asFloatElem a).bind fun af => (asFloatElem b).bind fun bf =>
      if af.NA || bf.NA then .ok (.DoubleVec [FloatElem.na] [])
      else (colonSeq (Float64.toInt af.Val) (Float64.toInt bf.Val)).bind fun out =>
        .ok (.IntVec out [])
  else
    (asDoubleVec a).bind fun av => (asDoubleVec b).bind fun bv =>
      let n := max av.length bv.length
      if n = 0 then .ok (.DoubleVec [] [])
      else (forEachIndex (numericStep op av bv) n 0).bind fun out => .ok (.DoubleVec out [])

/-- `compareOp` of eval.go. -/
def compareOp (op : TokenType) (cmp : Int) (eq : Bool) : Bool :=
  match op with
  | .LT => decide (cmp < 0)
  | .LTE => decide (cmp ≤ 0)
  | .GT => decide (cmp > 0)
  | .GTE => decide (cmp ≥ 0)
  | .EQ => eq
  | .NEQ => !eq
  | _ => false

/-- One iteration of the character loop of `evalCompare`. -/
def compareCharStep (op : TokenType) (ac bc : List StringElem) (i : Nat) : Res LogicalElem :=
  (goMod i ac.length).bind fun ia => (goIndex ac ia).bind fun ae =>
  (goMod i bc.length).bind fun ib => (goIndex bc ib).bind fun be =>
    if ae.NA || be.NA then .ok LogicalElem.na
    else
      let cmp : Int := if ae.Val < be.Val then -1 else if be.Val < ae.Val then 1 else 0
      .ok ⟨compareOp op cmp (ae.Val == be.Val), false⟩

/-- One iteration of the logical fallback loop of `evalCompare`. -/
def compareLogicalStep (op : TokenType) (lv rv : List LogicalElem) (i : Nat) : Res LogicalElem :=
  (goMod i lv.length).bind fun ia => (goIndex lv ia).bind fun ae =>
  (goMod i rv.length).bind fun ib => (goIndex rv ib).bind fun be =>
    if ae.NA || be.NA then .ok LogicalElem.na
    else
      let cmp : Int := if !ae.Val && be.Val then -1 else if ae.Val && !be.Val then 1 else 0
      .ok ⟨compareOp op cmp (ae.Val == be.Val), false⟩

/-- One iteration of the numeric loop of `evalCompare`. -/
def compareNumStep (op : TokenType) (av bv : List (FloatElem F)) (i : Nat) : Res LogicalElem :=
  (goMod i av.length).bind fun ia => (goIndex av ia).bind fun ae =>
  (goMod i bv.length).bind fun ib => (goIndex bv ib).bind fun be =>
    if ae.NA || be.NA then .ok LogicalElem.na
    else
      let cmp : Int :=
        if Float64.lt ae.Val be.Val then -1 else if Float64.lt be.Val ae.Val then 1 else 0
      .ok ⟨compareOp op cmp (Float64.eq ae.Val be.Val), false⟩

/-- The logical fallback of `evalCompare`, entered when `asDoubleVec(a)` failed
with `err`. -/
def evalCompareLogical (op : TokenType) (a b : Obj F) (err : Err) : Res (Obj F) :=
  match asLogicalVec a with
  | .ok lv =>
    (asLogicalVec b).bind fun rv =>
      (forEachIndex (compareLogicalStep op lv rv) (max lv.length rv.length) 0).bind fun out =>
        .ok (.LogicalVec out [])
  | .error _ => .error err
  | .panic w => .panic w
  | .outOfFuel => .outOfFuel

/-- `evalCompare` on forced operands. -/
def evalCompare (op : TokenType) (a b : Obj F) : Res (Obj F) :=
  if a.Type = "character" ∨ b.Type = "character" then
    (asCharVec a).bind fun ac => (asCharVec b).bind fun bc =>
      (forEachIndex (compareCharStep op ac bc) (max ac.length bc.length) 0).bind fun out =>
        .ok (.LogicalVec out [])
  else
    match asDoubleVec a with
    | .error err => evalCompareLogical op a b err
    | .ok av =>
      (asDoubleVec b).bind fun bv =>
        (forEachIndex (compareNumStep op av bv) (max av.length bv.length) 0).bind fun out =>
          .ok (.LogicalVec out [])
    | .panic w => .panic w
    | .outOfFuel => .outOfFuel

/-- One iteration of the loop of `evalLogicalVector`; the final `switch op` has
no default branch, so another operator leaves the zero element. -/
def logicalStep (op : TokenType) (av bv : List LogicalElem) (i : Nat) : Res LogicalElem :=
  (goMod i av.length).bind fun ia => (goIndex av ia).bind fun ae =>
  (goMod i bv.length).bind fun ib => (goIndex bv ib).bind fun be =>
    if ae.NA || be.NA then
      if op = .AND then
        if (!ae.NA && ae.Val == false) || (!be.NA && be.Val == false) then .ok ⟨false, false⟩
        else .ok LogicalElem.na
      else
        if (!ae.NA && ae.Val == true) || (!be.NA && be.Val == true) then .ok ⟨true, false⟩
        else .ok LogicalElem.na
    else
      match op with
      | .AND => .ok ⟨ae.Val && be.Val, false⟩
      | .OR => .ok ⟨ae.Val || be.Val, false⟩
      | _ => .ok ⟨false, false⟩

/-- `evalLogicalVector` on forced operands. -/
def evalLogicalVector (op : TokenType) (a b : Obj F) : Res (Obj F) :=
  (asLogicalVec a).bind fun av => (asLogicalVec b).bind fun bv =>
    (forEachIndex (logicalStep op av bv) (max av.length bv.length) 0).bind fun out =>
      .ok (.LogicalVec out [])

/-- `evalBinary` on forced operands. -/
def evalBinary (op : TokenType) (a b : Obj F) : Res (Obj F) :=
  match op with
  | .PLUS | .MINUS | .STAR | .SLASH | .CARET | .MOD | .INTDIV | .COLON =>
    evalNumericBinary op a b
  | .LT | .LTE | .GT | .GTE | .EQ | .NEQ => evalCompare op a b
  | .AND | .OR => evalLogicalVector op a b
  | _ => Res.errorf ("unsupported binary op " ++ op.text)

/-! ### Subsetting (eval.go) -/

/-- What a function returning a `Value` hands back: a freshly allocated object,
or a pointer it already had. -/
inductive Produced (F : Type) where
  | fresh (o : Obj F)
  | existing (p : Ptr)

/-- `vectorElement` on a forced value, for an index within range: the element
as a fresh scalar, or the stored pointer for a list. -/
def vectorElement (v : Obj F) (i : Nat) : Res (Produced F) :=
  match v with
  | .LogicalVec d _ =>
    (goIndex d i).bind fun e => if e.NA then .ok (.fresh LogicalNA) else .ok (.fresh (LogicalScalar e.Val))
  | .IntVec d _ =>
    (goIndex d i).bind fun e => if e.NA then .ok (.fresh IntNA) else .ok (.fresh (IntScalar e.Val))
  | .DoubleVec d _ =>
    (goIndex d i).bind fun e =>
      if e.NA then .ok (.fresh DoubleNA) else .ok (.fresh (DoubleScalar e.Val))
  | .CharVec d _ =>
    (goIndex d i).bind fun e => if e.NA then .ok (.fresh CharNA) else .ok (.fresh (CharScalar e.Val))
  | .ListVec d _ => (goIndex d i).bind fun e => .ok (.existing e)
  | v => Res.errorf ("cannot index type " ++ v.Type)

/-- The integer case of `normalizeIndex`: zero-based positions and NA mask. -/
def normalizeIndexInt (d : List IntElem) (n : Nat) : Res (List Int × List Bool) :=
  let hasNeg := d.any fun e => !e.NA && decide (e.Val < 0)
  let hasPos := d.any fun e => !e.NA && decide (e.Val > 0)
  if hasNeg && hasPos then Res.errorf "only 0's may be mixed with negative subscripts"
  else if hasNeg then
    let exclude : List Int :=
      (d.filter fun e => !e.NA && decide (e.Val < 0)).map fun e =>
        wrapInt64 (wrapInt64 (-e.Val) - 1)
    let out := (List.range n).filter fun (i : Nat) => !(exclude.contains (i : Int))
    .ok (out.map fun (i : Nat) => (i : Int), out.map fun _ => false)
  else
    let kept := d.filter fun e => e.NA || e.Val != 0
    .ok (kept.map fun e => if e.NA then 0 else e.Val - 1, kept.map fun e => e.NA)

/-- The logical case of `normalizeIndex`, for a non-empty index. -/
def normalizeIndexLogical (d : List LogicalElem) (n : Nat) : List (Int × Bool) :=
  (List.range n).filterMap fun i =>
    match d.get? (i % d.length) with
    | some e => if e.NA then some ((i : Int), true) else if e.Val then some ((i : Int), false) else none
    | none => none

/-- `normalizeIndex` on a forced index. -/
def normalizeIndex (idx : Obj F) (n : Nat) : Res (List Int × List Bool) :=
  match idx with
  | .IntVec d _ => normalizeIndexInt d n
  | .DoubleVec d _ =>
    normalizeIndexInt (d.map fun e => if e.NA then IntElem.na else ⟨Float64.toInt e.Val, false⟩) n
  | .LogicalVec d _ =>
    if d.length = 0 then .ok ([], [])
    else
      let sel := normalizeIndexLogical d n
      .ok (sel.map (·.1), sel.map (·.2))
  | .CharVec _ _ => Res.errorf "character subscripts not supported here"
  | v => Res.errorf ("invalid subscript type " ++ v.Type)

/-- The selection loop shared by `subsetAtomicLogical`, `subsetAtomicInt`,
`subsetAtomicDouble` and `subsetAtomicChar`: `na` for a masked or out-of-range
position, the element otherwise. The two slices of `normalizeIndex` have the
same length and are walked together. -/
def pickElems {α : Type} (na : α) (data : List α) (indices : List Int) (naMask : List Bool) :
    List α :=
  (indices.zip naMask).map fun im =>
    if im.2 then na
    else if im.1 < 0 ∨ im.1 ≥ (data.length : Int) then na
    else data.getD im.1.toNat na

/-- The name lookup of `subsetByName`: for each index name the first position
with that name, or NA. -/
def pickByName {α : Type} (na : α) (data : List α) (nm cidx : List StringElem) : Res (List α) :=
  forEachIndex (fun i =>
    (goIndex cidx i).bind fun e =>
      if e.NA then .ok na
      else
        match nm.findIdx? (fun nme => !nme.NA && nme.Val == e.Val) with
        | some j => goIndex data j
        | none => .ok na) cidx.length 0

/-- `makeNAOfType` for the types `subsetByName` is called with. -/
def makeNAOfType (typ : String) (n : Nat) : Obj F :=
  if typ = "logical" then .LogicalVec (List.replicate n LogicalElem.na) []
  else if typ = "integer" then .IntVec (List.replicate n IntElem.na) []
  else if typ = "double" then .DoubleVec (List.replicate n FloatElem.na) []
  else if typ = "character" then .CharVec (List.replicate n StringElem.na) []
  else .ListVec (List.replicate n Ptr.nil) []

/-- `subsetByName`; `names` is the forced value of the `names` attribute of
`x`, if `x` has one. -/
def subsetByName (names : Option (Obj F)) (x idx : Obj F) : Res (Obj F) :=
  match names with
  | none =>
    match idx with
    | .CharVec c _ => .ok (makeNAOfType x.Type c.length)
    | _ => .panic "nil pointer dereference"
  | some nmVal =>
    match nmVal with
    | .CharVec nm _ =>
      match idx with
      | .CharVec c _ =>
        match x with
        | .LogicalVec d _ => (pickByName LogicalElem.na d nm c).bind fun o => .ok (.LogicalVec o [])
        | .IntVec d _ => (pickByName IntElem.na d nm c).bind fun o => .ok (.IntVec o [])
        | .DoubleVec d _ => (pickByName FloatElem.na d nm c).bind fun o => .ok (.DoubleVec o [])
        | .CharVec d _ => (pickByName StringElem.na d nm c).bind fun o => .ok (.CharVec o [])
        | v => Res.errorf ("unsupported type for name subset: " ++ v.Type)
      | _ => Res.errorf "character subscript expected"
    | _ => Res.errorf "names attribute is not character"

/-- The four functions `subsetAtomicLogical/Int/Double/Char`: `x` is an atomic
vector. -/
def subsetAtomic (names : Option (Obj F)) (x idx : Obj F) : Res (Obj F) :=
  match normalizeIndex idx x.Len with
  | .ok (indices, naMask) =>
    match x with
    | .LogicalVec d _ => .ok (.LogicalVec (pickElems LogicalElem.na d indices naMask) [])
    | .IntVec d _ => .ok (.IntVec (pickElems IntElem.na d indices naMask) [])
    | .DoubleVec d _ => .ok (.DoubleVec (pickElems FloatElem.na d indices naMask) [])
    | .CharVec d _ => .ok (.CharVec (pickElems StringElem.na d indices naMask) [])
    | v => Res.errorf ("object of type '" ++ v.Type ++ "' is not subsettable")
  | .error err => if idx.Type = "character" then subsetByName names x idx else .error err
  | .panic w => .panic w
  | .outOfFuel => .outOfFuel

/-- `dollar` on a forced value; `names` is the forced value of the `names`
attribute of `x`, if `x` has one. -/
def dollar (names : Option (Obj F)) (x : Obj F) (name : String) : Res Ptr :=
  match x with
  | .ListVec d _ =>
    match names with
    | some (.CharVec cn _) =>
      if cn.length = d.length then
        match cn.findIdx? (fun e => !e.NA && e.Val == name) with
        | some i => goIndex d i
        | none => .ok .NullValue
      else .ok .NullValue
    | _ => .ok .NullValue
  | _ => Res.errorf "$ operator is invalid for atomic vectors"

/-- `subset` on forced operands; `names` is the forced value of the `names`
attribute of `x`, if `x` has one. -/
def subset (names : Option (Obj F)) (x idx : Obj F) (dbl : Bool) : Res (Produced F) :=
  if dbl then
    match idx with
    | .IntVec t _ =>
      if t.length ≠ 1 then Res.errorf "[[ expects a single index"
      else (goIndex t 0).bind fun e =>
        if e.NA then Res.errorf "subscript out of bounds"
        else
          let i := wrapInt64 (e.Val - 1)
          if i < 0 then Res.errorf "subscript out of bounds"
          else
            match x with
            | .ListVec d _ =>
              if i ≥ (d.length : Int) then Res.errorf "subscript out of bounds"
              else (goIndex d i.toNat).bind fun p => .ok (.existing p)
            | _ =>
              if i ≥ (x.Len : Int) then Res.errorf "subscript out of bounds"
              else vectorElement x i.toNat
    | .CharVec t _ =>
      if t.length ≠ 1 then Res.errorf "[[ expects a single index"
      else (goIndex t 0).bind fun e =>
        if e.NA then Res.errorf "subscript out of bounds"
        else (dollar names x e.Val).bind fun p => .ok (.existing p)
    | v => Res.errorf ("invalid subscript type " ++ v.Type)
  else
    match x with
    | .ListVec d _ =>
      (normalizeIndex idx d.length).bind fun r =>
        .ok (.fresh (.ListVec (pickElems Ptr.NullValue d r.1 r.2) []))
    | .LogicalVec _ _ => (subsetAtomic names x idx).bind fun o => .ok (.fresh o)
    | .IntVec _ _ => (subsetAtomic names x idx).bind fun o => .ok (.fresh o)
    | .DoubleVec _ _ => (subsetAtomic names x idx).bind fun o => .ok (.fresh o)
    | .CharVec _ _ => (subsetAtomic names x idx).bind fun o => .ok (.fresh o)
    | v => Res.errorf ("object of type '" ++ v.Type ++ "' is not subsettable")

/-! ### `order` (builtins_util.go) -/

/-- A comparison function as `sort.Slice` asks for, on the elements of the
slice being sorted: irreflexive, transitive, and with a transitive "neither is
less" relation. -/
def StrictWeakOn {α : Type} (less : α → α → Bool) (xs : List α) : Prop :=
  (∀ a, a ∈ xs → less a a = false) ∧
  (∀ a b c, a ∈ xs → b ∈ xs → c ∈ xs → less a b = true → less b c = true → less a c = true) ∧
  (∀ a b c, a ∈ xs → b ∈ xs → c ∈ xs →
    less a b = false → less b a = false → less b c = false → less c b = false →
      less a c = false ∧ less c a = false)

/-- Go's `sort.Slice`, taken by its documented contract: the slice is
rearranged (a permutation), and when `less` is a strict weak ordering of its
elements no later element is less than an earlier one. The sort need not be
stable, and nothing is assumed about the order of elements that compare as
equal. -/
structure SortSlice where
  sort : {α : Type} → (α → α → Bool) → List α → List α
  perm : ∀ {α : Type} (less : α → α → Bool) (xs : List α), (sort less xs).Perm xs
  sorted : ∀ {α : Type} (less : α → α → Bool) (xs : List α), StrictWeakOn less xs →
    (sort less xs).Pairwise (fun a b => less b a = false)

/-- A realisation of `sort.Slice`: insertion sort of the elements. -/
def insertionSortSlice : SortSlice where
  sort := fun less xs =>
    (xs.attach.insertionSort (fun a b => less b.1 a.1 = false)).map Subtype.val
  perm := fun less xs => by
    have h := (List.perm_insertionSort (fun a b : {a // a ∈ xs} => less b.1 a.1 = false)
      xs.attach).map Subtype.val
    rwa [List.attach_map_subtype_val] at h
  sorted := fun less xs hsw => by
    obtain ⟨hirr, htr, hinc⟩ := hsw
    have htotal : ∀ a b : {a // a ∈ xs}, less b.1 a.1 = false ∨ less a.1 b.1 = false := by
      intro a b
      cases hba : less b.1 a.1
      · exact Or.inl rfl
      · cases hab : less a.1 b.1
        · exact Or.inr rfl
        · have := htr a.1 b.1 a.1 a.2 b.2 a.2 hab hba
          rw [hirr a.1 a.2] at this
          exact absurd this (by decide)
    have htrans : ∀ a b c : {a // a ∈ xs}, less b.1 a.1 = false → less c.1 b.1 = false →
        less c.1 a.1 = false := by
      intro a b c h1 h2
      cases hca : less c.1 a.1
      · rfl
      · cases hab : less a.1 b.1
        · cases hbc : less b.1 c.1
          · have := (hinc a.1 b.1 c.1 a.2 b.2 c.2 hab h1 hbc h2).2
            rw [hca] at this
            exact absurd this (by decide)
          · have := htr b.1 c.1 a.1 b.2 c.2 a.2 hbc hca
            rw [h1] at this
            exact absurd this (by decide)
        · have := htr c.1 a.1 b.1 c.2 a.2 b.2 hca hab
          rw [h2] at this
          exact absurd this (by decide)
    have hs := @List.sorted_insertionSort _ (fun a b : {a // a ∈ xs} => less b.1 a.1 = false) _
      ⟨htotal⟩ ⟨htrans⟩ xs.attach
    exact List.pairwise_map.mpr hs

/-- The inner loop of `insertionSortLessFunc` of Go's package `sort`,
`for j := i; j > a && less(data[j], data[j-1]); j-- { swap(j, j-1) }`: the
element `x` behind the part `before`, which is given from its last element
backwards, is swapped with its predecessor as long as it is less than that
one. The result is that part with `x` in it, again from the last element
backwards. -/
def insertionSwaps {α : Type} (less : α → α → Bool) (x : α) : List α → List α
  | [] => [x]
  | y :: before => if less x y then y :: insertionSwaps less x before else x :: y :: before

/-- The outer loop of `insertionSortLessFunc`, `for i := a + 1; i < b; i++`:
`done` is the part before position `i`, from its last element backwards, and
the elements from position `i` on follow. -/
def insertionSortLessFunc {α : Type} (less : α → α → Bool) : List α → List α → List α
  | done, [] => done.reverse
  | done, x :: rest => insertionSortLessFunc less (insertionSwaps less x done) rest

/-- The insertion sort of Go's package `sort`, which is what `sort.Slice` runs
on a slice of at most 12 elements, as a realisation of `sort.Slice`. -/
def goInsertionSort : SortSlice where
  sort := fun less xs => insertionSortLessFunc less [] xs
  perm := fun {α} less xs => by
    have hswap : ∀ (x : α) (done : List α), (insertionSwaps less x done).Perm (x :: done) := by
      intro x done
      induction done with
      | nil => exact List.Perm.refl _
      | cons y before ih =>
        simp only [insertionSwaps]
        split
        · exact ((List.Perm.cons y ih).trans (List.Perm.swap x y before))
        · exact List.Perm.refl _
    have key : ∀ (rest done : List α),
        (insertionSortLessFunc less done rest).Perm (done.reverse ++ rest) := by
      intro rest
      induction rest with
      | nil =>
        intro done
        simp [insertionSortLessFunc]
      | cons x rest ih =>
        intro done
        simp only [insertionSortLessFunc]
        refine (ih _).trans ?_
        have h1 : (insertionSwaps less x done).reverse.Perm (done.reverse ++ [x]) := by
          refine (List.reverse_perm _).trans ((hswap x done).trans ?_)
          refine (List.perm_append_singleton x done).symm.trans ?_
          exact List.Perm.append_right _ (List.reverse_perm done).symm
        have h2 := List.Perm.append_right rest h1
        simpa using h2
    simpa using key xs []
  sorted := fun {α} less xs hsw => by
    obtain ⟨hirr, htr, hinc⟩ := hsw
    have hasym : ∀ a b, a ∈ xs → b ∈ xs → less a b = true → less b a = false := by
      intro a b ha hb hab
      cases hba : less b a
      · rfl
      · have := htr a b a ha hb ha hab hba
        rw [hirr a ha] at this
        exact absurd this (by decide)
    have hneg : ∀ a b c, a ∈ xs → b ∈ xs → c ∈ xs → less a b = false → less b c = false →
        less a c = false := by
      intro a b c ha hb hc h1 h2
      cases hac : less a c
      · rfl
      · cases hba : less b a
        · cases hcb : less c b
          · have := (hinc a b c ha hb hc h1 hba h2 hcb).1
            rw [hac] at this
            exact absurd this (by decide)
          · have := htr a c b ha hc hb hac hcb
            rw [h1] at this
            exact absurd this (by decide)
        · have := htr b a c hb ha hc hba hac
          rw [h2] at this
          exact absurd this (by decide)
    have hmem : ∀ (x : α) (done : List α) (z : α), z ∈ insertionSwaps less x done →
        z = x ∨ z ∈ done := by
      intro x done
      induction done with
      | nil =>
        intro z hz
        simp only [insertionSwaps, List.mem_singleton] at hz
        exact Or.inl hz
      | cons y before ih =>
        intro z hz
        simp only [insertionSwaps] at hz
        split at hz
        · rcases List.mem_cons.mp hz with h | h
          · exact Or.inr (h ▸ List.mem_cons_self _ _)
          · rcases ih z h with h | h
            · exact Or.inl h
            · exact Or.inr (List.mem_cons_of_mem _ h)
        · rcases List.mem_cons.mp hz with h | h
          · exact Or.inl h
          · exact Or.inr h
    have hswap : ∀ (x : α) (done : List α), x ∈ xs → (∀ z, z ∈ done → z ∈ xs) →
        done.Pairwise (fun p q => less p q = false) →
        (insertionSwaps less x done).Pairwise (fun p q => less p q = false) := by
      intro x done hx
      induction done with
      | nil =>
        intro _ _
        simp [insertionSwaps]
      | cons y before ih =>
        intro hsub hp
        have hy : y ∈ xs := hsub y (List.mem_cons_self _ _)
        have hsub2 : ∀ z, z ∈ before → z ∈ xs := fun z hz => hsub z (List.mem_cons_of_mem _ hz)
        obtain ⟨hyb, hpb⟩ := List.pairwise_cons.mp hp
        simp only [insertionSwaps]
        split
        · rename_i hxy
          refine List.pairwise_cons.mpr ⟨?_, ih hsub2 hpb⟩
          intro z hz
          rcases hmem x before z hz with h | h
          · rw [h]
            exact hasym x y hx hy hxy
          · exact hyb z h
        · rename_i hxy
          have hxy : less x y = false := by simpa using hxy
          refine List.pairwise_cons.mpr ⟨?_, hp⟩
          intro z hz
          rcases List.mem_cons.mp hz with h | h
          · rw [h]
            exact hxy
          · exact hneg x y z hx hy (hsub2 z h) hxy (hyb z h)
    have key : ∀ (rest done : List α), (∀ z, z ∈ rest → z ∈ xs) → (∀ z, z ∈ done → z ∈ xs) →
        done.Pairwise (fun p q => less p q = false) →
        (insertionSortLessFunc less done rest).Pairwise (fun a b => less b a = false) := by
      intro rest
      induction rest with
      | nil =>
        intro done _ _ hp
        simp only [insertionSortLessFunc]
        exact List.pairwise_reverse.mpr hp
      | cons x rest ih =>
        intro done hr hd hp
        simp only [insertionSortLessFunc]
        have hx : x ∈ xs := hr x (List.mem_cons_self _ _)
        refine ih _ (fun z hz => hr z (List.mem_cons_of_mem _ hz)) ?_ (hswap x done hx hd hp)
        intro z hz
        rcases hmem x done z hz with h | h
        · rw [h]
          exact hx
        · exact hd z h
    exact key xs [] (fun _ h => h) (fun _ h => by cases h) List.Pairwise.nil


/-- The `less` closure of `builtinOrder`, on the zero-based positions it
compares: NA sorts last. -/
def orderLess (decreasing : Bool) (dv : List (FloatElem F)) (i j : Nat) : Bool :=
  match dv.get? i, dv.get? j with
  | some ai, some aj =>
    if ai.NA && aj.NA then false
    else if ai.NA then false
    else if aj.NA then true
    else if decreasing then Float64.lt aj.Val ai.Val
    else Float64.lt ai.Val aj.Val
  | _, _ => false

/-- `builtinOrder` after its arguments are forced: `v` is the first argument and
`decreasing` the value of the flag. -/
def builtinOrder (S : SortSlice) (v : Obj F) (decreasing : Bool) : Res (Obj F) :=
  (asDoubleVec v).bind fun dv =>
    let indices := S.sort (orderLess decreasing dv) (List.range dv.length)
    .ok (.IntVec (indices.map fun idx => ⟨((idx + 1 : Nat) : Int), false⟩) [])

/-- The atomic vector holding the elements of `x` at the zero-based positions
`js`, without attributes (NA for a position out of range). -/
def Obj.selectAt (x : Obj F) (js : List Nat) : Obj F :=
  match x with
  | .LogicalVec d _ => .LogicalVec (js.map fun j => d.getD j LogicalElem.na) []
  | .IntVec d _ => .IntVec (js.map fun j => d.getD j IntElem.na) []
  | .DoubleVec d _ => .DoubleVec (js.map fun j => d.getD j FloatElem.na) []
  | .CharVec d _ => .CharVec (js.map fun j => d.getD j StringElem.na) []
  | v => v

/-- The vector `x` with an empty attribute map: same type, same elements. -/
def Obj.dropAttrs (x : Obj F) : Obj F :=
  match x with
  | .LogicalVec d _ => .LogicalVec d []
  | .IntVec d _ => .IntVec d []
  | .DoubleVec d _ => .DoubleVec d []
  | .CharVec d _ => .CharVec d []
  | .ListVec d _ => .ListVec d []
  | v => v

/-- The integers `1, 2, ..., n`. -/
def oneTo (n : Nat) : List Int := (List.range n).map fun (k : Nat) => (k : Int) + 1

/-- The binary arithmetic operators. -/
def arithOps : List TokenType := [.PLUS, .MINUS, .STAR, .SLASH, .CARET, .MOD, .INTDIV]

/-- The comparison operators. -/
def compareOps : List TokenType := [.LT, .LTE, .GT, .GTE, .EQ, .NEQ]

/-- A logical, integer or double vector. -/
def Obj.isNumeric : Obj F → Bool
  | .LogicalVec _ _ => true
  | .IntVec _ _ => true
  | .DoubleVec _ _ => true
  | _ => false

/-- An atomic vector: logical, integer, double or character. -/
def Obj.isAtomic : Obj F → Bool
  | .LogicalVec _ _ => true
  | .IntVec _ _ => true
  | .DoubleVec _ _ => true
  | .CharVec _ _ => true
  | _ => false

/-- The NA flags of the elements of an atomic vector. -/
def Obj.naFlags : Obj F → List Bool
  | .LogicalVec d _ => d.map (·.NA)
  | .IntVec d _ => d.map (·.NA)
  | .DoubleVec d _ => d.map (·.NA)
  | .CharVec d _ => d.map (·.NA)
  | _ => []

/-- Element `i` of the output is NA wherever the recycled element of the left or
of the right operand is NA; the three lists are the NA flags of the left
operand, the right operand and the output. -/
def NAPropagates (aNA bNA outNA : List Bool) : Prop :=
  outNA.length = max aNA.length bNA.length ∧
    ∀ i, i < outNA.length →
      (aNA[i % aNA.length]? = some true ∨ bNA[i % bNA.length]? = some true) →
        outNA[i]? = some true

/-- A logical element as a three-valued truth value; `none` is NA. -/
def LogicalElem.toOption (e : LogicalElem) : Option Bool :=
  if e.NA then none else some e.Val

/-- Three-valued conjunction as the specification tabulates it: FALSE wins,
otherwise NA wins. -/
def kleeneAnd : Option Bool → Option Bool → Option Bool
  | some false, _ => some false
  | _, some false => some false
  | some true, some true => some true
  | _, _ => none

/-- Three-valued disjunction as the specification tabulates it: TRUE wins,
otherwise NA wins. -/
def kleeneOr : Option Bool → Option Bool → Option Bool
  | some true, _ => some true
  | _, some true => some true
  | some false, some false => some false
  | _, _ => none

end Pure

/-- The number written by a string of decimal digits, added to ten times
`acc` per digit; `none` if another character occurs. -/
def digitsValue : List Char → Nat → Option Nat
  | [], acc => some acc
  | c :: cs, acc =>
    if '0' ≤ c ∧ c ≤ '9' then digitsValue cs (10 * acc + (c.toNat - 48)) else none

/-- The integer written by a decimal literal: digits, with an optional minus
sign in front. This is `strconv.ParseFloat` restricted to such literals. -/
def parseDecimal (s : String) : Option Int :=
  match s.toList with
  | [] => none
  | '-' :: cs => if cs.isEmpty then none else (digitsValue cs 0).map fun (n : Nat) => -(n : Int)
  | cs => (digitsValue cs 0).map fun (n : Nat) => (n : Int)

/-- A small carrier for `Float64`, the whole numbers, on which the definitions
can be evaluated; division and power are truncated, so it agrees with float64
only where those results are whole and small. -/
structure Whole where
  n : Int
  deriving DecidableEq, Repr

instance : Float64 Whole where
  ofInt := fun i => ⟨i⟩
  toInt := fun f => f.n
  add := fun x y => ⟨x.n + y.n⟩
  sub := fun x y => ⟨x.n - y.n⟩
  mul := fun x y => ⟨x.n * y.n⟩
  div := fun x y => ⟨Int.tdiv x.n y.n⟩
  pow := fun x y => ⟨x.n ^ y.n.toNat⟩
  fmod := fun x y => ⟨Int.tmod x.n y.n⟩
  floor := fun x => x
  neg := fun x => ⟨-x.n⟩
  lt := fun x y => decide (x.n < y.n)
  eq := fun x y => decide (x.n = y.n)
  format := fun x => toString x.n
  parse := fun s => (parseDecimal s).map Whole.mk
  isNaN := fun _ => false
  isInf := fun _ _ => false

/-- A carrier for `Float64` with fractions: the half-integers, `twice / 2`.
The conversion `int64(f)` truncates toward zero, as Go's does. Products and
quotients are rounded, so the carrier agrees with float64 only on sums,
differences, comparisons and conversions of half-integers. -/
structure Half where
  twice : Int
  deriving DecidableEq, Repr

instance : Float64 Half where
  ofInt := fun i => ⟨2 * i⟩
  toInt := fun f => Int.tdiv f.twice 2
  add := fun x y => ⟨x.twice + y.twice⟩
  sub := fun x y => ⟨x.twice - y.twice⟩
  mul := fun x y => ⟨Int.tdiv (x.twice * y.twice) 2⟩
  div := fun x y => ⟨Int.tdiv (2 * x.twice) y.twice⟩
  pow := fun x y => ⟨2 * (Int.tdiv x.twice 2) ^ (Int.tdiv y.twice 2).toNat⟩
  fmod := fun x y => ⟨Int.tmod x.twice y.twice⟩
  floor := fun x => ⟨2 * (x.twice / 2)⟩
  neg := fun x => ⟨-x.twice⟩
  lt := fun x y => decide (x.twice < y.twice)
  eq := fun x y => decide (x.twice = y.twice)
  format := fun x => toString (Int.tdiv x.twice 2)
  parse := fun s => (parseDecimal s).map fun i => ⟨2 * i⟩
  isNaN := fun _ => false
  isInf := fun _ _ => false

/-! ## Store, environments (env.go) and the evaluator (eval.go) -/

/-- Lookup in a Go `map[string]Value`. -/
def mapGet : List (String × Ptr) → String → Option Ptr
  | [], _ => none
  | (k', v') :: rest, k => if k' = k then some v' else mapGet rest k

/-- The assignment `m[k] = v` on a Go `map[string]Value`. -/
def mapSet : List (String × Ptr) → String → Ptr → List (String × Ptr)
  | [], k, v => [(k, v)]
  | (k', v') :: rest, k, v => if k' = k then (k, v) :: rest else (k', v') :: mapSet rest k v

/-- An environment frame `Env`: the parent pointer (`none` is nil) and the
local bindings `vars`. -/
structure Env where
  parent : Option Nat
  vars : List (String × Ptr)
  deriving DecidableEq, Repr

/-- What the heap keeps of the backing arrays of `[]StringElem` slices. The
`Data` of a character vector is a slice: a backing array, a length and a
capacity. `slices` gives, for the address of a character vector, its backing
array (named by the address of the vector it was allocated for) and the
capacity of that array; a vector without an entry has a full array of its own,
as `make([]StringElem, n)` and a composite literal give it. `growslice` is the
capacity of the array that `append` allocates when the old array, of the given
capacity, is full and the given length is needed (at least that length). -/
structure Arrays where
  slices : List (Nat × Nat × Nat)
  growslice : Nat → Nat → Nat

/-- No slice shares an array yet, and `append` doubles the capacity of a full
array, which is what the Go runtime does for a short slice (for a slice of
`StringElem` up to a capacity of 10; beyond that the size classes of the
allocator can add room). -/
def Arrays.initial : Arrays := ⟨[], fun oldCap needed => max needed (2 * oldCap)⟩

/-- The heap: the objects behind `Value` pointers, the environment frames
behind `*Env` pointers (a pointer is an index), what has been written to the
output sink of the context, and the backing arrays that slices share. -/
structure Store (F : Type) where
  objs : List (Obj F)
  envs : List Env
  output : String
  arrays : Arrays

section Stateful

variable {F : Type} [Float64 F]

/-- The object a pointer refers to; `none` for the nil interface. -/
def Store.deref (st : Store F) : Ptr → Option (Obj F)
  | .nil => none
  | .NullValue => some .Null
  | .MissingValue => some .Missing
  | .addr a => st.objs.get? a

/-- Allocation of a new object (`&T{...}`): it gets the next free address. -/
def Store.alloc (st : Store F) (o : Obj F) : Ptr × Store F :=
  (.addr st.objs.length, { st with objs := st.objs ++ [o] })

/-- The slice header of the data, of length `len`, of the character vector at
address `c`: its backing array and the capacity of that array. -/
def Store.sliceOf (st : Store F) (c len : Nat) : Nat × Nat :=
  (st.arrays.slices.lookup c).getD (c, len)

/-- The data of the character vector at address `c` is a slice with the header
`h`. -/
def Store.share (st : Store F) (c : Nat) (h : Nat × Nat) : Store F :=
  { st with arrays := { st.arrays with slices := (c, h) :: st.arrays.slices } }

/-- The write `array[k] = e` as the object at address `c` sees it: a character
vector whose data is a slice of that array with more than `k` elements has its
element `k` replaced. -/
def writeSharedAt (slices : List (Nat × Nat × Nat)) (array k : Nat) (e : StringElem) (c : Nat)
    (o : Obj F) : Obj F :=
  match o with
  | .CharVec data attrs =>
    if ((slices.lookup c).getD (c, data.length)).1 = array ∧ k < data.length then
      .CharVec (data.set k e) attrs
    else o
  | _ => o

/-- The write `array[k] = e` as the objects from address `c` on see it. -/
def writeSharedFrom (slices : List (Nat × Nat × Nat)) (array k : Nat) (e : StringElem) :
    Nat → List (Obj F) → List (Obj F)
  | _, [] => []
  | c, o :: rest => writeSharedAt slices array k e c o :: writeSharedFrom slices array k e (c + 1) rest

/-- The write `array[k] = e` into a backing array. -/
def Store.writeShared (st : Store F) (array k : Nat) (e : StringElem) : Store F :=
  { st with objs := writeSharedFrom st.arrays.slices array k e 0 st.objs }

/-- In-place update of the object at an address. -/
def Store.setObj (st : Store F) (a : Nat) (o : Obj F) : Store F :=
  { st with objs := st.objs.set a o }

/-- `e.vars[name] = v` on the frame `e`. -/
def Store.setVar (st : Store F) (e : Nat) (name : String) (v : Ptr) : Store F :=
  { st with envs := st.envs.modify (fun fr => { fr with vars := mapSet fr.vars name v }) e }

/-- `NewEnv(parent)`. -/
def Store.newEnv (st : Store F) (parent : Option Nat) : Nat × Store F :=
  (st.envs.length, { st with envs := st.envs ++ [⟨parent, []⟩] })

/-- The recursion of `Env.Get` along the parent chain. A chain without cycle
in a store of `k` frames is walked with fuel `k`. -/
def Env.getAux (envs : List Env) (name : String) : Nat → Nat → Res (Option Ptr)
  | 0, _ => .outOfFuel
  | fuel + 1, e =>
    match envs.get? e with
    | none => .panic "invalid memory address or nil pointer dereference"
    | some fr =>
      match mapGet fr.vars name with
      | some v => .ok (some v)
      | none =>
        match fr.parent with
        | some p => Env.getAux envs name fuel p
        | none => .ok none

/-- `Env.Get`: `ok none` is the result `(nil, false)`. -/
def Env.Get (st : Store F) (e : Nat) (name : String) : Res (Option Ptr) :=
  Env.getAux st.envs name st.envs.length e

/-- `Env.GetLocal`. -/
def Env.GetLocal (st : Store F) (e : Nat) (name : String) : Res (Option Ptr) :=
  match st.envs.get? e with
  | none => .panic "invalid memory address or nil pointer dereference"
  | some fr => .ok (mapGet fr.vars name)

/-- `Env.SetLocal`. -/
def Env.SetLocal (st : Store F) (e : Nat) (name : String) (v : Ptr) : Store F :=
  st.setVar e name v

/-- `Env.Assign`. -/
def Env.Assign (st : Store F) (e : Nat) (name : String) (v : Ptr) : Store F :=
  st.setVar e name v

/-- The first loop of `Env.AssignSuper`, `for env := e.parent; env != nil;
env = env.parent`: the nearest frame from `env` upwards that binds `name`. -/
def Env.findDefining (envs : List Env) (name : String) : Nat → Option Nat → Res (Option Nat)
  | 0, _ => .outOfFuel
  | _ + 1, none => .ok none
  | fuel + 1, some e =>
    match envs.get? e with
    | none => .panic "invalid memory address or nil pointer dereference"
    | some fr =>
      if (mapGet fr.vars name).isSome then .ok (some e)
      else Env.findDefining envs name fuel fr.parent

/-- The second loop of `Env.AssignSuper`, `for top.parent != nil { top =
top.parent }`. -/
def Env.top (envs : List Env) : Nat → Nat → Res Nat
  | 0, _ => .outOfFuel
  | fuel + 1, e =>
    match envs.get? e with
    | none => .panic "invalid memory address or nil pointer dereference"
    | some fr =>
      match fr.parent with
      | some p => Env.top envs fuel p
      | none => .ok e

/-- `Env.AssignSuper`. -/
def Env.AssignSuper (st : Store F) (e : Nat) (name : String) (v : Ptr) : Res (Store F) :=
  match st.envs.get? e with
  | none => .panic "invalid memory address or nil pointer dereference"
  | some fr =>
    (Env.findDefining st.envs name (st.envs.length + 1) fr.parent).bind fun r =>
      match r with
      | some d => .ok (st.setVar d name v)
      | none => (Env.top st.envs (st.envs.length + 1) e).bind fun t => .ok (st.setVar t name v)

/-- Computations of the evaluator: they read and update the store, and the
store they leave behind is kept whatever the outcome. -/
def M (F : Type) (α : Type) : Type := Store F → Res α × Store F

/-- Sequencing: a computation that does not return normally ends the run. -/
def M.bind {α β : Type} (m : M F α) (f : α → M F β) : M F β := fun st =>
  match m st with
  | (.ok a, st') => f a st'
  | (.error e, st') => (.error e, st')
  | (.panic w, st') => (.panic w, st')
  | (.outOfFuel, st') => (.outOfFuel, st')

instance : Monad (M F) where
  pure := fun a st => (.ok a, st)
  bind := M.bind

/-- A computation that does not touch the store. -/
def M.lift {α : Type} (r : Res α) : M F α := fun st => (r, st)

/-- `return nil, fmt.Errorf(...)`. -/
def M.errorf {α : Type} (s : String) : M F α := M.lift (Res.errorf s)

/-- Allocate an object and return its pointer. -/
def M.alloc (o : Obj F) : M F Ptr := fun st =>
  let r := st.alloc o
  (.ok r.1, r.2)

/-- Read the object behind a pointer; using a nil `Value` panics. -/
def M.deref (p : Ptr) : M F (Obj F) := fun st =>
  match st.deref p with
  | some o => (.ok o, st)
  | none => (.panic "invalid memory address or nil pointer dereference", st)

/-- Turn the result of a function into a pointer, allocating if it is fresh. -/
def M.produce (r : Produced F) : M F Ptr :=
  match r with
  | .fresh o => M.alloc o
  | .existing p => pure p

/-- The evaluator as seen by the functions it calls: `Eval(ctx, env, expr)` with
the context implicit in the store. -/
abbrev Evaluator (F : Type) : Type := Nat → Expr F → M F Ptr

/-- `Promise.Force` for the promise at address `a`, and `Force`: a value that
is not a promise is returned as it is. A forced promise returns its memoised
`(val, err)`; otherwise it is marked forced, its expression is evaluated in its
environment, and the outcome is stored in the promise. -/
def Force (ev : Evaluator F) (v : Ptr) : M F Ptr := fun st =>
  match v with
  | .addr a =>
    match st.objs.get? a with
    | some (.Promise e env forced val err) =>
      if forced then
        match err with
        | some er => (.error er, st)
        | none => (.ok val, st)
      else
        match ev env e (st.setObj a (.Promise e env true val err)) with
        | (.ok r, st') =>
          (.ok r,
            match st'.objs.get? a with
            | some (.Promise e' env' f' _ _) => st'.setObj a (.Promise e' env' f' r none)
            | _ => st')
        | (.error er, st') =>
          (.error er,
            match st'.objs.get? a with
            | some (.Promise e' env' f' _ _) => st'.setObj a (.Promise e' env' f' .nil (some er))
            | _ => st')
        | (.panic w, st') => (.panic w, st')
        | (.outOfFuel, st') => (.outOfFuel, st')
    | _ => (.ok v, st)
  | _ => (.ok v, st)

/-- `Force` followed by a read of the forced value, the opening of the
coercion helpers. -/
def forceObj (ev : Evaluator F) (v : Ptr) : M F (Obj F) :=
  (Force ev v).bind fun v' => M.deref v'

/-- `asLogicalScalar(ctx, v)`. -/
def asLogicalScalarM (ev : Evaluator F) (v : Ptr) : M F (Bool × Bool) :=
  (forceObj ev v).bind fun o => M.lift (asLogicalScalar o)

/-- `asFloatElem(ctx, v)`. -/
def asFloatElemM (ev : Evaluator F) (v : Ptr) : M F (FloatElem F) :=
  (forceObj ev v).bind fun o => M.lift (asFloatElem o)

/-- `asLogicalVec(ctx, v)`. -/
def asLogicalVecM (ev : Evaluator F) (v : Ptr) : M F (List LogicalElem) :=
  (forceObj ev v).bind fun o => M.lift (asLogicalVec o)

/-- `asDoubleVec(ctx, v)`. -/
def asDoubleVecM (ev : Evaluator F) (v : Ptr) : M F (List (FloatElem F)) :=
  (forceObj ev v).bind fun o => M.lift (asDoubleVec o)

/-- `asCharVec(ctx, v)`. -/
def asCharVecM (ev : Evaluator F) (v : Ptr) : M F (List StringElem) :=
  (forceObj ev v).bind fun o => M.lift (asCharVec o)

/-- `coerceToIntVec(ctx, v)`. -/
def coerceToIntVecM (ev : Evaluator F) (v : Ptr) : M F (List IntElem) :=
  (forceObj ev v).bind fun o => M.lift (coerceToIntVec o)

/-- `unaryNot(ctx, v)`. -/
def unaryNot (ev : Evaluator F) (v : Ptr) : M F Ptr :=
  (M.deref v).bind fun o =>
    if o.Len ≠ 1 then
      (asLogicalVecM ev v).bind fun lv =>
        M.alloc (.LogicalVec (lv.map fun e => if e.NA then LogicalElem.na else ⟨!e.Val, false⟩) [])
    else
      (asLogicalScalarM ev v).bind fun r =>
        if r.2 then M.alloc LogicalNA else M.alloc (LogicalScalar (!r.1))

/-- `unaryPlus(ctx, v)`. -/
def unaryPlus (ev : Evaluator F) (v : Ptr) : M F Ptr :=
  (asFloatElemM ev v).bind fun f =>
    if f.NA then M.alloc DoubleNA else M.alloc (DoubleScalar f.Val)

/-- `unaryMinus(ctx, v)`. -/
def unaryMinus (ev : Evaluator F) (v : Ptr) : M F Ptr :=
  (M.deref v).bind fun o =>
    if o.Len = 1 then
      (asFloatElemM ev v).bind fun f =>
        if f.NA then M.alloc DoubleNA else M.alloc (DoubleScalar (Float64.neg f.Val))
    else
      (asDoubleVecM ev v).bind fun fv =>
        M.alloc (.DoubleVec
          (fv.map fun e => if e.NA then FloatElem.na else ⟨Float64.neg e.Val, false⟩) [])

/-- `evalNumericBinary(ctx, op, a, b)`: each operand is forced when it is
coerced. -/
def evalNumericBinaryM (ev : Evaluator F) (op : TokenType) (a b : Ptr) : M F Ptr :=
  if op = .COLON then
    (asFloatElemM ev a).bind fun af => (asFloatElemM ev b).bind fun bf =>
      if af.NA || bf.NA then M.alloc (.DoubleVec [FloatElem.na] [])
      else (M.lift (colonSeq (Float64.toInt af.Val) (Float64.toInt bf.Val))).bind fun out =>
        M.alloc (.IntVec out [])
  else
    (asDoubleVecM ev a).bind fun av => (asDoubleVecM ev b).bind fun bv =>
      let n := max av.length bv.length
      if n = 0 then M.alloc (.DoubleVec [] [])
      else (M.lift (forEachIndex (numericStep op av bv) n 0)).bind fun out =>
        M.alloc (.DoubleVec out [])

/-- `a, _ = Force(ctx, a)`: the error is dropped and `a` is nil then. -/
def forceIgnoringError (ev : Evaluator F) (v : Ptr) : M F Ptr := fun st =>
  match Force ev v st with
  | (.error _, st') => (.ok .nil, st')
  | r => r

/-- `evalCompare(ctx, op, a, b)`. -/
def evalCompareM (ev : Evaluator F) (op : TokenType) (a b : Ptr) : M F Ptr :=
  (forceIgnoringError ev a).bind fun a => (forceIgnoringError ev b).bind fun b =>
  (M.deref a).bind fun oa => (M.deref b).bind fun ob =>
    if oa.Type = "character" ∨ ob.Type = "character" then
      (asCharVecM ev a).bind fun ac => (asCharVecM ev b).bind fun bc =>
        (M.lift (forEachIndex (compareCharStep op ac bc) (max ac.length bc.length) 0)).bind
          fun out => M.alloc (.LogicalVec out [])
    else fun st =>
      match asDoubleVecM ev a st with
      | (.error err, st1) =>
        match asLogicalVecM ev a st1 with
        | (.error _, st2) => (.error err, st2)
        | (.ok lv, st2) =>
          ((asLogicalVecM ev b).bind fun rv =>
            (M.lift (forEachIndex (compareLogicalStep op lv rv)
              (max lv.length rv.length) 0)).bind fun out => M.alloc (.LogicalVec out [])) st2
        | (.panic w, st2) => (.panic w, st2)
        | (.outOfFuel, st2) => (.outOfFuel, st2)
      | (.ok av, st1) =>
        ((asDoubleVecM ev b).bind fun bv =>
          (M.lift (forEachIndex (compareNumStep op av bv) (max av.length bv.length) 0)).bind
            fun out => M.alloc (.LogicalVec out [])) st1
      | (.panic w, st1) => (.panic w, st1)
      | (.outOfFuel, st1) => (.outOfFuel, st1)

/-- `evalLogicalVector(ctx, op, a, b)`. -/
def evalLogicalVectorM (ev : Evaluator F) (op : TokenType) (a b : Ptr) : M F Ptr :=
  (asLogicalVecM ev a).bind fun av => (asLogicalVecM ev b).bind fun bv =>
    (M.lift (forEachIndex (logicalStep op av bv) (max av.length bv.length) 0)).bind fun out =>
      M.alloc (.LogicalVec out [])

/-- `evalBinary(ctx, op, a, b)`. -/
def evalBinaryM (ev : Evaluator F) (op : TokenType) (a b : Ptr) : M F Ptr :=
  match op with
  | .PLUS | .MINUS | .STAR | .SLASH | .CARET | .MOD | .INTDIV | .COLON =>
    evalNumericBinaryM ev op a b
  | .LT | .LTE | .GT | .GTE | .EQ | .NEQ => evalCompareM ev op a b
  | .AND | .OR => evalLogicalVectorM ev op a b
  | _ => M.errorf ("unsupported binary op " ++ op.text)

/-- The attribute map of an object (kept for the vector types). -/
def Obj.attrs : Obj F → Attrs
  | .LogicalVec _ a => a
  | .IntVec _ a => a
  | .DoubleVec _ a => a
  | .CharVec _ a => a
  | .ListVec _ a => a
  | _ => []

/-- Read a pointer for a type switch or type assertion: the nil interface
matches no type. -/
def M.derefOpt (p : Ptr) : M F (Option (Obj F)) := fun st => (.ok (st.deref p), st)

/-- `x.GetAttr("names")` followed by `Force`: `none` when the attribute is
absent. A nil result of forcing is reported as `Null`, which like nil fails
every type assertion made on the attribute. -/
def forcedNames (ev : Evaluator F) (x : Obj F) : M F (Option (Obj F)) :=
  match mapGet x.attrs "names" with
  | none => pure none
  | some nm =>
    (Force ev nm).bind fun nmv => (M.derefOpt nmv).bind fun o => pure (some (o.getD .Null))

/-- `vectorElement(ctx, v, i)`. -/
def vectorElementM (ev : Evaluator F) (v : Ptr) (i : Nat) : M F Ptr :=
  (forceObj ev v).bind fun o => (M.lift (vectorElement o i)).bind M.produce

/-- `normalizeIndex(ctx, idx, n)`. -/
def normalizeIndexM (ev : Evaluator F) (idx : Ptr) (n : Nat) : M F (List Int × List Bool) :=
  (forceObj ev idx).bind fun o => M.lift (normalizeIndex o n)

/-- `dollar(ctx, x, name)`. -/
def dollarM (ev : Evaluator F) (x : Ptr) (name : String) : M F Ptr :=
  (forceObj ev x).bind fun ox =>
    match ox with
    | .ListVec _ _ => (forcedNames ev ox).bind fun names => M.lift (dollar names ox name)
    | _ => M.lift (dollar none ox name)

/-- `subsetByName(ctx, x, idx)`. -/
def subsetByNameM (ev : Evaluator F) (x idx : Obj F) : M F Ptr :=
  (forcedNames ev x).bind fun names => (M.lift (subsetByName names x idx)).bind M.alloc

/-- The functions `subsetAtomicLogical/Int/Double/Char(ctx, x, idx)`. -/
def subsetAtomicM (ev : Evaluator F) (x : Obj F) (idx : Ptr) (oidx : Obj F) : M F Ptr := fun st =>
  match normalizeIndexM ev idx x.Len st with
  | (.ok (indices, naMask), st1) =>
    (match x with
      | .LogicalVec d _ => M.alloc (.LogicalVec (pickElems LogicalElem.na d indices naMask) [])
      | .IntVec d _ => M.alloc (.IntVec (pickElems IntElem.na d indices naMask) [])
      | .DoubleVec d _ => M.alloc (.DoubleVec (pickElems FloatElem.na d indices naMask) [])
      | .CharVec d _ => M.alloc (.CharVec (pickElems StringElem.na d indices naMask) [])
      | v => M.errorf ("object of type '" ++ v.Type ++ "' is not subsettable")) st1
  | (.error err, st1) =>
    if oidx.Type = "character" then subsetByNameM ev x oidx st1 else (.error err, st1)
  | (.panic w, st1) => (.panic w, st1)
  | (.outOfFuel, st1) => (.outOfFuel, st1)

/-- `subset(ctx, x, idx, dbl)`. -/
def subsetM (ev : Evaluator F) (x idx : Ptr) (dbl : Bool) : M F Ptr :=
  (Force ev x).bind fun x => (Force ev idx).bind fun idx =>
  (M.derefOpt x).bind fun ox => (M.derefOpt idx).bind fun oidx =>
    if dbl then
      match oidx with
      | some (.IntVec t _) =>
        if t.length ≠ 1 then M.errorf "[[ expects a single index"
        else (M.lift (goIndex t 0)).bind fun e =>
          if e.NA then M.errorf "subscript out of bounds"
          else
            let i := wrapInt64 (e.Val - 1)
            if i < 0 then M.errorf "subscript out of bounds"
            else
              match ox with
              | some (.ListVec d _) =>
                if i ≥ (d.length : Int) then M.errorf "subscript out of bounds"
                else M.lift (goIndex d i.toNat)
              | some o =>
                if i ≥ (o.Len : Int) then M.errorf "subscript out of bounds"
                else vectorElementM ev x i.toNat
              | none => M.lift (.panic "invalid memory address or nil pointer dereference")
      | some (.CharVec t _) =>
        if t.length ≠ 1 then M.errorf "[[ expects a single index"
        else (M.lift (goIndex t 0)).bind fun e =>
          if e.NA then M.errorf "subscript out of bounds"
          else dollarM ev x e.Val
      | some v => M.errorf ("invalid subscript type " ++ v.Type)
      | none => M.lift (.panic "invalid memory address or nil pointer dereference")
    else
      match ox, oidx with
      | some (.ListVec d _), _ =>
        (normalizeIndexM ev idx d.length).bind fun r =>
          M.alloc (.ListVec (pickElems Ptr.NullValue d r.1 r.2) [])
      | some (.LogicalVec d a), some oi => subsetAtomicM ev (.LogicalVec d a) idx oi
      | some (.IntVec d a), some oi => subsetAtomicM ev (.IntVec d a) idx oi
      | some (.DoubleVec d a), some oi => subsetAtomicM ev (.DoubleVec d a) idx oi
      | some (.CharVec d a), some oi => subsetAtomicM ev (.CharVec d a) idx oi
      | some (.LogicalVec _ _), none | some (.IntVec _ _), none | some (.DoubleVec _ _), none
      | some (.CharVec _ _), none =>
        M.lift (.panic "invalid memory address or nil pointer dereference")
      | some v, _ => M.errorf ("object of type '" ++ v.Type ++ "' is not subsettable")
      | none, _ => M.lift (.panic "invalid memory address or nil pointer dereference")

/-- The positions written by a single-bracket assignment: the positive non-NA
entries of the index, zero-based. -/
def assignPositions (iv : List IntElem) : List Int :=
  (iv.filter fun e => !e.NA && decide (e.Val > 0)).map fun e => e.Val - 1

/-- The write loop of `setSubset`, `for i, p := range pos`: the slice is
extended with `na` up to position `p`, which then receives `rv[i % len(rv)]`. -/
def assignLoop {α : Type} (na : α) (rv : List α) : List Int → Nat → List α → Res (List α)
  | [], _, data => .ok data
  | p :: ps, i, data =>
    (goMod i rv.length).bind fun k => (goIndex rv k).bind fun r =>
      assignLoop na rv ps (i + 1)
        ((data ++ List.replicate (p.toNat + 1 - data.length) na).set p.toNat r)

/-- `setSubset(ctx, x, idx, rhs, dbl)`. The result is a new object: the clone
made by `cloneList`, `cloneDouble`, `cloneInt`, `cloneLogical` or `cloneChar`
(a copy of the data and of the attribute map), updated. -/
def setSubset (ev : Evaluator F) (x idx rhs : Ptr) (dbl : Bool) : M F Ptr :=
  (Force ev x).bind fun x => (Force ev idx).bind fun idx => (Force ev rhs).bind fun rhs =>
  (M.derefOpt x).bind fun ox => (M.derefOpt idx).bind fun oidx =>
    if dbl then
      match oidx with
      | some (.IntVec [e] _) =>
        if e.NA then M.errorf "invalid subscript in [[<-"
        else
          let i := wrapInt64 (e.Val - 1)
          if i < 0 then M.errorf "subscript out of bounds"
          else
            match ox with
            | some (.ListVec d a) =>
              M.alloc (.ListVec
                ((d ++ List.replicate (i.toNat + 1 - d.length) Ptr.NullValue).set i.toNat rhs) a)
            | some v => M.errorf ("[[<- not implemented for " ++ v.Type)
            | none => M.lift (.panic "invalid memory address or nil pointer dereference")
      | _ => M.errorf "invalid subscript in [[<-"
    else
      match oidx with
      | some (.IntVec iv _) =>
        let pos := assignPositions iv
        match ox with
        | some (.DoubleVec d a) =>
          (asDoubleVecM ev rhs).bind fun rv =>
            if rv.length = 0 then M.alloc (.DoubleVec d a)
            else (M.lift (assignLoop FloatElem.na rv pos 0 d)).bind fun out =>
              M.alloc (.DoubleVec out a)
        | some (.IntVec d a) =>
          (coerceToIntVecM ev rhs).bind fun rv =>
            if rv.length = 0 then M.alloc (.IntVec d a)
            else (M.lift (assignLoop IntElem.na rv pos 0 d)).bind fun out =>
              M.alloc (.IntVec out a)
        | some (.LogicalVec d a) =>
          (asLogicalVecM ev rhs).bind fun rv =>
            if rv.length = 0 then M.alloc (.LogicalVec d a)
            else (M.lift (assignLoop LogicalElem.na rv pos 0 d)).bind fun out =>
              M.alloc (.LogicalVec out a)
        | some (.CharVec d a) =>
          (asCharVecM ev rhs).bind fun rv =>
            if rv.length = 0 then M.alloc (.CharVec d a)
            else (M.lift (assignLoop StringElem.na rv pos 0 d)).bind fun out =>
              M.alloc (.CharVec out a)
        | some (.ListVec d a) =>
          (M.derefOpt rhs).bind fun orhs =>
            let rlist : List Ptr :=
              match orhs with
              | some (.ListVec rl _) => rl
              | _ => [rhs]
            (M.lift (assignLoop Ptr.NullValue rlist pos 0 d)).bind fun out =>
              M.alloc (.ListVec out a)
        | some v => M.errorf ("[<- not implemented for " ++ v.Type)
        | none => M.lift (.panic "invalid memory address or nil pointer dereference")
      | _ => M.errorf "[<- only supports integer indices in smallR MVP"

/-- The names `setDollar` works with, for a list with data `d`, and the header
of that slice: `names = cn.Data` for the forced `names` attribute when that is
a character vector (`fromAttr`, its address and data) of the length of the
list, and a new slice of NA names (`make([]StringElem, len(out.Data))`, no
header yet) otherwise. -/
def dollarNames (d : List Ptr) (fromAttr : Option (Nat × List StringElem)) (st : Store F) :
    List StringElem × Option (Nat × Nat) :=
  match fromAttr with
  | some (c, cn) =>
    if cn.length ≠ d.length then (List.replicate d.length StringElem.na, none)
    else (cn, some (st.sliceOf c cn.length))
  | none => (List.replicate d.length StringElem.na, none)

/-- The store after `names = append(names, e)` for a slice of `k` elements with
the header `h`, whose result becomes the data of the character vector that is
allocated next: with room in the backing array the element is written into
that array, which the result shares; a full array is left alone and the result
has a new array. -/
def appendName (k : Nat) (h : Nat × Nat) (e : StringElem) (st : Store F) : Store F :=
  if k < h.2 then (st.writeShared h.1 k e).share st.objs.length h
  else st.share st.objs.length (st.objs.length, max (k + 1) (st.arrays.growslice h.2 (k + 1)))

/-- The end of `setDollar` on a list with data `d` and attributes `a`:
`fromAttr` is the address and the data of the forced `names` attribute when
that is a character vector. Names of another length than the list are replaced
by NA names; the first slot with the name is overwritten, or the value and the
name are appended; a new `names` vector is attached to the new list. The data
of that vector are the slice `names` itself: the old slice when the name was
found, and `append(names, ...)` otherwise, which writes into the backing array
of the old names when that has room. -/
def setDollarList (d : List Ptr) (a : Attrs) (name : String) (rhs : Ptr)
    (fromAttr : Option (Nat × List StringElem)) : M F Ptr := fun st =>
  let nh := dollarNames d fromAttr st
  match nh.1.findIdx? (fun e => !e.NA && e.Val == name) with
  | some found =>
    let s0 := match nh.2 with
      | some h => st.share st.objs.length h
      | none => st
    let r1 := s0.alloc (.CharVec nh.1 [])
    let r2 := r1.2.alloc (.ListVec (d.set found rhs) (mapSet a "names" r1.1))
    (.ok r2.1, r2.2)
  | none =>
    let s0 := appendName nh.1.length (nh.2.getD (st.objs.length, nh.1.length)) ⟨name, false⟩ st
    let r1 := s0.alloc (.CharVec (nh.1 ++ [⟨name, false⟩]) [])
    let r2 := r1.2.alloc (.ListVec (d ++ [rhs]) (mapSet a "names" r1.1))
    (.ok r2.1, r2.2)

/-- `setDollar(ctx, x, name, rhs)`. The error of forcing the `names` attribute
is dropped (`nmv, _ := Force(ctx, nm)`), which leaves `nmv` nil. -/
def setDollar (ev : Evaluator F) (x : Ptr) (name : String) (rhs : Ptr) : M F Ptr :=
  (Force ev x).bind fun x => (Force ev rhs).bind fun rhs =>
  (M.derefOpt x).bind fun ox =>
    match ox with
    | some (.ListVec d a) =>
      match mapGet a "names" with
      | none => setDollarList d a name rhs none
      | some nm => fun st =>
        match Force ev nm st with
        | (.ok nmv, st1) =>
          match nmv, st1.deref nmv with
          | .addr c, some (.CharVec cn _) => setDollarList d a name rhs (some (c, cn)) st1
          | _, _ => setDollarList d a name rhs none st1
        | (.error _, st1) => setDollarList d a name rhs none st1
        | (.panic w, st1) => (.panic w, st1)
        | (.outOfFuel, st1) => (.outOfFuel, st1)
    | some v => M.errorf ("$<- not implemented for " ++ v.Type)
    | none => M.lift (.panic "invalid memory address or nil pointer dereference")

/-! ### Calls (eval.go: `evalCall`, `callClosure`) -/

/-- The built-in library, left abstract: the implementation `Impl` of the
built-in called `FnName`, given `Force` and `Callable.Call` of the running
evaluator. The statements below hold for every library. -/
structure Builtins (F : Type) where
  impl : String → (Ptr → M F Ptr) → (Ptr → List ArgValue → M F Ptr) → List ArgValue → M F Ptr

/-- The inner loop of positional matching,
`for paramPos < len(fn.Params) && fn.Params[paramPos].Dots { paramPos++ }`. -/
def skipDots (params : List (Param F)) (pos : Nat) : Nat :=
  pos + ((params.drop pos).takeWhile fun p => p.Dots).length

/-- `dotsIndex >= 0`: some formal is `...`. -/
def hasDots (params : List (Param F)) : Bool := params.any fun p => p.Dots

/-- The map `paramIndex` of `callClosure`, filled in parameter order (a later
formal of the same name overrides an earlier one). -/
def paramIndexFrom : List (Param F) → Nat → String → Option Nat
  | [], _, _ => none
  | p :: ps, i, name =>
    match paramIndexFrom ps (i + 1) name with
    | some j => some j
    | none => if !p.Dots && p.Name = name then some i else none

/-- Lookup `paramIndex[name]`. -/
def paramIndex (params : List (Param F)) (name : String) : Option Nat :=
  paramIndexFrom params 0 name

/-- The variables of the matching loops of `callClosure`: the table `binds`
(`none` is `set == false`), `paramPos` and `dotsArgs`. -/
structure MatchState where
  binds : List (Option Ptr)
  paramPos : Nat
  dotsArgs : List ArgValue
  deriving DecidableEq, Repr

/-- Loop 1 of `callClosure`, "positional matching for unnamed args". -/
def matchPositional (params : List (Param F)) : List ArgValue → MatchState → Res MatchState
  | [], s => .ok s
  | a :: rest, s =>
    if a.Name ≠ "" then matchPositional params rest s
    else
      let pos := skipDots params s.paramPos
      if pos < params.length then
        matchPositional params rest
          { binds := s.binds.set pos (some a.Val), paramPos := pos + 1, dotsArgs := s.dotsArgs }
      else if hasDots params then
        matchPositional params rest
          { binds := s.binds, paramPos := pos, dotsArgs := s.dotsArgs ++ [a] }
      else Res.errorf "unused argument (positional)"

/-- Loop 2 of `callClosure`, "named matching". -/
def matchNamed (params : List (Param F)) : List ArgValue → MatchState → Res MatchState
  | [], s => .ok s
  | a :: rest, s =>
    if a.Name = "" then matchNamed params rest s
    else
      match paramIndex params a.Name with
      | some idx =>
        if (s.binds.getD idx none).isSome then
          Res.errorf ("formal argument '" ++ a.Name ++ "' matched by multiple actual arguments")
        else matchNamed params rest { s with binds := s.binds.set idx (some a.Val) }
      | none =>
        if hasDots params then matchNamed params rest { s with dotsArgs := s.dotsArgs ++ [a] }
        else Res.errorf ("unused argument '" ++ a.Name ++ "'")

/-- The two matching loops of `callClosure`, in the order of the source. -/
def matchArgs (params : List (Param F)) (args : List ArgValue) : Res MatchState :=
  (matchPositional params args ⟨List.replicate params.length none, 0, []⟩).bind fun s =>
    matchNamed params args s

/-- `e.SetLocal(name, v)` as a computation. -/
def M.setLocal (e : Nat) (name : String) (v : Ptr) : M F Unit := fun st =>
  (.ok (), Env.SetLocal st e name v)

/-- `e.Assign(name, v)` as a computation. -/
def M.assign (e : Nat) (name : String) (v : Ptr) : M F Unit := fun st =>
  (.ok (), Env.Assign st e name v)

/-- `e.Get(name)` as a computation. -/
def M.get (e : Nat) (name : String) : M F (Option Ptr) := fun st => (Env.Get st e name, st)

/-- Loop 3 of `callClosure`, "bind parameters into callEnv". -/
def bindParams (callEnv : Nat) : List (Param F) → List (Option Ptr) → M F Unit
  | [], _ => pure ()
  | p :: ps, bs =>
    if p.Dots then bindParams callEnv ps bs.tail
    else
      match bs.head?.join with
      | some v => (M.setLocal callEnv p.Name v).bind fun _ => bindParams callEnv ps bs.tail
      | none =>
        match p.Default with
        | some d =>
          (M.alloc (.Promise d callEnv false .nil none)).bind fun pr =>
            (M.setLocal callEnv p.Name pr).bind fun _ => bindParams callEnv ps bs.tail
        | none =>
          (M.setLocal callEnv p.Name .MissingValue).bind fun _ => bindParams callEnv ps bs.tail

/-- The end of `callClosure`: a return signal from the body is the value of the
call, a break or next signal is an error. -/
def closureResult (r : Res Ptr × Store F) : Res Ptr × Store F :=
  match r with
  | (.error (.control .ctrlReturn v), st) => (.ok v, st)
  | (.error (.control .ctrlBreak _), st) => (.error (.msg "break used outside of a loop"), st)
  | (.error (.control .ctrlNext _), st) => (.error (.msg "next used outside of a loop"), st)
  | r => r

/-- `callClosure(ctx, fn, args)` for the closure with formals `params`, body
`body` and captured environment `fenv`. -/
def callClosure (ev : Evaluator F) (params : List (Param F)) (body : Expr F) (fenv : Nat)
    (args : List ArgValue) : M F Ptr := fun st =>
  let r := st.newEnv (some fenv)
  let callEnv := r.1
  match matchArgs params args with
  | .ok s =>
    match bindParams callEnv params s.binds r.2 with
    | (.ok _, st1) =>
      if hasDots params then
        let d := st1.alloc (.Dots s.dotsArgs)
        closureResult (ev callEnv body (Env.SetLocal d.2 callEnv "..." d.1))
      else closureResult (ev callEnv body st1)
    | (.error e, st1) => (.error e, st1)
    | (.panic w, st1) => (.panic w, st1)
    | (.outOfFuel, st1) => (.outOfFuel, st1)
  | .error e => (.error e, r.2)
  | .panic w => (.panic w, r.2)
  | .outOfFuel => (.outOfFuel, r.2)

/-- `callable.Call(ctx, caller, args)` after the type assertion to `Callable`:
`callClosure` for a closure, the implementation for a built-in. The fuel
bounds the nesting of calls made by built-ins. -/
def callValue (B : Builtins F) (ev : Evaluator F) : Nat → Ptr → List ArgValue → M F Ptr
  | 0, p, args => (M.derefOpt p).bind fun o =>
    match o with
    | some (.ClosureFunc ps body fenv) => callClosure ev ps body fenv args
    | some (.BuiltinFunc _) => M.lift .outOfFuel
    | _ => M.errorf "attempt to apply non-function"
  | k + 1, p, args => (M.derefOpt p).bind fun o =>
    match o with
    | some (.ClosureFunc ps body fenv) => callClosure ev ps body fenv args
    | some (.BuiltinFunc name) => B.impl name (Force ev) (callValue B ev k) args
    | _ => M.errorf "attempt to apply non-function"

/-- The argument loop of `evalCall`: each argument becomes a promise in the
caller's environment, and a bare `...` is replaced by the arguments held by the
caller's `...`. -/
def buildArgs (ev : Evaluator F) (env : Nat) : List (Arg F) → List ArgValue → M F (List ArgValue)
  | [], acc => pure acc
  | a :: rest, acc =>
    let plain : M F (List ArgValue) :=
      (M.alloc (.Promise a.Value env false .nil none)).bind fun pr =>
        buildArgs ev env rest (acc ++ [⟨a.Name, pr⟩])
    match a with
    | .mk "" (.Ident "...") =>
      (M.get env "...").bind fun r =>
        match r with
        | some dv =>
          (Force ev dv).bind fun dv => (M.derefOpt dv).bind fun o =>
            match o with
            | some (.Dots dargs) => buildArgs ev env rest (acc ++ dargs)
            | _ => plain
        | none => plain
    | _ => plain

/-- `evalCall(ctx, env, c)`. -/
def evalCall (B : Builtins F) (ev : Evaluator F) (fuel : Nat) (env : Nat) (fn : Expr F)
    (args : List (Arg F)) : M F Ptr :=
  let general : M F Ptr :=
    (ev env fn).bind fun fv => (Force ev fv).bind fun fv => (M.derefOpt fv).bind fun o =>
      match o with
      | some (.ClosureFunc _ _ _) | some (.BuiltinFunc _) =>
        (buildArgs ev env args []).bind fun avs => callValue B ev fuel fv avs
      | _ => M.errorf "attempt to apply non-function"
  match fn with
  | .Ident "quote" =>
    match args with
    | [a] => M.alloc (.ExprValue a.Value)
    | _ => M.errorf "quote() expects 1 argument"
  | .Ident "missing" =>
    match args with
    | [a] =>
      match a.Value with
      | .Ident name => fun st =>
        match Env.GetLocal st env name with
        | .ok none => M.alloc (LogicalScalar true) st
        | .ok (some v) =>
          if v = .MissingValue then M.alloc (LogicalScalar true) st
          else M.alloc (LogicalScalar false) st
        | .error e => (.error e, st)
        | .panic w => (.panic w, st)
        | .outOfFuel => (.outOfFuel, st)
      | _ => M.errorf "missing() expects a symbol"
    | _ => M.errorf "missing() expects 1 argument"
  | _ => general

/-! ### Assignment and the expression evaluator (eval.go: `evalAssign`, `Eval`) -/

/-- `evalAssign(ctx, env, a)`. -/
def evalAssign (ev : Evaluator F) (env : Nat) (op : TokenType) (left right : Expr F) : M F Ptr :=
  if op = .ASSIGN_RIGHT then
    (ev env left).bind fun val => (Force ev val).bind fun val =>
      match right with
      | .Ident name => (M.assign env name val).bind fun _ => pure val
      | _ => M.errorf "invalid right-assignment target"
  else
    (ev env right).bind fun val => (Force ev val).bind fun val =>
      match left with
      | .Ident name =>
        if op = .ASSIGN_SUPER then fun st =>
          match Env.AssignSuper st env name val with
          | .ok st' => (.ok val, st')
          | .error e => (.error e, st)
          | .panic w => (.panic w, st)
          | .outOfFuel => (.outOfFuel, st)
        else (M.assign env name val).bind fun _ => pure val
      | .IndexExpr (.Ident xname) index dbl =>
        (M.get env xname).bind fun r =>
          match r with
          | none => M.errorf ("object '" ++ xname ++ "' not found")
          | some cur =>
            (Force ev cur).bind fun cur => (ev env index).bind fun idxV =>
            (Force ev idxV).bind fun idxV => (setSubset ev cur idxV val dbl).bind fun updated =>
            (M.assign env xname updated).bind fun _ => pure val
      | .DollarExpr (.Ident xname) name =>
        (M.get env xname).bind fun r =>
          match r with
          | none => M.errorf ("object '" ++ xname ++ "' not found")
          | some cur =>
            (Force ev cur).bind fun cur => (setDollar ev cur name val).bind fun updated =>
            (M.assign env xname updated).bind fun _ => pure val
      | _ => M.errorf "invalid assignment target"

/-- Evaluate, force and read an operand of `&&` or `||` as a scalar logical:
`Eval`, `Force`, `asLogicalScalar`. -/
def evalScalarLogical (ev : Evaluator F) (env : Nat) (e : Expr F) : M F (Bool × Bool) :=
  (ev env e).bind fun v => (Force ev v).bind fun v => asLogicalScalarM ev v

/-- The branch of `Eval` for `&&` and `||`. -/
def evalShortCircuit (ev : Evaluator F) (env : Nat) (op : TokenType) (left right : Expr F) :
    M F Ptr :=
  (evalScalarLogical ev env left).bind fun l =>
    if op = .ANDAND then
      if l.2 then
        (evalScalarLogical ev env right).bind fun r =>
          if !r.2 && r.1 == false then M.alloc (LogicalScalar false) else M.alloc LogicalNA
      else if !l.1 then M.alloc (LogicalScalar false)
      else
        (evalScalarLogical ev env right).bind fun r =>
          if r.2 then M.alloc LogicalNA else M.alloc (LogicalScalar r.1)
    else
      if l.2 then
        (evalScalarLogical ev env right).bind fun r =>
          if !r.2 && r.1 == true then M.alloc (LogicalScalar true) else M.alloc LogicalNA
      else if l.1 then M.alloc (LogicalScalar true)
      else
        (evalScalarLogical ev env right).bind fun r =>
          if r.2 then M.alloc LogicalNA else M.alloc (LogicalScalar r.1)

/-- The condition of `if` and `while`: a scalar logical, NA is an error. -/
def evalCondition (ev : Evaluator F) (env : Nat) (cond : Expr F) : M F Bool :=
  (evalScalarLogical ev env cond).bind fun c =>
    if c.2 then M.errorf "missing value where TRUE/FALSE needed" else pure c.1

/-- The loop of a block: the value of the last expression. -/
def evalBlock (ev : Evaluator F) (env : Nat) : List (Expr F) → Ptr → M F Ptr
  | [], last => pure last
  | e :: rest, _ => (ev env e).bind fun v => evalBlock ev env rest v

/-- The loop of `for`, over the indices that remain. -/
def forLoop (ev : Evaluator F) (env : Nat) (var : String) (seqV : Ptr) (body : Expr F) :
    List Nat → Ptr → M F Ptr
  | [], last => pure last
  | i :: rest, last =>
    (vectorElementM ev seqV i).bind fun elem => (M.assign env var elem).bind fun _ => fun st =>
      match ev env body st with
      | (.ok v, st') => forLoop ev env var seqV body rest v st'
      | (.error (.control .ctrlNext _), st') => forLoop ev env var seqV body rest last st'
      | (.error (.control .ctrlBreak _), st') => (.ok last, st')
      | r => r

/-- The loop of `while`; the fuel bounds the number of iterations. -/
def whileLoop (ev : Evaluator F) (env : Nat) (cond body : Expr F) : Nat → Ptr → M F Ptr
  | 0, _ => M.lift .outOfFuel
  | k + 1, last =>
    (evalCondition ev env cond).bind fun b =>
      if !b then pure last
      else fun st =>
        match ev env body st with
        | (.ok v, st') => whileLoop ev env cond body k v st'
        | (.error (.control .ctrlNext _), st') => whileLoop ev env cond body k last st'
        | (.error (.control .ctrlBreak _), st') => (.ok last, st')
        | r => r

/-- The loop of `repeat`; the fuel bounds the number of iterations. -/
def repeatLoop (ev : Evaluator F) (env : Nat) (body : Expr F) : Nat → Ptr → M F Ptr
  | 0, _ => M.lift .outOfFuel
  | k + 1, last => fun st =>
    match ev env body st with
    | (.ok v, st') => repeatLoop ev env body k v st'
    | (.error (.control .ctrlNext _), st') => repeatLoop ev env body k last st'
    | (.error (.control .ctrlBreak _), st') => (.ok last, st')
    | r => r

/-- `Eval(ctx, env, expr)`. The fuel bounds the nesting of evaluations, the
iterations of `while` and `repeat`, and the calls nested in built-ins. -/
def Eval (B : Builtins F) : Nat → Evaluator F
  | 0, _, _ => M.lift .outOfFuel
  | n + 1, env, expr =>
    let ev : Evaluator F := Eval B n
    match expr with
    | .Nil => M.errorf "unhandled AST node <nil>"
    | .Ident name =>
      (M.get env name).bind fun r =>
        match r with
        | some v => pure v
        | none => M.errorf ("object '" ++ name ++ "' not found")
    | .NumberLit _ value isInt =>
      if isInt then M.alloc (IntScalar (Float64.toInt value)) else M.alloc (DoubleScalar value)
    | .StringLit value => M.alloc (CharScalar value)
    | .BoolLit value => M.alloc (LogicalScalar value)
    | .NullLit => pure .NullValue
    | .NALit => M.alloc LogicalNA
    | .UnaryExpr op x =>
      (ev env x).bind fun x => (Force ev x).bind fun x =>
        match op with
        | .BANG => unaryNot ev x
        | .PLUS => unaryPlus ev x
        | .MINUS => unaryMinus ev x
        | _ => M.errorf ("unsupported unary op " ++ op.text)
    | .BinaryExpr op left right =>
      if op = .ANDAND ∨ op = .OROR then evalShortCircuit ev env op left right
      else
        (ev env left).bind fun l => (ev env right).bind fun r =>
        (Force ev l).bind fun l => (Force ev r).bind fun r => evalBinaryM ev op l r
    | .AssignExpr op left right => evalAssign ev env op left right
    | .BlockExpr exprs => evalBlock ev env exprs .NullValue
    | .IfExpr cond thenE elseE =>
      (evalCondition ev env cond).bind fun b =>
        if b then ev env thenE
        else
          match elseE with
          | some e => ev env e
          | none => pure .NullValue
    | .ForExpr var seq body =>
      (ev env seq).bind fun seqV => (Force ev seqV).bind fun seqV =>
      (M.deref seqV).bind fun o => forLoop ev env var seqV body (List.range o.Len) .NullValue
    | .WhileExpr cond body => whileLoop ev env cond body n .NullValue
    | .RepeatExpr body => repeatLoop ev env body n .NullValue
    | .BreakExpr => M.lift (.error (.control .ctrlBreak .nil))
    | .NextExpr => M.lift (.error (.control .ctrlNext .nil))
    | .ReturnExpr x =>
      match x with
      | some e =>
        (ev env e).bind fun v => (Force ev v).bind fun v =>
          M.lift (.error (.control .ctrlReturn v))
      | none => M.lift (.error (.control .ctrlReturn .NullValue))
    | .FuncExpr params body => M.alloc (.ClosureFunc params body env)
    | .CallExpr fn args => evalCall B ev n env fn args
    | .IndexExpr x index dbl =>
      (ev env x).bind fun x => (Force ev x).bind fun x =>
      (ev env index).bind fun idx => (Force ev idx).bind fun idx => subsetM ev x idx dbl
    | .DollarExpr x name =>
      (ev env x).bind fun x => (Force ev x).bind fun x => dollarM ev x name

/-! ### Notions used to state the claims on environments -/

/-- The parent of frame `e`, if it has one. -/
def Env.parentOf (envs : List Env) (e : Nat) : Option Nat :=
  (envs.get? e).bind fun fr => fr.parent

/-- The frame reached from `e` by `k` parent steps. -/
def Env.ancestor (envs : List Env) : Nat → Nat → Option Nat
  | 0, e => some e
  | k + 1, e => (Env.parentOf envs e).bind fun p => Env.ancestor envs k p

/-- Frame `i` has a local binding of `name`. -/
def Env.bindsName (envs : List Env) (i : Nat) (name : String) : Prop :=
  ∃ fr, envs.get? i = some fr ∧ (mapGet fr.vars name).isSome = true

/-- Parent pointers refer to frames created earlier: `NewEnv` gives a new frame
an existing parent, and no frame's parent is ever reassigned, so the chains
have no cycle. -/
def Env.WellFormed (envs : List Env) : Prop :=
  ∀ i fr p, envs.get? i = some fr → fr.parent = some p → p < i

/-- A vector object: an atomic vector or a list. -/
def Obj.isVector (o : Obj F) : Bool :=
  match o with
  | .LogicalVec _ _ => true
  | .IntVec _ _ => true
  | .DoubleVec _ _ => true
  | .CharVec _ _ => true
  | .ListVec _ _ => true
  | _ => false

/-- The empty built-in library: calling a built-in is an error. -/
def noBuiltins : Builtins F := ⟨fun _ _ _ _ => M.errorf "could not find function"⟩

/-! ### Notions used to state the claims on argument matching -/

/-- The unnamed actuals of a call, in call order. -/
def unnamedArgs (args : List ArgValue) : List ArgValue := args.filter fun a => a.Name = ""

/-- The positions of the formals that are not `...`, in order, counted from
`i` for the first formal of the list. -/
def nonDotsFrom : List (Param F) → Nat → List Nat
  | [], _ => []
  | p :: ps, i => if p.Dots then nonDotsFrom ps (i + 1) else i :: nonDotsFrom ps (i + 1)

/-- The positions of the formals that are not `...`. -/
def nonDots (params : List (Param F)) : List Nat := nonDotsFrom params 0

/-- The named actuals that match no formal by name, in call order. -/
def unmatchedNamed (params : List (Param F)) (args : List ArgValue) : List ArgValue :=
  args.filter fun a => a.Name ≠ "" ∧ paramIndex params a.Name = none

/-- Fill the table `binds` at the paired positions, in order. -/
def fillBinds (binds : List (Option Ptr)) (pairs : List (Nat × ArgValue)) : List (Option Ptr) :=
  pairs.foldl (fun b ia => b.set ia.1 (some ia.2.Val)) binds

/-! ### Notions used to state the claims on indexing -/

/-- The integer entries of a numeric index vector, as `normalizeIndex` reads
them: those of an integer vector, and those of a double vector converted with
`int64(...)`. -/
def indexInts : Obj F → Option (List IntElem)
  | .IntVec d _ => some d
  | .DoubleVec d _ =>
    some (d.map fun e => if e.NA then IntElem.na else ⟨Float64.toInt e.Val, false⟩)
  | _ => none

/-- The index `j` of the last entry of `pos` that is the position `q`, if there
is one. -/
def lastWrite : List Int → Nat → Option Nat
  | [], _ => none
  | p :: ps, q =>
    match lastWrite ps q with
    | some j => some (j + 1)
    | none => if p.toNat = q then some 0 else none

/-- One more than the largest position of `pos`; zero for no position. -/
def maxEnd (pos : List Int) : Nat := (pos.map fun p => p.toNat + 1).foldr max 0

/-- The zero-based positions a normalised index selects: its entries that are
not masked as NA. -/
def selectedPositions (r : List Int × List Bool) : List Int :=
  ((r.1.zip r.2).filter fun pm => !pm.2).map fun pm => pm.1

/-- The right-hand side of an indexed assignment coerced to the type of the
atomic vector `x`, as `setSubset` does with `asDoubleVec`, `coerceToIntVec`,
`asLogicalVec` and `asCharVec`. -/
def coerceLike (x v : Obj F) : Res (Obj F) :=
  match x with
  | .DoubleVec _ _ => (asDoubleVec v).bind fun d => .ok (.DoubleVec d [])
  | .IntVec _ _ => (coerceToIntVec v).bind fun d => .ok (.IntVec d [])
  | .LogicalVec _ _ => (asLogicalVec v).bind fun d => .ok (.LogicalVec d [])
  | .CharVec _ _ => (asCharVec v).bind fun d => .ok (.CharVec d [])
  | o => Res.errorf ("[<- not implemented for " ++ o.Type)

/-- The names of a list as `$` reads them: the data of the `names` attribute
when that is a character vector of the length of the list; no names
otherwise. -/
def Store.listNames (st : Store F) (d : List Ptr) (a : Attrs) : List StringElem :=
  match mapGet a "names" with
  | some nm =>
    match st.deref nm with
    | some (.CharVec cn _) => if cn.length = d.length then cn else []
    | _ => []
  | none => []

/-- `name` is one of the names of the list. -/
def Store.hasName (st : Store F) (d : List Ptr) (a : Attrs) (name : String) : Prop :=
  ∃ e, e ∈ st.listNames d a ∧ e.NA = false ∧ e.Val = name

/-- A store for examples: a global frame and one unforced promise of the
expression `x <- 1L` in it. -/
def promiseStore : Store Whole :=
  ⟨[.Promise (.AssignExpr .ASSIGN_LEFT (.Ident "x") (.NumberLit "1" ⟨1⟩ true)) 0 false .nil none],
    [⟨none, []⟩], "", Arrays.initial⟩

/-- The store `promiseStore` after its promise was forced: the promise holds
its value, and `x` is bound. -/
def promiseStoreForced : Store Whole :=
  ⟨[.Promise (.AssignExpr .ASSIGN_LEFT (.Ident "x") (.NumberLit "1" ⟨1⟩ true)) 0 true (.addr 1)
      none, IntScalar 1], [⟨none, [("x", .addr 1)]⟩], "", Arrays.initial⟩

/-! ### Notions used to state the claim on promises -/

/-- A promise whose `forced` flag is set. -/
def Obj.isForced : Obj F → Bool
  | .Promise _ _ forced _ _ => forced
  | _ => false

/-- Every promise that is forced in the store `st` is the same object in the
store `st'`. -/
def Store.KeepsForced (st st' : Store F) : Prop :=
  ∀ a o, st.objs.get? a = some o → o.isForced = true → st'.objs.get? a = some o

/-- The computation changes no promise that is forced when it starts. -/
def M.KeepsForced {α : Type} (m : M F α) : Prop :=
  ∀ st : Store F, st.KeepsForced (m st).2

/-- The built-ins reach promises only through the `Force` and `Call` they are
given: a built-in changes no forced promise if these do not. -/
def Builtins.KeepsForced (B : Builtins F) : Prop :=
  ∀ name force call args, (∀ p, (force p).KeepsForced) → (∀ p as, (call p as).KeepsForced) →
    (B.impl name force call args).KeepsForced

/-- What `Promise.Force` returns for a forced promise, `p.val, p.err`. -/
def memoised (val : Ptr) (err : Option Err) : Res Ptr :=
  match err with
  | some er => .error er
  | none => .ok val

/-- Something the program does after a promise was forced: it evaluates an
expression in an environment, or forces a value. -/
inductive Step (F : Type) where
  | eval (fuel env : Nat) (e : Expr F)
  | force (fuel : Nat) (v : Ptr)

/-- The store after a step. -/
def Step.run (B : Builtins F) : Step F → Store F → Store F
  | .eval k env e, st => (Eval B k env e st).2
  | .force k v, st => (Force (Eval B k) v st).2

/-- The store after a sequence of steps. -/
def runSteps (B : Builtins F) (steps : List (Step F)) (st : Store F) : Store F :=
  steps.foldl (fun s step => step.run B s) st

end Stateful

/-! ## Lexer (internal/lexer) -/

/-- A token (`token.Token`) without its position; `Typ` is the field `Type`. -/
structure Token where
  Typ : TokenType
  Lit : String
  deriving DecidableEq, Repr

/-- Functions of the Go library that the repository calls and that are kept
abstract here: `unicode.IsLetter`, and the quoting of `fmt.Sprintf("%q", s)`. -/
structure GoLib where
  isLetter : Char → Bool
  quote : String → String

/-- The library on ASCII: the letters `a`-`z` and `A`-`Z`, and quoting that
only adds the quotes, which is what Go does on a string of letters, digits
and spaces. -/
def asciiLib : GoLib := ⟨Char.isAlpha, fun s => "\"" ++ s ++ "\""⟩

/-- The state of a `Lexer`: the input from `pos` on, and the two depths. -/
structure Lexer where
  src : List Char
  parenDepth : Nat
  brackDepth : Nat
  deriving DecidableEq, Repr

/-- `lexer.New(src)`. -/
def Lexer.New (src : String) : Lexer := ⟨src.toList, 0, 0⟩

/-- `isDigit`. -/
def isDigit (r : Char) : Bool := decide ('0' ≤ r) && decide (r ≤ '9')

/-- `isIdentStart`. -/
def isIdentStart (L : GoLib) (r : Char) : Bool := r = '.' || r = '_' || L.isLetter r

/-- `isIdentPart`. -/
def isIdentPart (L : GoLib) (r : Char) : Bool := r = '.' || r = '_' || L.isLetter r

/-- `token.LookupIdent`. -/
def LookupIdent (ident : String) : TokenType :=
  if ident = "if" then .IF
  else if ident = "else" then .ELSE
  else if ident = "for" then .FOR
  else if ident = "in" then .IN
  else if ident = "while" then .WHILE
  else if ident = "repeat" then .REPEAT
  else if ident = "break" then .BREAK
  else if ident = "next" then .NEXT
  else if ident = "function" then .FUNCTION
  else if ident = "return" then .RETURN
  else if ident = "TRUE" then .TRUE
  else if ident = "FALSE" then .FALSE
  else if ident = "NULL" then .NULL
  else if ident = "NA" then .NA
  else .IDENT

/-- `skipWhitespaceAndComments` on the input that is left; `none` when the
fuel for the loop runs out. -/
def skipWhitespaceAndComments : Nat → List Char → Option (List Char)
  | 0, _ => none
  | _ + 1, [] => some []
  | k + 1, ch :: rest =>
    if ch = ' ' ∨ ch = Char.ofNat 9 ∨ ch = Char.ofNat 13 then skipWhitespaceAndComments k rest
    else if ch = '#' then
      skipWhitespaceAndComments k (rest.dropWhile fun c => c ≠ Char.ofNat 10)
    else some (ch :: rest)

/-- The loop of `readString` after the opening quote: the characters read so
far, and the token with the input left after it. -/
def readStringLoop (quote : Char) : List Char → List Char → Token × List Char
  | [], _ => (⟨.ILLEGAL, "unterminated string"⟩, [])
  | ch :: rest, out =>
    if ch = quote then (⟨.STRING, String.mk out⟩, rest)
    else if ch = Char.ofNat 92 then
      match rest with
      | [] => (⟨.ILLEGAL, "unterminated escape"⟩, [])
      | esc :: rest2 =>
        let c : Char :=
          if esc = 'n' then Char.ofNat 10
          else if esc = 't' then Char.ofNat 9
          else if esc = 'r' then Char.ofNat 13
          else esc
        readStringLoop quote rest2 (out ++ [c])
    else readStringLoop quote rest (out ++ [ch])

/-- The loop of `readBacktickIdent` after the opening backtick. -/
def readBacktickLoop : List Char → List Char → Token × List Char
  | [], _ => (⟨.ILLEGAL, "unterminated backtick identifier"⟩, [])
  | ch :: rest, out =>
    if ch = Char.ofNat 96 then (⟨.IDENT, String.mk out⟩, rest)
    else readBacktickLoop rest (out ++ [ch])

/-- `readNumber`: the literal and the input left after it. -/
def readNumber (src : List Char) : Token × List Char :=
  let dot : List Char × List Char :=
    match src with
    | '.' :: r => (['.'], r)
    | r => ([], r)
  let d1 := dot.2.span isDigit
  let dec : List Char × List Char :=
    match d1.2 with
    | '.' :: r => ('.' :: (r.span isDigit).1, (r.span isDigit).2)
    | r => ([], r)
  let exp : List Char × List Char :=
    match dec.2 with
    | e :: r =>
      if e = 'e' ∨ e = 'E' then
        let sign : List Char × List Char :=
          match r with
          | s :: r2 => if s = '+' ∨ s = '-' then ([s], r2) else ([], r)
          | [] => ([], r)
        (e :: sign.1 ++ (sign.2.span isDigit).1, (sign.2.span isDigit).2)
      else ([], dec.2)
    | [] => ([], dec.2)
  (⟨.NUMBER, String.mk (dot.1 ++ d1.1 ++ dec.1 ++ exp.1)⟩, exp.2)

/-- `readIdent`. -/
def readIdent (L : GoLib) (src : List Char) : Token × List Char :=
  match src with
  | '.' :: '.' :: '.' :: rest => (⟨.IDENT, "..."⟩, rest)
  | first :: rest =>
    let part := rest.span fun ch => isIdentPart L ch || isDigit ch
    (⟨LookupIdent (String.mk (first :: part.1)), String.mk (first :: part.1)⟩, part.2)
  | [] => (⟨LookupIdent "", ""⟩, [])

/-- The `switch ch` of `Next` on operators, with the final "unknown" case:
`ch` is the character at `pos` and `rest` the input after it. -/
def lexOperator (ch : Char) (rest : List Char) : Token × List Char :=
  if ch = '<' then
    match rest with
    | '<' :: '-' :: r => (⟨.ASSIGN_SUPER, "<<-"⟩, r)
    | '<' :: r => (⟨.ILLEGAL, "<<"⟩, r)
    | '=' :: r => (⟨.LTE, "<="⟩, r)
    | '-' :: r => (⟨.ASSIGN_LEFT, "<-"⟩, r)
    | r => (⟨.LT, "<"⟩, r)
  else if ch = '-' then
    match rest with
    | '>' :: r => (⟨.ASSIGN_RIGHT, "->"⟩, r)
    | r => (⟨.MINUS, "-"⟩, r)
  else if ch = '=' then
    match rest with
    | '=' :: r => (⟨.EQ, "=="⟩, r)
    | r => (⟨.ASSIGN_EQ, "="⟩, r)
  else if ch = '!' then
    match rest with
    | '=' :: r => (⟨.NEQ, "!="⟩, r)
    | r => (⟨.BANG, "!"⟩, r)
  else if ch = '>' then
    match rest with
    | '=' :: r => (⟨.GTE, ">="⟩, r)
    | r => (⟨.GT, ">"⟩, r)
  else if ch = '+' then (⟨.PLUS, "+"⟩, rest)
  else if ch = '*' then (⟨.STAR, "*"⟩, rest)
  else if ch = '/' then (⟨.SLASH, "/"⟩, rest)
  else if ch = '^' then (⟨.CARET, "^"⟩, rest)
  else if ch = ':' then (⟨.COLON, ":"⟩, rest)
  else if ch = '&' then
    match rest with
    | '&' :: r => (⟨.ANDAND, "&&"⟩, r)
    | r => (⟨.AND, "&"⟩, r)
  else if ch = '|' then
    match rest with
    | '|' :: r => (⟨.OROR, "||"⟩, r)
    | '>' :: r => (⟨.PIPE, "|>"⟩, r)
    | r => (⟨.OR, "|"⟩, r)
  else if ch = '%' then
    match rest with
    | '%' :: r => (⟨.MOD, "%%"⟩, r)
    | '/' :: '%' :: r => (⟨.INTDIV, "%/%"⟩, r)
    | '/' :: 'i' :: 'n' :: '%' :: r => (⟨.INOP, "%in%"⟩, r)
    | '/' :: r => (⟨.ILLEGAL, "%"⟩, r)
    | 'i' :: 'n' :: '%' :: r => (⟨.INOP, "%in%"⟩, r)
    | r => (⟨.ILLEGAL, "%"⟩, r)
  else (⟨.ILLEGAL, String.mk [ch]⟩, rest)

/-- `Lexer.Next`; `none` when the fuel runs out. A newline inside parentheses
or brackets makes `Next` call itself. -/
def Lexer.Next (L : GoLib) : Nat → Lexer → Option (Token × Lexer)
  | 0, _ => none
  | k + 1, l =>
    match skipWhitespaceAndComments (l.src.length + 1) l.src with
    | none => none
    | some [] => some (⟨.EOF, ""⟩, { l with src := [] })
    | some (ch :: rest) =>
      if ch = Char.ofNat 10 then
        if l.parenDepth > 0 ∨ l.brackDepth > 0 then Lexer.Next L k { l with src := rest }
        else some (⟨.NL, "\n"⟩, { l with src := rest })
      else if ch = '(' then
        some (⟨.LPAREN, "("⟩, { l with src := rest, parenDepth := l.parenDepth + 1 })
      else if ch = ')' then
        some (⟨.RPAREN, ")"⟩, { l with src := rest, parenDepth := l.parenDepth - 1 })
      else if ch = '[' then
        match rest with
        | '[' :: r => some (⟨.LDBRACK, "[["⟩, { l with src := r, brackDepth := l.brackDepth + 1 })
        | r => some (⟨.LBRACK, "["⟩, { l with src := r, brackDepth := l.brackDepth + 1 })
      else if ch = ']' then
        match rest with
        | ']' :: r => some (⟨.RDBRACK, "]]"⟩, { l with src := r, brackDepth := l.brackDepth - 1 })
        | r => some (⟨.RBRACK, "]"⟩, { l with src := r, brackDepth := l.brackDepth - 1 })
      else if ch = Char.ofNat 123 then some (⟨.LBRACE, "\x7b"⟩, { l with src := rest })
      else if ch = Char.ofNat 125 then some (⟨.RBRACE, "\x7d"⟩, { l with src := rest })
      else if ch = ',' then some (⟨.COMMA, ","⟩, { l with src := rest })
      else if ch = ';' then some (⟨.SEMI, ";"⟩, { l with src := rest })
      else if ch = '$' then some (⟨.DOLLAR, "$"⟩, { l with src := rest })
      else if ch = Char.ofNat 34 ∨ ch = Char.ofNat 39 then
        let r := readStringLoop ch rest []
        some (r.1, { l with src := r.2 })
      else if ch = Char.ofNat 96 then
        let r := readBacktickLoop rest []
        some (r.1, { l with src := r.2 })
      else if isDigit ch || (ch = '.' && (rest.head?.map isDigit).getD false) then
        let r := readNumber (ch :: rest)
        some (r.1, { l with src := r.2 })
      else if isIdentStart L ch then
        let r := readIdent L (ch :: rest)
        some (r.1, { l with src := r.2 })
      else
        let r := lexOperator ch rest
        some (r.1, { l with src := r.2 })

/-- The tokens that successive calls of `Next` deliver, up to the first `EOF`
(which is delivered again by every later call). -/
def Lexer.stream (L : GoLib) : Nat → Lexer → Option (List Token)
  | 0, _ => none
  | k + 1, l =>
    match Lexer.Next L (l.src.length + 1) l with
    | none => none
    | some (tok, l2) =>
      if tok.Typ = .EOF then some [tok]
      else (Lexer.stream L k l2).map fun rest => tok :: rest

/-- All tokens of a source text. -/
def Lexer.tokens (L : GoLib) (src : String) : Option (List Token) :=
  Lexer.stream L (src.length + 1) (Lexer.New src)

/-! ## Parser (internal/parser) -/

/-- The state of a `Parser`: the tokens its lexer will still deliver (the lexer
does not depend on the parser, so they are computed ahead; after them every
`Next` is `EOF`), the current and the next token, and the recorded errors
(without the position that the source puts in front of each message). -/
structure Parser where
  l : List Token
  cur : Token
  peek : Token
  errors : List String
  deriving DecidableEq, Repr

/-- What `Lexer.Next` delivers once the input is used up. -/
def eofToken : Token := ⟨.EOF, ""⟩

/-- `parser.New`, on the tokens of the source. -/
def Parser.New (toks : List Token) : Parser :=
  ⟨toks.drop 2, toks.headD eofToken, (toks.drop 1).headD eofToken, []⟩

/-- `next`. -/
def Parser.next (p : Parser) : Parser :=
  { p with cur := p.peek, peek := p.l.headD eofToken, l := p.l.tail }

/-- `curIs`. -/
def Parser.curIs (p : Parser) (t : TokenType) : Bool := p.cur.Typ = t

/-- `peekIs`. -/
def Parser.peekIs (p : Parser) (t : TokenType) : Bool := p.peek.Typ = t

/-- `errorf`: the message is appended to the recorded errors. -/
def Parser.errorf (p : Parser) (msg : String) : Parser := { p with errors := p.errors ++ [msg] }

/-- A loop that calls `next` while a condition on the parser holds; it ends at
the latest when the tokens are used up, since `EOF` satisfies none of the
conditions used. -/
def Parser.nextWhile (c : Parser → Bool) : Nat → Parser → Parser
  | 0, p => p
  | k + 1, p => if c p then Parser.nextWhile c k p.next else p

/-- `skipSeparatorsCur`. -/
def Parser.skipSeparatorsCur (p : Parser) : Parser :=
  Parser.nextWhile (fun p => p.cur.Typ = .NL || p.cur.Typ = .SEMI) (p.l.length + 2) p

/-- `skipSeparatorsPeek`. -/
def Parser.skipSeparatorsPeek (p : Parser) : Parser :=
  Parser.nextWhile (fun p => p.peek.Typ = .NL || p.peek.Typ = .SEMI) (p.l.length + 2) p

/-- `expectPeek`. -/
def Parser.expectPeek (p : Parser) (t : TokenType) : Bool × Parser :=
  let p := p.skipSeparatorsPeek
  if p.peekIs t then (true, p.next)
  else (false, p.errorf ("expected next token " ++ t.text ++ ", got " ++ p.peek.Typ.text))

/-- The precedence levels `precLowest` ... `precCall`. -/
def precLowest : Nat := 0
def precAssign : Nat := 1
def precPipe : Nat := 2
def precOrOr : Nat := 3
def precAndAnd : Nat := 4
def precOr : Nat := 5
def precAnd : Nat := 6
def precCompare : Nat := 7
def precAdd : Nat := 8
def precMul : Nat := 9
def precColon : Nat := 10
def precCaret : Nat := 11
def precUnary : Nat := 12
def precCall : Nat := 13

/-- `precedence`. -/
def precedence (t : TokenType) : Nat :=
  match t with
  | .ASSIGN_LEFT | .ASSIGN_EQ | .ASSIGN_SUPER | .ASSIGN_RIGHT => precAssign
  | .PIPE => precPipe
  | .OROR => precOrOr
  | .ANDAND => precAndAnd
  | .OR => precOr
  | .AND => precAnd
  | .LT | .LTE | .GT | .GTE | .EQ | .NEQ => precCompare
  | .PLUS | .MINUS => precAdd
  | .STAR | .SLASH | .MOD | .INTDIV | .INOP => precMul
  | .COLON => precColon
  | .CARET => precCaret
  | .LPAREN | .LBRACK | .LDBRACK | .DOLLAR => precCall
  | _ => precLowest

/-- `peekPrecedence`. -/
def Parser.peekPrecedence (p : Parser) : Nat := precedence p.peek.Typ

/-- `curPrecedence`. -/
def Parser.curPrecedence (p : Parser) : Nat := precedence p.cur.Typ

section ParserDefs

variable {F : Type} [Float64 F]

/-- The test `e == nil` on an `ast.Expr`. -/
def Expr.isNil : Expr F → Bool
  | .Nil => true
  | _ => false

/-- A field of type `ast.Expr` that may be nil, as an option. -/
def Expr.toOption (e : Expr F) : Option (Expr F) := if e.isNil then none else some e

/-- What a parsing method gives back: the expression (possibly nil) and the
parser after it; `none` when the fuel runs out. -/
abbrev Parsed (F : Type) : Type := Option (Expr F × Parser)

/-- `parseExpression` as seen by the methods it calls. -/
abbrev ExprParser (F : Type) : Type := Nat → Parser → Parsed F

/-- `parseNumber`. -/
def parseNumber (p : Parser) : Expr F × Parser :=
  let txt := p.cur.Lit
  let isInt := !(txt.toList.any fun c => c = '.' || c = 'e' || c = 'E')
  match (Float64.parse txt : Option F) with
  | some v => (.NumberLit txt v isInt, p)
  | none => (.NumberLit txt (Float64.ofInt 0) isInt, p.errorf ("invalid number: " ++ txt))

/-- `parseGrouped`. -/
def parseGrouped (pe : ExprParser F) (p : Parser) : Parsed F :=
  match pe precLowest p.next.skipSeparatorsCur with
  | none => none
  | some (exp, p) => some (exp, (p.expectPeek .RPAREN).2)

/-- The loop "move to separator or end of block" of `parseBlock`. -/
def Parser.toBlockSeparator (p : Parser) : Parser :=
  Parser.nextWhile (fun p => p.cur.Typ ≠ .EOF && p.cur.Typ ≠ .RBRACE && p.cur.Typ ≠ .NL &&
    p.cur.Typ ≠ .SEMI) (p.l.length + 2) p

/-- The loop "advance to next statement separator or EOF" of `ParseProgram`. -/
def Parser.toSeparator (p : Parser) : Parser :=
  Parser.nextWhile (fun p => p.cur.Typ ≠ .EOF && p.cur.Typ ≠ .NL && p.cur.Typ ≠ .SEMI)
    (p.l.length + 2) p

/-- The loop of `parseBlock`. -/
def parseBlockLoop (pe : ExprParser F) : Nat → List (Expr F) → Parser →
    Option (List (Expr F) × Parser)
  | 0, _, _ => none
  | k + 1, exprs, p =>
    if !p.curIs .RBRACE && !p.curIs .EOF then
      match pe precLowest p with
      | none => none
      | some (e, p) =>
        parseBlockLoop pe k (if e.isNil then exprs else exprs ++ [e])
          p.toBlockSeparator.skipSeparatorsCur
    else some (exprs, p)

/-- `parseBlock`. -/
def parseBlock (pe : ExprParser F) (n : Nat) (p : Parser) : Parsed F :=
  match parseBlockLoop pe n [] p.next.skipSeparatorsCur with
  | none => none
  | some (exprs, p) =>
    some (.BlockExpr exprs, if !p.curIs .RBRACE then p.errorf "expected \x7d" else p)

/-- `parseIf`. -/
def parseIf (pe : ExprParser F) (p : Parser) : Parsed F :=
  match p.expectPeek .LPAREN with
  | (false, p) => some (.Nil, p)
  | (true, p) =>
    match pe precLowest p.next.skipSeparatorsCur with
    | none => none
    | some (cond, p) =>
      match p.expectPeek .RPAREN with
      | (false, p) => some (.Nil, p)
      | (true, p) =>
        match pe precLowest p.next.skipSeparatorsCur with
        | none => none
        | some (thenExpr, p) =>
          let p := p.skipSeparatorsCur
          let p := if p.curIs .NL || p.curIs .SEMI then p.skipSeparatorsCur else p
          if p.curIs .ELSE || p.peekIs .ELSE then
            let p := if !p.curIs .ELSE then p.next else p
            match pe precLowest p.next.skipSeparatorsCur with
            | none => none
            | some (elseExpr, p) => some (.IfExpr cond thenExpr elseExpr.toOption, p)
          else some (.IfExpr cond thenExpr none, p)

/-- `parseFor`. -/
def parseFor (pe : ExprParser F) (p : Parser) : Parsed F :=
  match p.expectPeek .LPAREN with
  | (false, p) => some (.Nil, p)
  | (true, p) =>
    let p := p.next.skipSeparatorsCur
    if p.cur.Typ ≠ .IDENT then some (.Nil, p.errorf "expected identifier in for()")
    else
      let varName := p.cur.Lit
      match p.expectPeek .IN with
      | (false, p) => some (.Nil, p)
      | (true, p) =>
        match pe precLowest p.next.skipSeparatorsCur with
        | none => none
        | some (seq, p) =>
          match p.expectPeek .RPAREN with
          | (false, p) => some (.Nil, p)
          | (true, p) =>
            match pe precLowest p.next.skipSeparatorsCur with
            | none => none
            | some (body, p) => some (.ForExpr varName seq body, p)

/-- `parseWhile`. -/
def parseWhile (pe : ExprParser F) (p : Parser) : Parsed F :=
  match p.expectPeek .LPAREN with
  | (false, p) => some (.Nil, p)
  | (true, p) =>
    match pe precLowest p.next.skipSeparatorsCur with
    | none => none
    | some (cond, p) =>
      match p.expectPeek .RPAREN with
      | (false, p) => some (.Nil, p)
      | (true, p) =>
        match pe precLowest p.next.skipSeparatorsCur with
        | none => none
        | some (body, p) => some (.WhileExpr cond body, p)

/-- `parseRepeat`. -/
def parseRepeat (pe : ExprParser F) (p : Parser) : Parsed F :=
  match pe precLowest p.next.skipSeparatorsCur with
  | none => none
  | some (body, p) => some (.RepeatExpr body, p)

/-- `parseReturn`. -/
def parseReturn (pe : ExprParser F) (p : Parser) : Parsed F :=
  if p.peekIs .LPAREN then
    let p := p.next.next.skipSeparatorsCur
    if p.curIs .RPAREN then some (.ReturnExpr none, p)
    else
      match pe precLowest p with
      | none => none
      | some (x, p) => some (.ReturnExpr x.toOption, (p.expectPeek .RPAREN).2)
  else some (.ReturnExpr none, p)

/-- The loop of `parseFunction` over the parameter list; the flag tells
whether the loop ended by `return nil`. -/
def parseParamsLoop (pe : ExprParser F) : Nat → List (Param F) → Parser →
    Option (Bool × List (Param F) × Parser)
  | 0, _, _ => none
  | k + 1, params, p =>
    if !p.curIs .RPAREN && !p.curIs .EOF then
      let after (params : List (Param F)) (p : Parser) : Option (Bool × List (Param F) × Parser) :=
        if p.curIs .COMMA then parseParamsLoop pe k params p.next.skipSeparatorsCur
        else if p.curIs .RPAREN then some (true, params, p)
        else if p.peekIs .COMMA then parseParamsLoop pe k params p.next.next
        else parseParamsLoop pe k params p
      if p.cur.Typ = .IDENT ∧ p.cur.Lit = "..." then
        after (params ++ [.mk "..." none true]) p.next
      else if p.cur.Typ = .IDENT then
        let name := p.cur.Lit
        if p.peekIs .ASSIGN_EQ then
          match pe precLowest p.next.next.skipSeparatorsCur with
          | none => none
          | some (d, p) => after (params ++ [.mk name d.toOption false]) p.next
        else after (params ++ [.mk name none false]) p.next
      else if p.cur.Typ = .COMMA then parseParamsLoop pe k params p.next.skipSeparatorsCur
      else
        some (false, params,
          p.errorf ("unexpected token in parameter list: " ++ p.cur.Typ.text))
    else some (true, params, p)

/-- `parseFunction`. -/
def parseFunction (pe : ExprParser F) (n : Nat) (p : Parser) : Parsed F :=
  match p.expectPeek .LPAREN with
  | (false, p) => some (.Nil, p)
  | (true, p) =>
    match parseParamsLoop pe n [] p.next.skipSeparatorsCur with
    | none => none
    | some (false, _, p) => some (.Nil, p)
    | some (true, params, p) =>
      if !p.curIs .RPAREN then some (.Nil, p.errorf "expected ) to close parameter list")
      else
        match pe precLowest p.next.skipSeparatorsCur with
        | none => none
        | some (body, p) => some (.FuncExpr params body, p)

/-- The loop of `parseCall` over the arguments. -/
def parseArgsLoop (pe : ExprParser F) : Nat → List (Arg F) → Parser →
    Option (List (Arg F) × Parser)
  | 0, _, _ => none
  | k + 1, args, p =>
    if !p.curIs .RPAREN && !p.curIs .EOF then
      let p := p.skipSeparatorsCur
      if p.curIs .COMMA then parseArgsLoop pe k args p.next.skipSeparatorsCur
      else
        let arg : Option (Arg F × Parser) :=
          if p.cur.Typ = .IDENT ∧ p.peekIs .ASSIGN_EQ then
            (pe precLowest p.next.next.skipSeparatorsCur).map fun r => (.mk p.cur.Lit r.1, r.2)
          else (pe precLowest p).map fun r => (.mk "" r.1, r.2)
        match arg with
        | none => none
        | some (a, p) =>
          let args := args ++ [a]
          if p.peekIs .COMMA then parseArgsLoop pe k args p.next.next
          else if p.peekIs .RPAREN then some (args, p.next)
          else if p.peekIs .EOF then some (args, p)
          else
            parseArgsLoop pe k args
              (p.errorf ("expected ',' or ')', got " ++ p.peek.Typ.text)).next
    else some (args, p)

/-- `parseCall`. -/
def parseCall (pe : ExprParser F) (n : Nat) (fn : Expr F) (p : Parser) : Parsed F :=
  let p := p.next.skipSeparatorsCur
  if p.curIs .RPAREN then some (.CallExpr fn [], p)
  else
    match parseArgsLoop pe n [] p with
    | none => none
    | some (args, p) =>
      let p :=
        if !p.curIs .RPAREN then
          if p.peekIs .RPAREN then p.next else p.errorf "expected ) to close call"
        else p
      some (.CallExpr fn args, p)

/-- `parseIndex`. -/
def parseIndex (pe : ExprParser F) (x : Expr F) (dbl : Bool) (p : Parser) : Parsed F :=
  match pe precLowest p.next.skipSeparatorsCur with
  | none => none
  | some (idx, p) =>
    some (.IndexExpr x idx dbl, (p.expectPeek (if dbl then .RDBRACK else .RBRACK)).2)

/-- `parseDollar`. -/
def parseDollar (x : Expr F) (p : Parser) : Expr F × Parser :=
  let p := p.next.skipSeparatorsCur
  if p.cur.Typ ≠ .IDENT ∧ p.cur.Typ ≠ .STRING then
    (.DollarExpr x "", p.errorf "expected name after $")
  else (.DollarExpr x p.cur.Lit, p)

/-- The rewrite of the pipe in `parseInfix`: a call on the right takes `left`
as its first argument, anything else is called with `left`. -/
def pipeCall (left right : Expr F) : Expr F :=
  match right with
  | .CallExpr fn args => .CallExpr fn (.mk "" left :: args)
  | _ => .CallExpr right [.mk "" left]

/-- `parsePrefix`. -/
def parsePrefix (pe : ExprParser F) (n : Nat) (p : Parser) : Parsed F :=
  match p.cur.Typ with
  | .IDENT => some (.Ident p.cur.Lit, p)
  | .NUMBER => some (parseNumber p)
  | .STRING => some (.StringLit p.cur.Lit, p)
  | .TRUE => some (.BoolLit true, p)
  | .FALSE => some (.BoolLit false, p)
  | .NULL => some (.NullLit, p)
  | .NA => some (.NALit, p)
  | .LPAREN => parseGrouped pe p
  | .LBRACE => parseBlock pe n p
  | .IF => parseIf pe p
  | .FOR => parseFor pe p
  | .WHILE => parseWhile pe p
  | .REPEAT => parseRepeat pe p
  | .BREAK => some (.BreakExpr, p)
  | .NEXT => some (.NextExpr, p)
  | .RETURN => parseReturn pe p
  | .FUNCTION => parseFunction pe n p
  | .PLUS | .MINUS | .BANG =>
    match pe precUnary p.next.skipSeparatorsCur with
    | none => none
    | some (x, p2) => some (.UnaryExpr p.cur.Typ x, p2)
  | t => some (.Nil, p.errorf ("unexpected token: " ++ t.text))

/-- `parseInfix`. -/
def parseInfix (pe : ExprParser F) (n : Nat) (left : Expr F) (p : Parser) : Parsed F :=
  match p.cur.Typ with
  | .PLUS | .MINUS | .STAR | .SLASH | .CARET | .COLON | .MOD | .INTDIV | .INOP
  | .LT | .LTE | .GT | .GTE | .EQ | .NEQ | .AND | .ANDAND | .OR | .OROR =>
    let op := p.cur.Typ
    let prec := p.curPrecedence
    let rightPrec := if op = .CARET then prec - 1 else prec
    match pe rightPrec p.next.skipSeparatorsCur with
    | none => none
    | some (right, p) => some (.BinaryExpr op left right, p)
  | .PIPE =>
    match pe precPipe p.next.skipSeparatorsCur with
    | none => none
    | some (right, p) => some (pipeCall left right, p)
  | .ASSIGN_LEFT | .ASSIGN_EQ | .ASSIGN_SUPER | .ASSIGN_RIGHT =>
    let op := p.cur.Typ
    match pe (p.curPrecedence - 1) p.next.skipSeparatorsCur with
    | none => none
    | some (right, p) => some (.AssignExpr op left right, p)
  | .LPAREN => parseCall pe n left p
  | .LBRACK => parseIndex pe left false p
  | .LDBRACK => parseIndex pe left true p
  | .DOLLAR => some (parseDollar left p)
  | t => some (.Nil, p.errorf ("unexpected infix token: " ++ t.text))

/-- The loop of `parseExpression` over the infix operators that bind tighter
than `precedence`. -/
def infixLoop (pe : ExprParser F) (n : Nat) (precedence : Nat) :
    Nat → Expr F → Parser → Parsed F
  | 0, _, _ => none
  | k + 1, left, p =>
    if !p.peekIs .EOF && !p.peekIs .NL && !p.peekIs .SEMI && decide (precedence < p.peekPrecedence)
    then
      match parseInfix pe n left p.next with
      | none => none
      | some (left, p) => if left.isNil then some (.Nil, p) else infixLoop pe n precedence k left p
    else some (left, p)

/-- `parseExpression`; the fuel bounds the nesting of expressions and the
iterations of each loop. -/
def parseExpression : Nat → ExprParser F
  | 0, _, _ => none
  | n + 1, precedence, p =>
    match parsePrefix (parseExpression n) n p.skipSeparatorsCur with
    | none => none
    | some (left, p) =>
      if left.isNil then some (.Nil, p)
      else infixLoop (parseExpression n) n precedence n left p

/-- The loop of `ParseProgram`. -/
def parseProgramLoop (fuel : Nat) : Nat → List (Expr F) → Parser → Option (List (Expr F) × Parser)
  | 0, _, _ => none
  | k + 1, exprs, p =>
    if !p.curIs .EOF then
      match parseExpression fuel precLowest p with
      | none => none
      | some (e, p) =>
        parseProgramLoop fuel k (if e.isNil then exprs else exprs ++ [e])
          p.toSeparator.skipSeparatorsCur
    else some (exprs, p)

/-- `ParseProgram`: the program, and the first recorded error if there is
one; `none` when the fuel runs out. -/
def ParseProgram (fuel : Nat) (p : Parser) : Option (List (Expr F) × Option String) :=
  (parseProgramLoop fuel fuel [] p.skipSeparatorsCur).map fun r => (r.1, r.2.errors.head?)

end ParserDefs

/-! ## The context (rt/context.go) and the rendering of values (rt/value.go) -/

section ContextDefs

variable {F : Type} [Float64 F]

/-- `EvalResult`. -/
structure EvalResult where
  Value : Ptr
  Output : String
  deriving DecidableEq, Repr

/-- The loop of `EvalString` over the top-level expressions: the value of the
last expression evaluated, and the error that stopped the loop, if any. -/
def evalExprs (ev : Evaluator F) (env : Nat) : List (Expr F) → Ptr → M F (Ptr × Option Err)
  | [], last => pure (last, none)
  | e :: es, last => fun st =>
    match ev env e st with
    | (.ok v, st1) => evalExprs ev env es v st1
    | (.error er, st1) => (.ok (last, some er), st1)
    | (.panic w, st1) => (.panic w, st1)
    | (.outOfFuel, st1) => (.outOfFuel, st1)

/-- `ctx.EvalString(src)` for the context whose `Global` is the frame `global`
and whose `Output` is the `output` of the store: the pair `(EvalResult, error)`
that is returned. During the call `Output` is an empty buffer, and it is set
back on return (also when a panic unwinds the call). A parse error is returned
as its message, without the position. -/
def EvalString (B : Builtins F) (L : GoLib) (fuel : Nat) (global : Nat) (src : String) :
    M F (EvalResult × Option Err) := fun st =>
  match Lexer.tokens L src with
  | none => (.outOfFuel, st)
  | some toks =>
    match ParseProgram fuel (Parser.New toks) with
    | none => (.outOfFuel, st)
    | some (_, some err) => (.ok (⟨.nil, ""⟩, some (.msg err)), st)
    | some (prog, none) =>
      match evalExprs (Eval B fuel) global prog .NullValue { st with output := "" } with
      | (.ok (last, err), st1) => (.ok (⟨last, st1.output⟩, err), { st1 with output := st.output })
      | (.error er, st1) => (.error er, { st1 with output := st.output })
      | (.panic w, st1) => (.panic w, { st1 with output := st.output })
      | (.outOfFuel, st1) => (.outOfFuel, { st1 with output := st.output })

/-- `formatAtomic`, on the strings that `get` returns for the positions
`0 .. n-1`. -/
def formatAtomic (parts : List String) : String :=
  match parts with
  | [] => "c()"
  | [s] => s
  | _ => " ".intercalate parts

/-- The function `get` that `DoubleVec.String` passes to `formatAtomic`. -/
def formatDouble (e : FloatElem F) : String :=
  if e.NA then "NA"
  else if Float64.isNaN e.Val then "NaN"
  else if Float64.isInf e.Val 1 then "Inf"
  else if Float64.isInf e.Val (-1) then "-Inf"
  else Float64.format e.Val

/-- Method `String()` of the value behind a pointer (`Value.String`), with
`formatValueForPrint` for the elements of a list. `exprString` is the method
`String` of `ast.Expr`, which only the rendering of an `ExprValue` uses. The
fuel bounds the nesting of lists and forced promises; calling the method on a
nil `Value` panics. A closure renders as `<function>` since nothing in the
repository sets its `FnName`. -/
def valueString (L : GoLib) (exprString : Expr F → String) (st : Store F) : Nat → Ptr → Res String
  | 0, _ => .outOfFuel
  | k + 1, p =>
    match st.deref p with
    | none => .panic "invalid memory address or nil pointer dereference"
    | some .Null => .ok "NULL"
    | some .Missing => .ok "<missing>"
    | some (.LogicalVec d _) =>
      .ok (formatAtomic (d.map fun e => if e.NA then "NA" else if e.Val then "TRUE" else "FALSE"))
    | some (.IntVec d _) =>
      .ok (formatAtomic (d.map fun e => if e.NA then "NA" else formatInt e.Val))
    | some (.DoubleVec d _) => .ok (formatAtomic (d.map formatDouble))
    | some (.CharVec d _) =>
      .ok (formatAtomic (d.map fun e => if e.NA then "NA" else L.quote e.Val))
    | some (.ListVec d _) =>
      let parts : Res (List String) :=
        (List.range d.length).foldl (fun acc (i : Nat) =>
          acc.bind fun ps =>
            let e := d.getD i .nil
            let s : Res String :=
              if e = .nil then .ok "<nil>" else valueString L exprString st k e
            s.bind fun s => .ok (ps ++ ["[[" ++ toString (i + 1) ++ "]] " ++ s])) (.ok [])
      parts.bind fun ps =>
        if ps.isEmpty then .ok "list()"
        else .ok ("list(\n  " ++ ",\n  ".intercalate ps ++ "\n)")
    | some (.ExprValue e) =>
      if e.isNil then .ok "expression()" else .ok ("expression(" ++ exprString e ++ ")")
    | some (.Promise _ _ forced val _) =>
      if forced then valueString L exprString st k val else .ok "<promise>"
    | some (.Dots _) => .ok "<...>"
    | some (.BuiltinFunc fnName) => .ok ("<builtin:" ++ fnName ++ ">")
    | some (.ClosureFunc _ _ _) => .ok "<function>"

/-- A context right after its creation, before any built-in is installed: the
frame `Global` with no binding, no object, nothing written. -/
def emptyContext : Store F := ⟨[], [⟨none, []⟩], "", Arrays.initial⟩

end ContextDefs

/-! ### Notions used to state the claims on the parser -/

section ParserNotions

variable {F : Type} [Float64 F]

/-- The expression that `parsePrefix` returns at a token that is an operand by
itself (an identifier, a number that `strconv.ParseFloat` accepts, a string,
`TRUE`, `FALSE`, `NULL` or `NA`); `none` for the other tokens. -/
def atomExpr (t : Token) : Option (Expr F) :=
  match t.Typ with
  | .IDENT => some (.Ident t.Lit)
  | .NUMBER =>
    (Float64.parse t.Lit : Option F).map fun v =>
      .NumberLit t.Lit v (!(t.Lit.toList.any fun c => c = '.' || c = 'e' || c = 'E'))
  | .STRING => some (.StringLit t.Lit)
  | .TRUE => some (.BoolLit true)
  | .FALSE => some (.BoolLit false)
  | .NULL => some .NullLit
  | .NA => some .NALit
  | _ => none

/-- The four assignment operators. -/
def isAssignOperator (t : TokenType) : Bool :=
  t = .ASSIGN_LEFT || t = .ASSIGN_EQ || t = .ASSIGN_SUPER || t = .ASSIGN_RIGHT

/-- The operators of the first case of `parseInfix`, which builds a
`BinaryExpr`. -/
def isBinaryOperator (t : TokenType) : Bool :=
  t = .PLUS || t = .MINUS || t = .STAR || t = .SLASH || t = .CARET || t = .COLON ||
  t = .MOD || t = .INTDIV || t = .INOP || t = .LT || t = .LTE || t = .GT || t = .GTE ||
  t = .EQ || t = .NEQ || t = .AND || t = .ANDAND || t = .OR || t = .OROR

/-- The operators between two operands: binary operators, the pipe and the
assignments. -/
def isInfixOperator (t : TokenType) : Bool :=
  isBinaryOperator t || t = .PIPE || isAssignOperator t

/-- The level at which `parseInfix` parses the right operand of an operator:
`rightPrec` for a binary operator and for an assignment, `precPipe` for the
pipe. -/
def rightPrec (op : TokenType) : Nat :=
  if op = .CARET ∨ isAssignOperator op then precedence op - 1 else precedence op

/-- The node that `parseInfix` returns for an operator and its two operands. -/
def mkInfix (op : TokenType) (left right : Expr F) : Expr F :=
  if op = .PIPE then pipeCall left right
  else if isAssignOperator op then .AssignExpr op left right
  else .BinaryExpr op left right

/-- The condition of the loop of `parseExpression` on the next token. -/
def continuesAt (precedence : Nat) (p : Parser) : Bool :=
  !p.peekIs .EOF && !p.peekIs .NL && !p.peekIs .SEMI && decide (precedence < p.peekPrecedence)

/-- A token at which every expression ends: the end of input or a separator. -/
def endsExpression (t : Token) : Bool := t.Typ = .EOF || t.Typ = .NL || t.Typ = .SEMI

/-- Whether an expression is a call node. -/
def Expr.isCall : Expr F → Bool
  | .CallExpr _ _ => true
  | _ => false

end ParserNotions

/-- The precedence table as the specification lists it, low to high:
assignment, pipe, `||`, `&&`, `|`, `&`, comparison, additive, multiplicative,
`:`, `^`; `0` for a token that is none of these operators. -/
def specLevel (t : TokenType) : Nat :=
  match t with
  | .ASSIGN_LEFT | .ASSIGN_EQ | .ASSIGN_SUPER | .ASSIGN_RIGHT => 1
  | .PIPE => 2
  | .OROR => 3
  | .ANDAND => 4
  | .OR => 5
  | .AND => 6
  | .LT | .LTE | .GT | .GTE | .EQ | .NEQ => 7
  | .PLUS | .MINUS => 8
  | .STAR | .SLASH | .MOD | .INTDIV | .INOP => 9
  | .COLON => 10
  | .CARET => 11
  | _ => 0


/-! ## Built-ins (rt/builtins.go, rt/builtins_util.go) -/

section BuiltinDefs

variable {F : Type} [Float64 F]

/-- Method `Error()` of a Go `error`: the message, and for a `*ControlError`
the name of its kind. -/
def Err.Error : Err → String
  | .msg s => s
  | .control .ctrlBreak _ => "break"
  | .control .ctrlNext _ => "next"
  | .control .ctrlReturn _ => "return"
  | .control .ctrlNone _ => "control"

/-- `forceArgs(ctx, args)`, with `Force` as the built-in receives it. -/
def forceArgs (force : Ptr → M F Ptr) : List ArgValue → M F (List ArgValue)
  | [] => pure []
  | a :: rest =>
    (force a.Val).bind fun v => (forceArgs force rest).bind fun out => pure (⟨a.Name, v⟩ :: out)

/-- `getNamed(args, name)`: the value of the first argument of that name. -/
def getNamed (args : List ArgValue) (name : String) : Option Ptr :=
  (args.find? fun a => a.Name = name).map fun a => a.Val

/-- `builtinTryCatch(ctx, args)`. `call` is `Callable.Call` of the running
evaluator; the type assertion `handlerV.(Callable)` succeeds on closures and
built-ins. -/
def builtinTryCatch (force : Ptr → M F Ptr) (call : Ptr → List ArgValue → M F Ptr)
    (args : List ArgValue) : M F Ptr :=
  match args with
  | [] => M.errorf "tryCatch() expects at least 1 argument"
  | a :: _ => fun st =>
    match force a.Val st with
    | (.ok result, st1) => (.ok result, st1)
    | (.error err, st1) =>
      match getNamed args "error" with
      | some handler =>
        ((force handler).bind fun handlerV => (M.derefOpt handlerV).bind fun o =>
          match o with
          | some (.ClosureFunc _ _ _) | some (.BuiltinFunc _) =>
            (M.alloc (CharScalar err.Error)).bind fun errMsg => call handlerV [⟨"", errMsg⟩]
          | _ => M.errorf "tryCatch: error handler is not a function") st1
      | none => (.error err, st1)
    | (.panic w, st1) => (.panic w, st1)
    | (.outOfFuel, st1) => (.outOfFuel, st1)

/-- The first loop of `builtinC`, which determines the target type: the pair
`(target, hasList)` after the values that remain. -/
def cTarget : List (Obj F) → String × Bool → String × Bool
  | [], acc => acc
  | o :: rest, (target, hasList) =>
    cTarget rest
      (if o.Type = "list" then (target, true)
      else if o.Type = "character" then ("character", hasList)
      else if o.Type = "double" then
        (if target ≠ "character" then "double" else target, hasList)
      else if o.Type = "integer" then
        (if target ≠ "character" ∧ target ≠ "double" then "integer" else target, hasList)
      else if o.Type = "logical" then (target, hasList)
      else (target, true))

/-- The values behind the forced arguments, in order; the method call
`a.Val.Type()` on a nil value panics. -/
def derefArgs : List ArgValue → M F (List (Obj F))
  | [] => pure []
  | a :: rest => (M.deref a.Val).bind fun o => (derefArgs rest).bind fun os => pure (o :: os)

/-- The loop of the list branch of `builtinC`: the elements of a list
argument, and any other argument as it is. -/
def cListData : List ArgValue → List (Obj F) → List Ptr
  | a :: rest, o :: os =>
    match o with
    | .ListVec d _ => d ++ cListData rest os
    | _ => a.Val :: cListData rest os
  | _, _ => []

/-- A loop of the atomic branches of `builtinC`: the data of every argument
after the coercion `coerce` (one of `asCharVec`, `asDoubleVec`,
`coerceToIntVec`, `asLogicalVec`, each of which forces its argument first),
appended in order. -/
def cCollect {α : Type} (force : Ptr → M F Ptr) (coerce : Obj F → Res (List α)) :
    List ArgValue → List α → M F (List α)
  | [], out => pure out
  | a :: rest, out =>
    (force a.Val).bind fun v => (M.deref v).bind fun o => (M.lift (coerce o)).bind fun d =>
      cCollect force coerce rest (out ++ d)

/-- `builtinC(ctx, args)`. -/
def builtinC (force : Ptr → M F Ptr) (args : List ArgValue) : M F Ptr :=
  (forceArgs force args).bind fun fargs => (derefArgs fargs).bind fun os =>
    let t := cTarget os ("logical", false)
    if t.2 then M.alloc (.ListVec (cListData fargs os) [])
    else if t.1 = "character" then
      (cCollect force asCharVec fargs []).bind fun out => M.alloc (.CharVec out [])
    else if t.1 = "double" then
      (cCollect force asDoubleVec fargs []).bind fun out => M.alloc (.DoubleVec out [])
    else if t.1 = "integer" then
      (cCollect force coerceToIntVec fargs []).bind fun out => M.alloc (.IntVec out [])
    else (cCollect force asLogicalVec fargs []).bind fun out => M.alloc (.LogicalVec out [])

/-- `ctx.Println(s)`: the line is written to the output sink. -/
def M.println (s : String) : M F Unit := fun st =>
  (.ok (), { st with output := st.output ++ s ++ "\n" })

/-- The loop of `builtinPrint`: one line for each argument, the method
`String` of its value. A value that contains itself makes the method recurse
without end; every other value is rendered within the fuel given here. -/
def printArgs (L : GoLib) (exprString : Expr F → String) : List ArgValue → M F Unit
  | [] => pure ()
  | a :: rest => fun st =>
    ((M.lift (valueString L exprString st (st.objs.length + 1) a.Val)).bind fun s =>
      (M.println s).bind fun _ => printArgs L exprString rest) st

/-- `builtinPrint(ctx, args)`. -/
def builtinPrint (L : GoLib) (exprString : Expr F → String) (force : Ptr → M F Ptr)
    (args : List ArgValue) : M F Ptr :=
  (forceArgs force args).bind fun fargs =>
    match fargs with
    | [] => (M.println "NULL").bind fun _ => pure .NullValue
    | a :: _ => (printArgs L exprString fargs).bind fun _ => pure a.Val

/-- The built-ins that are modelled here, under the names with which
`InstallBuiltins` registers them; every other name is left to `rest`. -/
def stdBuiltins (rest : Builtins F) : Builtins F :=
  ⟨fun name force call args =>
    if name = "tryCatch" then builtinTryCatch force call args
    else if name = "c" then builtinC force args
    else rest.impl name force call args⟩

/-- The built-in `print` under its name; the rendering of strings and of
expressions is a parameter. -/
def printBuiltins (L : GoLib) (exprString : Expr F → String) (rest : Builtins F) : Builtins F :=
  ⟨fun name force call args =>
    if name = "print" then builtinPrint L exprString force args
    else rest.impl name force call args⟩

/-- A context in which `InstallBuiltins` has bound `c`, `tryCatch` and `print`
in the global frame (the other built-ins are left out) and nothing else has
happened. -/
def builtinContext : Store F :=
  ⟨[.BuiltinFunc "c", .BuiltinFunc "tryCatch", .BuiltinFunc "print"],
    [⟨none, [("c", .addr 0), ("tryCatch", .addr 1), ("print", .addr 2)]⟩], "", Arrays.initial⟩

end BuiltinDefs

/-! ### Notions used to state the claims on assignment targets, on the lexer round trip and on `c` -/

section Notions3

variable {F : Type} [Float64 F]

/-- The left-hand sides that `evalAssign` accepts for `<-`, `=` and `<<-`: an
identifier, an index on an identifier, and `$` on an identifier. -/
def Expr.isAssignTarget : Expr F → Bool
  | .Ident _ => true
  | .IndexExpr (.Ident _) _ _ => true
  | .DollarExpr (.Ident _) _ => true
  | _ => false

/-- Whether an expression is an identifier. -/
def Expr.isIdent : Expr F → Bool
  | .Ident _ => true
  | _ => false

/-- The statement separators: newline and semicolon tokens. -/
def Token.isSeparator (t : Token) : Bool := t.Typ = .NL || t.Typ = .SEMI

/-- The tokens of a list that are neither separators nor `EOF`. -/
def contentTokens (toks : List Token) : List Token :=
  toks.filter fun t => !(t.isSeparator || t.Typ = .EOF)

/-- The literals of the tokens, joined with single spaces. -/
def joinLits : List Token → List Char
  | [] => []
  | [t] => t.Lit.toList
  | t :: rest => t.Lit.toList ++ ' ' :: joinLits rest

/-- The characters that open a string literal or a quoted identifier. -/
def isQuoteChar (c : Char) : Bool := c = Char.ofNat 34 || c = Char.ofNat 39 || c = Char.ofNat 96

/-- The place of a type in the order logical, integer, double, character. -/
def typeRank (t : String) : Nat :=
  if t = "integer" then 1 else if t = "double" then 2 else if t = "character" then 3 else 0

/-- The widest rank among the types of the values. -/
def widestRank (os : List (Obj F)) : Nat := (os.map fun o => typeRank o.Type).foldr max 0

/-- The number of elements of the values before position `j`. -/
def segmentStart (os : List (Obj F)) (j : Nat) : Nat := ((os.take j).map Obj.Len).sum

end Notions3

/-- A store for `tryCatch(nosuch, error = function(e) e)` at the call of the
built-in: the two arguments are promises in the global frame. -/
def tryCatchStore : Store Whole :=
  ⟨[.Promise (.Ident "nosuch") 0 false .nil none,
    .Promise (.FuncExpr [⟨"e", none, false⟩] (.Ident "e")) 0 false .nil none],
    [⟨none, []⟩], "", Arrays.initial⟩



/-- The built-ins that are modelled, on the carrier `Whole`, with Go's quoting
restricted to ASCII and no rendering of expressions. -/
def sampleBuiltins : Builtins Whole :=
  printBuiltins asciiLib (fun _ => "") (stdBuiltins noBuiltins)

/-- The context `builtinContext` whose output sink already holds the text
`earlier`. -/
def writtenContext : Store Whole := { (builtinContext : Store Whole) with output := "earlier" }

/-- The tokens of `print(1); nosuch; print(2)`. -/
def printProgramTokens : List Token :=
  [⟨.IDENT, "print"⟩, ⟨.LPAREN, "("⟩, ⟨.NUMBER, "1"⟩, ⟨.RPAREN, ")"⟩, ⟨.SEMI, ";"⟩,
    ⟨.IDENT, "nosuch"⟩, ⟨.SEMI, ";"⟩, ⟨.IDENT, "print"⟩, ⟨.LPAREN, "("⟩, ⟨.NUMBER, "2"⟩,
    ⟨.RPAREN, ")"⟩, eofToken]

/-- The call `print(n)` of a number literal. -/
def printCall (text : String) (value : Whole) : Expr Whole :=
  .CallExpr (.Ident "print") [⟨"", .NumberLit text value true⟩]

/-- The store after `print(1)` has been evaluated in `writtenContext` with an
empty output buffer. -/
def afterPrintOne : Store Whole :=
  (evalExprs (Eval sampleBuiltins 8) 0 [printCall "1" ⟨1⟩] .NullValue
    { writtenContext with output := "" }).2

/-- The logical vector `TRUE NA` and the integer vector `2`. -/
def combineValues : List (Obj Whole) :=
  [.LogicalVec [⟨true, false⟩, LogicalElem.na] [], .IntVec [⟨2, false⟩] []]

/-- A store that holds the two vectors of `combineValues`. -/
def combineStore : Store Whole := ⟨combineValues, [⟨none, []⟩], "", Arrays.initial⟩

/-! ### The steps of `readNumber`, one definition for each -/

/-- The leading decimal point that `readNumber` reads, with the input after
it. -/
def numberDot (src : List Char) : List Char × List Char :=
  match src with
  | '.' :: r => (['.'], r)
  | r => ([], r)

/-- The fraction that `readNumber` reads: a point and the digits after it. -/
def numberFraction (s : List Char) : List Char × List Char :=
  match s with
  | '.' :: r => ('.' :: (r.span isDigit).1, (r.span isDigit).2)
  | r => ([], r)

/-- The sign of the exponent. -/
def numberSign (r : List Char) : List Char × List Char :=
  match r with
  | s :: r2 => if s = '+' ∨ s = '-' then ([s], r2) else ([], r)
  | [] => ([], r)

/-- The exponent that `readNumber` reads: `e` or `E`, a sign, digits. -/
def numberExponent (s : List Char) : List Char × List Char :=
  match s with
  | e :: r =>
    if e = 'e' ∨ e = 'E' then
      (e :: (numberSign r).1 ++ ((numberSign r).2.span isDigit).1,
        ((numberSign r).2.span isDigit).2)
    else ([], s)
  | [] => ([], s)

/-- A text at which a token ends: the end of input, or a space, as `joinLits`
puts between two literals. -/
def endsToken (t : List Char) : Prop := t = [] ∨ ∃ r, t = ' ' :: r

/-- A token is read again from its literal: the literal starts with a
character that `Next` does not skip, and `Next` on the literal followed by a
text that ends the token delivers the token and leaves that text. -/
def Token.Rereads (L : GoLib) (tok : Token) : Prop :=
  tok.Typ ≠ .EOF ∧
  (∃ ch r, tok.Lit.toList = ch :: r ∧ ch ≠ ' ' ∧ ch ≠ Char.ofNat 9 ∧ ch ≠ Char.ofNat 13 ∧
    ch ≠ '#' ∧ ch ≠ Char.ofNat 10) ∧
  ∀ (t : List Char) (p b k : Nat), endsToken t →
    ∃ p2 b2, Lexer.Next L (k + 1) ⟨tok.Lit.toList ++ t, p, b⟩ = some (tok, ⟨t, p2, b2⟩)

/-- The tokens of a text that holds a newline inside parentheses, a newline
between statements and a semicolon. -/
def roundTripTokens : List Token :=
  [⟨.IDENT, "f"⟩, ⟨.LPAREN, "("⟩, ⟨.IDENT, "a"⟩, ⟨.COMMA, ","⟩, ⟨.IDENT, "b"⟩, ⟨.RPAREN, ")"⟩,
    ⟨.SEMI, ";"⟩, ⟨.IDENT, "x"⟩, ⟨.ASSIGN_LEFT, "<-"⟩, ⟨.NUMBER, ".5e+3"⟩, ⟨.NL, "\n"⟩,
    ⟨.IDENT, "y"⟩, ⟨.LDBRACK, "[["⟩, ⟨.IDENT, "i"⟩, ⟨.RDBRACK, "]]"⟩, ⟨.INOP, "%in%"⟩,
    ⟨.IDENT, "..."⟩, ⟨.IDENT, "z"⟩, eofToken]

/-! ## Built-ins on vectors (rt/builtins_math.go, rt/builtins_util.go) -/

/-- The constants of Go's package `math` that the runtime uses: `Inf` is
`math.Inf(sign)`, positive infinity for `sign >= 0` and negative infinity
otherwise, and `NaN` is `math.NaN()`. -/
class GoMath (F : Type) where
  Inf : Int → F
  NaN : F

/-- A carrier for `Float64` with the special values: the whole numbers, the
two infinities and NaN. Comparisons, sums and products follow IEEE 754 (every
comparison with NaN is false); quotients of whole numbers are truncated, and
power and remainder are defined on whole numbers only, so the carrier agrees
with float64 where the results are whole and small. -/
inductive Extended where
  | nan
  | negInf
  | fin (n : Int)
  | posInf
  deriving DecidableEq, Repr

/-- The sign of a value: -1, 0 or 1 (0 for NaN). -/
def Extended.sign : Extended → Int
  | .nan => 0
  | .negInf => -1
  | .fin n => Int.sign n
  | .posInf => 1

/-- Negation. -/
def Extended.neg : Extended → Extended
  | .nan => .nan
  | .negInf => .posInf
  | .fin n => .fin (-n)
  | .posInf => .negInf

/-- Addition: the sum of opposite infinities is NaN. -/
def Extended.add : Extended → Extended → Extended
  | .nan, _ => .nan
  | _, .nan => .nan
  | .fin a, .fin b => .fin (a + b)
  | .negInf, .posInf => .nan
  | .posInf, .negInf => .nan
  | .negInf, _ => .negInf
  | _, .negInf => .negInf
  | .posInf, _ => .posInf
  | _, .posInf => .posInf

/-- The infinity of a sign, NaN for the sign 0. -/
def Extended.ofSign (s : Int) : Extended :=
  if s = 0 then .nan else if s > 0 then .posInf else .negInf

/-- Multiplication: zero times an infinity is NaN. -/
def Extended.mul : Extended → Extended → Extended
  | .nan, _ => .nan
  | _, .nan => .nan
  | .fin a, .fin b => .fin (a * b)
  | x, y => Extended.ofSign (x.sign * y.sign)

/-- Division: a whole quotient is truncated; a non-zero number divided by zero
is an infinity, and `0/0` and the quotient of two infinities are NaN. -/
def Extended.div : Extended → Extended → Extended
  | .nan, _ => .nan
  | _, .nan => .nan
  | .fin a, .fin b => if b = 0 then Extended.ofSign (Int.sign a) else .fin (Int.tdiv a b)
  | .fin _, _ => .fin 0
  | x, .fin b => if b < 0 then x.neg else x
  | _, _ => .nan

/-- The comparison `<`. -/
def Extended.lt : Extended → Extended → Bool
  | .nan, _ => false
  | _, .nan => false
  | .fin a, .fin b => decide (a < b)
  | .negInf, .negInf => false
  | .negInf, _ => true
  | _, .negInf => false
  | .posInf, _ => false
  | _, .posInf => true

/-- The operations of `Float64` on `Extended`. The conversion `int64(f)` of a
value that is not finite is taken to be the least `int64`, which is what Go
gives on amd64 (the language leaves it open). -/
instance : Float64 Extended where
  ofInt := fun i => .fin i
  toInt := fun f =>
    match f with
    | .fin n => n
    | _ => -2 ^ 63
  add := Extended.add
  sub := fun x y => Extended.add x y.neg
  mul := Extended.mul
  div := Extended.div
  pow := fun x y =>
    match x, y with
    | .fin a, .fin b => .fin (a ^ b.toNat)
    | _, _ => .nan
  fmod := fun x y =>
    match x, y with
    | .fin a, .fin b => if b = 0 then .nan else .fin (Int.tmod a b)
    | _, _ => .nan
  floor := fun x => x
  neg := Extended.neg
  lt := Extended.lt
  eq := fun x y => x ≠ .nan && x = y
  format := fun x =>
    match x with
    | .nan => "NaN"
    | .negInf => "-Inf"
    | .fin n => toString n
    | .posInf => "+Inf"
  parse := fun s => (parseDecimal s).map Extended.fin
  isNaN := fun x => x = .nan
  isInf := fun x sign =>
    (decide (sign ≥ 0) && decide (x = .posInf)) || (decide (sign ≤ 0) && decide (x = .negInf))

/-- The constants `math.Inf(sign)` and `math.NaN()` on `Extended`. -/
instance : GoMath Extended where
  Inf := fun sign => if sign ≥ 0 then .posInf else .negInf
  NaN := .nan

section VectorBuiltinDefs

variable {F : Type} [Float64 F]

/-- A coercion of the runtime, such as `asDoubleVec(ctx, v)`, with `Force` as
the built-in receives it: the value is forced, and the type switch `coerce` is
applied to the object it refers to (a nil value panics in the switch). -/
def coerceArg {α : Type} (force : Ptr → M F Ptr) (coerce : Obj F → Res α) (v : Ptr) : M F α :=
  (force v).bind fun v => (M.deref v).bind fun o => M.lift (coerce o)

/-- A call whose error is dropped, `x, _ := f(...)`: on an error `x` is the
value `dflt` that `f` returns beside it. -/
def ignoringError {α : Type} (dflt : α) (m : M F α) : M F α := fun st =>
  match m st with
  | (.error _, st') => (.ok dflt, st')
  | r => r

/-- The loop of the four cumulative built-ins over the doubles that are left,
with the running value `acc`: `step acc v` is the new running value at the
element `v`; at the first NA the rest of the output is filled with NA. -/
def cumLoop (step : F → F → F) : F → List (FloatElem F) → List (FloatElem F)
  | _, [] => []
  | acc, e :: rest =>
    if e.NA then List.replicate (rest.length + 1) FloatElem.na
    else ⟨step acc e.Val, false⟩ :: cumLoop step (step acc e.Val) rest

/-- The common body of `builtinCumsum`, `builtinCumprod`, `builtinCummax` and
`builtinCummin`: the message for a wrong number of arguments, the update of
the running value and its start are what differs. -/
def cumulative (usage : String) (step : F → F → F) (init : F) (force : Ptr → M F Ptr)
    (args : List ArgValue) : M F Ptr :=
  match args with
  | [a] =>
    (force a.Val).bind fun v => (coerceArg force asDoubleVec v).bind fun dv =>
      M.alloc (.DoubleVec (cumLoop step init dv) [])
  | _ => M.errorf usage

/-- `builtinCumsum(ctx, args)`: `sum += e.Val`, from 0. -/
def builtinCumsum (force : Ptr → M F Ptr) (args : List ArgValue) : M F Ptr :=
  cumulative "cumsum(x) expects 1 argument" Float64.add (Float64.ofInt 0) force args

/-- `builtinCumprod(ctx, args)`: `prod *= e.Val`, from 1. -/
def builtinCumprod (force : Ptr → M F Ptr) (args : List ArgValue) : M F Ptr :=
  cumulative "cumprod(x) expects 1 argument" Float64.mul (Float64.ofInt 1) force args

/-- The update `if e.Val > curMax { curMax = e.Val }`. -/
def maxStep (curMax v : F) : F := if Float64.lt curMax v then v else curMax

/-- The update `if e.Val < curMin { curMin = e.Val }`. -/
def minStep (curMin v : F) : F := if Float64.lt v curMin then v else curMin

/-- `builtinCummax(ctx, args)`: the running maximum, from `math.Inf(-1)`. -/
def builtinCummax [GoMath F] (force : Ptr → M F Ptr) (args : List ArgValue) : M F Ptr :=
  cumulative "cummax(x) expects 1 argument" maxStep (GoMath.Inf (-1)) force args

/-- `builtinCummin(ctx, args)`: the running minimum, from `math.Inf(1)`. -/
def builtinCummin [GoMath F] (force : Ptr → M F Ptr) (args : List ArgValue) : M F Ptr :=
  cumulative "cummin(x) expects 1 argument" minStep (GoMath.Inf 1) force args

/-- The flag `decreasing` of `builtinSort`: false without an argument of that
name; otherwise the argument is forced and read with `asLogicalScalar`, both
errors are dropped, and the flag is the value read unless that is NA. -/
def sortDecreasing (force : Ptr → M F Ptr) (args : List ArgValue) : M F Bool :=
  match getNamed args "decreasing" with
  | none => pure false
  | some dv =>
    (ignoringError Ptr.nil (force dv)).bind fun fv =>
      (ignoringError (false, false) (coerceArg force asLogicalScalar fv)).bind fun r =>
        pure (if !r.2 then r.1 else false)

/-- The type switch of `builtinSort` on the forced first argument: the
elements that are not NA, sorted by `sort.Slice` with `<` on the values, or
with `>` when `decreasing` is set. -/
def sortSwitch (S : SortSlice) (decreasing : Bool) (o : Obj F) : M F Ptr :=
  match o with
  | .DoubleVec d _ =>
    M.alloc (.DoubleVec (S.sort
      (fun x y => if decreasing then Float64.lt y.Val x.Val else Float64.lt x.Val y.Val)
      (d.filter fun e => !e.NA)) [])
  | .IntVec d _ =>
    M.alloc (.IntVec (S.sort
      (fun x y => if decreasing then decide (y.Val < x.Val) else decide (x.Val < y.Val))
      (d.filter fun e => !e.NA)) [])
  | .CharVec d _ =>
    M.alloc (.CharVec (S.sort
      (fun x y => if decreasing then decide (y.Val < x.Val) else decide (x.Val < y.Val))
      (d.filter fun e => !e.NA)) [])
  | o => M.errorf ("sort: unsupported type " ++ o.Type)

/-- `builtinSort(ctx, args)`, with `sort.Slice` taken by its contract. -/
def builtinSort (S : SortSlice) (force : Ptr → M F Ptr) (args : List ArgValue) : M F Ptr :=
  match args with
  | [] => M.errorf "sort(x) expects at least 1 argument"
  | a :: _ =>
    (force a.Val).bind fun v => (sortDecreasing force args).bind fun decreasing =>
      (M.deref v).bind fun o => sortSwitch S decreasing o

/-- The loop of the double case of `builtinUnique`. The map `seen` is the list
of its keys; a key is found when it is `==` to the one looked up, so a NaN key
is never found. An NA element is appended when `seen[0]` is not set. -/
def uniqueDoubleLoop : List (FloatElem F) → List F → List (FloatElem F) → List (FloatElem F)
  | [], _, out => out
  | e :: rest, seen, out =>
    if e.NA then
      if !(seen.any fun k => Float64.eq k (Float64.ofInt 0)) then
        uniqueDoubleLoop rest seen (out ++ [e])
      else uniqueDoubleLoop rest seen out
    else if !(seen.any fun k => Float64.eq k e.Val) then
      uniqueDoubleLoop rest (seen ++ [e.Val]) (out ++ [e])
    else uniqueDoubleLoop rest seen out

/-- The loop of the integer, character and logical cases of `builtinUnique`:
an NA element is passed over. -/
def uniqueLoop {α β : Type} [DecidableEq β] (isNA : α → Bool) (val : α → β) :
    List α → List β → List α → List α
  | [], _, out => out
  | e :: rest, seen, out =>
    if isNA e then uniqueLoop isNA val rest seen out
    else if !(seen.contains (val e)) then uniqueLoop isNA val rest (seen ++ [val e]) (out ++ [e])
    else uniqueLoop isNA val rest seen out

/-- `builtinUnique(ctx, args)`. -/
def builtinUnique (force : Ptr → M F Ptr) (args : List ArgValue) : M F Ptr :=
  match args with
  | [a] =>
    (force a.Val).bind fun v => (M.deref v).bind fun o =>
      match o with
      | .DoubleVec d _ => M.alloc (.DoubleVec (uniqueDoubleLoop d [] []) [])
      | .IntVec d _ => M.alloc (.IntVec (uniqueLoop (fun e => e.NA) (fun e => e.Val) d [] []) [])
      | .CharVec d _ => M.alloc (.CharVec (uniqueLoop (fun e => e.NA) (fun e => e.Val) d [] []) [])
      | .LogicalVec d _ =>
        M.alloc (.LogicalVec (uniqueLoop (fun e => e.NA) (fun e => e.Val) d [] []) [])
      | o => M.errorf ("unique: unsupported type " ++ o.Type)
  | _ => M.errorf "unique(x) expects 1 argument"

/-- The loop of an atomic case of `builtinIfelse` over the test elements that
are left, `i` being the position of the first: NA for an NA test, else the
recycled element of `yes` or of `no`. -/
def ifelseLoop {α : Type} (na : α) (yd nv : List α) : List LogicalElem → Nat → Res (List α)
  | [], _ => .ok []
  | e :: rest, i =>
    (if e.NA then .ok na
      else if e.Val then (goMod i yd.length).bind fun k => goIndex yd k
      else (goMod i nv.length).bind fun k => goIndex nv k).bind fun x =>
        (ifelseLoop na yd nv rest (i + 1)).bind fun out => .ok (x :: out)

/-- The call `elem, _ := vectorElement(ctx, v, i%v.Len())` of the generic case
of `builtinIfelse`: the error is dropped, which leaves `elem` nil. -/
def elementOrNil (force : Ptr → M F Ptr) (v : Ptr) (i : Nat) : M F Ptr :=
  (M.deref v).bind fun o => (M.lift (goMod i o.Len)).bind fun k =>
    ignoringError Ptr.nil
      ((coerceArg force (fun o => vectorElement o k) v).bind M.produce)

/-- The loop of the generic case of `builtinIfelse`. -/
def ifelseListLoop (force : Ptr → M F Ptr) (yes no : Ptr) : List LogicalElem → Nat → M F (List Ptr)
  | [], _ => pure []
  | e :: rest, i =>
    (if e.NA then pure Ptr.NullValue
      else if e.Val then elementOrNil force yes i
      else elementOrNil force no i).bind fun x =>
        (ifelseListLoop force yes no rest (i + 1)).bind fun out => pure (x :: out)

/-- The type switch of `builtinIfelse` on the forced `yes`, "result type
follows yes": a double, integer or character vector, and a list in every other
case. The error of coercing `no` is dropped, which leaves an empty slice. -/
def ifelseSwitch (force : Ptr → M F Ptr) (yes no : Ptr) (lv : List LogicalElem)
    (oy : Option (Obj F)) : M F Ptr :=
  match oy with
  | some (.DoubleVec yd _) =>
    (ignoringError [] (coerceArg force asDoubleVec no)).bind fun nv =>
      (M.lift (ifelseLoop FloatElem.na yd nv lv 0)).bind fun out => M.alloc (.DoubleVec out [])
  | some (.IntVec yd _) =>
    (ignoringError [] (coerceArg force coerceToIntVec no)).bind fun nv =>
      (M.lift (ifelseLoop IntElem.na yd nv lv 0)).bind fun out => M.alloc (.IntVec out [])
  | some (.CharVec yd _) =>
    (ignoringError [] (coerceArg force asCharVec no)).bind fun nv =>
      (M.lift (ifelseLoop StringElem.na yd nv lv 0)).bind fun out => M.alloc (.CharVec out [])
  | _ =>
    (ifelseListLoop force yes no lv 0).bind fun out => M.alloc (.ListVec out [])

/-- `builtinIfelse(ctx, args)`. -/
def builtinIfelse (force : Ptr → M F Ptr) (args : List ArgValue) : M F Ptr :=
  match args with
  | [a0, a1, a2] =>
    (force a0.Val).bind fun test => (force a1.Val).bind fun yes => (force a2.Val).bind fun no =>
    (coerceArg force asLogicalVec test).bind fun lv =>
    (M.derefOpt yes).bind fun oy => ifelseSwitch force yes no lv oy
  | _ => M.errorf "ifelse(test, yes, no) expects 3 arguments"

/-- The loop of `builtinSwitch` over the arguments after the first, with the
value `defaultVal` of the unnamed arguments passed so far (nil at first). -/
def switchLoop (force : Ptr → M F Ptr) (key : String) : List ArgValue → Ptr → M F Ptr
  | [], defaultVal => pure (if defaultVal ≠ .nil then defaultVal else .NullValue)
  | a :: rest, defaultVal =>
    if a.Name = key then force a.Val
    else if a.Name = "" then (force a.Val).bind fun v => switchLoop force key rest v
    else switchLoop force key rest defaultVal

/-- `builtinSwitch(ctx, args)`. -/
def builtinSwitch (force : Ptr → M F Ptr) (args : List ArgValue) : M F Ptr :=
  match args with
  | a :: b :: rest =>
    (force a.Val).bind fun exprV => (coerceArg force asCharVec exprV).bind fun cv =>
      match cv with
      | [] => pure Ptr.NullValue
      | e :: _ => if e.NA then pure Ptr.NullValue else switchLoop force e.Val (b :: rest) .nil
  | _ => M.errorf "switch() expects at least 2 arguments"

/-- `builtinList(ctx, args)`: the forced values, with the argument names (the
empty string for an unnamed argument) as the `names` attribute. -/
def builtinList (force : Ptr → M F Ptr) (args : List ArgValue) : M F Ptr :=
  (forceArgs force args).bind fun fargs =>
    (M.alloc (.CharVec (fargs.map fun a => ⟨a.Name, false⟩) [])).bind fun names =>
      M.alloc (.ListVec (fargs.map fun a => a.Val) [("names", names)])

/-- The built-ins on vectors that are modelled here, under the names with
which `InstallBuiltins`, `InstallMathBuiltins` and `InstallUtilBuiltins`
register them. -/
def vectorBuiltins [GoMath F] (S : SortSlice) (rest : Builtins F) : Builtins F :=
  ⟨fun name force call args =>
    if name = "cumsum" then builtinCumsum force args
    else if name = "cumprod" then builtinCumprod force args
    else if name = "cummax" then builtinCummax force args
    else if name = "cummin" then builtinCummin force args
    else if name = "sort" then builtinSort S force args
    else if name = "unique" then builtinUnique force args
    else if name = "ifelse" then builtinIfelse force args
    else if name = "switch" then builtinSwitch force args
    else if name = "list" then builtinList force args
    else rest.impl name force call args⟩

/-- A context in which the built-ins that are modelled and the constants `Inf`
and `NaN` are bound in the global frame, and nothing else has happened. -/
def vectorContext [GoMath F] : Store F :=
  ⟨[.BuiltinFunc "c", .BuiltinFunc "tryCatch", .BuiltinFunc "print", .BuiltinFunc "cumsum",
      .BuiltinFunc "cumprod", .BuiltinFunc "cummax", .BuiltinFunc "cummin", .BuiltinFunc "sort",
      .BuiltinFunc "unique", .BuiltinFunc "ifelse", .BuiltinFunc "switch",
      .BuiltinFunc "list", DoubleScalar (GoMath.Inf 1), DoubleScalar GoMath.NaN],
    [⟨none, [("c", .addr 0), ("tryCatch", .addr 1), ("print", .addr 2), ("cumsum", .addr 3),
      ("cumprod", .addr 4), ("cummax", .addr 5), ("cummin", .addr 6), ("sort", .addr 7),
      ("unique", .addr 8), ("ifelse", .addr 9), ("switch", .addr 10), ("list", .addr 11),
      ("Inf", .addr 12), ("NaN", .addr 13)]⟩], "", Arrays.initial⟩

end VectorBuiltinDefs

/-- `Lexer.DebugTokens`: the tokens that successive calls of `Next` deliver, up
to and including the first `ILLEGAL` or `EOF`, and the message of the error
(`none` for nil), in which the position is left out; `none` when the fuel runs
out. -/
def Lexer.DebugTokens (L : GoLib) : Nat → Lexer → Option (List Token × Option String)
  | 0, _ => none
  | k + 1, l =>
    match Lexer.Next L (l.src.length + 1) l with
    | none => none
    | some (tok, l2) =>
      if tok.Typ = .ILLEGAL then some ([tok], some ("illegal token: " ++ tok.Lit))
      else if tok.Typ = .EOF then some ([tok], none)
      else (Lexer.DebugTokens L k l2).map fun r => (tok :: r.1, r.2)

/-! ### Notions used to state the claims on the cumulative built-ins, on `sort` and on `switch` -/

section Notions4

variable {F : Type} [Float64 F]

/-- The output `out` of a cumulative built-in on `dv` is NA from the first NA
of `dv` on: the lengths agree, and the element at a position is NA exactly
when `dv` has an NA at that position or before it. -/
def NAFromFirst (dv out : List (FloatElem F)) : Prop :=
  out.length = dv.length ∧
  ∀ (i : Nat) (e : FloatElem F), out[i]? = some e →
    (e.NA = true ↔ ∃ (j : Nat) (x : FloatElem F), j ≤ i ∧ dv[j]? = some x ∧ x.NA = true)

/-- The value `m` is a largest one of `vals` for the comparison `less`: it is
one of them, and it is less than none of them. -/
def IsLargest (less : F → F → Bool) (vals : List F) (m : F) : Prop :=
  m ∈ vals ∧ ∀ v ∈ vals, less m v = false

/-- The comparison `less` orders `vals` as `<` orders floats other than NaN,
with `bot` below them: no value is less than itself, `less` is transitive, and
`bot` is less than every value other than itself. -/
def OrdersFrom (less : F → F → Bool) (bot : F) (vals : List F) : Prop :=
  (∀ v ∈ vals, less v v = false) ∧
  (∀ a ∈ vals, ∀ b ∈ vals, ∀ c ∈ vals, less a b = true → less b c = true → less a c = true) ∧
  (∀ v ∈ vals, less bot v = true ∨ v = bot)

/-- Whether `OrdersFrom` holds can be computed. -/
instance (less : F → F → Bool) (bot : F) (vals : List F) [DecidableEq F] :
    Decidable (OrdersFrom less bot vals) := by
  unfold OrdersFrom
  infer_instance

/-- The values of the first `i + 1` elements of a double vector. -/
def valuesUpTo (dv : List (FloatElem F)) (i : Nat) : List F := (dv.take (i + 1)).map fun e => e.Val

/-- The flag `decreasing` of a call of `sort` whose argument values are in the
store `st1`: false when no argument is named `decreasing`; otherwise forcing
that argument leaves the store `st2` and gives a value that `asLogicalScalar`
reads as `decreasing`, not NA. Without such an argument `st2` is `st1`. -/
def DecreasingFlag (ev : Evaluator F) (args : List ArgValue) (st1 st2 : Store F)
    (decreasing : Bool) : Prop :=
  (getNamed args "decreasing" = none ∧ st2 = st1 ∧ decreasing = false) ∨
  ∃ dv fv fo, getNamed args "decreasing" = some dv ∧ Force ev dv st1 = (.ok fv, st2) ∧
    st2.deref fv = some fo ∧ (∀ e env f v er, fo ≠ .Promise e env f v er) ∧
    asLogicalScalar fo = .ok (decreasing, false)

end Notions4

/-- The built-ins that are modelled, on the carrier `Extended`, with the
insertion sort of Go's package `sort` for `sort.Slice` (which is what it runs
on a slice of at most 12 elements), Go's quoting restricted to ASCII and no
rendering of expressions. -/
def extendedBuiltins : Builtins Extended :=
  vectorBuiltins goInsertionSort (printBuiltins asciiLib (fun _ => "") (stdBuiltins noBuiltins))

/-- What a test of the repository observes of an evaluation: the rendering
of the value with `Value.String` when the error is nil, the text of the error,
or a panic. -/
inductive Outcome where
  | value (text : String)
  | error (message : String)
  | panic (why : String)
  | outOfFuel
  deriving DecidableEq, Repr

/-- `ctx.EvalString(src)` in the context `vectorContext`, as the tests of the
repository call it, and what they observe. -/
def runSource (fuel : Nat) (src : String) : Outcome :=
  match EvalString extendedBuiltins asciiLib fuel 0 src vectorContext with
  | (.ok (r, none), st) =>
    match valueString asciiLib (fun _ => "") st fuel r.Value with
    | .ok s => .value s
    | .error er => .error er.Error
    | .panic w => .panic w
    | .outOfFuel => .outOfFuel
  | (.ok (_, some er), _) => .error er.Error
  | (.error er, _) => .error er.Error
  | (.panic w, _) => .panic w
  | (.outOfFuel, _) => .outOfFuel

/-! ### Stores for examples of the built-ins on vectors -/

/-- A store that holds the double vector `1 3 2 NA`. -/
def cumulativeStore : Store Extended :=
  ⟨[.DoubleVec [⟨.fin 1, false⟩, ⟨.fin 3, false⟩, ⟨.fin 2, false⟩, FloatElem.na] []],
    [⟨none, []⟩], "", Arrays.initial⟩

/-- A store that holds the double vector `NaN`. -/
def nanStore : Store Extended := ⟨[DoubleScalar Extended.nan], [⟨none, []⟩], "", Arrays.initial⟩

/-- A store that holds the double vector `3 NA 1 2` and the logical vector
`TRUE`. -/
def sortStore : Store Extended :=
  ⟨[.DoubleVec [⟨.fin 3, false⟩, FloatElem.na, ⟨.fin 1, false⟩, ⟨.fin 2, false⟩] [],
    LogicalScalar true], [⟨none, []⟩], "", Arrays.initial⟩

/-- A store that holds the double vectors `1 NA NA` and `0 NA` and the integer
vector `1 NA`. -/
def uniqueStore : Store Extended :=
  ⟨[.DoubleVec [⟨.fin 1, false⟩, FloatElem.na, FloatElem.na] [],
    .DoubleVec [⟨.fin 0, false⟩, FloatElem.na] [],
    .IntVec [⟨1, false⟩, IntElem.na] []], [⟨none, []⟩], "", Arrays.initial⟩

/-- A store that holds the logical vector `TRUE FALSE NA TRUE`, the double
vector `1 2`, the integer vector `10 20 30`, and the logical vectors `TRUE` and
`FALSE`. -/
def ifelseStore : Store Extended :=
  ⟨[.LogicalVec [⟨true, false⟩, ⟨false, false⟩, LogicalElem.na, ⟨true, false⟩] [],
    .DoubleVec [⟨.fin 1, false⟩, ⟨.fin 2, false⟩] [],
    .IntVec [⟨10, false⟩, ⟨20, false⟩, ⟨30, false⟩] [],
    LogicalScalar true, LogicalScalar false], [⟨none, []⟩], "", Arrays.initial⟩

/-- A list with the names `a` and `b` whose elements are an integer vector 1
and an integer vector 2, and beside it the index 4 and the value 5. -/
def namedListStore : Store Extended :=
  ⟨[.CharVec [⟨"a", false⟩, ⟨"b", false⟩] [], IntScalar 1, IntScalar 2,
    .ListVec [.addr 1, .addr 2] [("names", .addr 0)], IntScalar 4, IntScalar 5],
    [⟨none, []⟩], "", Arrays.initial⟩

/-! ### Further notions and stores used to state the claims -/

section Notions5

variable {F : Type} [Float64 F]

/-- Element `j` of a numeric vector as a double, as the arithmetic operators
read it: a double is taken as it is, an integer is converted, TRUE is 1 and
FALSE is 0. There is none when the element is NA, when `j` is not a position
of the vector, and for a value that is not numeric. -/
def Obj.numberAt (a : Obj F) (j : Nat) : Option F :=
  match a with
  | .DoubleVec d _ => (d.get? j).bind fun e => if e.NA then none else some e.Val
  | .IntVec d _ => (d.get? j).bind fun e => if e.NA then none else some (Float64.ofInt e.Val)
  | .LogicalVec d _ =>
    (d.get? j).bind fun e =>
      if e.NA then none else some (Float64.ofInt (if e.Val then 1 else 0))
  | _ => none

end Notions5

/-- A double vector that holds NaN twice, among -Inf, 1 and 0. -/
def nanSortStore : Store Extended :=
  ⟨[.DoubleVec [⟨.nan, false⟩, ⟨.negInf, false⟩, ⟨.fin 1, false⟩, ⟨.nan, false⟩,
    ⟨.fin 0, false⟩] []], [⟨none, []⟩], "", Arrays.initial⟩

/-- The tokens a parser has before it: the current one, the next one and
those that its lexer will still deliver. -/
def Parser.tokens (p : Parser) : List Token := p.cur :: p.peek :: p.l

/-- The parser that has the tokens `ts` before it, followed by the end of
input, and has recorded `errors`. -/
def Parser.atTokens (ts : List Token) (errors : List String) : Parser :=
  ⟨ts.drop 2, ts.headD eofToken, (ts.drop 1).headD eofToken, errors⟩

/-- A statement separator: a newline or a semicolon. -/
def isSeparator (t : Token) : Bool := t.Typ = .NL || t.Typ = .SEMI

/-- A token at which a statement of a block ends: the end of input, a
separator or the closing brace. -/
def endsStatement (t : Token) : Bool := endsExpression t || t.Typ = .RBRACE

/-- The tokens of a source of lines: every line is a first token followed by
further tokens; a newline stands between two lines and the end of input
follows the last line. -/
def lineTokens : List (Token × List Token) → List Token
  | [] => [eofToken]
  | [l] => l.1 :: l.2 ++ [eofToken]
  | l :: rest => l.1 :: l.2 ++ ⟨.NL, "\n"⟩ :: lineTokens rest

/-! ## Theorems -/

section PureTheorems

variable {F : Type} [Float64 F]

theorem Res.bind_ok {α β : Type} (a : α) (f : α → Res β) : (Res.ok a).bind f = f a := rfl

theorem goMod_pos (i n : Nat) (h : 0 < n) : goMod i n = .ok (i % n) := by
  unfold goMod
  rw [if_neg (Nat.pos_iff_ne_zero.mp h)]

theorem goIndex_lt {α : Type} (xs : List α) (i : Nat) (h : i < xs.length) :
    goIndex xs i = .ok (xs.get ⟨i, h⟩) := by
  unfold goIndex
  rw [List.get?_eq_get h]

/-- The loop `forEachIndex` succeeds when every iteration does, and its output
holds the iterations' results in order. -/
theorem forEachIndex_spec {β : Type} (f : Nat → Res β) (P : Nat → β → Prop) :
    ∀ (n s : Nat), (∀ i, s ≤ i → i < s + n → ∃ y, f i = .ok y ∧ P i y) →
      ∃ out, forEachIndex f n s = .ok out ∧ out.length = n ∧
        ∀ k, k < n → ∃ y, out[k]? = some y ∧ P (s + k) y := by
  intro n
  induction n with
  | zero =>
    intro s _
    exact ⟨[], rfl, rfl, fun k hk => absurd hk (Nat.not_lt_zero k)⟩
  | succ m ih =>
    intro s h
    obtain ⟨y, hy, hP⟩ := h s (Nat.le_refl s) (by omega)
    obtain ⟨rest, hrest, hlen, hel⟩ := ih (s + 1) (fun i h1 h2 => h i (by omega) (by omega))
    refine ⟨y :: rest, ?_, by simp [hlen], ?_⟩
    · simp [forEachIndex, hy, hrest, Res.bind_ok]
    · intro k hk
      cases k with
      | zero => exact ⟨y, by simp, hP⟩
      | succ j =>
        obtain ⟨z, hz, hPz⟩ := hel j (by omega)
        refine ⟨z, by simpa using hz, ?_⟩
        have : s + (j + 1) = s + 1 + j := by omega
        rw [this]
        exact hPz

/-- Fetching the recycled operand elements succeeds when both operands are
non-empty. -/
theorem recycle_fetch {α β γ : Type} (xs : List α) (ys : List β) (i : Nat)
    (hx : 0 < xs.length) (hy : 0 < ys.length) (k : α → β → Res γ) :
    ∃ ae be, xs[i % xs.length]? = some ae ∧ ys[i % ys.length]? = some be ∧
      ((goMod i xs.length).bind fun ia => (goIndex xs ia).bind fun ae =>
        (goMod i ys.length).bind fun ib => (goIndex ys ib).bind fun be => k ae be) = k ae be := by
  have h1 : i % xs.length < xs.length := Nat.mod_lt _ hx
  have h2 : i % ys.length < ys.length := Nat.mod_lt _ hy
  refine ⟨xs.get ⟨_, h1⟩, ys.get ⟨_, h2⟩, ?_, ?_, ?_⟩
  · simp [List.getElem?_eq_getElem h1]
  · simp [List.getElem?_eq_getElem h2]
  · rw [goMod_pos i _ hx, Res.bind_ok, goIndex_lt xs _ h1, Res.bind_ok, goMod_pos i _ hy,
      Res.bind_ok, goIndex_lt ys _ h2, Res.bind_ok]

theorem asDoubleVec_numeric (a : Obj F) (ha : a.isNumeric = true) :
    ∃ av, asDoubleVec a = .ok av ∧ av.length = a.Len ∧ av.map (·.NA) = a.naFlags := by
  cases a <;> simp [Obj.isNumeric] at ha
  · refine ⟨_, rfl, by simp [Obj.Len], ?_⟩
    simp only [Obj.naFlags, List.map_map]
    apply List.map_congr_left
    intro e _
    by_cases h : e.NA = true <;> by_cases h2 : e.Val = true <;> simp [h, h2, FloatElem.na]
  · refine ⟨_, rfl, by simp [Obj.Len], ?_⟩
    simp only [Obj.naFlags, List.map_map]
    apply List.map_congr_left
    intro e _
    by_cases h : e.NA = true <;> simp [h, FloatElem.na]
  · exact ⟨_, rfl, by simp [Obj.Len], rfl⟩

theorem asCharVec_atomic (a : Obj F) (ha : a.isAtomic = true) :
    ∃ ac, asCharVec a = .ok ac ∧ ac.length = a.Len ∧ ac.map (·.NA) = a.naFlags := by
  cases a <;> simp [Obj.isAtomic] at ha
  · refine ⟨_, rfl, by simp [Obj.Len], ?_⟩
    simp only [Obj.naFlags, List.map_map]
    apply List.map_congr_left
    intro e _
    by_cases h : e.NA = true <;> by_cases h2 : e.Val = true <;> simp [h, h2, StringElem.na]
  · refine ⟨_, rfl, by simp [Obj.Len], ?_⟩
    simp only [Obj.naFlags, List.map_map]
    apply List.map_congr_left
    intro e _
    by_cases h : e.NA = true <;> simp [h, StringElem.na]
  · refine ⟨_, rfl, by simp [Obj.Len], ?_⟩
    simp only [Obj.naFlags, List.map_map]
    apply List.map_congr_left
    intro e _
    by_cases h : e.NA = true <;> simp [h, StringElem.na]
  · exact ⟨_, rfl, by simp [Obj.Len], rfl⟩

theorem asLogicalVec_numeric (a : Obj F) (ha : a.isNumeric = true) :
    ∃ lv, asLogicalVec a = .ok lv ∧ lv.length = a.Len ∧ lv.map (·.NA) = a.naFlags := by
  cases a <;> simp [Obj.isNumeric] at ha
  · exact ⟨_, rfl, by simp [Obj.Len], rfl⟩
  · refine ⟨_, rfl, by simp [Obj.Len], ?_⟩
    simp only [Obj.naFlags, List.map_map]
    apply List.map_congr_left
    intro e _
    by_cases h : e.NA = true <;> simp [h, LogicalElem.na]
  · refine ⟨_, rfl, by simp [Obj.Len], ?_⟩
    simp only [Obj.naFlags, List.map_map]
    apply List.map_congr_left
    intro e _
    by_cases h : e.NA = true <;> simp [h, LogicalElem.na]

omit [Float64 F] in
theorem naFlags_length_of_atomic (a : Obj F) (ha : a.isAtomic = true) :
    a.naFlags.length = a.Len := by
  cases a <;> simp [Obj.isAtomic] at ha <;> simp [Obj.naFlags, Obj.Len]

theorem numericOp_arith (op : TokenType) (hop : op ∈ arithOps) (x y : F) :
    ∃ r, numericOp op x y = some r := by
  simp only [arithOps, List.mem_cons, List.mem_singleton, List.not_mem_nil, or_false] at hop
  rcases hop with h | h | h | h | h | h | h <;> subst h <;> exact ⟨_, rfl⟩

/-- One iteration of the arithmetic loop on non-empty operands. -/
theorem numericStep_spec (op : TokenType) (hop : op ∈ arithOps) (av bv : List (FloatElem F))
    (i : Nat) (hx : 0 < av.length) (hy : 0 < bv.length) :
    ∃ ae be y, av[i % av.length]? = some ae ∧ bv[i % bv.length]? = some be ∧
      numericStep op av bv i = .ok y ∧
      ((ae.NA = true ∨ be.NA = true) → y.NA = true) ∧
      (ae.NA = false → be.NA = false →
        ∃ r, numericOp op ae.Val be.Val = some r ∧ y = ⟨r, false⟩) := by
  obtain ⟨ae, be, h1, h2, h3⟩ := recycle_fetch av bv i hx hy (fun ae be =>
    if ae.NA || be.NA then Res.ok FloatElem.na
    else
      match numericOp op ae.Val be.Val with
      | some r => Res.ok ⟨r, false⟩
      | none => Res.errorf ("unsupported numeric op " ++ op.text))
  obtain ⟨r, hr⟩ := numericOp_arith op hop ae.Val be.Val
  by_cases hna : (ae.NA || be.NA) = true
  · refine ⟨ae, be, FloatElem.na, h1, h2, ?_, fun _ => rfl, ?_⟩
    · unfold numericStep
      rw [h3, if_pos hna]
    · intro ha hb
      simp [ha, hb] at hna
  · refine ⟨ae, be, ⟨r, false⟩, h1, h2, ?_, ?_, fun _ _ => ⟨r, hr, rfl⟩⟩
    · unfold numericStep
      rw [h3, if_neg hna, hr]
    · intro h
      simp only [Bool.or_eq_true, not_or] at hna
      rcases h with h | h
      · exact absurd h hna.1
      · exact absurd h hna.2

theorem arith_ne_colon (op : TokenType) (hop : op ∈ arithOps) : op ≠ .COLON := by
  intro h
  subst h
  simp [arithOps] at hop

/-- The arithmetic loop of `evalNumericBinary` on non-empty numeric operands. -/
theorem evalNumericBinary_loop (op : TokenType) (hop : op ∈ arithOps) (a b : Obj F)
    (ha : a.isNumeric = true) (hb : b.isNumeric = true) (hL : 1 ≤ a.Len) (hR : 1 ≤ b.Len) :
    ∃ av bv out, asDoubleVec a = .ok av ∧ asDoubleVec b = .ok bv ∧
      av.length = a.Len ∧ bv.length = b.Len ∧
      av.map (·.NA) = a.naFlags ∧ bv.map (·.NA) = b.naFlags ∧
      evalNumericBinary op a b = .ok (.DoubleVec out []) ∧
      out.length = max a.Len b.Len ∧
      ∀ i, i < max a.Len b.Len → ∃ ae be y, av[i % a.Len]? = some ae ∧
        bv[i % b.Len]? = some be ∧ out[i]? = some y ∧
        ((ae.NA = true ∨ be.NA = true) → y.NA = true) ∧
        (ae.NA = false → be.NA = false →
          ∃ r, numericOp op ae.Val be.Val = some r ∧ y = ⟨r, false⟩) := by
  obtain ⟨av, hav, hal, hana⟩ := asDoubleVec_numeric a ha
  obtain ⟨bv, hbv, hbl, hbna⟩ := asDoubleVec_numeric b hb
  have hx : 0 < av.length := by omega
  have hy : 0 < bv.length := by omega
  obtain ⟨out, hout, hlen, hel⟩ := forEachIndex_spec (numericStep op av bv)
    (fun i y => ∃ ae be, av[i % av.length]? = some ae ∧ bv[i % bv.length]? = some be ∧
      ((ae.NA = true ∨ be.NA = true) → y.NA = true) ∧
      (ae.NA = false → be.NA = false → ∃ r, numericOp op ae.Val be.Val = some r ∧ y = ⟨r, false⟩))
    (max av.length bv.length) 0
    (fun i _ _ => by
      obtain ⟨ae, be, y, h1, h2, h3, h4, h5⟩ := numericStep_spec op hop av bv i hx hy
      exact ⟨y, h3, ae, be, h1, h2, h4, h5⟩)
  refine ⟨av, bv, out, hav, hbv, hal, hbl, hana, hbna, ?_, by rw [hlen, hal, hbl], ?_⟩
  · unfold evalNumericBinary
    rw [if_neg (arith_ne_colon op hop), hav, hbv]
    simp only [Res.bind_ok]
    rw [if_neg (by omega), hout]
    rfl
  · intro i hi
    rw [← hal, ← hbl] at hi
    obtain ⟨y, hy1, ae, be, h1, h2, h4, h5⟩ := hel i hi
    rw [Nat.zero_add] at h1 h2
    rw [hal] at h1
    rw [hbl] at h2
    exact ⟨ae, be, y, h1, h2, hy1, h4, h5⟩

/-- A recycling loop whose every iteration yields NA when one of the fetched
elements is NA propagates NA. -/
theorem na_loop {α β γ : Type} (step : Nat → Res γ) (xs : List α) (ys : List β)
    (naX : α → Bool) (naY : β → Bool) (naOut : γ → Bool)
    (hstep : ∀ i, ∃ ae be y, xs[i % xs.length]? = some ae ∧ ys[i % ys.length]? = some be ∧
      step i = .ok y ∧ ((naX ae = true ∨ naY be = true) → naOut y = true)) :
    ∃ out, forEachIndex step (max xs.length ys.length) 0 = .ok out ∧
      NAPropagates (xs.map naX) (ys.map naY) (out.map naOut) := by
  obtain ⟨out, hout, hlen, hel⟩ := forEachIndex_spec step
    (fun i y => ∃ ae be, xs[i % xs.length]? = some ae ∧ ys[i % ys.length]? = some be ∧
      ((naX ae = true ∨ naY be = true) → naOut y = true))
    (max xs.length ys.length) 0
    (fun i _ _ => by
      obtain ⟨ae, be, y, h1, h2, h3, h4⟩ := hstep i
      exact ⟨y, h3, ae, be, h1, h2, h4⟩)
  refine ⟨out, hout, by simp [hlen], ?_⟩
  intro i hi hor
  simp only [List.length_map] at hi hor
  obtain ⟨y, hy, ae, be, h1, h2, h4⟩ := hel i (by omega)
  rw [Nat.zero_add] at h1 h2
  simp only [List.getElem?_map, h1, h2, Option.map_some', Option.some.injEq] at hor
  simp only [List.getElem?_map, hy, Option.map_some', Option.some.injEq]
  exact h4 hor

/-- A comparison step: fetch the recycled elements, NA if one is NA. -/
theorem compare_step_spec {α : Type} (na : α → Bool) (val : α → α → Bool) (xs ys : List α)
    (i : Nat) (hx : 0 < xs.length) (hy : 0 < ys.length) :
    ∃ ae be y, xs[i % xs.length]? = some ae ∧ ys[i % ys.length]? = some be ∧
      ((goMod i xs.length).bind fun ia => (goIndex xs ia).bind fun ae =>
        (goMod i ys.length).bind fun ib => (goIndex ys ib).bind fun be =>
          if na ae || na be then Res.ok LogicalElem.na else Res.ok ⟨val ae be, false⟩) = .ok y ∧
      ((na ae = true ∨ na be = true) → y.NA = true) := by
  obtain ⟨ae, be, h1, h2, h3⟩ := recycle_fetch xs ys i hx hy (fun ae be =>
    if na ae || na be then Res.ok LogicalElem.na else Res.ok ⟨val ae be, false⟩)
  by_cases hna : (na ae || na be) = true
  · exact ⟨ae, be, LogicalElem.na, h1, h2, by rw [h3, if_pos hna], fun _ => rfl⟩
  · refine ⟨ae, be, ⟨val ae be, false⟩, h1, h2, by rw [h3, if_neg hna], ?_⟩
    intro h
    simp only [Bool.or_eq_true, not_or] at hna
    rcases h with h | h
    · exact absurd h hna.1
    · exact absurd h hna.2

omit [Float64 F] in
theorem not_character_of_numeric (a : Obj F) (ha : a.isNumeric = true) :
    a.Type ≠ "character" := by
  cases a <;> simp [Obj.isNumeric] at ha <;> simp [Obj.Type]

omit [Float64 F] in
theorem numeric_or_char_of_atomic (a : Obj F) (ha : a.isAtomic = true) :
    a.isNumeric = true ∨ a.Type = "character" := by
  cases a <;> simp [Obj.isAtomic] at ha <;> simp [Obj.isNumeric, Obj.Type]

/-- The character path of `evalCompare` propagates NA. -/
theorem evalCompare_char (op : TokenType) (a b : Obj F)
    (ha : a.isAtomic = true) (hb : b.isAtomic = true) (hL : 1 ≤ a.Len) (hR : 1 ≤ b.Len)
    (hc : a.Type = "character" ∨ b.Type = "character") :
    ∃ out, evalCompare op a b = .ok (.LogicalVec out []) ∧
      NAPropagates a.naFlags b.naFlags (out.map (·.NA)) := by
  obtain ⟨ac, hac, hal, hana⟩ := asCharVec_atomic a ha
  obtain ⟨bc, hbc, hbl, hbna⟩ := asCharVec_atomic b hb
  obtain ⟨out, hout, hprop⟩ := na_loop (compareCharStep op ac bc) ac bc (·.NA) (·.NA) (·.NA)
    (fun i => compare_step_spec (fun e : StringElem => e.NA)
      (fun ae be => compareOp op
        (if ae.Val < be.Val then -1 else if be.Val < ae.Val then 1 else 0) (ae.Val == be.Val))
      ac bc i (by omega) (by omega))
  refine ⟨out, ?_, by rw [← hana, ← hbna]; exact hprop⟩
  unfold evalCompare
  rw [if_pos hc, hac, hbc]
  simp only [Res.bind_ok]
  rw [hout]
  rfl

/-- The numeric path of `evalCompare` propagates NA. -/
theorem evalCompare_numeric (op : TokenType) (a b : Obj F)
    (ha : a.isNumeric = true) (hb : b.isNumeric = true) (hL : 1 ≤ a.Len) (hR : 1 ≤ b.Len) :
    ∃ out, evalCompare op a b = .ok (.LogicalVec out []) ∧
      NAPropagates a.naFlags b.naFlags (out.map (·.NA)) := by
  obtain ⟨av, hav, hal, hana⟩ := asDoubleVec_numeric a ha
  obtain ⟨bv, hbv, hbl, hbna⟩ := asDoubleVec_numeric b hb
  obtain ⟨out, hout, hprop⟩ := na_loop (compareNumStep op av bv) av bv (·.NA) (·.NA) (·.NA)
    (fun i => compare_step_spec (fun e : FloatElem F => e.NA)
      (fun ae be => compareOp op
        (if Float64.lt ae.Val be.Val then -1 else if Float64.lt be.Val ae.Val then 1 else 0)
        (Float64.eq ae.Val be.Val))
      av bv i (by omega) (by omega))
  refine ⟨out, ?_, by rw [← hana, ← hbna]; exact hprop⟩
  unfold evalCompare
  rw [if_neg (by
    intro h
    rcases h with h | h
    · exact not_character_of_numeric a ha h
    · exact not_character_of_numeric b hb h), hav]
  simp only [hbv, Res.bind_ok]
  rw [hout]
  rfl

/-- The logical fallback of `evalCompare` propagates NA. -/
theorem evalCompareLogical_na (op : TokenType) (a b : Obj F) (err : Err)
    (ha : a.isNumeric = true) (hb : b.isNumeric = true) (hL : 1 ≤ a.Len) (hR : 1 ≤ b.Len) :
    ∃ out, evalCompareLogical op a b err = .ok (.LogicalVec out []) ∧
      NAPropagates a.naFlags b.naFlags (out.map (·.NA)) := by
  obtain ⟨lv, hlv, hal, hana⟩ := asLogicalVec_numeric a ha
  obtain ⟨rv, hrv, hbl, hbna⟩ := asLogicalVec_numeric b hb
  obtain ⟨out, hout, hprop⟩ := na_loop (compareLogicalStep op lv rv) lv rv (·.NA) (·.NA) (·.NA)
    (fun i => compare_step_spec (fun e : LogicalElem => e.NA)
      (fun ae be => compareOp op
        (if !ae.Val && be.Val then -1 else if ae.Val && !be.Val then 1 else 0)
        (ae.Val == be.Val))
      lv rv i (by omega) (by omega))
  refine ⟨out, ?_, by rw [← hana, ← hbna]; exact hprop⟩
  unfold evalCompareLogical
  rw [hlv]
  simp only [hrv, Res.bind_ok]
  rw [hout]
  rfl

/-- One iteration of the loop of `evalLogicalVector` on non-empty operands is
three-valued conjunction or disjunction of the fetched elements. -/
theorem logicalStep_spec (av bv : List LogicalElem) (i : Nat)
    (hx : 0 < av.length) (hy : 0 < bv.length) :
    ∃ ae be, av[i % av.length]? = some ae ∧ bv[i % bv.length]? = some be ∧
      (∃ y, logicalStep .AND av bv i = .ok y ∧ y.toOption = kleeneAnd ae.toOption be.toOption) ∧
      (∃ y, logicalStep .OR av bv i = .ok y ∧ y.toOption = kleeneOr ae.toOption be.toOption) := by
  have h1 : i % av.length < av.length := Nat.mod_lt _ hx
  have h2 : i % bv.length < bv.length := Nat.mod_lt _ hy
  refine ⟨av.get ⟨_, h1⟩, bv.get ⟨_, h2⟩, by simp [List.getElem?_eq_getElem h1],
    by simp [List.getElem?_eq_getElem h2], ?_, ?_⟩
  · unfold logicalStep
    rw [goMod_pos i _ hx, Res.bind_ok, goIndex_lt av _ h1, Res.bind_ok, goMod_pos i _ hy,
      Res.bind_ok, goIndex_lt bv _ h2, Res.bind_ok]
    rcases av.get ⟨_, h1⟩ with ⟨va, na⟩
    rcases bv.get ⟨_, h2⟩ with ⟨vb, nb⟩
    cases va <;> cases na <;> cases vb <;> cases nb <;> exact ⟨_, rfl, rfl⟩
  · unfold logicalStep
    rw [goMod_pos i _ hx, Res.bind_ok, goIndex_lt av _ h1, Res.bind_ok, goMod_pos i _ hy,
      Res.bind_ok, goIndex_lt bv _ h2, Res.bind_ok]
    rcases av.get ⟨_, h1⟩ with ⟨va, na⟩
    rcases bv.get ⟨_, h2⟩ with ⟨vb, nb⟩
    cases va <;> cases na <;> cases vb <;> cases nb <;> exact ⟨_, rfl, rfl⟩

/-- The loop of `evalLogicalVector` for one of the two operators. -/
theorem evalLogicalVector_loop (op : TokenType) (k : Option Bool → Option Bool → Option Bool)
    (a b : Obj F) (av bv : List LogicalElem)
    (ha : asLogicalVec a = .ok av) (hb : asLogicalVec b = .ok bv)
    (hstep : ∀ i, ∃ ae be y, av[i % av.length]? = some ae ∧ bv[i % bv.length]? = some be ∧
      logicalStep op av bv i = .ok y ∧ y.toOption = k ae.toOption be.toOption) :
    ∃ out, evalLogicalVector op a b = .ok (.LogicalVec out []) ∧
      out.length = max av.length bv.length ∧
      ∀ i, i < max av.length bv.length → ∃ ae be y, av[i % av.length]? = some ae ∧
        bv[i % bv.length]? = some be ∧ out[i]? = some y ∧
        y.toOption = k ae.toOption be.toOption := by
  obtain ⟨out, hout, hlen, hel⟩ := forEachIndex_spec (logicalStep op av bv)
    (fun i y => ∃ ae be, av[i % av.length]? = some ae ∧ bv[i % bv.length]? = some be ∧
      y.toOption = k ae.toOption be.toOption)
    (max av.length bv.length) 0
    (fun i _ _ => by
      obtain ⟨ae, be, y, h1, h2, h3, h4⟩ := hstep i
      exact ⟨y, h3, ae, be, h1, h2, h4⟩)
  refine ⟨out, ?_, hlen, ?_⟩
  · unfold evalLogicalVector
    rw [ha, hb]
    simp only [Res.bind_ok]
    rw [hout]
    rfl
  · intro i hi
    obtain ⟨y, hy, ae, be, h1, h2, h4⟩ := hel i hi
    rw [Nat.zero_add] at h1 h2
    exact ⟨ae, be, y, h1, h2, hy, h4⟩

end PureTheorems

/-! ### Claims on the vectorised operators -/

section OperatorClaims

variable {F : Type} [Float64 F]

/-- The elements of `asDoubleVec` are the numbers of the vector. -/
theorem asDoubleVec_numberAt (a : Obj F) (av : List (FloatElem F)) (j : Nat) (ae : FloatElem F)
    (x : F) (hav : asDoubleVec a = .ok av) (hj : av[j]? = some ae)
    (hx : Obj.numberAt a j = some x) : ae.NA = false ∧ ae.Val = x := by
  cases a with
  | DoubleVec d t =>
    simp only [asDoubleVec, Res.ok.injEq] at hav
    subst hav
    simp only [Obj.numberAt, List.get?_eq_getElem?, hj, Option.some_bind] at hx
    by_cases hna : ae.NA = true
    · simp [hna] at hx
    · simp only [hna, Bool.false_eq_true, if_false, Option.some.injEq] at hx
      exact ⟨by simpa using hna, hx⟩
  | IntVec d t =>
    simp only [asDoubleVec, Res.ok.injEq] at hav
    subst hav
    rw [List.getElem?_map] at hj
    cases hd : d[j]? with
    | none => simp [hd] at hj
    | some e =>
      simp only [hd, Option.map_some', Option.some.injEq] at hj
      simp only [Obj.numberAt, List.get?_eq_getElem?, hd, Option.some_bind] at hx
      by_cases hna : e.NA = true
      · simp [hna] at hx
      · simp only [hna, Bool.false_eq_true, if_false, Option.some.injEq] at hx hj
        subst hj
        exact ⟨rfl, hx⟩
  | LogicalVec d t =>
    simp only [asDoubleVec, Res.ok.injEq] at hav
    subst hav
    rw [List.getElem?_map] at hj
    cases hd : d[j]? with
    | none => simp [hd] at hj
    | some e =>
      simp only [hd, Option.map_some', Option.some.injEq] at hj
      simp only [Obj.numberAt, List.get?_eq_getElem?, hd, Option.some_bind] at hx
      by_cases hna : e.NA = true
      · simp [hna] at hx
      · simp only [hna, Bool.false_eq_true, if_false, Option.some.injEq] at hx hj
        subst hj
        by_cases hv : e.Val = true
        · simp only [hv, if_true] at hx ⊢
          exact ⟨trivial, hx⟩
        · simp only [hv, Bool.false_eq_true, if_false] at hx ⊢
          exact ⟨trivial, hx⟩
  | _ => simp [Obj.numberAt] at hx

/-- C1: for every arithmetic operator among `+ - * / ^ %% %/%` and numeric
(logical, integer or double) operands of lengths `L ≥ 1` and `R ≥ 1`,
`evalNumericBinary` returns a double vector of length `max L R`; whenever the
elements `i mod L` of the left and `i mod R` of the right operand are not NA,
element `i` of the result is not NA and is the sum, the difference, the
product, the quotient, the power, the remainder (`math.Mod`) or the floor of
the quotient of these two numbers, according to the operator. -/
theorem evalNumericBinary_recycles (op : TokenType) (a b : Obj F)
    (hop : op ∈ arithOps) (ha : a.isNumeric = true) (hb : b.isNumeric = true)
    (hL : 1 ≤ a.Len) (hR : 1 ≤ b.Len) :
    ∃ out, evalNumericBinary op a b = .ok (.DoubleVec out []) ∧
      out.length = max a.Len b.Len ∧
      ∀ i x y, i < max a.Len b.Len → Obj.numberAt a (i % a.Len) = some x →
        Obj.numberAt b (i % b.Len) = some y →
        (op = .PLUS → out[i]? = some ⟨Float64.add x y, false⟩) ∧
        (op = .MINUS → out[i]? = some ⟨Float64.sub x y, false⟩) ∧
        (op = .STAR → out[i]? = some ⟨Float64.mul x y, false⟩) ∧
        (op = .SLASH → out[i]? = some ⟨Float64.div x y, false⟩) ∧
        (op = .CARET → out[i]? = some ⟨Float64.pow x y, false⟩) ∧
        (op = .MOD → out[i]? = some ⟨Float64.fmod x y, false⟩) ∧
        (op = .INTDIV → out[i]? = some ⟨Float64.floor (Float64.div x y), false⟩) := by
  obtain ⟨av, bv, out, hav, hbv, _, _, _, _, hev, hlen, hel⟩ :=
    evalNumericBinary_loop op hop a b ha hb hL hR
  refine ⟨out, hev, hlen, ?_⟩
  intro i x y hi hx hy
  obtain ⟨ae, be, z, h1, h2, h3, _, h5⟩ := hel i hi
  obtain ⟨hna, hxv⟩ := asDoubleVec_numberAt a av _ ae x hav h1 hx
  obtain ⟨hnb, hyv⟩ := asDoubleVec_numberAt b bv _ be y hbv h2 hy
  obtain ⟨r, hr, hz⟩ := h5 hna hnb
  rw [hxv, hyv] at hr
  rw [h3, hz]
  refine ⟨?_, ?_, ?_, ?_, ?_, ?_, ?_⟩ <;> intro h <;> subst h <;>
    simp only [numericOp, Option.some.injEq] at hr <;> rw [hr]

/-- C1 at `c(1L, 2L, 3L) + c(10)` over the whole-number carrier: the result
is 11 12 13; `c(7, -7) %/% c(TRUE, NA)` is 7 NA; and the numbers that the
statement reads from an integer, a double and a logical vector. -/
theorem evalNumericBinary_recycles_witness :
    (TokenType.PLUS ∈ arithOps ∧
      (Obj.IntVec [⟨1, false⟩, ⟨2, false⟩, ⟨3, false⟩] [] : Obj Whole).isNumeric = true ∧
      (Obj.DoubleVec [⟨⟨10⟩, false⟩] [] : Obj Whole).isNumeric = true ∧
      1 ≤ (Obj.IntVec [⟨1, false⟩, ⟨2, false⟩, ⟨3, false⟩] [] : Obj Whole).Len ∧
      1 ≤ (Obj.DoubleVec [⟨⟨10⟩, false⟩] [] : Obj Whole).Len) ∧
    (∃ out,
      evalNumericBinary .PLUS (Obj.IntVec [⟨1, false⟩, ⟨2, false⟩, ⟨3, false⟩] [] : Obj Whole)
        (Obj.DoubleVec [⟨⟨10⟩, false⟩] []) = .ok (.DoubleVec out []) ∧
      out.length = max 3 1 ∧
      ∀ i x y, i < max 3 1 →
        Obj.numberAt (Obj.IntVec [⟨1, false⟩, ⟨2, false⟩, ⟨3, false⟩] [] : Obj Whole) (i % 3) =
          some x →
        Obj.numberAt (Obj.DoubleVec [⟨⟨10⟩, false⟩] [] : Obj Whole) (i % 1) = some y →
        out[i]? = some ⟨Float64.add x y, false⟩) ∧
    evalNumericBinary .PLUS (Obj.IntVec [⟨1, false⟩, ⟨2, false⟩, ⟨3, false⟩] [] : Obj Whole)
      (Obj.DoubleVec [⟨⟨10⟩, false⟩] []) =
        .ok (.DoubleVec [⟨⟨11⟩, false⟩, ⟨⟨12⟩, false⟩, ⟨⟨13⟩, false⟩] []) ∧
    evalNumericBinary .INTDIV (Obj.DoubleVec [⟨(⟨7⟩ : Whole), false⟩, ⟨⟨-7⟩, false⟩] [])
      (Obj.LogicalVec [⟨true, false⟩, ⟨true, true⟩] []) =
        .ok (.DoubleVec [⟨⟨7⟩, false⟩, FloatElem.na] []) ∧
    Obj.numberAt (Obj.IntVec [⟨1, false⟩, ⟨2, false⟩, ⟨3, false⟩] [] : Obj Whole) 1 = some ⟨2⟩ ∧
    Obj.numberAt (Obj.DoubleVec [⟨⟨10⟩, false⟩] [] : Obj Whole) 0 = some ⟨10⟩ ∧
    Obj.numberAt (Obj.LogicalVec [⟨true, false⟩, ⟨true, true⟩] [] : Obj Whole) 0 = some ⟨1⟩ ∧
    Obj.numberAt (Obj.LogicalVec [⟨true, false⟩, ⟨true, true⟩] [] : Obj Whole) 1 = none :=
  ⟨⟨by decide, rfl, rfl, by decide, by decide⟩,
    (by
      obtain ⟨out, h1, h2, h3⟩ := evalNumericBinary_recycles .PLUS
        (Obj.IntVec [⟨1, false⟩, ⟨2, false⟩, ⟨3, false⟩] [] : Obj Whole)
        (Obj.DoubleVec [⟨⟨10⟩, false⟩] []) (by decide) rfl rfl (by decide) (by decide)
      exact ⟨out, h1, h2, fun i x y hi hx hy => (h3 i x y hi hx hy).1 rfl⟩),
    rfl, rfl, rfl, rfl, rfl, rfl⟩

/-- C2: for every arithmetic and every comparison operator and atomic operands
of lengths `≥ 1`, element `i` of the result is NA whenever the recycled element
of the left or of the right operand is NA: in `evalNumericBinary`, in
`evalCompare` (which takes the character path when an operand is character and
the numeric path otherwise) and in the logical fallback of `evalCompare`. -/
theorem na_propagates (a b : Obj F)
    (ha : a.isAtomic = true) (hb : b.isAtomic = true) (hL : 1 ≤ a.Len) (hR : 1 ≤ b.Len) :
    (∀ op, op ∈ arithOps → a.isNumeric = true → b.isNumeric = true →
      ∃ out, evalNumericBinary op a b = .ok (.DoubleVec out []) ∧
        NAPropagates a.naFlags b.naFlags (out.map (·.NA))) ∧
    (∀ op, op ∈ compareOps →
      ∃ out, evalCompare op a b = .ok (.LogicalVec out []) ∧
        NAPropagates a.naFlags b.naFlags (out.map (·.NA))) ∧
    (∀ op, op ∈ compareOps → ∀ err, a.isNumeric = true → b.isNumeric = true →
      ∃ out, evalCompareLogical op a b err = .ok (.LogicalVec out []) ∧
        NAPropagates a.naFlags b.naFlags (out.map (·.NA))) := by
  refine ⟨?_, ?_, ?_⟩
  · intro op hop han hbn
    obtain ⟨av, bv, out, _, _, hal, hbl, hana, hbna, hev, hlen, hel⟩ :=
      evalNumericBinary_loop op hop a b han hbn hL hR
    refine ⟨out, hev, ?_, ?_⟩
    · simp [hlen, ← hana, ← hbna, hal, hbl]
    · intro i hi hor
      simp only [List.length_map] at hi
      obtain ⟨ae, be, y, h1, h2, h3, h4, _⟩ := hel i (by omega)
      rw [← hana, ← hbna] at hor
      simp only [List.length_map, hal, hbl, List.getElem?_map, h1, h2, Option.map_some',
        Option.some.injEq] at hor
      simp only [List.getElem?_map, h3, Option.map_some', Option.some.injEq]
      exact h4 hor
  · intro op _
    rcases numeric_or_char_of_atomic a ha with han | hac
    · rcases numeric_or_char_of_atomic b hb with hbn | hbc
      · exact evalCompare_numeric op a b han hbn hL hR
      · exact evalCompare_char op a b ha hb hL hR (Or.inr hbc)
    · exact evalCompare_char op a b ha hb hL hR (Or.inl hac)
  · intro op _ err han hbn
    exact evalCompareLogical_na op a b err han hbn hL hR

/-- C2 at `c(NA, "x") < c(1L, 2L, 3L)` over the whole-number carrier. -/
theorem na_propagates_witness :
    ((Obj.CharVec [StringElem.na, ⟨"x", false⟩] [] : Obj Whole).isAtomic = true ∧
      (Obj.IntVec [⟨1, false⟩, ⟨2, false⟩, ⟨3, false⟩] [] : Obj Whole).isAtomic = true ∧
      1 ≤ (Obj.CharVec [StringElem.na, ⟨"x", false⟩] [] : Obj Whole).Len ∧
      1 ≤ (Obj.IntVec [⟨1, false⟩, ⟨2, false⟩, ⟨3, false⟩] [] : Obj Whole).Len) ∧
    ∃ out, evalCompare .LT (Obj.CharVec [StringElem.na, ⟨"x", false⟩] [] : Obj Whole)
        (Obj.IntVec [⟨1, false⟩, ⟨2, false⟩, ⟨3, false⟩] []) = .ok (.LogicalVec out []) ∧
      NAPropagates [true, false] [false, false, false] (out.map (·.NA)) :=
  ⟨⟨rfl, rfl, by decide, by decide⟩,
    (na_propagates (Obj.CharVec [StringElem.na, ⟨"x", false⟩] [] : Obj Whole)
      (Obj.IntVec [⟨1, false⟩, ⟨2, false⟩, ⟨3, false⟩] []) rfl rfl (by decide)
      (by decide)).2.1 .LT (by decide)⟩

/-- C3: `evalLogicalVector` computes, elementwise with modular recycling over
operands of length `≥ 1`, three-valued conjunction for `&` and disjunction for
`|` (`kleeneAnd`, `kleeneOr`); `c(TRUE, NA, FALSE) | c(FALSE, FALSE, NA)` is
`TRUE NA NA`; and on scalars `NA & FALSE = FALSE`, `NA & TRUE = NA`,
`NA & NA = NA`, `NA | TRUE = TRUE`, `NA | FALSE = NA`, `NA | NA = NA`. -/
theorem evalLogicalVector_kleene (a b : Obj F) (av bv : List LogicalElem)
    (ha : asLogicalVec a = .ok av) (hb : asLogicalVec b = .ok bv)
    (hL : 1 ≤ av.length) (hR : 1 ≤ bv.length) :
    (∃ out, evalLogicalVector .AND a b = .ok (.LogicalVec out []) ∧
      out.length = max av.length bv.length ∧
      ∀ i, i < max av.length bv.length → ∃ ae be y, av[i % av.length]? = some ae ∧
        bv[i % bv.length]? = some be ∧ out[i]? = some y ∧
        y.toOption = kleeneAnd ae.toOption be.toOption) ∧
    (∃ out, evalLogicalVector .OR a b = .ok (.LogicalVec out []) ∧
      out.length = max av.length bv.length ∧
      ∀ i, i < max av.length bv.length → ∃ ae be y, av[i % av.length]? = some ae ∧
        bv[i % bv.length]? = some be ∧ out[i]? = some y ∧
        y.toOption = kleeneOr ae.toOption be.toOption) ∧
    evalLogicalVector .OR
        (Obj.LogicalVec [⟨true, false⟩, LogicalElem.na, ⟨false, false⟩] [] : Obj F)
        (Obj.LogicalVec [⟨false, false⟩, ⟨false, false⟩, LogicalElem.na] []) =
      .ok (.LogicalVec [⟨true, false⟩, LogicalElem.na, LogicalElem.na] []) ∧
    (evalLogicalVector .AND (LogicalNA : Obj F) (LogicalScalar false) =
        .ok (LogicalScalar false) ∧
      evalLogicalVector .AND (LogicalNA : Obj F) (LogicalScalar true) = .ok LogicalNA ∧
      evalLogicalVector .AND (LogicalNA : Obj F) LogicalNA = .ok LogicalNA ∧
      evalLogicalVector .OR (LogicalNA : Obj F) (LogicalScalar true) = .ok (LogicalScalar true) ∧
      evalLogicalVector .OR (LogicalNA : Obj F) (LogicalScalar false) = .ok LogicalNA ∧
      evalLogicalVector .OR (LogicalNA : Obj F) LogicalNA = .ok LogicalNA) := by
  refine ⟨?_, ?_, rfl, rfl, rfl, rfl, rfl, rfl, rfl⟩
  · apply evalLogicalVector_loop .AND kleeneAnd a b av bv ha hb
    intro i
    obtain ⟨ae, be, h1, h2, ⟨y, hy, hk⟩, _⟩ := logicalStep_spec av bv i (by omega) (by omega)
    exact ⟨ae, be, y, h1, h2, hy, hk⟩
  · apply evalLogicalVector_loop .OR kleeneOr a b av bv ha hb
    intro i
    obtain ⟨ae, be, h1, h2, _, ⟨y, hy, hk⟩⟩ := logicalStep_spec av bv i (by omega) (by omega)
    exact ⟨ae, be, y, h1, h2, hy, hk⟩

/-- C3 at `c(NA, TRUE) & c(FALSE)` over the whole-number carrier. -/
theorem evalLogicalVector_kleene_witness :
    (asLogicalVec (Obj.LogicalVec [LogicalElem.na, ⟨true, false⟩] [] : Obj Whole) =
        .ok [LogicalElem.na, ⟨true, false⟩] ∧
      asLogicalVec (Obj.IntVec [⟨0, false⟩] [] : Obj Whole) = .ok [⟨false, false⟩] ∧
      1 ≤ [LogicalElem.na, (⟨true, false⟩ : LogicalElem)].length ∧
      1 ≤ [(⟨false, false⟩ : LogicalElem)].length) ∧
    ∃ out, evalLogicalVector .AND (Obj.LogicalVec [LogicalElem.na, ⟨true, false⟩] [] : Obj Whole)
        (Obj.IntVec [⟨0, false⟩] []) = .ok (.LogicalVec out []) ∧ out.length = 2 :=
  ⟨⟨rfl, rfl, by decide, by decide⟩,
    let h := (evalLogicalVector_kleene
      (Obj.LogicalVec [LogicalElem.na, ⟨true, false⟩] [] : Obj Whole)
      (Obj.IntVec [⟨0, false⟩] []) [LogicalElem.na, ⟨true, false⟩] [⟨false, false⟩]
      rfl rfl (by decide) (by decide)).1
    h.elim fun out ho => ⟨out, ho.1, ho.2.1⟩⟩

/-- C5 at its failing inputs. With an empty left operand and a right operand
of length one (`c() + 1`), `max` of the lengths is `1`, so the loop of
`evalNumericBinary` runs and takes `0 % 0`, a runtime panic, where the claim
has a length-0 result. The program `x <- 1; x[0] + 1` reaches it through
`Eval`. -/
theorem evalNumericBinary_empty_operand_panics :
    (∀ (F : Type) [Float64 F],
      evalNumericBinary .PLUS (Obj.LogicalVec [] [] : Obj F) (Obj.IntVec [⟨1, false⟩] []) =
        .panic "integer divide by zero") ∧
    (Eval (F := Whole) noBuiltins 6 0
      (.BlockExpr [
        .AssignExpr .ASSIGN_LEFT (.Ident "x") (.NumberLit "1" ⟨1⟩ true),
        .BinaryExpr .PLUS (.IndexExpr (.Ident "x") (.NumberLit "0" ⟨0⟩ true) false)
          (.NumberLit "1" ⟨1⟩ true)])
      ⟨[], [⟨none, []⟩], "", Arrays.initial⟩).1 = .panic "integer divide by zero" :=
  ⟨fun _ _ => rfl, rfl⟩

end OperatorClaims

/-! ### Subset and `order` -/

section SubsetTheorems

variable {F : Type} [Float64 F]

theorem normalizeIndexInt_pos (d : List IntElem) (n : Nat)
    (h : ∀ e, e ∈ d → e.NA = false ∧ 1 ≤ e.Val) :
    normalizeIndexInt d n = .ok (d.map (fun e => e.Val - 1), d.map (fun _ => false)) := by
  have hneg : (d.any fun e => !e.NA && decide (e.Val < 0)) = false := by
    rw [List.any_eq_false]
    intro e he
    obtain ⟨h1, h2⟩ := h e he
    simp only [h1, Bool.not_false, Bool.true_and, decide_eq_true_eq]
    omega
  have hk : (d.filter fun e => e.NA || e.Val != 0) = d := by
    rw [List.filter_eq_self]
    intro e he
    obtain ⟨h1, h2⟩ := h e he
    simp only [h1, Bool.false_or, bne_iff_ne, ne_eq]
    omega
  unfold normalizeIndexInt
  simp only [hneg, Bool.false_and, hk]
  refine congrArg Res.ok (Prod.ext ?_ ?_)
  · apply List.map_congr_left
    intro e he
    simp [(h e he).1]
  · apply List.map_congr_left
    intro e he
    simp [(h e he).1]

theorem pickElems_inrange {α : Type} (na : α) (data : List α) (d : List IntElem)
    (h : ∀ e, e ∈ d → 1 ≤ e.Val ∧ e.Val ≤ (data.length : Int)) :
    pickElems na data (d.map (fun e => e.Val - 1)) (d.map (fun _ => false)) =
      d.map (fun e => data.getD (e.Val - 1).toNat na) := by
  unfold pickElems
  rw [List.zip_map', List.map_map]
  apply List.map_congr_left
  intro e he
  obtain ⟨h1, h2⟩ := h e he
  have h3 : ¬ (e.Val - 1 < 0 ∨ e.Val - 1 ≥ (data.length : Int)) := by omega
  simp only [Function.comp_apply, Bool.false_eq_true, if_false, if_neg h3]

/-- A single-bracket read of an atomic vector with positive in-range integer
positions selects the elements at those positions. -/
theorem subset_positive (names : Option (Obj F)) (x : Obj F) (hx : x.isAtomic = true)
    (q : List IntElem) (qa : Attrs)
    (h : ∀ e, e ∈ q → e.NA = false ∧ 1 ≤ e.Val ∧ e.Val ≤ (x.Len : Int)) :
    subset names x (.IntVec q qa) false =
      .ok (.fresh (x.selectAt (q.map fun e => (e.Val - 1).toNat))) := by
  have hn := normalizeIndexInt_pos q x.Len (fun e he => ⟨(h e he).1, (h e he).2.1⟩)
  cases x <;> simp [Obj.isAtomic] at hx
  all_goals
    simp only [Obj.Len] at h hn
    simp only [subset, subsetAtomic, normalizeIndex, Obj.Len, hn, Bool.false_eq_true, if_false,
      Res.bind_ok, Obj.selectAt]
    rw [pickElems_inrange _ _ q (fun e he => (h e he).2), List.map_map]
    rfl

theorem selectAt_range (x : Obj F) (hx : x.isAtomic = true) :
    x.selectAt (List.range x.Len) = x.dropAttrs := by
  have key : ∀ {α : Type} (na : α) (d : List α),
      (List.range d.length).map (fun j => d.getD j na) = d := by
    intro α na d
    apply List.ext_getElem
    · simp
    · intro i h1 h2
      simp only [List.length_map, List.length_range] at h1
      simp [List.getElem?_eq_getElem h1]
  cases x <;> simp [Obj.isAtomic] at hx <;> simp only [Obj.selectAt, Obj.dropAttrs, Obj.Len, key]

theorem selectAt_selectAt (x : Obj F) (hx : x.isAtomic = true) (l1 l2 : List Nat)
    (h : ∀ j, j ∈ l2 → j < l1.length) :
    (x.selectAt l1).selectAt l2 = x.selectAt (l2.map fun j => l1.getD j 0) := by
  have key : ∀ {α : Type} (na : α) (d : List α),
      l2.map (fun j => (l1.map fun i => d.getD i na).getD j na) =
        (l2.map fun j => l1.getD j 0).map (fun i => d.getD i na) := by
    intro α na d
    rw [List.map_map]
    apply List.map_congr_left
    intro j hj
    have hj' := h j hj
    simp [List.getD_eq_getElem _ _ hj', List.getD_eq_getElem?_getD, hj']
  cases x <;> simp [Obj.isAtomic] at hx <;> simp only [Obj.selectAt, key]

theorem selectAt_isAtomic (x : Obj F) (hx : x.isAtomic = true) (l : List Nat) :
    (x.selectAt l).isAtomic = true ∧ (x.selectAt l).Len = l.length := by
  cases x <;> simp [Obj.isAtomic] at hx <;> simp [Obj.selectAt, Obj.isAtomic, Obj.Len]

theorem oneTo_mem (n : Nat) (v : Int) : v ∈ oneTo n ↔ 1 ≤ v ∧ v ≤ n := by
  unfold oneTo
  simp only [List.mem_map, List.mem_range]
  constructor
  · rintro ⟨k, hk, rfl⟩
    omega
  · intro h
    exact ⟨(v - 1).toNat, by omega, by omega⟩

theorem oneTo_sorted (n : Nat) : (oneTo n).Sorted (· ≤ ·) := by
  unfold oneTo
  apply List.pairwise_map.mpr
  exact (List.pairwise_lt_range n).imp (fun h => by omega)

theorem oneTo_pred (n : Nat) : (oneTo n).map (fun v => (v - 1).toNat) = List.range n := by
  unfold oneTo
  rw [List.map_map]
  have : ((fun v : Int => (v - 1).toNat) ∘ fun k : Nat => (k : Int) + 1) = id := by
    funext k
    simp
  rw [this, List.map_id]

/-- On a permutation of `1..n` the comparison of `order` is the comparison of
the integer keys, provided the conversion to float64 keeps their order. -/
theorem orderLess_perm (p : List IntElem) (n : Nat)
    (hna : ∀ e, e ∈ p → e.NA = false)
    (hrange : ∀ e, e ∈ p → 1 ≤ e.Val ∧ e.Val ≤ (n : Int))
    (hlt : ∀ a b : Int, 1 ≤ a → a ≤ n → 1 ≤ b → b ≤ n →
      Float64.lt (Float64.ofInt a : F) (Float64.ofInt b) = decide (a < b))
    (a b : Nat) (ha : a < p.length) (hb : b < p.length) :
    orderLess false (p.map fun e => if e.NA then (FloatElem.na : FloatElem F)
        else ⟨Float64.ofInt e.Val, false⟩) a b =
      decide ((p.getD a ⟨0, false⟩).Val < (p.getD b ⟨0, false⟩).Val) := by
  have hma : p[a] ∈ p := List.getElem_mem ha
  have hmb : p[b] ∈ p := List.getElem_mem hb
  unfold orderLess
  simp only [List.get?_eq_getElem?, List.getElem?_map, List.getElem?_eq_getElem ha,
    List.getElem?_eq_getElem hb, Option.map_some', hna _ hma, hna _ hmb, Bool.false_eq_true,
    if_false, Bool.and_self, List.getD_eq_getElem _ _ ha, List.getD_eq_getElem _ _ hb]
  exact hlt _ _ (hrange _ hma).1 (hrange _ hma).2 (hrange _ hmb).1 (hrange _ hmb).2

/-- `order` of a permutation `p` of `1..n` lists the positions of `1, 2, ..., n`
in `p`: the keys read through its result are `1..n`. -/
theorem order_perm_keys (S : SortSlice) (p : List IntElem) (n : Nat)
    (hna : ∀ e, e ∈ p → e.NA = false)
    (hperm : (p.map (·.Val)).Perm (oneTo n))
    (hlt : ∀ a b : Int, 1 ≤ a → a ≤ n → 1 ≤ b → b ≤ n →
      Float64.lt (Float64.ofInt a : F) (Float64.ofInt b) = decide (a < b)) :
    (S.sort (orderLess false (p.map fun e => if e.NA then (FloatElem.na : FloatElem F)
        else ⟨Float64.ofInt e.Val, false⟩)) (List.range p.length)).map
      (fun j => (p.getD j ⟨0, false⟩).Val) = oneTo n := by
  have hrange : ∀ e, e ∈ p → 1 ≤ e.Val ∧ e.Val ≤ (n : Int) := by
    intro e he
    exact (oneTo_mem n e.Val).mp (hperm.mem_iff.mp (List.mem_map_of_mem _ he))
  have hless := orderLess_perm p n hna hrange hlt
  have hsw : StrictWeakOn (orderLess false (p.map fun e =>
      if e.NA then (FloatElem.na : FloatElem F) else ⟨Float64.ofInt e.Val, false⟩))
      (List.range p.length) := by
    refine ⟨?_, ?_, ?_⟩
    · intro a ha
      rw [hless a a (List.mem_range.mp ha) (List.mem_range.mp ha)]
      simp
    · intro a b c ha hb hc
      rw [hless a b (List.mem_range.mp ha) (List.mem_range.mp hb),
        hless b c (List.mem_range.mp hb) (List.mem_range.mp hc),
        hless a c (List.mem_range.mp ha) (List.mem_range.mp hc)]
      simp only [decide_eq_true_eq]
      omega
    · intro a b c ha hb hc
      rw [hless a b (List.mem_range.mp ha) (List.mem_range.mp hb),
        hless b a (List.mem_range.mp hb) (List.mem_range.mp ha),
        hless b c (List.mem_range.mp hb) (List.mem_range.mp hc),
        hless c b (List.mem_range.mp hc) (List.mem_range.mp hb),
        hless a c (List.mem_range.mp ha) (List.mem_range.mp hc),
        hless c a (List.mem_range.mp hc) (List.mem_range.mp ha)]
      simp only [decide_eq_false_iff_not]
      omega
  have hsorted := S.sorted _ _ hsw
  have hp := S.perm (orderLess false (p.map fun e =>
      if e.NA then (FloatElem.na : FloatElem F) else ⟨Float64.ofInt e.Val, false⟩))
      (List.range p.length)
  apply List.eq_of_perm_of_sorted (r := (· ≤ ·))
  · refine ((hp.map _).trans ?_).trans hperm
    have : (List.range p.length).map (fun j => (p.getD j ⟨0, false⟩).Val) = p.map (·.Val) := by
      apply List.ext_getElem
      · simp
      · intro i h1 h2
        simp only [List.length_map, List.length_range] at h1
        simp [List.getElem?_eq_getElem h1]
    rw [this]
  · apply List.pairwise_map.mpr
    refine (List.Pairwise.and_mem.mp hsorted).imp ?_
    intro a b h
    obtain ⟨ha, hb, hab⟩ := h
    have ha' := List.mem_range.mp (hp.mem_iff.mp ha)
    have hb' := List.mem_range.mp (hp.mem_iff.mp hb)
    rw [hless b a hb' ha'] at hab
    simp only [decide_eq_false_iff_not] at hab
    omega
  · exact oneTo_sorted n

/-- C6: for every atomic vector `x` of length `n` and every integer vector `p`
that is a permutation of `1..n`, the reads `x[p]` and then `[order(p)]` succeed
and give a vector of the type of `x` with the elements of `x` in the same
order (the result carries no attributes). `sort.Slice` enters by its contract
(`SortSlice`), and float64 by the assumption that converting the integers
`1..n` keeps their order. -/
theorem subset_order_inverse (S : SortSlice) (names : Option (Obj F)) (x : Obj F)
    (p : List IntElem) (pa : Attrs)
    (hx : x.isAtomic = true) (hna : ∀ e, e ∈ p → e.NA = false)
    (hperm : (p.map (·.Val)).Perm (oneTo x.Len))
    (hlt : ∀ a b : Int, 1 ≤ a → a ≤ x.Len → 1 ≤ b → b ≤ x.Len →
      Float64.lt (Float64.ofInt a : F) (Float64.ofInt b) = decide (a < b)) :
    ∃ xp ord r, subset names x (.IntVec p pa) false = .ok (.fresh xp) ∧
      builtinOrder S (.IntVec p pa) false = .ok ord ∧
      subset none xp ord false = .ok (.fresh r) ∧
      r = x.dropAttrs := by
  have hrange : ∀ e, e ∈ p → 1 ≤ e.Val ∧ e.Val ≤ (x.Len : Int) := by
    intro e he
    exact (oneTo_mem x.Len e.Val).mp (hperm.mem_iff.mp (List.mem_map_of_mem _ he))
  have hlen : p.length = x.Len := by
    have := hperm.length_eq
    simpa [oneTo] using this
  have hkeys := order_perm_keys S p x.Len hna hperm hlt
  have hp := S.perm (orderLess false (p.map fun e =>
      if e.NA then (FloatElem.na : FloatElem F) else ⟨Float64.ofInt e.Val, false⟩))
      (List.range p.length)
  generalize hidx : S.sort (orderLess false (p.map fun e =>
      if e.NA then (FloatElem.na : FloatElem F) else ⟨Float64.ofInt e.Val, false⟩))
      (List.range p.length) = indices at hkeys hp
  have hmem : ∀ j, j ∈ indices → j < p.length := fun j hj => List.mem_range.mp (hp.mem_iff.mp hj)
  have hat := selectAt_isAtomic x hx (p.map fun e => (e.Val - 1).toNat)
  refine ⟨x.selectAt (p.map fun e => (e.Val - 1).toNat),
    .IntVec (indices.map fun idx => ⟨((idx + 1 : Nat) : Int), false⟩) [], x.dropAttrs,
    subset_positive names x hx p pa (fun e he => ⟨hna e he, hrange e he⟩), ?_, ?_, rfl⟩
  · simp only [builtinOrder, asDoubleVec, Res.bind_ok, List.length_map, hidx]
  · have h2 := subset_positive none (x.selectAt (p.map fun e => (e.Val - 1).toNat)) hat.1
      (indices.map fun idx => ⟨((idx + 1 : Nat) : Int), false⟩) [] (by
        intro e he
        obtain ⟨j, hj, rfl⟩ := List.mem_map.mp he
        have := hmem j hj
        rw [hat.2, List.length_map]
        refine ⟨rfl, ?_, ?_⟩
        · show (1 : Int) ≤ ((j + 1 : Nat) : Int)
          omega
        · show ((j + 1 : Nat) : Int) ≤ (p.length : Int)
          omega)
    rw [h2]
    have hl2 : (indices.map fun idx => (⟨((idx + 1 : Nat) : Int), false⟩ : IntElem)).map
        (fun e => (e.Val - 1).toNat) = indices := by
      rw [List.map_map]
      have : ((fun e : IntElem => (e.Val - 1).toNat) ∘
          fun idx : Nat => (⟨((idx + 1 : Nat) : Int), false⟩ : IntElem)) = id := by
        funext k
        simp
      rw [this, List.map_id]
    rw [hl2, selectAt_selectAt x hx _ _ (by
      intro j hj
      rw [List.length_map]
      exact hmem j hj)]
    have hcomp : (indices.map fun j => (p.map fun e => (e.Val - 1).toNat).getD j 0) =
        List.range x.Len := by
      rw [← oneTo_pred x.Len, ← hkeys, List.map_map]
      apply List.map_congr_left
      intro j hj
      have hj' := hmem j hj
      simp [List.getD_eq_getElem?_getD, List.getElem?_eq_getElem hj']
    rw [hcomp, selectAt_range x hx]

/-- C6 at `x = c("a", "b", "c")`, `p = c(3L, 1L, 2L)`, with insertion sort for
`sort.Slice` and the whole-number carrier. -/
theorem subset_order_inverse_witness :
    ((Obj.CharVec [⟨"a", false⟩, ⟨"b", false⟩, ⟨"c", false⟩] [] : Obj Whole).isAtomic = true ∧
      (∀ e, e ∈ [(⟨3, false⟩ : IntElem), ⟨1, false⟩, ⟨2, false⟩] → e.NA = false) ∧
      ([(⟨3, false⟩ : IntElem), ⟨1, false⟩, ⟨2, false⟩].map (·.Val)).Perm (oneTo 3)) ∧
    ∃ xp ord r,
      subset none (Obj.CharVec [⟨"a", false⟩, ⟨"b", false⟩, ⟨"c", false⟩] [] : Obj Whole)
        (.IntVec [⟨3, false⟩, ⟨1, false⟩, ⟨2, false⟩] []) false = .ok (.fresh xp) ∧
      builtinOrder insertionSortSlice
        (Obj.IntVec [⟨3, false⟩, ⟨1, false⟩, ⟨2, false⟩] [] : Obj Whole) false = .ok ord ∧
      subset none xp ord false = .ok (.fresh r) ∧
      r = Obj.CharVec [⟨"a", false⟩, ⟨"b", false⟩, ⟨"c", false⟩] [] :=
  ⟨⟨rfl, by decide, by decide⟩,
    subset_order_inverse insertionSortSlice none
      (Obj.CharVec [⟨"a", false⟩, ⟨"b", false⟩, ⟨"c", false⟩] [] : Obj Whole)
      [⟨3, false⟩, ⟨1, false⟩, ⟨2, false⟩] [] rfl (by decide) (by decide)
      (fun _ _ _ _ _ _ => rfl)⟩

end SubsetTheorems

/-! ### Environments -/

section EnvTheorems

variable {F : Type}

theorem mapGet_mapSet_same (m : List (String × Ptr)) (k : String) (v : Ptr) :
    mapGet (mapSet m k v) k = some v := by
  induction m with
  | nil => simp [mapSet, mapGet]
  | cons kv rest ih =>
    obtain ⟨k', v'⟩ := kv
    by_cases h : k' = k
    · simp [mapSet, mapGet, h]
    · simp [mapSet, mapGet, h, ih]

theorem mapGet_mapSet_other (m : List (String × Ptr)) (k k2 : String) (v : Ptr) (h : k2 ≠ k) :
    mapGet (mapSet m k v) k2 = mapGet m k2 := by
  induction m with
  | nil => simp [mapSet, mapGet, Ne.symm h]
  | cons kv rest ih =>
    obtain ⟨k', v'⟩ := kv
    by_cases h1 : k' = k
    · subst h1
      simp [mapSet, mapGet, Ne.symm h]
    · by_cases h2 : k' = k2
      · subst h2
        simp [mapSet, mapGet, h1]
      · simp [mapSet, mapGet, h1, h2, ih]

/-- `setVar` touches one binding of one frame and nothing else. -/
theorem setVar_frame (st : Store F) (t : Nat) (name : String) (v : Ptr)
    (ht : t < st.envs.length) :
    (st.setVar t name v).objs = st.objs ∧ (st.setVar t name v).output = st.output ∧
    (st.setVar t name v).envs.length = st.envs.length ∧
    (∀ i, i ≠ t → (st.setVar t name v).envs.get? i = st.envs.get? i) ∧
    ∃ fr fr', st.envs.get? t = some fr ∧ (st.setVar t name v).envs.get? t = some fr' ∧
      fr'.parent = fr.parent ∧ mapGet fr'.vars name = some v ∧
      ∀ n, n ≠ name → mapGet fr'.vars n = mapGet fr.vars n := by
  refine ⟨rfl, rfl, by simp [Store.setVar], ?_, ?_⟩
  · intro i hi
    simp only [Store.setVar, List.get?_eq_getElem?]
    rw [List.getElem?_modify]
    simp [Ne.symm hi]
  · refine ⟨st.envs[t], { st.envs[t] with vars := mapSet st.envs[t].vars name v },
      by simp [List.getElem?_eq_getElem ht], ?_, rfl, ?_, ?_⟩
    · simp only [Store.setVar, List.get?_eq_getElem?]
      rw [List.getElem?_modify]
      simp [List.getElem?_eq_getElem ht]
    · exact mapGet_mapSet_same _ _ _
    · intro n hn
      exact mapGet_mapSet_other _ _ _ _ hn

/-- The upward search of `AssignSuper` from frame `s`: it finds the nearest
frame binding `name`, or reports that none on the chain does. -/
theorem findDefining_spec (envs : List Env) (name : String) (hwf : Env.WellFormed envs) :
    ∀ fuel s, s < envs.length → s + 2 ≤ fuel →
      (∃ k d, Env.findDefining envs name fuel (some s) = .ok (some d) ∧
        Env.ancestor envs k s = some d ∧ Env.bindsName envs d name ∧
        ∀ j a, j < k → Env.ancestor envs j s = some a → ¬ Env.bindsName envs a name) ∨
      (Env.findDefining envs name fuel (some s) = .ok none ∧
        ∀ j a, Env.ancestor envs j s = some a → ¬ Env.bindsName envs a name) := by
  intro fuel
  induction fuel with
  | zero => intro s _ h; omega
  | succ f ih =>
    intro s hs hf
    have hget' : envs[s]? = some envs[s] := List.getElem?_eq_getElem hs
    have hget : envs.get? s = some envs[s] := by simp [hget']
    by_cases hb : (mapGet envs[s].vars name).isSome = true
    · left
      refine ⟨0, s, ?_, rfl, ⟨_, hget, hb⟩, fun j a hj => absurd hj (Nat.not_lt_zero j)⟩
      simp [Env.findDefining, hget', hb]
    · have hnb : ¬ Env.bindsName envs s name := by
        rintro ⟨fr, h1, h2⟩
        rw [hget] at h1
        cases h1
        exact hb h2
      cases hp : envs[s].parent with
      | none =>
        right
        have hf1 : f = (f - 1) + 1 := by omega
        refine ⟨?_, ?_⟩
        · rw [hf1]
          simp [Env.findDefining, hget', hb, hp]
        · intro j a hja
          cases j with
          | zero =>
            simp only [Env.ancestor, Option.some.injEq] at hja
            subst hja
            exact hnb
          | succ j =>
            simp [Env.ancestor, Env.parentOf, hget', hp] at hja
      | some p =>
        have hlt : p < s := hwf s _ p hget hp
        have hstep : Env.findDefining envs name (f + 1) (some s) =
            Env.findDefining envs name f (some p) := by
          have hf1 : f = (f - 1) + 1 := by omega
          simp [Env.findDefining, hget', hb, hp]
        have hanc : ∀ j, Env.ancestor envs (j + 1) s = Env.ancestor envs j p := by
          intro j
          simp [Env.ancestor, Env.parentOf, hget', hp]
        rcases ih p (by omega) (by omega) with ⟨k, d, h1, h2, h3, h4⟩ | ⟨h1, h2⟩
        · left
          refine ⟨k + 1, d, by rw [hstep, h1], by rw [hanc, h2], h3, ?_⟩
          intro j a hj hja
          cases j with
          | zero =>
            simp only [Env.ancestor, Option.some.injEq] at hja
            subst hja
            exact hnb
          | succ j =>
            rw [hanc] at hja
            exact h4 j a (by omega) hja
        · right
          refine ⟨by rw [hstep, h1], ?_⟩
          intro j a hja
          cases j with
          | zero =>
            simp only [Env.ancestor, Option.some.injEq] at hja
            subst hja
            exact hnb
          | succ j =>
            rw [hanc] at hja
            exact h2 j a hja

/-- The walk of `AssignSuper` to the topmost frame. -/
theorem top_spec (envs : List Env) (hwf : Env.WellFormed envs) :
    ∀ fuel s, s < envs.length → s + 1 ≤ fuel →
      ∃ k t, Env.top envs fuel s = .ok t ∧ Env.ancestor envs k s = some t ∧
        Env.parentOf envs t = none ∧ t < envs.length := by
  intro fuel
  induction fuel with
  | zero => intro s _ h; omega
  | succ f ih =>
    intro s hs hf
    have hget' : envs[s]? = some envs[s] := List.getElem?_eq_getElem hs
    have hget : envs.get? s = some envs[s] := by simp [hget']
    cases hp : envs[s].parent with
    | none =>
      refine ⟨0, s, by simp [Env.top, hget', hp], rfl, by simp [Env.parentOf, hget', hp], hs⟩
    | some p =>
      have hlt : p < s := hwf s _ p hget hp
      obtain ⟨k, t, h1, h2, h3, h4⟩ := ih p (by omega) (by omega)
      refine ⟨k + 1, t, by simp [Env.top, hget', hp, h1], ?_, h3, h4⟩
      simp [Env.ancestor, Env.parentOf, hget', hp, h2]

theorem ancestor_lt_length (envs : List Env) (hwf : Env.WellFormed envs) :
    ∀ k s d, s < envs.length → Env.ancestor envs k s = some d → d < envs.length := by
  intro k
  induction k with
  | zero =>
    intro s d hs h
    simp only [Env.ancestor, Option.some.injEq] at h
    omega
  | succ k ih =>
    intro s d hs h
    have hget' : envs[s]? = some envs[s] := List.getElem?_eq_getElem hs
    have hget : envs.get? s = some envs[s] := by simp [hget']
    cases hp : envs[s].parent with
    | none => simp [Env.ancestor, Env.parentOf, hget', hp] at h
    | some p =>
      have hlt : p < s := hwf s _ p hget hp
      simp only [Env.ancestor, Env.parentOf, hget, hp, Option.some_bind] at h
      exact ih p d (by omega) h

/-- C8: `Env.AssignSuper(name, v)` on frame `e` (in a store whose parent
pointers are well formed) writes `v` under `name` into one frame `t` and
changes no other frame, no other name and no object. The frame `t` is the
nearest proper ancestor of `e` that binds `name`; if no proper ancestor binds
`name`, it is the topmost frame of the chain of `e`. When `e` has no parent the
effect is that of `Env.Assign(name, v)` on `e`. -/
theorem assignSuper_locality (st : Store F) (e : Nat) (name : String) (v : Ptr)
    (hwf : Env.WellFormed st.envs) (he : e < st.envs.length) :
    (∃ t, t < st.envs.length ∧ Env.AssignSuper st e name v = .ok (st.setVar t name v) ∧
      ((∃ k, 1 ≤ k ∧ Env.ancestor st.envs k e = some t ∧ Env.bindsName st.envs t name ∧
          ∀ j a, 1 ≤ j → j < k → Env.ancestor st.envs j e = some a →
            ¬ Env.bindsName st.envs a name) ∨
        ((∀ j a, 1 ≤ j → Env.ancestor st.envs j e = some a → ¬ Env.bindsName st.envs a name) ∧
          (∃ k, Env.ancestor st.envs k e = some t) ∧ Env.parentOf st.envs t = none)) ∧
      (st.setVar t name v).objs = st.objs ∧ (st.setVar t name v).output = st.output ∧
      (st.setVar t name v).envs.length = st.envs.length ∧
      (∀ i, i ≠ t → (st.setVar t name v).envs.get? i = st.envs.get? i) ∧
      ∃ fr fr', st.envs.get? t = some fr ∧ (st.setVar t name v).envs.get? t = some fr' ∧
        fr'.parent = fr.parent ∧ mapGet fr'.vars name = some v ∧
        ∀ n, n ≠ name → mapGet fr'.vars n = mapGet fr.vars n) ∧
    (Env.parentOf st.envs e = none →
      Env.AssignSuper st e name v = .ok (Env.Assign st e name v)) := by
  have hget' : st.envs[e]? = some st.envs[e] := List.getElem?_eq_getElem he
  have hget : st.envs.get? e = some st.envs[e] := by simp [hget']
  have hanc : ∀ p, st.envs[e].parent = some p →
      ∀ j, Env.ancestor st.envs (j + 1) e = Env.ancestor st.envs j p := by
    intro p hp j
    simp [Env.ancestor, Env.parentOf, hget', hp]
  have htop : ∀ hnone : Env.findDefining st.envs name (st.envs.length + 1) st.envs[e].parent =
      .ok none, ∃ k t, Env.AssignSuper st e name v = .ok (st.setVar t name v) ∧
        Env.ancestor st.envs k e = some t ∧ Env.parentOf st.envs t = none ∧
        t < st.envs.length := by
    intro hnone
    obtain ⟨k, t, h1, h2, h3, h4⟩ := top_spec st.envs hwf (st.envs.length + 1) e he (by omega)
    refine ⟨k, t, ?_, h2, h3, h4⟩
    unfold Env.AssignSuper
    rw [hget]
    simp only [hnone, Res.bind_ok, h1]
  refine ⟨?_, ?_⟩
  · cases hp : st.envs[e].parent with
    | none =>
      have hnone : Env.findDefining st.envs name (st.envs.length + 1) st.envs[e].parent =
          .ok none := by
        rw [hp]
        rfl
      obtain ⟨k, t, h1, h2, h3, h4⟩ := htop hnone
      refine ⟨t, h4, h1, Or.inr ⟨?_, ⟨k, h2⟩, h3⟩, setVar_frame st t name v h4⟩
      intro j a hj hja
      obtain ⟨j', rfl⟩ : ∃ j', j = j' + 1 := ⟨j - 1, by omega⟩
      simp [Env.ancestor, Env.parentOf, hget', hp] at hja
    | some p =>
      have hlt : p < e := hwf e _ p hget hp
      rcases findDefining_spec st.envs name hwf (st.envs.length + 1) p (by omega) (by omega)
        with ⟨k, d, h1, h2, h3, h4⟩ | ⟨h1, h2⟩
      · have hd : d < st.envs.length := ancestor_lt_length st.envs hwf k p d (by omega) h2
        refine ⟨d, hd, ?_, Or.inl ⟨k + 1, by omega, by rw [hanc p hp, h2], h3, ?_⟩,
          setVar_frame st d name v hd⟩
        · unfold Env.AssignSuper
          rw [hget]
          simp only [hp, h1, Res.bind_ok]
        · intro j a hj hjk hja
          obtain ⟨j', rfl⟩ : ∃ j', j = j' + 1 := ⟨j - 1, by omega⟩
          rw [hanc p hp] at hja
          exact h4 j' a (by omega) hja
      · obtain ⟨k, t, h3, h4, h5, h6⟩ := htop (by rw [hp]; exact h1)
        refine ⟨t, h6, h3, Or.inr ⟨?_, ⟨k, h4⟩, h5⟩, setVar_frame st t name v h6⟩
        intro j a hj hja
        obtain ⟨j', rfl⟩ : ∃ j', j = j' + 1 := ⟨j - 1, by omega⟩
        rw [hanc p hp] at hja
        exact h2 j' a hja
  · intro hpar
    have hp : st.envs[e].parent = none := by
      simpa [Env.parentOf, hget'] using hpar
    unfold Env.AssignSuper
    rw [hget]
    have hf : Env.findDefining st.envs name (st.envs.length + 1) st.envs[e].parent =
        .ok none := by
      rw [hp]
      rfl
    have ht : Env.top st.envs (st.envs.length + 1) e = .ok e := by
      simp [Env.top, hget', hp]
    simp only [hf, Res.bind_ok, ht]
    rfl

/-- C8 on the frames of `h <- function() { x <- 0; inc <- function() x <<- x+1;
inc() }`: the global frame `0`, the frame `1` of `h` binding `x`, and the frame
`2` of `inc`, from which `x` is super-assigned. -/
theorem assignSuper_locality_witness :
    (Env.WellFormed [⟨none, [("h", .addr 0)]⟩, ⟨some 0, [("x", .addr 1)]⟩, ⟨some 1, []⟩] ∧
      2 < [(⟨none, [("h", .addr 0)]⟩ : Env), ⟨some 0, [("x", .addr 1)]⟩, ⟨some 1, []⟩].length) ∧
    Env.AssignSuper
        (⟨[], [⟨none, [("h", .addr 0)]⟩, ⟨some 0, [("x", .addr 1)]⟩, ⟨some 1, []⟩], "", Arrays.initial⟩ :
          Store Whole) 2 "x" (.addr 7) =
      .ok ((⟨[], [⟨none, [("h", .addr 0)]⟩, ⟨some 0, [("x", .addr 1)]⟩, ⟨some 1, []⟩], "", Arrays.initial⟩ :
          Store Whole).setVar 1 "x" (.addr 7)) :=
  have hwf : Env.WellFormed
      [⟨none, [("h", .addr 0)]⟩, ⟨some 0, [("x", .addr 1)]⟩, ⟨some 1, []⟩] := by
    intro i fr p h1 h2
    match i, h1 with
    | 0, h1 =>
      simp only [List.get?_cons_zero, Option.some.injEq] at h1
      subst h1
      cases h2
    | 1, h1 =>
      simp only [List.get?_cons_succ, List.get?_cons_zero, Option.some.injEq] at h1
      subst h1
      cases h2
      decide
    | 2, h1 =>
      simp only [List.get?_cons_succ, List.get?_cons_zero, Option.some.injEq] at h1
      subst h1
      cases h2
      decide
    | n + 3, h1 => simp at h1
  ⟨⟨hwf, by decide⟩,
    (assignSuper_locality
      (⟨[], [⟨none, [("h", .addr 0)]⟩, ⟨some 0, [("x", .addr 1)]⟩, ⟨some 1, []⟩], "", Arrays.initial⟩ :
        Store Whole) 2 "x" (.addr 7) hwf (by decide)).1.elim fun t ht => by
      have h := ht.2.1
      rw [h]
      have : Env.AssignSuper
          (⟨[], [⟨none, [("h", .addr 0)]⟩, ⟨some 0, [("x", .addr 1)]⟩, ⟨some 1, []⟩], "", Arrays.initial⟩ :
            Store Whole) 2 "x" (.addr 7) =
          .ok ((⟨[], [⟨none, [("h", .addr 0)]⟩, ⟨some 0, [("x", .addr 1)]⟩, ⟨some 1, []⟩], "", Arrays.initial⟩ :
            Store Whole).setVar 1 "x" (.addr 7)) := by
        rfl
      rw [h] at this
      exact this⟩

end EnvTheorems

/-! ### Argument matching of `callClosure` -/

section MatchTheorems

variable {F : Type}

theorem nonDotsFrom_spec : ∀ (q : List (Param F)) (o : Nat),
    (nonDotsFrom q o = [] → (q.takeWhile fun p => p.Dots).length = q.length) ∧
    (∀ i r, nonDotsFrom q o = i :: r →
      i = o + (q.takeWhile fun p => p.Dots).length ∧ i - o < q.length ∧
      r = nonDotsFrom (q.drop (i - o + 1)) (i + 1)) := by
  intro q
  induction q with
  | nil =>
    intro o
    exact ⟨fun _ => rfl, fun i r h => by simp [nonDotsFrom] at h⟩
  | cons p ps ih =>
    intro o
    by_cases hd : p.Dots = true
    · obtain ⟨h1, h2⟩ := ih (o + 1)
      refine ⟨?_, ?_⟩
      · intro h
        simp only [nonDotsFrom, hd, if_true] at h
        simp [List.takeWhile, hd, h1 h]
      · intro i r h
        simp only [nonDotsFrom, hd, if_true] at h
        obtain ⟨e1, e2, e3⟩ := h2 i r h
        have hio : i - o = (i - (o + 1)) + 1 := by omega
        refine ⟨by simp [List.takeWhile, hd]; omega, by simp; omega, ?_⟩
        rw [hio, List.drop_succ_cons]
        exact e3
    · refine ⟨?_, ?_⟩
      · intro h
        simp [nonDotsFrom, hd] at h
      · intro i r h
        simp only [nonDotsFrom, hd, Bool.false_eq_true, if_false, List.cons.injEq] at h
        obtain ⟨rfl, rfl⟩ := h
        refine ⟨by simp [List.takeWhile, hd], by simp, ?_⟩
        simp

/-- The remaining non-dots positions are increasing and within the formals. -/
theorem nonDotsFrom_bounds : ∀ (q : List (Param F)) (o : Nat),
    (∀ i, i ∈ nonDotsFrom q o → o ≤ i ∧ i < o + q.length) ∧
    (nonDotsFrom q o).Pairwise (· < ·) := by
  intro q
  induction q with
  | nil => intro o; simp [nonDotsFrom]
  | cons p ps ih =>
    intro o
    obtain ⟨h1, h2⟩ := ih (o + 1)
    by_cases hd : p.Dots = true
    · simp only [nonDotsFrom, hd, if_true]
      refine ⟨fun i hi => ?_, h2⟩
      have := h1 i hi
      simp only [List.length_cons]
      omega
    · simp only [nonDotsFrom, hd, Bool.false_eq_true, if_false]
      refine ⟨?_, ?_⟩
      · intro i hi
        simp only [List.mem_cons, List.length_cons] at hi ⊢
        rcases hi with rfl | hi
        · omega
        · have := h1 i hi
          omega
      · refine List.Pairwise.cons ?_ h2
        intro i hi
        have := h1 i hi
        omega

/-- The skip loop of positional matching lands on the next non-dots formal. -/
theorem skipDots_spec (params : List (Param F)) (pos : Nat) (hpos : pos ≤ params.length) :
    (nonDotsFrom (params.drop pos) pos = [] → skipDots params pos = params.length) ∧
    (∀ i r, nonDotsFrom (params.drop pos) pos = i :: r →
      skipDots params pos = i ∧ i < params.length ∧ nonDotsFrom (params.drop (i + 1)) (i + 1) = r) := by
  obtain ⟨h1, h2⟩ := nonDotsFrom_spec (params.drop pos) pos
  refine ⟨?_, ?_⟩
  · intro h
    unfold skipDots
    rw [h1 h, List.length_drop]
    omega
  · intro i r h
    obtain ⟨e1, e2, e3⟩ := h2 i r h
    rw [List.length_drop] at e2
    refine ⟨by unfold skipDots; omega, by omega, ?_⟩
    rw [e3, List.drop_drop]
    congr 2
    omega

/-- Loop 1 of `callClosure`: the unnamed actuals fill the remaining non-dots
formals from left to right; the surplus goes to `...`, or is an error. -/
theorem matchPositional_spec (params : List (Param F)) :
    ∀ (args : List ArgValue) (s : MatchState), s.paramPos ≤ params.length →
      ((unnamedArgs args).length ≤ (nonDotsFrom (params.drop s.paramPos) s.paramPos).length ∨
          hasDots params = true →
        ∃ s', matchPositional params args s = .ok s' ∧
          s'.binds = fillBinds s.binds
            ((nonDotsFrom (params.drop s.paramPos) s.paramPos).zip (unnamedArgs args)) ∧
          s'.dotsArgs = s.dotsArgs ++ (unnamedArgs args).drop
            (nonDotsFrom (params.drop s.paramPos) s.paramPos).length) ∧
      (¬ ((unnamedArgs args).length ≤ (nonDotsFrom (params.drop s.paramPos) s.paramPos).length ∨
          hasDots params = true) →
        matchPositional params args s = Res.errorf "unused argument (positional)") := by
  intro args
  induction args with
  | nil =>
    intro s _
    refine ⟨fun _ => ⟨s, rfl, by simp [unnamedArgs, fillBinds], by simp [unnamedArgs]⟩, ?_⟩
    intro h
    simp [unnamedArgs] at h
  | cons a rest ih =>
    intro s hs
    by_cases hn : a.Name = ""
    · have hU : unnamedArgs (a :: rest) = a :: unnamedArgs rest := by
        simp [unnamedArgs, List.filter, hn]
      obtain ⟨k1, k2⟩ := skipDots_spec params s.paramPos hs
      cases hR : nonDotsFrom (params.drop s.paramPos) s.paramPos with
      | nil =>
        have hsk := k1 hR
        by_cases hd : hasDots params = true
        · have hstep : matchPositional params (a :: rest) s = matchPositional params rest
              { binds := s.binds, paramPos := params.length,
                dotsArgs := s.dotsArgs ++ [a] } := by
            simp [matchPositional, hn, hsk, hd]
          have hR' : nonDotsFrom (params.drop params.length) params.length = [] := by
            simp [nonDotsFrom]
          obtain ⟨i1, _⟩ := ih (⟨s.binds, params.length, s.dotsArgs ++ [a]⟩ : MatchState)
            (Nat.le_refl _)
          obtain ⟨s', e1, e2, e3⟩ := i1 (Or.inr hd)
          simp only [hR'] at e2 e3
          refine ⟨fun _ => ⟨s', by rw [hstep, e1], ?_, ?_⟩, fun h => absurd (Or.inr hd) h⟩
          · rw [e2]
            simp [fillBinds]
          · rw [e3, hU]
            simp
        · refine ⟨?_, ?_⟩
          · intro h
            rcases h with h | h
            · rw [hU] at h
              simp at h
            · exact absurd h hd
          · intro _
            simp [matchPositional, hn, hsk, hd]
      | cons i r =>
        obtain ⟨hsk, hi, hR'⟩ := k2 i r hR
        have hstep : matchPositional params (a :: rest) s = matchPositional params rest
            { binds := s.binds.set i (some a.Val), paramPos := i + 1,
              dotsArgs := s.dotsArgs } := by
          simp [matchPositional, hn, hsk, hi]
        obtain ⟨i1, i2⟩ := ih (⟨s.binds.set i (some a.Val), i + 1, s.dotsArgs⟩ : MatchState)
          (by simpa using hi)
        simp only [hR'] at i1 i2
        rw [hstep, hU]
        simp only [List.length_cons, Nat.add_le_add_iff_right, List.zip_cons_cons,
          List.drop_succ_cons]
        exact ⟨fun h => by
          obtain ⟨s', e1, e2, e3⟩ := i1 h
          exact ⟨s', e1, by rw [e2]; rfl, e3⟩, i2⟩
    · have hU : unnamedArgs (a :: rest) = unnamedArgs rest := by
        simp [unnamedArgs, List.filter, hn]
      have hstep : matchPositional params (a :: rest) s = matchPositional params rest s := by
        simp [matchPositional, hn]
      rw [hstep, hU]
      exact ih s hs

theorem fillBinds_length (pairs : List (Nat × ArgValue)) :
    ∀ b : List (Option Ptr), (fillBinds b pairs).length = b.length := by
  induction pairs with
  | nil => intro b; rfl
  | cons ia rest ih =>
    intro b
    show (fillBinds (b.set ia.1 (some ia.2.Val)) rest).length = b.length
    rw [ih, List.length_set]

theorem fillBinds_other (pairs : List (Nat × ArgValue)) :
    ∀ (b : List (Option Ptr)) (i : Nat), (∀ ia, ia ∈ pairs → ia.1 ≠ i) →
      (fillBinds b pairs)[i]? = b[i]? := by
  induction pairs with
  | nil => intro b i _; rfl
  | cons ia rest ih =>
    intro b i h
    show (fillBinds (b.set ia.1 (some ia.2.Val)) rest)[i]? = b[i]?
    rw [ih _ i (fun x hx => h x (List.mem_cons_of_mem _ hx))]
    exact List.getElem?_set_ne (h ia (List.mem_cons_self _ _))

/-- Filling along increasing positions puts the `j`-th actual at the `j`-th
position. -/
theorem fillBinds_zip : ∀ (R : List Nat) (U : List ArgValue) (b : List (Option Ptr)),
    R.Pairwise (· < ·) → (∀ i, i ∈ R → i < b.length) →
    (∀ (j i : Nat) (a : ArgValue), R[j]? = some i → U[j]? = some a →
      (fillBinds b (R.zip U))[i]? = some (some a.Val)) ∧
    (∀ i : Nat, (∀ j, j < U.length → R[j]? ≠ some i) → (fillBinds b (R.zip U))[i]? = b[i]?) := by
  intro R
  induction R with
  | nil =>
    intro U b _ _
    exact ⟨fun j i a h => by simp at h, fun i _ => by simp [fillBinds]⟩
  | cons i0 r ih =>
    intro U b hp hb
    cases U with
    | nil => exact ⟨fun j i a _ h => by simp at h, fun i _ => by simp [fillBinds]⟩
    | cons a0 u =>
      have hp' := List.pairwise_cons.mp hp
      obtain ⟨h1, h2⟩ := ih u (b.set i0 (some a0.Val)) hp'.2 (fun i hi => by
        rw [List.length_set]
        exact hb i (List.mem_cons_of_mem _ hi))
      have hfill : fillBinds b ((i0 :: r).zip (a0 :: u)) =
          fillBinds (b.set i0 (some a0.Val)) (r.zip u) := rfl
      rw [hfill]
      refine ⟨?_, ?_⟩
      · intro j i a hj ha
        cases j with
        | zero =>
          simp only [List.getElem?_cons_zero, Option.some.injEq] at hj ha
          subst hj
          subst ha
          rw [h2 i0 (fun j _ hj => by
            have hmem : i0 ∈ r := List.getElem?_mem hj
            exact absurd (hp'.1 i0 hmem) (Nat.lt_irrefl _))]
          exact List.getElem?_set_eq_of_lt _ (hb i0 (List.mem_cons_self _ _))
        | succ j =>
          simp only [List.getElem?_cons_succ] at hj ha
          exact h1 j i a hj ha
      · intro i hi
        rw [h2 i (fun j hj h => hi (j + 1) (by simp; omega) (by simpa using h))]
        have hne : i0 ≠ i := fun h => hi 0 (by simp) (by simp [h])
        exact List.getElem?_set_ne hne

theorem paramIndexFrom_bounds : ∀ (ps : List (Param F)) (o : Nat) (name : String) (i : Nat),
    paramIndexFrom ps o name = some i → o ≤ i ∧ i < o + ps.length := by
  intro ps
  induction ps with
  | nil => intro o name i h; simp [paramIndexFrom] at h
  | cons p rest ih =>
    intro o name i h
    simp only [paramIndexFrom] at h
    cases hr : paramIndexFrom rest (o + 1) name with
    | some j =>
      rw [hr] at h
      simp only [Option.some.injEq] at h
      subst h
      have := ih (o + 1) name j hr
      simp only [List.length_cons]
      omega
    | none =>
      rw [hr] at h
      by_cases hc : (!p.Dots && decide (p.Name = name)) = true
      · simp only [hc, if_true, Option.some.injEq] at h
        subst h
        simp
      · simp [hc] at h

/-- Loop 2 of `callClosure`: a named actual fills the formal of its name, which
must still be unfilled; a named actual matching no formal goes to `...`, or is
an error. Nothing else in the table changes. -/
theorem matchNamed_spec (params : List (Param F)) :
    ∀ (args : List ArgValue) (s s' : MatchState), matchNamed params args s = .ok s' →
      s'.binds.length = s.binds.length ∧
      (∀ (i : Nat) (v : Ptr), s.binds[i]? = some (some v) → s'.binds[i]? = some (some v)) ∧
      (∀ a, a ∈ args → a.Name ≠ "" → ∀ i : Nat, paramIndex params a.Name = some i →
        i < s.binds.length → s.binds[i]? = some none ∧ s'.binds[i]? = some (some a.Val)) ∧
      s'.dotsArgs = s.dotsArgs ++ unmatchedNamed params args ∧
      (hasDots params = false → unmatchedNamed params args = []) := by
  intro args
  induction args with
  | nil =>
    intro s s' h
    simp only [matchNamed, Res.ok.injEq] at h
    subst h
    exact ⟨rfl, fun _ _ h => h, fun a ha => by simp at ha, by simp [unmatchedNamed],
      fun _ => by simp [unmatchedNamed]⟩
  | cons a rest ih =>
    intro s s' h
    by_cases hn : a.Name = ""
    · have hstep : matchNamed params (a :: rest) s = matchNamed params rest s := by
        simp [matchNamed, hn]
      have hU : unmatchedNamed params (a :: rest) = unmatchedNamed params rest := by
        simp [unmatchedNamed, List.filter, hn]
      rw [hstep] at h
      obtain ⟨h1, h2, h3, h4, h5⟩ := ih s s' h
      refine ⟨h1, h2, ?_, by rw [hU]; exact h4, by rw [hU]; exact h5⟩
      intro a' ha' hn'
      rcases List.mem_cons.mp ha' with rfl | hmem
      · exact absurd hn hn'
      · exact h3 a' hmem hn'
    · cases hi : paramIndex params a.Name with
      | some idx =>
        have hU : unmatchedNamed params (a :: rest) = unmatchedNamed params rest := by
          simp [unmatchedNamed, List.filter, hn, hi]
        by_cases hset : (s.binds.getD idx none).isSome = true
        · simp only [matchNamed, hn, hi, hset, if_true, if_false, Res.errorf] at h
          cases h
        · have hstep : matchNamed params (a :: rest) s = matchNamed params rest
              { s with binds := s.binds.set idx (some a.Val) } := by
            simp only [matchNamed, hn, hi, hset, if_false]
            rfl
          rw [hstep] at h
          obtain ⟨h1, h2, h3, h4, h5⟩ := ih _ s' h
          simp only [List.length_set] at h1 h3
          have hnone : ∀ v, s.binds[idx]? ≠ some (some v) := by
            intro v hv
            apply hset
            simp [List.getD_eq_getElem?_getD, hv]
          refine ⟨h1, ?_, ?_, by rw [hU]; exact h4, by rw [hU]; exact h5⟩
          · intro i v hv
            apply h2
            have hne : idx ≠ i := by
              rintro rfl
              exact hnone v hv
            rw [List.getElem?_set_ne hne]
            exact hv
          · intro a' ha' hn' i hpi hlt
            rcases List.mem_cons.mp ha' with rfl | hmem
            · rw [hi] at hpi
              cases hpi
              refine ⟨?_, h2 idx a'.Val (List.getElem?_set_eq_of_lt _ hlt)⟩
              have hsome : s.binds[idx]? = some s.binds[idx] := List.getElem?_eq_getElem hlt
              cases hv : s.binds[idx] with
              | none => rw [hsome, hv]
              | some v =>
                rw [hv] at hsome
                exact absurd hsome (hnone v)
            · obtain ⟨e1, e2⟩ := h3 a' hmem hn' i hpi hlt
              refine ⟨?_, e2⟩
              have hne : idx ≠ i := by
                rintro rfl
                rw [List.getElem?_set_eq_of_lt _ hlt] at e1
                cases e1
              rw [List.getElem?_set_ne hne] at e1
              exact e1
      | none =>
        have hU : unmatchedNamed params (a :: rest) = a :: unmatchedNamed params rest := by
          simp [unmatchedNamed, List.filter, hn, hi]
        by_cases hd : hasDots params = true
        · have hstep : matchNamed params (a :: rest) s = matchNamed params rest
              { s with dotsArgs := s.dotsArgs ++ [a] } := by
            simp [matchNamed, hn, hi, hd]
          rw [hstep] at h
          obtain ⟨h1, h2, h3, h4, h5⟩ := ih _ s' h
          refine ⟨h1, h2, ?_, by rw [hU, h4]; simp, fun hf => by rw [hf] at hd; cases hd⟩
          intro a' ha' hn' i hpi hlt
          rcases List.mem_cons.mp ha' with rfl | hmem
          · rw [hi] at hpi
            cases hpi
          · exact h3 a' hmem hn' i hpi hlt
        · simp [matchNamed, hn, hi, hd, Res.errorf] at h

/-- The two matching loops together. -/
theorem matchArgs_spec (params : List (Param F)) (args : List ArgValue) (s : MatchState)
    (h : matchArgs params args = .ok s) :
    (∀ (j i : Nat) (a : ArgValue), (nonDots params)[j]? = some i →
      (unnamedArgs args)[j]? = some a → s.binds[i]? = some (some a.Val)) ∧
    (∀ a, a ∈ args → a.Name ≠ "" → ∀ i : Nat, paramIndex params a.Name = some i →
      s.binds[i]? = some (some a.Val) ∧
      ∀ j, j < (unnamedArgs args).length → (nonDots params)[j]? ≠ some i) ∧
    s.dotsArgs = (unnamedArgs args).drop (nonDots params).length ++ unmatchedNamed params args ∧
    (hasDots params = false →
      (unnamedArgs args).length ≤ (nonDots params).length ∧ unmatchedNamed params args = []) := by
  obtain ⟨p1, p2⟩ := matchPositional_spec params args
    ⟨List.replicate params.length none, 0, []⟩ (Nat.zero_le _)
  simp only [List.drop_zero] at p1 p2
  have hnd : nonDotsFrom params 0 = nonDots params := rfl
  rw [hnd] at p1 p2
  by_cases hC : (unnamedArgs args).length ≤ (nonDots params).length ∨ hasDots params = true
  · obtain ⟨s1, e1, e2, e3⟩ := p1 hC
    unfold matchArgs at h
    rw [e1, Res.bind_ok] at h
    obtain ⟨n1, n2, n3, n4, n5⟩ := matchNamed_spec params args s1 s h
    obtain ⟨b1, b2⟩ := nonDotsFrom_bounds params 0
    have hlen1 : s1.binds.length = params.length := by
      rw [e2, fillBinds_length, List.length_replicate]
    obtain ⟨f1, f2⟩ := fillBinds_zip (nonDots params) (unnamedArgs args)
      (List.replicate params.length none) b2 (fun i hi => by
        have := b1 i hi
        rw [List.length_replicate]
        omega)
    refine ⟨?_, ?_, ?_, ?_⟩
    · intro j i a hj ha
      apply n2
      rw [e2]
      exact f1 j i a hj ha
    · intro a ha hn i hpi
      have hi : i < params.length := by
        have := paramIndexFrom_bounds params 0 a.Name i hpi
        omega
      obtain ⟨q1, q2⟩ := n3 a ha hn i hpi (by omega)
      refine ⟨q2, ?_⟩
      intro j hj hjn
      have hu : (unnamedArgs args)[j]? = some (unnamedArgs args)[j] :=
        List.getElem?_eq_getElem hj
      have := f1 j i _ hjn hu
      rw [← e2, q1] at this
      cases this
    · rw [n4, e3]
      simp
    · intro hd
      refine ⟨?_, n5 hd⟩
      rcases hC with hC | hC
      · exact hC
      · rw [hd] at hC
        cases hC
  · unfold matchArgs at h
    rw [p2 hC] at h
    cases h

theorem matchNamed_total (params : List (Param F)) :
    ∀ (args : List ArgValue) (s : MatchState),
      (∃ s', matchNamed params args s = .ok s') ∨ (∃ e, matchNamed params args s = .error e) := by
  intro args
  induction args with
  | nil => intro s; exact Or.inl ⟨s, rfl⟩
  | cons a rest ih =>
    intro s
    by_cases hn : a.Name = ""
    · simp only [matchNamed, hn, if_true]
      exact ih s
    · cases hi : paramIndex params a.Name with
      | some idx =>
        by_cases hset : (s.binds.getD idx none).isSome = true
        · simp only [matchNamed, hn, hi, hset, if_true, if_false, Res.errorf]
          exact Or.inr ⟨_, rfl⟩
        · simp only [matchNamed, hn, hi, hset, if_false]
          exact ih _
      | none =>
        by_cases hd : hasDots params = true
        · simp only [matchNamed, hn, hi, hd, if_true, if_false]
          exact ih _
        · simp only [matchNamed, hn, hi, hd, if_false, Res.errorf]
          exact Or.inr ⟨_, rfl⟩

/-- Argument matching yields a table or an error; it does not panic. -/
theorem matchArgs_total (params : List (Param F)) (args : List ArgValue) :
    (∃ s, matchArgs params args = .ok s) ∨ (∃ e, matchArgs params args = .error e) := by
  obtain ⟨p1, p2⟩ := matchPositional_spec params args
    ⟨List.replicate params.length none, 0, []⟩ (Nat.zero_le _)
  by_cases hC : (unnamedArgs args).length ≤
      (nonDotsFrom (params.drop 0) 0).length ∨ hasDots params = true
  · obtain ⟨s1, e1, _, _⟩ := p1 hC
    unfold matchArgs
    rw [e1, Res.bind_ok]
    exact matchNamed_total params args s1
  · unfold matchArgs
    rw [p2 hC]
    exact Or.inr ⟨_, rfl⟩

/-- A failed match is the error of the call; the new frame stays unused. -/
theorem callClosure_error (ev : Evaluator F) (params : List (Param F)) (body : Expr F)
    (fenv : Nat) (args : List ArgValue) (st : Store F) (e : Err)
    (h : matchArgs params args = .error e) :
    callClosure ev params body fenv args st = (.error e, (st.newEnv (some fenv)).2) := by
  unfold callClosure
  simp only [h]

theorem modify_append_last {α : Type} (f : α → α) (l : List α) (x : α) :
    (l ++ [x]).modify f l.length = l ++ [f x] := by
  induction l with
  | nil => rfl
  | cons y ys ih => simp [List.modify_succ_cons, ih]

theorem bindParams_ok (callEnv : Nat) : ∀ (ps : List (Param F)) (bs : List (Option Ptr))
    (st : Store F), ∃ st1, bindParams callEnv ps bs st = (.ok (), st1) ∧
      st1.envs.length = st.envs.length := by
  intro ps
  induction ps with
  | nil => intro bs st; exact ⟨st, rfl, rfl⟩
  | cons p rest ih =>
    intro bs st
    by_cases hd : p.Dots = true
    · simp only [bindParams, hd, if_true]
      exact ih _ _
    · simp only [bindParams, hd, Bool.false_eq_true, if_false]
      cases hb : bs.head?.join with
      | some v =>
        obtain ⟨st1, e1, e2⟩ := ih bs.tail (Env.SetLocal st callEnv p.Name v)
        refine ⟨st1, ?_, by rw [e2]; simp [Env.SetLocal, Store.setVar]⟩
        simp only [M.bind, M.setLocal, e1]
      | none =>
        cases hdef : p.Default with
        | some d =>
          obtain ⟨st1, e1, e2⟩ := ih bs.tail (Env.SetLocal
            (st.alloc (.Promise d callEnv false .nil none)).2 callEnv p.Name
            (st.alloc (.Promise d callEnv false .nil none)).1)
          refine ⟨st1, ?_, by rw [e2]; simp [Env.SetLocal, Store.setVar, Store.alloc]⟩
          simp only [M.bind, M.setLocal, M.alloc, e1]
        | none =>
          obtain ⟨st1, e1, e2⟩ := ih bs.tail (Env.SetLocal st callEnv p.Name .MissingValue)
          refine ⟨st1, ?_, by rw [e2]; simp [Env.SetLocal, Store.setVar]⟩
          simp only [M.bind, M.setLocal, e1]

/-- With a `...` formal, a successful match binds `...` in the new frame to a
`Dots` object holding `dotsArgs`, and the body is evaluated there. -/
theorem callClosure_binds_dots (ev : Evaluator F) (params : List (Param F)) (body : Expr F)
    (fenv : Nat) (args : List ArgValue) (st : Store F) (s : MatchState)
    (h : matchArgs params args = .ok s) (hd : hasDots params = true) :
    ∃ st2 d, callClosure ev params body fenv args st =
        closureResult (ev st.envs.length body st2) ∧
      Env.GetLocal st2 st.envs.length "..." = .ok (some d) ∧
      st2.deref d = some (.Dots s.dotsArgs) := by
  obtain ⟨st1, e1, e2⟩ := bindParams_ok st.envs.length params s.binds (st.newEnv (some fenv)).2
  have hlen : st.envs.length < st1.envs.length := by
    rw [e2]
    simp [Store.newEnv]
  have hlen' : st.envs.length < (st1.alloc (Obj.Dots s.dotsArgs)).2.envs.length := hlen
  obtain ⟨_, _, _, _, fr, fr', _, g2, _, g4, _⟩ := setVar_frame
    (st1.alloc (Obj.Dots s.dotsArgs)).2 st.envs.length "..."
    (st1.alloc (Obj.Dots s.dotsArgs)).1 hlen'
  refine ⟨Env.SetLocal (st1.alloc (.Dots s.dotsArgs)).2 st.envs.length "..."
    (st1.alloc (.Dots s.dotsArgs)).1, (st1.alloc (.Dots s.dotsArgs)).1, ?_, ?_, ?_⟩
  · unfold callClosure
    simp only [h]
    have e1' : bindParams (st.newEnv (some fenv)).1 params s.binds (st.newEnv (some fenv)).2 =
        (.ok (), st1) := e1
    simp only [e1', hd, if_true]
    rfl
  · unfold Env.GetLocal Env.SetLocal
    rw [g2]
    simp only [g4]
  · simp [Env.SetLocal, Store.setVar, Store.alloc, Store.deref]

/-- C9, as the code has it: the unnamed actuals are matched first and fill the
non-dots formals from left to right (the `j`-th unnamed actual goes to the
`j`-th non-dots formal); the named actuals are matched afterwards to the formal
of the same name, which must not have been filled by an unnamed actual, else
the call is an error. For formals `(a, b)`, `f(1, a = 2)` raises "formal
argument 'a' matched by multiple actual arguments" and `f(1, b = 2)` matches
`a` to the promise of `1` and `b` to the promise of `2`. -/
theorem callClosure_positional_then_named (params : List (Param F)) (args : List ArgValue)
    (s : MatchState) (h : matchArgs params args = .ok s) :
    (∀ (j i : Nat) (a : ArgValue), (nonDots params)[j]? = some i →
      (unnamedArgs args)[j]? = some a → s.binds[i]? = some (some a.Val)) ∧
    (∀ a, a ∈ args → a.Name ≠ "" → ∀ i : Nat, paramIndex params a.Name = some i →
      s.binds[i]? = some (some a.Val) ∧
      ∀ j, j < (unnamedArgs args).length → (nonDots params)[j]? ≠ some i) ∧
    (∀ (ev : Evaluator F) (body : Expr F) (fenv : Nat) (st : Store F) (p1 p2 : Ptr),
      callClosure ev [.mk "a" none false, .mk "b" none false] body fenv
          [⟨"", p1⟩, ⟨"a", p2⟩] st =
        (.error (.msg "formal argument 'a' matched by multiple actual arguments"),
          (st.newEnv (some fenv)).2)) ∧
    (∀ (ev : Evaluator F) (body : Expr F) (fenv : Nat) (st : Store F) (p1 p2 : Ptr),
      callClosure ev [.mk "a" none false, .mk "b" none false] body fenv
          [⟨"", p1⟩, ⟨"b", p2⟩] st =
        closureResult (ev st.envs.length body
          { st with envs := st.envs ++ [⟨some fenv, [("a", p1), ("b", p2)]⟩] })) := by
  obtain ⟨h1, h2, _, _⟩ := matchArgs_spec params args s h
  refine ⟨h1, h2, ?_, ?_⟩
  · intro ev body fenv st p1 p2
    exact callClosure_error ev _ body fenv _ st _ rfl
  · intro ev body fenv st p1 p2
    have hm : matchArgs ([.mk "a" none false, .mk "b" none false] : List (Param F))
        [⟨"", p1⟩, ⟨"b", p2⟩] = .ok ⟨[some p1, some p2], 1, []⟩ := rfl
    unfold callClosure
    simp only [hm]
    have hb : bindParams st.envs.length ([.mk "a" none false, .mk "b" none false] : List (Param F))
        [some p1, some p2] (st.newEnv (some fenv)).2 =
        (.ok (), { st with envs := st.envs ++ [⟨some fenv, [("a", p1), ("b", p2)]⟩] }) := by
      simp only [bindParams, Param.Dots, Param.Name, Bool.false_eq_true, if_false, List.head?_cons,
        Option.join, List.tail_cons, Store.newEnv]
      have e1 : M.setLocal st.envs.length "a" p1
          ({ st with envs := st.envs ++ [⟨some fenv, []⟩] } : Store F) =
          (.ok (), { st with envs := st.envs ++ [⟨some fenv, [("a", p1)]⟩] }) := by
        simp only [M.setLocal, Env.SetLocal, Store.setVar, modify_append_last, mapSet]
      have e2 : M.setLocal st.envs.length "b" p2
          ({ st with envs := st.envs ++ [⟨some fenv, [("a", p1)]⟩] } : Store F) =
          (.ok (), { st with envs := st.envs ++ [⟨some fenv, [("a", p1), ("b", p2)]⟩] }) := by
        simp only [M.setLocal, Env.SetLocal, Store.setVar, modify_append_last, mapSet]
        simp
      show M.bind _ _ _ = _
      unfold M.bind
      simp only [e1, Option.some_bind, id, e2]
      rfl
    have hb' : bindParams (st.newEnv (some fenv)).1
        ([.mk "a" none false, .mk "b" none false] : List (Param F))
        [some p1, some p2] (st.newEnv (some fenv)).2 =
        (.ok (), { st with envs := st.envs ++ [⟨some fenv, [("a", p1), ("b", p2)]⟩] }) := hb
    simp only [hb']
    rfl

/-- C9 (amended) at formals `(a, b)` and the call `f(1, b = 2)`. -/
theorem callClosure_positional_then_named_witness :
    matchArgs ([.mk "a" none false, .mk "b" none false] : List (Param Whole))
        [⟨"", .addr 1⟩, ⟨"b", .addr 2⟩] = .ok ⟨[some (.addr 1), some (.addr 2)], 1, []⟩ ∧
      ∀ a, a ∈ [(⟨"", .addr 1⟩ : ArgValue), ⟨"b", .addr 2⟩] → a.Name ≠ "" → ∀ i : Nat,
        paramIndex ([.mk "a" none false, .mk "b" none false] : List (Param Whole)) a.Name =
          some i →
        [some (Ptr.addr 1), some (Ptr.addr 2)][i]? = some (some a.Val) ∧
        ∀ j, j < (unnamedArgs [(⟨"", .addr 1⟩ : ArgValue), ⟨"b", .addr 2⟩]).length →
          (nonDots ([.mk "a" none false, .mk "b" none false] : List (Param Whole)))[j]? ≠ some i :=
  ⟨rfl, (callClosure_positional_then_named
    ([.mk "a" none false, .mk "b" none false] : List (Param Whole))
    [⟨"", .addr 1⟩, ⟨"b", .addr 2⟩] ⟨[some (.addr 1), some (.addr 2)], 1, []⟩ rfl).2.1⟩

/-- C9 as stated fails: `f <- function(a, b) b; f(1, a = 2)` does not bind `a`
to `2` and `b` to `1`; the call is an error, because the unnamed `1` has
already filled `a` when the named actual is matched. -/
theorem callClosure_named_first_counterexample :
    (Eval (F := Whole) noBuiltins 6 0
      (.BlockExpr [
        .AssignExpr .ASSIGN_LEFT (.Ident "f")
          (.FuncExpr [.mk "a" none false, .mk "b" none false] (.Ident "b")),
        .CallExpr (.Ident "f")
          [.mk "" (.NumberLit "1" ⟨1⟩ true), .mk "a" (.NumberLit "2" ⟨2⟩ true)]])
      ⟨[], [⟨none, []⟩], "", Arrays.initial⟩).1 =
    .error (.msg "formal argument 'a' matched by multiple actual arguments") := by
  rfl

/-- C10, as the code has it: with a `...` formal, the `Dots` object bound to
`...` in the frame of the call holds exactly the actuals matched to no other
formal, the unnamed ones (those beyond the non-dots formals) first, in call
order, then the named ones whose name is no formal's, in call order: for
`function(...)` the call `g(x = 1, 2)` gives dots `[2, x = 1]`. Without a `...`
formal an unmatched actual makes the call an error. -/
theorem callClosure_dots (ev : Evaluator F) (params : List (Param F)) (body : Expr F)
    (fenv : Nat) (args : List ArgValue) (st : Store F) :
    (hasDots params = true → ∀ s, matchArgs params args = .ok s →
      s.dotsArgs =
        (unnamedArgs args).drop (nonDots params).length ++ unmatchedNamed params args ∧
      ∃ st2 d, callClosure ev params body fenv args st =
          closureResult (ev st.envs.length body st2) ∧
        Env.GetLocal st2 st.envs.length "..." = .ok (some d) ∧
        st2.deref d = some (.Dots s.dotsArgs)) ∧
    (hasDots params = false →
      ((nonDots params).length < (unnamedArgs args).length ∨ unmatchedNamed params args ≠ []) →
      ∃ e, callClosure ev params body fenv args st = (.error e, (st.newEnv (some fenv)).2)) ∧
    (∀ p1 p2 : Ptr, matchArgs ([.mk "..." none true] : List (Param F))
        [⟨"x", p1⟩, ⟨"", p2⟩] = .ok ⟨[none], 1, [⟨"", p2⟩, ⟨"x", p1⟩]⟩) := by
  refine ⟨?_, ?_, fun _ _ => rfl⟩
  · intro hd s hs
    exact ⟨(matchArgs_spec params args s hs).2.2.1, callClosure_binds_dots ev params body fenv
      args st s hs hd⟩
  · intro hd hun
    rcases matchArgs_total params args with ⟨s, hs⟩ | ⟨e, he⟩
    · obtain ⟨q1, q2⟩ := (matchArgs_spec params args s hs).2.2.2 hd
      rcases hun with hun | hun
      · omega
      · exact absurd q2 hun
    · exact ⟨e, callClosure_error ev params body fenv args st e he⟩

/-- C10 (amended) at `function(a, ...)` and the call `g(x = 1, 2, 3)`. -/
theorem callClosure_dots_witness :
    (hasDots ([.mk "a" none false, .mk "..." none true] : List (Param Whole)) = true ∧
      matchArgs ([.mk "a" none false, .mk "..." none true] : List (Param Whole))
        [⟨"x", .addr 1⟩, ⟨"", .addr 2⟩, ⟨"", .addr 3⟩] =
        .ok ⟨[some (.addr 2), none], 2, [⟨"", .addr 3⟩, ⟨"x", .addr 1⟩]⟩) ∧
    ∃ st2 d, callClosure (Eval (F := Whole) noBuiltins 3)
        [.mk "a" none false, .mk "..." none true] (.Ident "...") 0
        [⟨"x", .addr 1⟩, ⟨"", .addr 2⟩, ⟨"", .addr 3⟩] ⟨[], [⟨none, []⟩], "", Arrays.initial⟩ =
          closureResult (Eval (F := Whole) noBuiltins 3 1 (.Ident "...") st2) ∧
      Env.GetLocal st2 1 "..." = .ok (some d) ∧
      st2.deref d = some (.Dots [⟨"", .addr 3⟩, ⟨"x", .addr 1⟩]) :=
  ⟨⟨rfl, rfl⟩,
    ((callClosure_dots (Eval (F := Whole) noBuiltins 3)
      [.mk "a" none false, .mk "..." none true] (.Ident "...") 0
      [⟨"x", .addr 1⟩, ⟨"", .addr 2⟩, ⟨"", .addr 3⟩] ⟨[], [⟨none, []⟩], "", Arrays.initial⟩).1 rfl
      ⟨[some (.addr 2), none], 2, [⟨"", .addr 3⟩, ⟨"x", .addr 1⟩]⟩ rfl).2⟩

/-- C10 as stated fails: after `g <- function(...) NULL; g(x = 1, 2)` the
objects of the store are the closure, the promise of `1` (the actual named
`x`), the promise of `2`, and the `Dots` bound to `...`, which holds the
unnamed `2` before `x = 1`, not in the order of the call. -/
theorem callClosure_dots_order_counterexample :
    (Eval (F := Whole) noBuiltins 6 0
      (.BlockExpr [
        .AssignExpr .ASSIGN_LEFT (.Ident "g") (.FuncExpr [.mk "..." none true] .NullLit),
        .CallExpr (.Ident "g")
          [.mk "x" (.NumberLit "1" ⟨1⟩ true), .mk "" (.NumberLit "2" ⟨2⟩ true)]])
      ⟨[], [⟨none, []⟩], "", Arrays.initial⟩).2.objs =
    [.ClosureFunc [.mk "..." none true] .NullLit 0,
      .Promise (.NumberLit "1" ⟨1⟩ true) 0 false .nil none,
      .Promise (.NumberLit "2" ⟨2⟩ true) 0 false .nil none,
      .Dots [⟨"", .addr 2⟩, ⟨"x", .addr 1⟩]] := by
  rfl

end MatchTheorems

/-! ### The evaluator: short-circuit operators -/

section EvalTheorems

variable {F : Type} [Float64 F]

omit [Float64 F] in
theorem M.bind_of_ok {α β : Type} {m : M F α} {f : α → M F β} {st st' : Store F} {a : α}
    (h : m st = (.ok a, st')) : m.bind f st = f a st' := by
  unfold M.bind
  rw [h]

omit [Float64 F] in
theorem M.bind_of_error {α β : Type} {m : M F α} {f : α → M F β} {st st' : Store F} {e : Err}
    (h : m st = (.error e, st')) : m.bind f st = (.error e, st') := by
  unfold M.bind
  rw [h]

omit [Float64 F] in
/-- `Force` leaves a value that is not a promise as it is. -/
theorem Force_of_not_promise (ev : Evaluator F) (st : Store F) (p : Ptr) (o : Obj F)
    (h : st.deref p = some o) (hn : ∀ e env f v er, o ≠ .Promise e env f v er) :
    Force ev p st = (.ok p, st) := by
  unfold Force
  cases p with
  | addr a =>
    simp only [Store.deref] at h
    simp only [h]
    cases o <;> first | rfl | exact absurd rfl (hn _ _ _ _ _)
  | nil => rfl
  | NullValue => rfl
  | MissingValue => rfl

theorem Eval_binary_shortCircuit (B : Builtins F) (n env : Nat) (op : TokenType)
    (a b : Expr F) (hop : op = .ANDAND ∨ op = .OROR) :
    Eval B (n + 1) env (.BinaryExpr op a b) = evalShortCircuit (Eval B n) env op a b := by
  simp only [Eval, hop, if_true]

/-- C4: in `a && b`, when `a` evaluates to the scalar FALSE the result is a new
scalar FALSE in the store left by `a`, whatever `b` is, so `b` is not
evaluated; likewise `a || b` with `a` TRUE gives TRUE. When `a` is NA, `b` is
evaluated (its error is the error of the whole expression), and `NA && b` is
FALSE if `b` is FALSE and NA otherwise, `NA || b` is TRUE if `b` is TRUE and NA
otherwise. An operand "evaluates to the scalar `e`" when `Eval`, `Force` and
`asLogicalScalar` yield it, as they do when `Eval` returns a length-1 logical
vector. -/
theorem shortCircuit_three_valued (B : Builtins F) (n env : Nat) (a b : Expr F)
    (st st1 : Store F) :
    (evalScalarLogical (Eval B n) env a st = (.ok (false, false), st1) →
      Eval B (n + 1) env (.BinaryExpr .ANDAND a b) st =
        (.ok (.addr st1.objs.length), { st1 with objs := st1.objs ++ [LogicalScalar false] })) ∧
    (evalScalarLogical (Eval B n) env a st = (.ok (true, false), st1) →
      Eval B (n + 1) env (.BinaryExpr .OROR a b) st =
        (.ok (.addr st1.objs.length), { st1 with objs := st1.objs ++ [LogicalScalar true] })) ∧
    (∀ lb, evalScalarLogical (Eval B n) env a st = (.ok (lb, true), st1) →
      (∀ rb rna st2, evalScalarLogical (Eval B n) env b st1 = (.ok (rb, rna), st2) →
        Eval B (n + 1) env (.BinaryExpr .ANDAND a b) st =
          M.alloc (if rna = false ∧ rb = false then LogicalScalar false else LogicalNA) st2 ∧
        Eval B (n + 1) env (.BinaryExpr .OROR a b) st =
          M.alloc (if rna = false ∧ rb = true then LogicalScalar true else LogicalNA) st2) ∧
      (∀ e st2, evalScalarLogical (Eval B n) env b st1 = (.error e, st2) →
        Eval B (n + 1) env (.BinaryExpr .ANDAND a b) st = (.error e, st2) ∧
        Eval B (n + 1) env (.BinaryExpr .OROR a b) st = (.error e, st2))) ∧
    (∀ p e attrs, Eval B n env a st = (.ok p, st1) →
      st1.deref p = some (.LogicalVec [e] attrs) →
      evalScalarLogical (Eval B n) env a st = (.ok (e.Val, e.NA), st1)) := by
  refine ⟨?_, ?_, ?_, ?_⟩
  · intro h
    rw [Eval_binary_shortCircuit B n env _ a b (Or.inl rfl)]
    unfold evalShortCircuit
    rw [M.bind_of_ok h]
    rfl
  · intro h
    rw [Eval_binary_shortCircuit B n env _ a b (Or.inr rfl)]
    unfold evalShortCircuit
    rw [M.bind_of_ok h]
    rfl
  · intro lb h
    refine ⟨?_, ?_⟩
    · intro rb rna st2 hb
      refine ⟨?_, ?_⟩
      · rw [Eval_binary_shortCircuit B n env _ a b (Or.inl rfl)]
        unfold evalShortCircuit
        rw [M.bind_of_ok h]
        simp only [if_true]
        rw [M.bind_of_ok hb]
        cases rb <;> cases rna <;> rfl
      · rw [Eval_binary_shortCircuit B n env _ a b (Or.inr rfl)]
        unfold evalShortCircuit
        rw [M.bind_of_ok h]
        simp only [if_true]
        rw [if_neg (by decide), M.bind_of_ok hb]
        cases rb <;> cases rna <;> rfl
    · intro e st2 hb
      refine ⟨?_, ?_⟩
      · rw [Eval_binary_shortCircuit B n env _ a b (Or.inl rfl)]
        unfold evalShortCircuit
        rw [M.bind_of_ok h]
        simp only [if_true]
        rw [M.bind_of_error hb]
      · rw [Eval_binary_shortCircuit B n env _ a b (Or.inr rfl)]
        unfold evalShortCircuit
        rw [M.bind_of_ok h]
        simp only [if_true]
        rw [if_neg (by decide), M.bind_of_error hb]
  · intro p e attrs h hd
    have hf : Force (Eval B n) p st1 = (.ok p, st1) :=
      Force_of_not_promise _ st1 p _ hd (fun _ _ _ _ _ hc => by cases hc)
    unfold evalScalarLogical
    rw [M.bind_of_ok h, M.bind_of_ok hf]
    unfold asLogicalScalarM forceObj
    have h2 : ((Force (Eval B n) p).bind fun v' => M.deref v') st1 =
        (.ok (.LogicalVec [e] attrs), st1) := by
      rw [M.bind_of_ok hf]
      simp only [M.deref, hd]
    rw [M.bind_of_ok h2]
    rfl

/-- C4 at `FALSE && nosuch` in an empty global frame: the right operand is an
unbound name, whose evaluation is an error. -/
theorem shortCircuit_three_valued_witness :
    evalScalarLogical (Eval (F := Whole) noBuiltins 2) 0 (.BoolLit false)
        ⟨[], [⟨none, []⟩], "", Arrays.initial⟩ =
      (.ok (false, false), ⟨[LogicalScalar false], [⟨none, []⟩], "", Arrays.initial⟩) ∧
    (Eval (F := Whole) noBuiltins 2 0 (.Ident "nosuch")
        ⟨[LogicalScalar false], [⟨none, []⟩], "", Arrays.initial⟩).1 =
      .error (.msg "object 'nosuch' not found") ∧
    Eval (F := Whole) noBuiltins 3 0 (.BinaryExpr .ANDAND (.BoolLit false) (.Ident "nosuch"))
        ⟨[], [⟨none, []⟩], "", Arrays.initial⟩ =
      (.ok (.addr 1), ⟨[LogicalScalar false, LogicalScalar false], [⟨none, []⟩], "", Arrays.initial⟩) :=
  ⟨rfl, rfl,
    (shortCircuit_three_valued (F := Whole) noBuiltins 2 0 (.BoolLit false) (.Ident "nosuch")
      ⟨[], [⟨none, []⟩], "", Arrays.initial⟩ ⟨[LogicalScalar false], [⟨none, []⟩], "", Arrays.initial⟩).1 rfl⟩

/-! ### The evaluator: copy-on-write of indexed assignment -/

omit [Float64 F] in
theorem isVector_not_promise (o : Obj F) (h : o.isVector = true) :
    ∀ e env f v er, o ≠ .Promise e env f v er := by
  intro e env f v er hc
  subst hc
  simp [Obj.isVector] at h

omit [Float64 F] in
theorem forceObj_of_not_promise (ev : Evaluator F) (st : Store F) (p : Ptr) (o : Obj F)
    (h : st.deref p = some o) (hn : ∀ e env f v er, o ≠ .Promise e env f v er) :
    forceObj ev p st = (.ok o, st) := by
  unfold forceObj
  rw [M.bind_of_ok (Force_of_not_promise ev st p o h hn)]
  simp only [M.deref, h]

omit [Float64 F] in
theorem assignLoop_ok {α : Type} (na : α) (rv : List α) (hrv : 0 < rv.length) :
    ∀ (pos : List Int) (i : Nat) (d : List α), ∃ out, assignLoop na rv pos i d = .ok out := by
  intro pos
  induction pos with
  | nil => intro i d; exact ⟨d, rfl⟩
  | cons p ps ih =>
    intro i d
    have h1 : i % rv.length < rv.length := Nat.mod_lt _ hrv
    obtain ⟨out, ho⟩ := ih (i + 1)
      ((d ++ List.replicate (p.toNat + 1 - d.length) na).set p.toNat (rv.get ⟨_, h1⟩))
    refine ⟨out, ?_⟩
    unfold assignLoop
    rw [goMod_pos i _ hrv, Res.bind_ok, goIndex_lt rv _ h1, Res.bind_ok]
    exact ho

omit [Float64 F] in
theorem deref_alloc_old (st : Store F) (o : Obj F) (p : Ptr) (o' : Obj F)
    (h : st.deref p = some o') : (st.alloc o).2.deref p = some o' := by
  cases p with
  | addr a =>
    simp only [Store.deref, Store.alloc, List.get?_eq_getElem?] at h ⊢
    have hlt : a < st.objs.length := by
      by_contra hc
      rw [List.getElem?_eq_none (by omega)] at h
      cases h
    rw [List.getElem?_append_left hlt]
    exact h
  | nil => exact h
  | NullValue => exact h
  | MissingValue => exact h

omit [Float64 F] in
theorem deref_alloc_new (st : Store F) (o : Obj F) :
    (st.alloc o).2.deref (st.alloc o).1 = some o := by
  simp [Store.deref, Store.alloc]

/-- A single-bracket `setSubset` of a vector with an integer index and a
length-1 integer right-hand side allocates one new object and changes nothing
else. -/
theorem setSubset_vector (ev : Evaluator F) (st : Store F) (x idx rhs : Ptr) (xo : Obj F)
    (iv : List IntElem) (ia ra : Attrs) (e : IntElem)
    (hx : st.deref x = some xo) (hv : xo.isVector = true)
    (hi : st.deref idx = some (.IntVec iv ia)) (hr : st.deref rhs = some (.IntVec [e] ra)) :
    ∃ o', setSubset ev x idx rhs false st = M.alloc o' st := by
  have fx := Force_of_not_promise ev st x xo hx (isVector_not_promise xo hv)
  have fi := Force_of_not_promise ev st idx _ hi (fun _ _ _ _ _ hc => by cases hc)
  have fr := Force_of_not_promise ev st rhs _ hr (fun _ _ _ _ _ hc => by cases hc)
  have fo := forceObj_of_not_promise ev st rhs _ hr (fun _ _ _ _ _ hc => by cases hc)
  have hdx : M.derefOpt x st = (.ok (some xo), st) := by simp only [M.derefOpt, hx]
  have hdi : M.derefOpt idx st = (.ok (some (.IntVec iv ia)), st) := by
    simp only [M.derefOpt, hi]
  have hdr : M.derefOpt rhs st = (.ok (some (.IntVec [e] ra)), st) := by
    simp only [M.derefOpt, hr]
  unfold setSubset
  rw [M.bind_of_ok fx, M.bind_of_ok fi, M.bind_of_ok fr, M.bind_of_ok hdx, M.bind_of_ok hdi]
  simp only [Bool.false_eq_true, if_false]
  cases xo <;> simp [Obj.isVector] at hv
  · rename_i d a
    obtain ⟨out, ho⟩ := assignLoop_ok LogicalElem.na
      ([e].map fun e : IntElem => if e.NA then LogicalElem.na else ⟨e.Val != 0, false⟩)
      (by simp) (assignPositions iv) 0 d
    have hc : asLogicalVecM ev rhs st = (.ok ([e].map fun e : IntElem =>
        if e.NA then LogicalElem.na else ⟨e.Val != 0, false⟩), st) := by
      unfold asLogicalVecM
      rw [M.bind_of_ok fo]
      rfl
    refine ⟨.LogicalVec out a, ?_⟩
    dsimp only
    rw [M.bind_of_ok hc]
    simp only [List.map_cons, List.map_nil, List.length_singleton, one_ne_zero, if_false] at ho ⊢
    rw [M.bind_of_ok (show M.lift _ st = (.ok out, st) from by simp only [M.lift, ho])]
  · rename_i d a
    obtain ⟨out, ho⟩ := assignLoop_ok IntElem.na [e] (by simp) (assignPositions iv) 0 d
    have hc : coerceToIntVecM ev rhs st = (.ok [e], st) := by
      unfold coerceToIntVecM
      rw [M.bind_of_ok fo]
      rfl
    refine ⟨.IntVec out a, ?_⟩
    dsimp only
    rw [M.bind_of_ok hc]
    simp only [List.length_singleton, one_ne_zero, if_false]
    rw [M.bind_of_ok (show M.lift _ st = (.ok out, st) from by simp only [M.lift, ho])]
  · rename_i d a
    obtain ⟨out, ho⟩ := assignLoop_ok (FloatElem.na : FloatElem F)
      ([e].map fun e : IntElem => if e.NA then FloatElem.na else ⟨Float64.ofInt e.Val, false⟩)
      (by simp) (assignPositions iv) 0 d
    have hc : asDoubleVecM ev rhs st = (.ok ([e].map fun e : IntElem =>
        if e.NA then (FloatElem.na : FloatElem F) else ⟨Float64.ofInt e.Val, false⟩), st) := by
      unfold asDoubleVecM
      rw [M.bind_of_ok fo]
      rfl
    refine ⟨.DoubleVec out a, ?_⟩
    dsimp only
    rw [M.bind_of_ok hc]
    simp only [List.map_cons, List.map_nil, List.length_singleton, one_ne_zero, if_false] at ho ⊢
    rw [M.bind_of_ok (show M.lift _ st = (.ok out, st) from by simp only [M.lift, ho])]
  · rename_i d a
    obtain ⟨out, ho⟩ := assignLoop_ok StringElem.na
      ([e].map fun e : IntElem => if e.NA then StringElem.na else ⟨formatInt e.Val, false⟩)
      (by simp) (assignPositions iv) 0 d
    have hc : asCharVecM ev rhs st = (.ok ([e].map fun e : IntElem =>
        if e.NA then StringElem.na else ⟨formatInt e.Val, false⟩), st) := by
      unfold asCharVecM
      rw [M.bind_of_ok fo]
      rfl
    refine ⟨.CharVec out a, ?_⟩
    dsimp only
    rw [M.bind_of_ok hc]
    simp only [List.map_cons, List.map_nil, List.length_singleton, one_ne_zero, if_false] at ho ⊢
    rw [M.bind_of_ok (show M.lift _ st = (.ok out, st) from by simp only [M.lift, ho])]
  · rename_i d a
    obtain ⟨out, ho⟩ := assignLoop_ok Ptr.NullValue [rhs] (by simp) (assignPositions iv) 0 d
    refine ⟨.ListVec out a, ?_⟩
    dsimp only
    rw [M.bind_of_ok hdr]
    simp only
    rw [M.bind_of_ok (show M.lift _ st = (.ok out, st) from by simp only [M.lift, ho])]

omit [Float64 F] in
/-- A lookup along the parent chain only depends on the parents and on the
bindings of the name looked up. -/
theorem getAux_congr (envs envs' : List Env) (x : String)
    (h : ∀ i, (envs'.get? i).map (fun fr => (fr.parent, mapGet fr.vars x)) =
      (envs.get? i).map (fun fr => (fr.parent, mapGet fr.vars x))) :
    ∀ fuel e, Env.getAux envs' x fuel e = Env.getAux envs x fuel e := by
  intro fuel
  induction fuel with
  | zero => intro e; rfl
  | succ f ih =>
    intro e
    have he := h e
    unfold Env.getAux
    cases h1 : envs'.get? e with
    | none =>
      cases h2 : envs.get? e with
      | none => rfl
      | some fr => rw [h1, h2] at he; cases he
    | some fr' =>
      cases h2 : envs.get? e with
      | none => rw [h1, h2] at he; cases he
      | some fr =>
        rw [h1, h2] at he
        simp only [Option.map_some', Option.some.injEq, Prod.mk.injEq] at he
        simp only [he.1, he.2, ih]

omit [Float64 F] in
/-- Assigning `y` in a frame does not change what another name resolves to. -/
theorem Get_setVar_other (st : Store F) (env e : Nat) (x y : String) (v : Ptr) (hxy : x ≠ y) :
    Env.Get (st.setVar env y v) e x = Env.Get st e x := by
  unfold Env.Get
  have hl : (st.setVar env y v).envs.length = st.envs.length := by simp [Store.setVar]
  rw [hl]
  apply getAux_congr
  intro i
  simp only [Store.setVar, List.get?_eq_getElem?, List.getElem?_modify]
  by_cases hi : env = i
  · subst hi
    cases st.envs[env]? with
    | none => rfl
    | some fr => simp [mapGet_mapSet_other _ _ _ _ hxy]
  · simp [hi]

omit [Float64 F] in
/-- After `y` is assigned in frame `env`, `y` resolves there to the new value. -/
theorem Get_setVar_same (st : Store F) (env : Nat) (y : String) (v : Ptr)
    (henv : env < st.envs.length) : Env.Get (st.setVar env y v) env y = .ok (some v) := by
  obtain ⟨_, _, hl, _, fr, fr', _, h2, _, h4, _⟩ := setVar_frame st env y v henv
  unfold Env.Get
  rw [hl]
  obtain ⟨k, hk⟩ : ∃ k, st.envs.length = k + 1 := ⟨st.envs.length - 1, by omega⟩
  rw [hk]
  unfold Env.getAux
  rw [h2]
  simp only [h4]

/-- C7: copy-on-write. In an environment where `x` resolves to a vector (atomic
or list), evaluating `y <- x` and then `y[1] <- 99` succeeds and leaves `x`
resolving to the same object with the same contents; no object that existed
before is changed, no other frame is changed, and in the frame of the
assignment only the binding of `y` changes: `y` ends up bound to a newly
allocated object. The two literals may be any integer-looking numbers. -/
theorem copy_on_write (B : Builtins F) (n env : Nat) (st : Store F) (x y : String)
    (px : Ptr) (xo : Obj F) (t1 t99 : String) (v1 v99 : F)
    (hxy : x ≠ y) (henv : env < st.envs.length)
    (hget : Env.Get st env x = .ok (some px)) (hderef : st.deref px = some xo)
    (hv : xo.isVector = true) :
    ∃ st1 st2 r py,
      Eval B (n + 2) env (.AssignExpr .ASSIGN_LEFT (.Ident y) (.Ident x)) st = (.ok px, st1) ∧
      Eval B (n + 2) env (.AssignExpr .ASSIGN_LEFT
        (.IndexExpr (.Ident y) (.NumberLit t1 v1 true) false) (.NumberLit t99 v99 true)) st1 =
          (.ok r, st2) ∧
      Env.Get st2 env x = .ok (some px) ∧ st2.deref px = some xo ∧
      (∀ p o, st.deref p = some o → st2.deref p = some o) ∧
      st2.envs.length = st.envs.length ∧
      (∀ i, i ≠ env → st2.envs.get? i = st.envs.get? i) ∧
      (∀ nm, nm ≠ y → Env.GetLocal st2 env nm = Env.GetLocal st env nm) ∧
      Env.Get st2 env y = .ok (some py) ∧ py = .addr (st.objs.length + 2) ∧
      st.deref py = none := by
  have hnp := isVector_not_promise xo hv
  -- `y <- x`
  have ex : Eval B (n + 1) env (.Ident x) st = (.ok px, st) := by
    show ((M.get env x).bind fun r => _) st = _
    rw [M.bind_of_ok (show M.get env x st = (.ok (some px), st) from by simp only [M.get, hget])]
    rfl
  have s1 : Eval B (n + 2) env (.AssignExpr .ASSIGN_LEFT (.Ident y) (.Ident x)) st =
      (.ok px, st.setVar env y px) := by
    show evalAssign (Eval B (n + 1)) env .ASSIGN_LEFT (.Ident y) (.Ident x) st = _
    unfold evalAssign
    rw [if_neg (by decide), M.bind_of_ok ex,
      M.bind_of_ok (Force_of_not_promise _ st px xo hderef hnp)]
    rfl
  -- the stores met while evaluating `y[1] <- 99`
  have d1 : (st.setVar env y px).deref px = some xo := hderef
  have d1a := deref_alloc_old (st.setVar env y px) (IntScalar (Float64.toInt v99)) px xo d1
  have d1b := deref_alloc_old _ (IntScalar (Float64.toInt v1)) px xo d1a
  have r1a := deref_alloc_new (st.setVar env y px) (IntScalar (Float64.toInt v99))
  have r1b := deref_alloc_old _ (IntScalar (Float64.toInt v1)) _ _ r1a
  have i1b := deref_alloc_new ((st.setVar env y px).alloc (IntScalar (Float64.toInt v99))).2
    (IntScalar (Float64.toInt v1))
  obtain ⟨o', hset⟩ := setSubset_vector (Eval B (n + 1))
    (((st.setVar env y px).alloc (IntScalar (Float64.toInt v99))).2.alloc
      (IntScalar (Float64.toInt v1))).2
    px _ _ xo _ _ _ _ d1b hv i1b r1b
  have hgy : Env.Get ((st.setVar env y px).alloc (IntScalar (Float64.toInt v99))).2 env y =
      .ok (some px) := Get_setVar_same st env y px henv
  have s2 : Eval B (n + 2) env (.AssignExpr .ASSIGN_LEFT
      (.IndexExpr (.Ident y) (.NumberLit t1 v1 true) false) (.NumberLit t99 v99 true))
      (st.setVar env y px) =
      (.ok ((st.setVar env y px).alloc (IntScalar (Float64.toInt v99))).1,
        (((((st.setVar env y px).alloc (IntScalar (Float64.toInt v99))).2.alloc
          (IntScalar (Float64.toInt v1))).2.alloc o').2.setVar env y
          ((((st.setVar env y px).alloc (IntScalar (Float64.toInt v99))).2.alloc
            (IntScalar (Float64.toInt v1))).2.alloc o').1)) := by
    show evalAssign (Eval B (n + 1)) env .ASSIGN_LEFT
      (.IndexExpr (.Ident y) (.NumberLit t1 v1 true) false) (.NumberLit t99 v99 true)
      (st.setVar env y px) = _
    unfold evalAssign
    rw [if_neg (by decide),
      M.bind_of_ok (show Eval B (n + 1) env (.NumberLit t99 v99 true) (st.setVar env y px) =
        (.ok ((st.setVar env y px).alloc (IntScalar (Float64.toInt v99))).1,
          ((st.setVar env y px).alloc (IntScalar (Float64.toInt v99))).2) from rfl),
      M.bind_of_ok (Force_of_not_promise _ _ _ _ r1a (fun _ _ _ _ _ hc => by cases hc))]
    dsimp only
    rw [M.bind_of_ok (show M.get env y
        ((st.setVar env y px).alloc (IntScalar (Float64.toInt v99))).2 = (.ok (some px),
          ((st.setVar env y px).alloc (IntScalar (Float64.toInt v99))).2) from by
      simp only [M.get, hgy])]
    dsimp only
    rw [M.bind_of_ok (Force_of_not_promise _ _ px xo d1a hnp),
      M.bind_of_ok (show Eval B (n + 1) env (.NumberLit t1 v1 true)
          ((st.setVar env y px).alloc (IntScalar (Float64.toInt v99))).2 =
        (.ok (((st.setVar env y px).alloc (IntScalar (Float64.toInt v99))).2.alloc
            (IntScalar (Float64.toInt v1))).1,
          (((st.setVar env y px).alloc (IntScalar (Float64.toInt v99))).2.alloc
            (IntScalar (Float64.toInt v1))).2) from rfl),
      M.bind_of_ok (Force_of_not_promise _ _ _ _ i1b (fun _ _ _ _ _ hc => by cases hc)),
      M.bind_of_ok (show setSubset _ _ _ _ _ _ = (.ok _, _) from hset)]
    rfl
  refine ⟨_, _, _, .addr (st.objs.length + 2), s1, s2, ?_, ?_, ?_, ?_, ?_, ?_, ?_, rfl, ?_⟩
  · rw [Get_setVar_other _ _ _ _ _ _ hxy]
    show Env.Get (st.setVar env y px) env x = _
    rw [Get_setVar_other _ _ _ _ _ _ hxy]
    exact hget
  · exact deref_alloc_old _ o' px xo d1b
  · intro p o hp
    exact deref_alloc_old _ o' p o (deref_alloc_old _ _ p o (deref_alloc_old _ _ p o hp))
  · simp [Store.setVar, Store.alloc]
  · intro i hi
    simp only [Store.setVar, Store.alloc, List.get?_eq_getElem?, List.getElem?_modify]
    simp [Ne.symm hi]
  · intro nm hnm
    unfold Env.GetLocal
    simp only [Store.setVar, Store.alloc, List.get?_eq_getElem?, List.getElem?_modify]
    cases st.envs[env]? with
    | none => rfl
    | some fr => simp [mapGet_mapSet_other _ _ _ _ hnm]
  · have hl : env < ((((st.setVar env y px).alloc (IntScalar (Float64.toInt v99))).2.alloc
        (IntScalar (Float64.toInt v1))).2.alloc o').2.envs.length := by
      simpa [Store.setVar, Store.alloc] using henv
    have := Get_setVar_same _ env y
      ((((st.setVar env y px).alloc (IntScalar (Float64.toInt v99))).2.alloc
        (IntScalar (Float64.toInt v1))).2.alloc o').1 hl
    rw [this]
    simp [Store.alloc, Store.setVar]
  · simp [Store.deref]

/-- C7 in a global frame where `x` is bound to the integer vector `5`. -/
theorem copy_on_write_witness :
    (("x" : String) ≠ "y" ∧
      0 < (⟨[IntScalar 5], [⟨none, [("x", .addr 0)]⟩], "", Arrays.initial⟩ : Store Whole).envs.length ∧
      Env.Get (⟨[IntScalar 5], [⟨none, [("x", .addr 0)]⟩], "", Arrays.initial⟩ : Store Whole) 0 "x" =
        .ok (some (.addr 0)) ∧
      (⟨[IntScalar 5], [⟨none, [("x", .addr 0)]⟩], "", Arrays.initial⟩ : Store Whole).deref (.addr 0) =
        some (IntScalar 5) ∧
      (IntScalar 5 : Obj Whole).isVector = true) ∧
    ∃ st1 st2 r py,
      Eval (F := Whole) noBuiltins 2 0 (.AssignExpr .ASSIGN_LEFT (.Ident "y") (.Ident "x"))
        ⟨[IntScalar 5], [⟨none, [("x", .addr 0)]⟩], "", Arrays.initial⟩ = (.ok (.addr 0), st1) ∧
      Eval (F := Whole) noBuiltins 2 0 (.AssignExpr .ASSIGN_LEFT
        (.IndexExpr (.Ident "y") (.NumberLit "1" ⟨1⟩ true) false) (.NumberLit "99" ⟨99⟩ true))
        st1 = (.ok r, st2) ∧
      Env.Get st2 0 "x" = .ok (some (.addr 0)) ∧ st2.deref (.addr 0) = some (IntScalar 5) ∧
      (∀ p o, (⟨[IntScalar 5], [⟨none, [("x", .addr 0)]⟩], "", Arrays.initial⟩ : Store Whole).deref p = some o →
        st2.deref p = some o) ∧
      st2.envs.length = 1 ∧
      (∀ i, i ≠ 0 → st2.envs.get? i =
        (⟨[IntScalar 5], [⟨none, [("x", .addr 0)]⟩], "", Arrays.initial⟩ : Store Whole).envs.get? i) ∧
      (∀ nm, nm ≠ "y" → Env.GetLocal st2 0 nm =
        Env.GetLocal (⟨[IntScalar 5], [⟨none, [("x", .addr 0)]⟩], "", Arrays.initial⟩ : Store Whole) 0 nm) ∧
      Env.Get st2 0 "y" = .ok (some py) ∧ py = .addr 3 ∧
      (⟨[IntScalar 5], [⟨none, [("x", .addr 0)]⟩], "", Arrays.initial⟩ : Store Whole).deref py = none :=
  ⟨⟨by decide, by decide, rfl, rfl, rfl⟩,
    copy_on_write (F := Whole) noBuiltins 0 0 ⟨[IntScalar 5], [⟨none, [("x", .addr 0)]⟩], "", Arrays.initial⟩
      "x" "y" (.addr 0) (IntScalar 5) "1" "99" ⟨1⟩ ⟨99⟩ (by decide) (by decide) rfl rfl rfl⟩

/-! ### The stateful operators on forced operands -/

omit [Float64 F] in
theorem M.bind_lift {α β : Type} (r : Res α) (f : α → M F β) (st : Store F) :
    (M.lift r).bind f st =
      match r with
      | .ok a => f a st
      | .error e => (.error e, st)
      | .panic w => (.panic w, st)
      | .outOfFuel => (.outOfFuel, st) := by
  cases r <;> rfl

/-- On operands that are not promises, `evalBinary(ctx, op, a, b)` computes the
pure function `evalBinary` on the objects and allocates its result; the store
is otherwise unchanged. -/
theorem evalBinaryM_of_forced (ev : Evaluator F) (op : TokenType) (a b : Ptr) (oa ob : Obj F)
    (st : Store F) (ha : st.deref a = some oa) (hb : st.deref b = some ob)
    (hna : ∀ e env f v er, oa ≠ .Promise e env f v er)
    (hnb : ∀ e env f v er, ob ≠ .Promise e env f v er) :
    evalBinaryM ev op a b st = ((M.lift (evalBinary op oa ob)).bind M.alloc) st := by
  have foA := forceObj_of_not_promise ev st a oa ha hna
  have foB := forceObj_of_not_promise ev st b ob hb hnb
  have fA := Force_of_not_promise ev st a oa ha hna
  have fB := Force_of_not_promise ev st b ob hb hnb
  have cD : ∀ (p : Ptr) (o : Obj F), forceObj ev p st = (.ok o, st) →
      asDoubleVecM ev p st = (asDoubleVec o, st) := by
    intro p o h
    unfold asDoubleVecM
    rw [M.bind_of_ok h]
    rfl
  have cL : ∀ (p : Ptr) (o : Obj F), forceObj ev p st = (.ok o, st) →
      asLogicalVecM ev p st = (asLogicalVec o, st) := by
    intro p o h
    unfold asLogicalVecM
    rw [M.bind_of_ok h]
    rfl
  have cC : ∀ (p : Ptr) (o : Obj F), forceObj ev p st = (.ok o, st) →
      asCharVecM ev p st = (asCharVec o, st) := by
    intro p o h
    unfold asCharVecM
    rw [M.bind_of_ok h]
    rfl
  have cF : ∀ (p : Ptr) (o : Obj F), forceObj ev p st = (.ok o, st) →
      asFloatElemM ev p st = (asFloatElem o, st) := by
    intro p o h
    unfold asFloatElemM
    rw [M.bind_of_ok h]
    rfl
  have hnum : evalNumericBinaryM ev op a b st =
      ((M.lift (evalNumericBinary op oa ob)).bind M.alloc) st := by
    unfold evalNumericBinaryM evalNumericBinary
    by_cases hc : op = .COLON
    · simp only [hc, if_true]
      unfold M.bind
      rw [cF a oa foA]
      cases h1 : asFloatElem oa <;> simp only [M.lift, Res.bind]
      rw [cF b ob foB]
      cases h2 : asFloatElem ob <;> simp only [M.lift, Res.bind]
      split
      · rfl
      · rename_i x y _
        cases colonSeq (Float64.toInt x.Val) (Float64.toInt y.Val) <;> rfl
    · simp only [hc, if_false]
      unfold M.bind
      rw [cD a oa foA]
      cases h1 : asDoubleVec oa <;> simp only [M.lift, Res.bind]
      rw [cD b ob foB]
      cases h2 : asDoubleVec ob <;> simp only [M.lift, Res.bind]
      split
      · rfl
      · rename_i av bv _
        cases forEachIndex (numericStep op av bv) (max av.length bv.length) 0 <;> rfl
  have hlog : evalLogicalVectorM ev op a b st =
      ((M.lift (evalLogicalVector op oa ob)).bind M.alloc) st := by
    unfold evalLogicalVectorM evalLogicalVector
    unfold M.bind
    rw [cL a oa foA]
    cases h1 : asLogicalVec oa <;> simp only [M.lift, Res.bind]
    rw [cL b ob foB]
    cases h2 : asLogicalVec ob <;> simp only [M.lift, Res.bind]
    rename_i av bv
    cases forEachIndex (logicalStep op av bv) (max av.length bv.length) 0 <;> rfl
  have hcmp : evalCompareM ev op a b st =
      ((M.lift (evalCompare op oa ob)).bind M.alloc) st := by
    have fiA : forceIgnoringError ev a st = (.ok a, st) := by
      unfold forceIgnoringError
      rw [fA]
    have fiB : forceIgnoringError ev b st = (.ok b, st) := by
      unfold forceIgnoringError
      rw [fB]
    have dA : M.deref a st = (.ok oa, st) := by simp only [M.deref, ha]
    have dB : M.deref b st = (.ok ob, st) := by simp only [M.deref, hb]
    unfold evalCompareM evalCompare
    rw [M.bind_of_ok fiA, M.bind_of_ok fiB, M.bind_of_ok dA, M.bind_of_ok dB]
    by_cases hc : oa.Type = "character" ∨ ob.Type = "character"
    · simp only [hc, if_true]
      unfold M.bind
      rw [cC a oa foA]
      cases h1 : asCharVec oa <;> simp only [M.lift, Res.bind]
      rw [cC b ob foB]
      cases h2 : asCharVec ob <;> simp only [M.lift, Res.bind]
      rename_i ac bc
      cases forEachIndex (compareCharStep op ac bc) (max ac.length bc.length) 0 <;> rfl
    · simp only [hc, if_false]
      rw [cD a oa foA]
      cases h1 : asDoubleVec oa with
      | ok av =>
        simp only
        unfold M.bind
        rw [cD b ob foB]
        cases h2 : asDoubleVec ob <;> simp only [M.lift, Res.bind]
        rename_i bv
        cases forEachIndex (compareNumStep op av bv) (max av.length bv.length) 0 <;> rfl
      | error err =>
        simp only
        rw [cL a oa foA]
        unfold evalCompareLogical
        cases h3 : asLogicalVec oa with
        | ok lv =>
          simp only
          unfold M.bind
          rw [cL b ob foB]
          cases h4 : asLogicalVec ob <;> simp only [M.lift, Res.bind]
          rename_i rv
          cases forEachIndex (compareLogicalStep op lv rv) (max lv.length rv.length) 0 <;> rfl
        | error e2 => rfl
        | panic w => rfl
        | outOfFuel => rfl
      | panic w => rfl
      | outOfFuel => rfl
  cases op <;> first | exact hnum | exact hcmp | exact hlog | rfl

/-- On an atomic vector and an integer index that are not promises, the
single-bracket read `subset(ctx, x, idx, false)` computes the pure function
`subset` on the objects and allocates its result. -/
theorem subsetM_int_index (ev : Evaluator F) (x idx : Ptr) (ox : Obj F) (q : List IntElem)
    (qa : Attrs) (names : Option (Obj F)) (st : Store F)
    (hx : st.deref x = some ox) (hat : ox.isAtomic = true)
    (hi : st.deref idx = some (.IntVec q qa)) :
    subsetM ev x idx false st =
      ((M.lift (subset names ox (.IntVec q qa) false)).bind M.produce) st := by
  have hnp : ∀ e env f v er, ox ≠ .Promise e env f v er := by
    intro e env f v er hc
    subst hc
    simp [Obj.isAtomic] at hat
  have fx := Force_of_not_promise ev st x ox hx hnp
  have fi := Force_of_not_promise ev st idx _ hi (fun _ _ _ _ _ hc => by cases hc)
  have foi := forceObj_of_not_promise ev st idx _ hi (fun _ _ _ _ _ hc => by cases hc)
  have hdx : M.derefOpt x st = (.ok (some ox), st) := by simp only [M.derefOpt, hx]
  have hdi : M.derefOpt idx st = (.ok (some (.IntVec q qa)), st) := by
    simp only [M.derefOpt, hi]
  have hn : ∀ n, normalizeIndexM ev idx n st = (normalizeIndex (.IntVec q qa : Obj F) n, st) := by
    intro n
    unfold normalizeIndexM
    rw [M.bind_of_ok foi]
    rfl
  unfold subsetM
  rw [M.bind_of_ok fx, M.bind_of_ok fi, M.bind_of_ok hdx, M.bind_of_ok hdi]
  simp only [Bool.false_eq_true, if_false]
  cases ox <;> simp [Obj.isAtomic] at hat
  all_goals
    rename_i d a
    dsimp only
    unfold subsetAtomicM subset subsetAtomic
    simp only [Bool.false_eq_true, if_false, hn, Obj.Len]
    cases normalizeIndex (.IntVec q qa : Obj F) d.length with
    | ok r => rfl
    | error e => rfl
    | panic w => rfl
    | outOfFuel => rfl

end EvalTheorems

/-! ### Index reads -/

section IndexReadTheorems

variable {F : Type} [Float64 F]

theorem normalizeIndexInt_mixed (d : List IntElem) (n : Nat)
    (hpos : ∃ e, e ∈ d ∧ e.NA = false ∧ 0 < e.Val)
    (hneg : ∃ e, e ∈ d ∧ e.NA = false ∧ e.Val < 0) :
    normalizeIndexInt d n = .error (.msg "only 0's may be mixed with negative subscripts") := by
  have h1 : (d.any fun e => !e.NA && decide (e.Val < 0)) = true := by
    obtain ⟨e, he, hna, hv⟩ := hneg
    exact List.any_eq_true.mpr ⟨e, he, by simp [hna, hv]⟩
  have h2 : (d.any fun e => !e.NA && decide (e.Val > 0)) = true := by
    obtain ⟨e, he, hna, hv⟩ := hpos
    exact List.any_eq_true.mpr ⟨e, he, by simp [hna, hv]⟩
  unfold normalizeIndexInt
  simp only [h1, h2, Bool.and_self, if_true]
  rfl

theorem normalizeIndex_indexInts (idx : Obj F) (iv : List IntElem) (n : Nat)
    (h : indexInts idx = some iv) : normalizeIndex idx n = normalizeIndexInt iv n := by
  cases idx <;> simp only [indexInts, Option.some.injEq] at h <;> try cases h
  all_goals rfl

/-- C13 (as amended): for every atomic vector or list `x` and every integer or
double index vector whose entries, read as integers the way `normalizeIndex`
reads them (a double entry is converted with `int64(...)`, which truncates
toward zero), contain at least one positive and at least one negative non-NA
entry, the single-bracket read `x[i]` fails with the error "only 0's may be
mixed with negative subscripts". -/
theorem subset_mixed_signs_error (names : Option (Obj F)) (x idx : Obj F) (iv : List IntElem)
    (hx : x.isVector = true) (hidx : indexInts idx = some iv)
    (hpos : ∃ e, e ∈ iv ∧ e.NA = false ∧ 0 < e.Val)
    (hneg : ∃ e, e ∈ iv ∧ e.NA = false ∧ e.Val < 0) :
    subset names x idx false =
      .error (.msg "only 0's may be mixed with negative subscripts") := by
  have hn : ∀ n, normalizeIndex idx n =
      .error (.msg "only 0's may be mixed with negative subscripts") := fun n => by
    rw [normalizeIndex_indexInts idx iv n hidx, normalizeIndexInt_mixed iv n hpos hneg]
  have hty : idx.Type ≠ "character" := by
    cases idx <;> simp only [indexInts] at hidx <;> try cases hidx
    all_goals simp [Obj.Type]
  cases x <;> simp [Obj.isVector] at hx
  all_goals simp only [subset, subsetAtomic, hn, Bool.false_eq_true, if_false, hty, Res.bind]

theorem wrapInt64_neg_pred (v : Int) (i : Nat) (h1 : -2 ^ 63 ≤ v) (h2 : v < 0) :
    wrapInt64 (wrapInt64 (-v) - 1) = (i : Int) ↔ v = -((i : Int) + 1) := by
  unfold wrapInt64
  norm_num
  omega

theorem pickElems_positions {α : Type} (na : α) (data : List α) (out : List Nat)
    (h : ∀ i, i ∈ out → i < data.length) :
    pickElems na data (out.map fun (i : Nat) => (i : Int)) (out.map fun _ => false) =
      out.map (fun i => data.getD i na) := by
  unfold pickElems
  rw [List.zip_map', List.map_map]
  apply List.map_congr_left
  intro i hi
  have := h i hi
  have h3 : ¬ ((i : Int) < 0 ∨ (i : Int) ≥ (data.length : Int)) := by omega
  simp only [Function.comp_apply, Bool.false_eq_true, if_false, if_neg h3, Int.toNat_ofNat]

theorem normalizeIndexInt_negative (d : List IntElem) (n : Nat)
    (hrange : ∀ e, e ∈ d → -2 ^ 63 ≤ e.Val ∧ e.Val < 2 ^ 63)
    (hnonpos : ∀ e, e ∈ d → e.NA = false → e.Val ≤ 0)
    (hneg : ∃ e, e ∈ d ∧ e.NA = false ∧ e.Val < 0) :
    normalizeIndexInt d n =
      .ok (((List.range n).filter fun (k : Nat) =>
          !(d.any fun e => !e.NA && e.Val == -((k : Int) + 1))).map (fun (i : Nat) => (i : Int)),
        ((List.range n).filter fun (k : Nat) =>
          !(d.any fun e => !e.NA && e.Val == -((k : Int) + 1))).map (fun _ => false)) := by
  have h1 : (d.any fun e => !e.NA && decide (e.Val < 0)) = true := by
    obtain ⟨e, he, hna, hv⟩ := hneg
    exact List.any_eq_true.mpr ⟨e, he, by simp [hna, hv]⟩
  have h2 : (d.any fun e => !e.NA && decide (e.Val > 0)) = false := by
    rw [List.any_eq_false]
    intro e he
    cases hna : e.NA
    · have := hnonpos e he hna
      simp only [Bool.not_false, Bool.true_and, decide_eq_true_eq]
      omega
    · simp
  have hf : ((List.range n).filter fun (i : Nat) =>
      !(((d.filter fun e => !e.NA && decide (e.Val < 0)).map fun e =>
        wrapInt64 (wrapInt64 (-e.Val) - 1)).contains (i : Int))) =
      (List.range n).filter fun (k : Nat) => !(d.any fun e => !e.NA && e.Val == -((k : Int) + 1)) := by
    apply List.filter_congr
    intro i _
    congr 1
    rw [Bool.eq_iff_iff]
    simp only [List.contains_iff_exists_mem_beq, List.mem_map, List.mem_filter, Bool.and_eq_true,
      Bool.not_eq_true', decide_eq_true_eq, beq_iff_eq, List.any_eq_true]
    constructor
    · rintro ⟨w, ⟨e, ⟨he, hna, hv⟩, rfl⟩, hw⟩
      exact ⟨e, he, hna, (wrapInt64_neg_pred e.Val i (hrange e he).1 hv).mp hw.symm⟩
    · rintro ⟨e, he, hna, hv⟩
      have hv' : e.Val < 0 := by omega
      exact ⟨_, ⟨e, ⟨he, hna, hv'⟩, rfl⟩,
        ((wrapInt64_neg_pred e.Val i (hrange e he).1 hv').mpr hv).symm⟩
  unfold normalizeIndexInt
  simp only [h1, h2, Bool.and_false, Bool.false_eq_true, if_false, if_true, hf]

/-- C14: for every atomic vector `x` of length `n` and every integer index
vector (entries in the range of int64) whose non-NA entries are all `<= 0`
with at least one negative, the single-bracket read `x[i]` returns, in
increasing position order, exactly the elements of `x` at the 1-based
positions `k` in `1..n` for which `-k` does not occur in `i`; the result has
the type of `x`. -/
theorem subset_negative_excludes (names : Option (Obj F)) (x : Obj F) (d : List IntElem)
    (da : Attrs) (hx : x.isAtomic = true)
    (hrange : ∀ e, e ∈ d → -2 ^ 63 ≤ e.Val ∧ e.Val < 2 ^ 63)
    (hnonpos : ∀ e, e ∈ d → e.NA = false → e.Val ≤ 0)
    (hneg : ∃ e, e ∈ d ∧ e.NA = false ∧ e.Val < 0) :
    ∃ r, subset names x (.IntVec d da) false = .ok (.fresh r) ∧
      r = x.selectAt ((List.range x.Len).filter fun (k : Nat) =>
        !(d.any fun e => !e.NA && e.Val == -((k : Int) + 1))) ∧
      r.Type = x.Type := by
  refine ⟨_, ?_, rfl, ?_⟩
  · have hn := normalizeIndexInt_negative d x.Len hrange hnonpos hneg
    cases x <;> simp [Obj.isAtomic] at hx
    all_goals
      simp only [Obj.Len] at hn
      simp only [subset, subsetAtomic, normalizeIndex, Obj.Len, hn, Bool.false_eq_true, if_false,
        Res.bind_ok, Obj.selectAt]
      rw [pickElems_positions _ _ _ (fun i hi => List.mem_range.mp (List.mem_filter.mp hi).1)]
  · cases x <;> simp [Obj.isAtomic] at hx <;> rfl

theorem wrapInt64_pred (v : Int) (h1 : -2 ^ 63 ≤ v) (h2 : v < 2 ^ 63) :
    (1 ≤ v → wrapInt64 (v - 1) = v - 1) ∧ (v ≤ 0 → wrapInt64 (v - 1) < 0 ∨ wrapInt64 (v - 1) = 2 ^ 63 - 1) := by
  unfold wrapInt64
  norm_num
  omega

theorem vectorElement_atomic (x : Obj F) (i : Nat) (hx : x.isAtomic = true) (hi : i < x.Len) :
    ∃ r, vectorElement x i = .ok (.fresh r) ∧ r.Type = x.Type ∧ r.Len = 1 ∧
      r.naFlags = (x.selectAt [i]).naFlags ∧
      ((x.selectAt [i]).naFlags = [false] → r = x.selectAt [i]) := by
  cases x <;> simp [Obj.isAtomic] at hx
  · rename_i d a
    simp only [Obj.Len] at hi
    simp only [vectorElement, goIndex_lt d i hi, Res.bind_ok, Obj.selectAt, List.map_cons,
      List.map_nil, List.getD_eq_getElem _ _ hi, Obj.naFlags]
    cases hna : (d.get ⟨i, hi⟩).NA
    · refine ⟨LogicalScalar (d.get ⟨i, hi⟩).Val, by simp, rfl, rfl, ?_, ?_⟩
      · simp [Obj.naFlags, LogicalScalar]
      · intro _
        simp only [LogicalScalar]
        congr 2
        rw [← hna]
        rfl
    · refine ⟨LogicalNA, by simp, rfl, rfl, ?_, ?_⟩
      · simp [Obj.naFlags, LogicalNA, LogicalElem.na]
      · intro h
        simp [hna] at h
  · rename_i d a
    simp only [Obj.Len] at hi
    simp only [vectorElement, goIndex_lt d i hi, Res.bind_ok, Obj.selectAt, List.map_cons,
      List.map_nil, List.getD_eq_getElem _ _ hi, Obj.naFlags]
    cases hna : (d.get ⟨i, hi⟩).NA
    · refine ⟨IntScalar (d.get ⟨i, hi⟩).Val, by simp, rfl, rfl, ?_, ?_⟩
      · simp [Obj.naFlags, IntScalar]
      · intro _
        simp only [IntScalar]
        congr 2
        rw [← hna]
        rfl
    · refine ⟨IntNA, by simp, rfl, rfl, ?_, ?_⟩
      · simp [Obj.naFlags, IntNA, IntElem.na]
      · intro h
        simp [hna] at h
  · rename_i d a
    simp only [Obj.Len] at hi
    simp only [vectorElement, goIndex_lt d i hi, Res.bind_ok, Obj.selectAt, List.map_cons,
      List.map_nil, List.getD_eq_getElem _ _ hi, Obj.naFlags]
    cases hna : (d.get ⟨i, hi⟩).NA
    · refine ⟨DoubleScalar (d.get ⟨i, hi⟩).Val, by simp, rfl, rfl, ?_, ?_⟩
      · simp [Obj.naFlags, DoubleScalar]
      · intro _
        simp only [DoubleScalar]
        congr 2
        rw [← hna]
        rfl
    · refine ⟨DoubleNA, by simp, rfl, rfl, ?_, ?_⟩
      · simp [Obj.naFlags, DoubleNA, FloatElem.na]
      · intro h
        simp [hna] at h
  · rename_i d a
    simp only [Obj.Len] at hi
    simp only [vectorElement, goIndex_lt d i hi, Res.bind_ok, Obj.selectAt, List.map_cons,
      List.map_nil, List.getD_eq_getElem _ _ hi, Obj.naFlags]
    cases hna : (d.get ⟨i, hi⟩).NA
    · refine ⟨CharScalar (d.get ⟨i, hi⟩).Val, by simp, rfl, rfl, ?_, ?_⟩
      · simp [Obj.naFlags, CharScalar]
      · intro _
        simp only [CharScalar]
        congr 2
        rw [← hna]
        rfl
    · refine ⟨CharNA, by simp, rfl, rfl, ?_, ?_⟩
      · simp [Obj.naFlags, CharNA, StringElem.na]
      · intro h
        simp [hna] at h

/-- C15 (as amended): the double-bracket read `x[[i]]` of an atomic vector or
list `x`. With an integer index: an index of length other than 1 is the error
"[[ expects a single index"; a length-1 index that is NA or outside
`1..length(x)` is the error "subscript out of bounds"; a length-1 index inside
that range returns the element at that 1-based position, for a list the
contained value itself and for an atomic vector a new length-1 vector of the
same type holding that element. A double index is not accepted: it is the
error "invalid subscript type double". With a character index: a length other
than 1 and an NA are the same two errors; otherwise the index is read as a
name and the result is that of `dollar`, which is the element at the first
position of that name for a list whose names have the length of the list, Null
when no position has the name, and an error for an atomic vector. -/
theorem subset_double_bracket (names : Option (Obj F)) (x : Obj F) (t : List IntElem)
    (ia : Attrs) (hx : x.isVector = true) (hlen : (x.Len : Int) < 2 ^ 63)
    (hrange : ∀ e, e ∈ t → -2 ^ 63 ≤ e.Val ∧ e.Val < 2 ^ 63) :
    (t.length ≠ 1 →
      subset names x (.IntVec t ia) true = .error (.msg "[[ expects a single index")) ∧
    (∀ e, t = [e] → (e.NA = true ∨ ¬ (1 ≤ e.Val ∧ e.Val ≤ x.Len)) →
      subset names x (.IntVec t ia) true = .error (.msg "subscript out of bounds")) ∧
    (∀ e, t = [e] → e.NA = false → 1 ≤ e.Val → e.Val ≤ x.Len →
      (∀ d a, x = .ListVec d a → ∃ p, d.get? (e.Val - 1).toNat = some p ∧
        subset names x (.IntVec t ia) true = .ok (.existing p)) ∧
      (x.isAtomic = true → ∃ r, subset names x (.IntVec t ia) true = .ok (.fresh r) ∧
        r.Type = x.Type ∧ r.Len = 1 ∧
        r.naFlags = (x.selectAt [(e.Val - 1).toNat]).naFlags ∧
        ((x.selectAt [(e.Val - 1).toNat]).naFlags = [false] →
          r = x.selectAt [(e.Val - 1).toNat]))) ∧
    (∀ d a, subset names x (.DoubleVec d a) true =
      .error (.msg "invalid subscript type double")) ∧
    (∀ (s : List StringElem) (sa : Attrs),
      (s.length ≠ 1 →
        subset names x (.CharVec s sa) true = .error (.msg "[[ expects a single index")) ∧
      (∀ e, s = [e] → e.NA = true →
        subset names x (.CharVec s sa) true = .error (.msg "subscript out of bounds")) ∧
      (∀ e, s = [e] → e.NA = false →
        subset names x (.CharVec s sa) true =
            ((dollar names x e.Val).bind fun p => .ok (.existing p)) ∧
        (x.isAtomic = true → subset names x (.CharVec s sa) true =
          .error (.msg "$ operator is invalid for atomic vectors")) ∧
        (∀ d a cn ca, x = .ListVec d a → names = some (.CharVec cn ca) →
          cn.length = d.length →
          (∀ i, cn.findIdx? (fun c => !c.NA && c.Val == e.Val) = some i →
            ∃ p, d.get? i = some p ∧
              subset names x (.CharVec s sa) true = .ok (.existing p)) ∧
          (cn.findIdx? (fun c => !c.NA && c.Val == e.Val) = none →
            subset names x (.CharVec s sa) true = .ok (.existing .NullValue))))) := by
  refine ⟨?_, ?_, ?_, ?_, ?_⟩
  · intro h
    simp only [subset, if_true, h, ne_eq, not_false_eq_true]
    rfl
  · intro e he hout
    subst he
    by_cases hn : e.NA = true
    · simp only [subset, if_true, List.length_singleton, ne_eq, not_true_eq_false, if_false,
        goIndex, List.get?_cons_zero, Res.bind_ok, hn]
      rfl
    have hn : e.NA = false := by simpa using hn
    have hout : ¬ (1 ≤ e.Val ∧ e.Val ≤ x.Len) := by
      rcases hout with h | h
      · rw [hn] at h
        cases h
      · exact h
    obtain ⟨h1, h2⟩ := hrange e (List.mem_singleton_self e)
    obtain ⟨w1, w2⟩ := wrapInt64_pred e.Val h1 h2
    simp only [subset, if_true, List.length_singleton, ne_eq, not_true_eq_false, if_false,
      goIndex, List.get?_cons_zero, Res.bind_ok, hn, Bool.false_eq_true]
    by_cases hv : 1 ≤ e.Val
    · have hgt : ¬ e.Val ≤ x.Len := fun hc => hout ⟨hv, hc⟩
      rw [w1 hv]
      rw [if_neg (by omega)]
      cases x <;> simp [Obj.isVector] at hx
      all_goals simp only [Obj.Len] at hgt
      all_goals simp only [Obj.Len]
      all_goals rw [if_pos (by omega)]
      all_goals rfl
    · rcases w2 (by omega) with hw | hw
      · rw [if_pos hw]
        rfl
      · rw [hw]
        rw [if_neg (by norm_num)]
        cases x <;> simp [Obj.isVector] at hx
        all_goals simp only [Obj.Len] at hlen
        all_goals simp only [Obj.Len]
        all_goals rw [if_pos (by omega)]
        all_goals rfl
  · intro e he hn hv1 hv2
    subst he
    obtain ⟨h1, h2⟩ := hrange e (List.mem_singleton_self e)
    obtain ⟨w1, _⟩ := wrapInt64_pred e.Val h1 h2
    have hi : (e.Val - 1).toNat < x.Len := by omega
    constructor
    · intro d a hd
      subst hd
      simp only [Obj.Len] at hi hv2
      have hg0 : goIndex [e] 0 = .ok e := rfl
      refine ⟨d.get ⟨_, hi⟩, by simp [List.get?_eq_getElem?, List.getElem?_eq_getElem hi], ?_⟩
      simp only [subset, if_true, List.length_singleton, ne_eq, not_true_eq_false, if_false,
        hg0, Res.bind_ok, hn, Bool.false_eq_true, w1 hv1]
      rw [if_neg (by omega), if_neg (by omega), goIndex_lt d _ hi]
      rfl
    · intro hat
      obtain ⟨r, hr, hrest⟩ := vectorElement_atomic x _ hat hi
      refine ⟨r, ?_, hrest⟩
      simp only [subset, if_true, List.length_singleton, ne_eq, not_true_eq_false, if_false,
        goIndex, List.get?_cons_zero, Res.bind_ok, hn, Bool.false_eq_true, w1 hv1]
      rw [if_neg (by omega)]
      cases x <;> simp [Obj.isAtomic] at hat
      all_goals simp only [Obj.Len] at hv2
      all_goals simp only [Obj.Len]
      all_goals rw [if_neg (by omega)]
      all_goals exact hr
  · intro d a
    rfl
  · intro s sa
    refine ⟨?_, ?_, ?_⟩
    · intro h
      simp only [subset, if_true, h, ne_eq, not_false_eq_true]
      rfl
    · intro e he hn
      subst he
      simp only [subset, if_true, List.length_singleton, ne_eq, not_true_eq_false, if_false,
        goIndex, List.get?_cons_zero, Res.bind_ok, hn]
      rfl
    · intro e he hn
      subst he
      have hrun : subset names x (.CharVec [e] sa) true =
          ((dollar names x e.Val).bind fun p => .ok (.existing p)) := by
        simp only [subset, if_true, List.length_singleton, ne_eq, not_true_eq_false, if_false,
          goIndex, List.get?_cons_zero, Res.bind_ok, hn, Bool.false_eq_true]
      refine ⟨hrun, ?_, ?_⟩
      · intro hat
        rw [hrun]
        cases x <;> simp [Obj.isAtomic] at hat <;> rfl
      · intro d a cn ca hxl hnm hcl
        subst hxl
        subst hnm
        constructor
        · intro i hi
          obtain ⟨hilt, _, _⟩ := List.findIdx?_eq_some_iff_getElem.mp hi
          have hid : i < d.length := by omega
          refine ⟨d.get ⟨i, hid⟩, by simp [List.get?_eq_getElem?, List.getElem?_eq_getElem hid],
            ?_⟩
          rw [hrun]
          simp only [dollar, hcl, if_true, hi, goIndex_lt d i hid]
          rfl
        · intro hnone
          rw [hrun]
          simp only [dollar, hcl, if_true, hnone]
          rfl

end IndexReadTheorems

/-! ### Indexed assignment -/

section IndexWriteTheorems

variable {F : Type} [Float64 F]

omit [Float64 F] in
theorem assignLoop_spec {α : Type} (na : α) (rv : List α) (hrv : 0 < rv.length) :
    ∀ (pos : List Int) (i0 : Nat) (d : List α),
      ∃ out, assignLoop na rv pos i0 d = .ok out ∧
        out.length = max d.length (maxEnd pos) ∧
        ∀ q, out.getD q na =
          match lastWrite pos q with
          | some j => rv.getD ((i0 + j) % rv.length) na
          | none => d.getD q na := by
  intro pos
  induction pos with
  | nil =>
    intro i0 d
    exact ⟨d, rfl, by simp [maxEnd], fun q => rfl⟩
  | cons p ps ih =>
    intro i0 d
    have h1 : i0 % rv.length < rv.length := Nat.mod_lt _ hrv
    obtain ⟨out, ho, hl, hq⟩ := ih (i0 + 1)
      ((d ++ List.replicate (p.toNat + 1 - d.length) na).set p.toNat (rv.get ⟨_, h1⟩))
    refine ⟨out, ?_, ?_, ?_⟩
    · unfold assignLoop
      rw [goMod_pos i0 _ hrv, Res.bind_ok, goIndex_lt rv _ h1, Res.bind_ok]
      exact ho
    · rw [hl]
      simp only [List.length_set, List.length_append, List.length_replicate, maxEnd,
        List.map_cons, List.foldr_cons]
      omega
    · intro q
      rw [hq q]
      simp only [lastWrite]
      cases hlw : lastWrite ps q with
      | some j =>
        simp only
        rw [show i0 + 1 + j = i0 + (j + 1) by omega]
      | none =>
        simp only
        by_cases hpq : p.toNat = q
        · subst hpq
          simp only [if_true, Nat.add_zero]
          rw [List.getD_eq_getElem?_getD, List.getElem?_set_self (by
            simp only [List.length_append, List.length_replicate]; omega)]
          simp [List.getElem?_eq_getElem h1]
        · simp only [if_neg hpq]
          rw [List.getD_eq_getElem?_getD, List.getElem?_set_ne hpq, List.getD_eq_getElem?_getD]
          by_cases hqd : q < d.length
          · rw [List.getElem?_append_left hqd]
          · have hd : d[q]? = none := List.getElem?_eq_none (by omega)
            rw [List.getElem?_append_right (by omega), hd, List.getElem?_replicate]
            split <;> rfl


omit [Float64 F] in
theorem Res.bind_eq_ok {α β : Type} {r : Res α} {f : α → Res β} {b : β}
    (h : r.bind f = .ok b) : ∃ a, r = .ok a ∧ f a = .ok b := by
  cases r with
  | ok a => exact ⟨a, rfl, h⟩
  | error e => cases h
  | panic w => cases h
  | outOfFuel => cases h

/-- A single-bracket `setSubset` of an atomic vector with an integer index:
the result is a new vector of the same type and attributes; the position
written last by entry `j` holds element `j mod length` of the coerced
right-hand side, every other position holds what it held (NA beyond the old
length). -/
theorem setSubset_atomic (ev : Evaluator F) (st : Store F) (x idx rhs : Ptr) (xo vo c : Obj F)
    (iv : List IntElem) (ia : Attrs)
    (hx : st.deref x = some xo) (hat : xo.isAtomic = true)
    (hi : st.deref idx = some (.IntVec iv ia))
    (hr : st.deref rhs = some vo) (hvn : ∀ e env f v er, vo ≠ .Promise e env f v er)
    (hc : coerceLike xo vo = .ok c) (hne : 0 < c.Len) :
    ∃ r, setSubset ev x idx rhs false st = M.alloc r st ∧ r.Type = xo.Type ∧
      r.attrs = xo.attrs ∧ r.Len = max xo.Len (maxEnd (assignPositions iv)) ∧
      ∀ q, r.selectAt [q] =
        match lastWrite (assignPositions iv) q with
        | some j => c.selectAt [j % c.Len]
        | none => xo.selectAt [q] := by
  have hxn : ∀ e env f v er, xo ≠ .Promise e env f v er := by
    intro e env f v er hcc
    subst hcc
    simp [Obj.isAtomic] at hat
  have fx := Force_of_not_promise ev st x xo hx hxn
  have fi := Force_of_not_promise ev st idx _ hi (fun _ _ _ _ _ hc => by cases hc)
  have fr := Force_of_not_promise ev st rhs _ hr hvn
  have fo := forceObj_of_not_promise ev st rhs _ hr hvn
  have hdx : M.derefOpt x st = (.ok (some xo), st) := by simp only [M.derefOpt, hx]
  have hdi : M.derefOpt idx st = (.ok (some (.IntVec iv ia)), st) := by
    simp only [M.derefOpt, hi]
  unfold setSubset
  rw [M.bind_of_ok fx, M.bind_of_ok fi, M.bind_of_ok fr, M.bind_of_ok hdx, M.bind_of_ok hdi]
  simp only [Bool.false_eq_true, if_false]
  cases xo <;> simp [Obj.isAtomic] at hat
  · rename_i d a
    obtain ⟨rv, hrv, hcv⟩ := Res.bind_eq_ok hc
    cases hcv
    simp only [Obj.Len] at hne
    obtain ⟨out, ho, hl, hq⟩ := assignLoop_spec LogicalElem.na rv hne (assignPositions iv) 0 d
    have hcm : asLogicalVecM ev rhs st = (.ok rv, st) := by
      unfold asLogicalVecM
      rw [M.bind_of_ok fo]
      simp only [M.lift, hrv]
    refine ⟨.LogicalVec out a, ?_, rfl, rfl, hl, ?_⟩
    · dsimp only
      rw [M.bind_of_ok hcm, if_neg (by omega)]
      rw [M.bind_of_ok (show M.lift _ st = (.ok out, st) from by simp only [M.lift, ho])]
    · intro q
      simp only [Obj.selectAt, List.map_cons, List.map_nil, hq q, Obj.Len, Nat.zero_add]
      cases lastWrite (assignPositions iv) q <;> rfl
  · rename_i d a
    obtain ⟨rv, hrv, hcv⟩ := Res.bind_eq_ok hc
    cases hcv
    simp only [Obj.Len] at hne
    obtain ⟨out, ho, hl, hq⟩ := assignLoop_spec IntElem.na rv hne (assignPositions iv) 0 d
    have hcm : coerceToIntVecM ev rhs st = (.ok rv, st) := by
      unfold coerceToIntVecM
      rw [M.bind_of_ok fo]
      simp only [M.lift, hrv]
    refine ⟨.IntVec out a, ?_, rfl, rfl, hl, ?_⟩
    · dsimp only
      rw [M.bind_of_ok hcm, if_neg (by omega)]
      rw [M.bind_of_ok (show M.lift _ st = (.ok out, st) from by simp only [M.lift, ho])]
    · intro q
      simp only [Obj.selectAt, List.map_cons, List.map_nil, hq q, Obj.Len, Nat.zero_add]
      cases lastWrite (assignPositions iv) q <;> rfl
  · rename_i d a
    obtain ⟨rv, hrv, hcv⟩ := Res.bind_eq_ok hc
    cases hcv
    simp only [Obj.Len] at hne
    obtain ⟨out, ho, hl, hq⟩ := assignLoop_spec (FloatElem.na : FloatElem F) rv hne
      (assignPositions iv) 0 d
    have hcm : asDoubleVecM ev rhs st = (.ok rv, st) := by
      unfold asDoubleVecM
      rw [M.bind_of_ok fo]
      simp only [M.lift, hrv]
    refine ⟨.DoubleVec out a, ?_, rfl, rfl, hl, ?_⟩
    · dsimp only
      rw [M.bind_of_ok hcm, if_neg (by omega)]
      rw [M.bind_of_ok (show M.lift _ st = (.ok out, st) from by simp only [M.lift, ho])]
    · intro q
      simp only [Obj.selectAt, List.map_cons, List.map_nil, hq q, Obj.Len, Nat.zero_add]
      cases lastWrite (assignPositions iv) q <;> rfl
  · rename_i d a
    obtain ⟨rv, hrv, hcv⟩ := Res.bind_eq_ok hc
    cases hcv
    simp only [Obj.Len] at hne
    obtain ⟨out, ho, hl, hq⟩ := assignLoop_spec StringElem.na rv hne (assignPositions iv) 0 d
    have hcm : asCharVecM ev rhs st = (.ok rv, st) := by
      unfold asCharVecM
      rw [M.bind_of_ok fo]
      simp only [M.lift, hrv]
    refine ⟨.CharVec out a, ?_, rfl, rfl, hl, ?_⟩
    · dsimp only
      rw [M.bind_of_ok hcm, if_neg (by omega)]
      rw [M.bind_of_ok (show M.lift _ st = (.ok out, st) from by simp only [M.lift, ho])]
    · intro q
      simp only [Obj.selectAt, List.map_cons, List.map_nil, hq q, Obj.Len, Nat.zero_add]
      cases lastWrite (assignPositions iv) q <;> rfl


omit [Float64 F] in
theorem lastWrite_none (pos : List Int) (q : Nat) (h : ∀ p, p ∈ pos → p.toNat ≠ q) :
    lastWrite pos q = none := by
  induction pos with
  | nil => rfl
  | cons p ps ih =>
    simp only [lastWrite, ih (fun p' hp' => h p' (List.mem_cons_of_mem _ hp')),
      if_neg (h p (List.mem_cons_self _ _))]

omit [Float64 F] in
theorem lastWrite_some : ∀ (pos : List Int) (j : Nat) (p : Int), pos.get? j = some p →
    (∀ j' p', j < j' → pos.get? j' = some p' → p'.toNat ≠ p.toNat) →
    lastWrite pos p.toNat = some j := by
  intro pos
  induction pos with
  | nil => intro j p h; cases h
  | cons a ps ih =>
    intro j p hj hlast
    cases j with
    | zero =>
      simp only [List.get?_cons_zero, Option.some.injEq] at hj
      subst hj
      have hn : lastWrite ps a.toNat = none := by
        apply lastWrite_none
        intro p' hp'
        obtain ⟨k, hk⟩ := List.get?_of_mem hp'
        exact hlast (k + 1) p' (by omega) (by simpa using hk)
      simp only [lastWrite, hn, if_true]
    | succ k =>
      simp only [List.get?_cons_succ] at hj
      have := ih k p hj (fun j' p' hlt hp' => hlast (j' + 1) p' (by omega) (by simpa using hp'))
      simp only [lastWrite, this]

omit [Float64 F] in
theorem lastWrite_lt (pos : List Int) (q j : Nat) (h : lastWrite pos q = some j) :
    j < pos.length := by
  induction pos generalizing j with
  | nil => cases h
  | cons a ps ih =>
    simp only [lastWrite] at h
    cases hl : lastWrite ps q with
    | some k =>
      rw [hl] at h
      simp only [Option.some.injEq] at h
      have := ih k hl
      simp only [List.length_cons]
      omega
    | none =>
      rw [hl] at h
      simp only at h
      split at h
      · cases h
        simp
      · cases h

omit [Float64 F] in
theorem lastWrite_mem (pos : List Int) (q : Nat) (p : Int) (hp : p ∈ pos) (hq : p.toNat = q) :
    ∃ j, lastWrite pos q = some j := by
  induction pos with
  | nil => cases hp
  | cons a ps ih =>
    simp only [lastWrite]
    cases hl : lastWrite ps q with
    | some k => exact ⟨k + 1, rfl⟩
    | none =>
      rcases List.mem_cons.mp hp with h | h
      · subst h
        exact ⟨0, by simp [hq]⟩
      · obtain ⟨j, hj⟩ := ih h
        rw [hl] at hj
        cases hj


theorem selectAt_beyond (x : Obj F) (hx : x.isAtomic = true) (q : Nat) (hq : x.Len ≤ q) :
    (x.selectAt [q]).naFlags = [true] := by
  cases x <;> simp [Obj.isAtomic] at hx
  all_goals
    rename_i d a
    simp only [Obj.Len] at hq
    simp [Obj.selectAt, Obj.naFlags, List.getD_eq_getElem?_getD, List.getElem?_eq_none hq,
      LogicalElem.na, IntElem.na, FloatElem.na, StringElem.na]

theorem normalizeIndexInt_nonneg (iv : List IntElem) (n : Nat)
    (h : ∀ e, e ∈ iv → e.NA = false → 0 ≤ e.Val) :
    ∃ r, normalizeIndexInt iv n = .ok r ∧ selectedPositions r = assignPositions iv := by
  have hneg : (iv.any fun e => !e.NA && decide (e.Val < 0)) = false := by
    rw [List.any_eq_false]
    intro e he
    cases hna : e.NA
    · have := h e he hna
      simp only [Bool.not_false, Bool.true_and, decide_eq_true_eq]
      omega
    · simp
  have hn : normalizeIndexInt iv n =
      .ok ((iv.filter fun e => e.NA || e.Val != 0).map (fun e => if e.NA then 0 else e.Val - 1),
        (iv.filter fun e => e.NA || e.Val != 0).map fun e => e.NA) := by
    unfold normalizeIndexInt
    simp only [hneg, Bool.false_and, Bool.false_eq_true, if_false]
  refine ⟨_, hn, ?_⟩
  simp only [selectedPositions, assignPositions]
  clear hneg hn
  induction iv with
  | nil => rfl
  | cons e es ih =>
    have ih' := ih (fun e' he' => h e' (List.mem_cons_of_mem _ he'))
    have he := h e (List.mem_cons_self _ _)
    cases hna : e.NA
    · have hv := he hna
      by_cases hz : e.Val = 0
      · simp only [List.filter_cons, hna, hz, Bool.false_or, bne_self_eq_false,
          Bool.false_eq_true, if_false, Bool.not_false, Bool.true_and, gt_iff_lt, lt_self_iff_false,
          decide_False]
        exact ih'
      · have hp : 0 < e.Val := by omega
        simp only [List.filter_cons, hna, Bool.false_or, bne_iff_ne, ne_eq, hz, not_false_eq_true,
          decide_True, if_true, List.map_cons, List.zip_cons_cons, Bool.not_false,
          Bool.true_and, gt_iff_lt, hp, Bool.false_eq_true, if_false]
        rw [← ih']
    · simp only [List.filter_cons, hna, Bool.true_or, if_true, List.map_cons,
        List.zip_cons_cons, Bool.not_true, Bool.false_and, Bool.false_eq_true, if_false]
      exact ih'


/-- C16 (as amended): for every atomic vector `x` of length `n`, every integer
index vector `i` and every non-empty value `v` coercible to the type of `x`,
`setSubset(x, i, v)` with a single bracket returns a new vector of the type of
`x`. With `p_0, p_1, ...` the positive non-NA entries of `i` in order (NA,
zero and negative entries are skipped), the length is the maximum of `n` and
the largest `p_j`; the position `p_j` holds `v[j mod length(v)]` whenever no
later entry names the same position (the last write to a position wins);
every position that `i` does not name keeps its old element, and is NA when it
lies beyond `n`. -/
theorem setSubset_recycles (ev : Evaluator F) (st : Store F) (x idx rhs : Ptr)
    (xo vo c : Obj F) (iv : List IntElem) (ia : Attrs)
    (hx : st.deref x = some xo) (hat : xo.isAtomic = true)
    (hi : st.deref idx = some (.IntVec iv ia))
    (hr : st.deref rhs = some vo) (hvn : ∀ e env f v er, vo ≠ .Promise e env f v er)
    (hc : coerceLike xo vo = .ok c) (hne : 0 < c.Len) :
    ∃ r, setSubset ev x idx rhs false st = M.alloc r st ∧ r.Type = xo.Type ∧
      r.Len = max xo.Len (maxEnd (assignPositions iv)) ∧
      (∀ j p, (assignPositions iv).get? j = some p →
        (∀ j' p', j < j' → (assignPositions iv).get? j' = some p' → p'.toNat ≠ p.toNat) →
        r.selectAt [p.toNat] = c.selectAt [j % c.Len]) ∧
      (∀ q, (∀ p, p ∈ assignPositions iv → p.toNat ≠ q) →
        r.selectAt [q] = xo.selectAt [q] ∧ (xo.Len ≤ q → (r.selectAt [q]).naFlags = [true])) := by
  obtain ⟨r, h1, h2, _, h4, h5⟩ := setSubset_atomic ev st x idx rhs xo vo c iv ia hx hat hi hr hvn
    hc hne
  refine ⟨r, h1, h2, h4, ?_, ?_⟩
  · intro j p hj hlast
    rw [h5 p.toNat, lastWrite_some _ j p hj hlast]
  · intro q hq
    have : r.selectAt [q] = xo.selectAt [q] := by rw [h5 q, lastWrite_none _ q hq]
    exact ⟨this, fun hlen => by rw [this]; exact selectAt_beyond xo hat q hlen⟩

/-- C17 (as amended): the single-bracket write `x[i] <- v` on an atomic vector
`x` with a non-empty `v` coercible to the type of `x` accepts an integer index
only: a double, logical or character index is the error "[<- only supports
integer indices in smallR MVP". For an integer index without negative entries
the write succeeds, and the positions it modifies are those that the index
normalization of the read `x[i]` selects: each of them holds an element of
`v`, and every other position keeps its old element. -/
theorem setSubset_integer_positions (ev : Evaluator F) (st : Store F) (x idx rhs : Ptr)
    (xo io vo c : Obj F)
    (hx : st.deref x = some xo) (hat : xo.isAtomic = true)
    (hi : st.deref idx = some io)
    (hr : st.deref rhs = some vo) (hvn : ∀ e env f v er, vo ≠ .Promise e env f v er)
    (hc : coerceLike xo vo = .ok c) (hne : 0 < c.Len) :
    ((io.Type = "double" ∨ io.Type = "logical" ∨ io.Type = "character") →
      setSubset ev x idx rhs false st =
        (.error (.msg "[<- only supports integer indices in smallR MVP"), st)) ∧
    (∀ iv ia, io = .IntVec iv ia → (∀ e, e ∈ iv → e.NA = false → 0 ≤ e.Val) →
      ∃ sel r, normalizeIndex io xo.Len = .ok sel ∧
        setSubset ev x idx rhs false st = M.alloc r st ∧
        r.Type = xo.Type ∧
        (∀ p, p ∈ selectedPositions sel → ∃ k, k < c.Len ∧ r.selectAt [p.toNat] = c.selectAt [k]) ∧
        (∀ q, (∀ p, p ∈ selectedPositions sel → p.toNat ≠ q) →
          r.selectAt [q] = xo.selectAt [q])) := by
  have hxn : ∀ e env f v er, xo ≠ .Promise e env f v er := by
    intro e env f v er hcc
    subst hcc
    simp [Obj.isAtomic] at hat
  constructor
  · intro hty
    have hin : ∀ e env f v er, io ≠ .Promise e env f v er := by
      intro e env f v er hcc
      subst hcc
      simp [Obj.Type] at hty
    have fx := Force_of_not_promise ev st x xo hx hxn
    have fi := Force_of_not_promise ev st idx _ hi hin
    have fr := Force_of_not_promise ev st rhs _ hr hvn
    have hdx : M.derefOpt x st = (.ok (some xo), st) := by simp only [M.derefOpt, hx]
    have hdi : M.derefOpt idx st = (.ok (some io), st) := by simp only [M.derefOpt, hi]
    unfold setSubset
    rw [M.bind_of_ok fx, M.bind_of_ok fi, M.bind_of_ok fr, M.bind_of_ok hdx, M.bind_of_ok hdi]
    simp only [Bool.false_eq_true, if_false]
    cases io <;> simp [Obj.Type] at hty <;> rfl
  · intro iv ia hio hnn
    subst hio
    obtain ⟨sel, hsel, hpos⟩ := normalizeIndexInt_nonneg iv xo.Len hnn
    obtain ⟨r, h1, h2, _, _, h5⟩ := setSubset_atomic ev st x idx rhs xo vo c iv ia hx hat hi hr
      hvn hc hne
    refine ⟨sel, r, hsel, h1, h2, ?_, ?_⟩
    · intro p hp
      rw [hpos] at hp
      obtain ⟨j, hj⟩ := lastWrite_mem _ p.toNat p hp rfl
      exact ⟨j % c.Len, Nat.mod_lt _ hne, by rw [h5 p.toNat, hj]⟩
    · intro q hq
      rw [hpos] at hq
      rw [h5 q, lastWrite_none _ q hq]

end IndexWriteTheorems

/-! ### `$` assignment -/

section DollarTheorems

variable {F : Type}

/-- The pure `dollar` after a slot named `n` was overwritten or appended. -/
theorem dollar_after_set (d : List Ptr) (names : List StringElem) (a1 a2 : Attrs) (n : String)
    (rhs : Ptr) (hlen : names.length = d.length) :
    (∀ i, names.findIdx? (fun e => !e.NA && e.Val == n) = some i →
      dollar (some (.CharVec names a1)) (.ListVec (d.set i rhs) a2 : Obj F) n = .ok rhs ∧
      ∀ m, m ≠ n →
        dollar (some (.CharVec names a1)) (.ListVec (d.set i rhs) a2 : Obj F) m =
          dollar (some (.CharVec names a1)) (.ListVec d a2 : Obj F) m) ∧
    (names.findIdx? (fun e => !e.NA && e.Val == n) = none →
      dollar (some (.CharVec (names ++ [⟨n, false⟩]) a1)) (.ListVec (d ++ [rhs]) a2 : Obj F) n =
        .ok rhs ∧
      ∀ m, m ≠ n →
        dollar (some (.CharVec (names ++ [⟨n, false⟩]) a1)) (.ListVec (d ++ [rhs]) a2 : Obj F) m =
          dollar (some (.CharVec names a1)) (.ListVec d a2 : Obj F) m) := by
  constructor
  · intro i hi
    obtain ⟨hlt, hp, _⟩ := List.findIdx?_eq_some_iff_getElem.mp hi
    have hid : i < d.length := by omega
    constructor
    · simp only [dollar, List.length_set, hlen, if_true, hi]
      rw [goIndex_lt _ _ (by simp only [List.length_set]; exact hid)]
      simp
    · intro m hm
      simp only [dollar, List.length_set, hlen, if_true]
      cases hk : names.findIdx? (fun e => !e.NA && e.Val == m) with
      | none => rfl
      | some k =>
        obtain ⟨hklt, hkp, _⟩ := List.findIdx?_eq_some_iff_getElem.mp hk
        have hne : i ≠ k := by
          intro hc
          subst hc
          simp only [Bool.and_eq_true, Bool.not_eq_true', beq_iff_eq] at hp hkp
          exact hm (hkp.2.symm.trans hp.2)
        simp only [goIndex, List.get?_eq_getElem?, List.getElem?_set_ne hne]
  · intro hnone
    have hl2 : (names ++ [(⟨n, false⟩ : StringElem)]).length = (d ++ [rhs]).length := by
      simp [hlen]
    constructor
    · simp only [dollar, hl2, if_true, List.findIdx?_append, hnone, Option.none_or]
      simp [goIndex, hlen]
    · intro m hm
      simp only [dollar, hl2, hlen, if_true, List.findIdx?_append]
      have hlast : ([(⟨n, false⟩ : StringElem)].findIdx? fun e => !e.NA && e.Val == m) = none := by
        simp [List.findIdx?_cons, Ne.symm hm]
      rw [hlast]
      cases hk : names.findIdx? (fun e => !e.NA && e.Val == m) with
      | none => rfl
      | some k =>
        obtain ⟨hklt, _, _⟩ := List.findIdx?_eq_some_iff_getElem.mp hk
        simp only [Option.map_none', Option.or_none, goIndex, List.get?_eq_getElem?]
        rw [List.getElem?_append_left (by omega)]


/-- `dollar(ctx, x, name)` on a list whose `names` attribute, if present, is
not a promise: the pure `dollar` on the objects, with the store unchanged. -/
theorem dollarM_list (ev : Evaluator F) (st : Store F) (x : Ptr) (d : List Ptr) (a : Attrs)
    (m : String) (hx : st.deref x = some (.ListVec d a)) :
    (mapGet a "names" = none → dollarM ev x m st = (dollar none (.ListVec d a : Obj F) m, st)) ∧
    (∀ nm no, mapGet a "names" = some nm → st.deref nm = some no →
      (∀ e env f v er, no ≠ .Promise e env f v er) →
      dollarM ev x m st = (dollar (some no) (.ListVec d a : Obj F) m, st)) := by
  have fo := forceObj_of_not_promise ev st x _ hx (fun _ _ _ _ _ hc => by cases hc)
  constructor
  · intro hnone
    unfold dollarM
    rw [M.bind_of_ok fo]
    simp only [forcedNames, Obj.attrs, hnone]
    rfl
  · intro nm no hsome hno hnp
    unfold dollarM
    rw [M.bind_of_ok fo]
    simp only [forcedNames, Obj.attrs, hsome]
    have hfn : ((Force ev nm).bind fun nmv => (M.derefOpt nmv).bind fun o =>
        (pure (some (o.getD Obj.Null)) : M F (Option (Obj F)))) st = (.ok (some no), st) := by
      rw [M.bind_of_ok (Force_of_not_promise ev st nm no hno hnp),
        M.bind_of_ok (show M.derefOpt nm st = (.ok (some no), st) from by
          simp only [M.derefOpt, hno])]
      rfl
    rw [M.bind_of_ok hfn]
    rfl


theorem findIdx?_na_names (k : Nat) (n : String) :
    (List.replicate k StringElem.na).findIdx? (fun e => !e.NA && e.Val == n) = none := by
  rw [List.findIdx?_eq_none_iff]
  intro e he
  rw [(List.mem_replicate.mp he).2]
  rfl

theorem dollar_na_names (d : List Ptr) (a1 a2 : Attrs) (m : String) :
    dollar (some (.CharVec (List.replicate d.length StringElem.na) a1)) (.ListVec d a2 : Obj F) m =
      .ok .NullValue := by
  simp only [dollar, List.length_replicate, if_true, findIdx?_na_names]

theorem writeSharedFrom_length (sl : List (Nat × Nat × Nat)) (A k : Nat) (e : StringElem)
    (objs : List (Obj F)) (c : Nat) :
    (writeSharedFrom sl A k e c objs).length = objs.length := by
  induction objs generalizing c with
  | nil => rfl
  | cons o rest ih => simp only [writeSharedFrom, List.length_cons, ih]

theorem writeSharedFrom_get (sl : List (Nat × Nat × Nat)) (A k : Nat) (e : StringElem)
    (objs : List (Obj F)) (c i : Nat) :
    (writeSharedFrom sl A k e c objs)[i]? = (objs[i]?).map (writeSharedAt sl A k e (c + i)) := by
  induction objs generalizing c i with
  | nil => simp [writeSharedFrom]
  | cons o rest ih =>
    cases i with
    | zero => simp [writeSharedFrom]
    | succ j =>
      simp only [writeSharedFrom, List.getElem?_cons_succ]
      rw [ih (c + 1) j, show c + 1 + j = c + (j + 1) from by omega]

/-- The write into a backing array changes no object other than a character
vector of more than `k` elements. -/
theorem writeSharedAt_keeps (sl : List (Nat × Nat × Nat)) (A k : Nat) (e : StringElem) (c : Nat)
    (o : Obj F) (h : ∀ dd aa, o = .CharVec dd aa → dd.length ≤ k) :
    writeSharedAt sl A k e c o = o := by
  cases o with
  | CharVec dd aa =>
    have := h dd aa rfl
    simp only [writeSharedAt]
    rw [if_neg (by omega)]
  | _ => rfl

/-- What `setDollarList` does to the store: objects other than character
vectors, and character vectors that are not longer than the names, stay; then
the new names vector and the new list are allocated. -/
theorem setDollarList_runs (d : List Ptr) (a : Attrs) (n : String) (rhs : Ptr)
    (fa : Option (Nat × List StringElem)) (st : Store F) :
    ∃ s0 : Store F,
      (s0.objs = st.objs ∨ ∃ c cn A, fa = some (c, cn) ∧ cn.length = d.length ∧
        s0.objs = writeSharedFrom st.arrays.slices A cn.length ⟨n, false⟩ 0 st.objs) ∧
      (∀ i, (dollarNames d fa st).1.findIdx? (fun e => !e.NA && e.Val == n) = some i →
        setDollarList d a n rhs fa st =
          (.ok ((s0.alloc (.CharVec (dollarNames d fa st).1 [])).2.alloc
              (.ListVec (d.set i rhs)
                (mapSet a "names" (s0.alloc (.CharVec (dollarNames d fa st).1 [])).1))).1,
            ((s0.alloc (.CharVec (dollarNames d fa st).1 [])).2.alloc
              (.ListVec (d.set i rhs)
                (mapSet a "names" (s0.alloc (.CharVec (dollarNames d fa st).1 [])).1))).2)) ∧
      ((dollarNames d fa st).1.findIdx? (fun e => !e.NA && e.Val == n) = none →
        setDollarList d a n rhs fa st =
          (.ok ((s0.alloc (.CharVec ((dollarNames d fa st).1 ++ [⟨n, false⟩]) [])).2.alloc
              (.ListVec (d ++ [rhs]) (mapSet a "names"
                (s0.alloc (.CharVec ((dollarNames d fa st).1 ++ [⟨n, false⟩]) [])).1))).1,
            ((s0.alloc (.CharVec ((dollarNames d fa st).1 ++ [⟨n, false⟩]) [])).2.alloc
              (.ListVec (d ++ [rhs]) (mapSet a "names"
                (s0.alloc (.CharVec ((dollarNames d fa st).1 ++ [⟨n, false⟩]) [])).1))).2)) := by
  cases hf : (dollarNames d fa st).1.findIdx? (fun e => !e.NA && e.Val == n) with
  | some i =>
    refine ⟨match (dollarNames d fa st).2 with
      | some h => st.share st.objs.length h
      | none => st, Or.inl ?_, ?_, ?_⟩
    · cases (dollarNames d fa st).2 <;> rfl
    · intro j hj
      cases hj
      unfold setDollarList
      simp only [hf]
      try rfl
    · intro hc
      cases hc
  | none =>
    refine ⟨appendName (dollarNames d fa st).1.length
      ((dollarNames d fa st).2.getD (st.objs.length, (dollarNames d fa st).1.length))
      ⟨n, false⟩ st, ?_, ?_, ?_⟩
    · have hfresh : ∀ k : Nat, (appendName k (st.objs.length, k) ⟨n, false⟩ st).objs = st.objs := by
        intro k
        unfold appendName
        rw [if_neg (Nat.lt_irrefl k)]
        rfl
      cases fa with
      | none =>
        left
        simp only [dollarNames, Option.getD_none]
        exact hfresh _
      | some cc =>
        obtain ⟨c, cn⟩ := cc
        by_cases hl : cn.length = d.length
        · simp only [dollarNames, hl, ne_eq, not_true_eq_false, if_false, Option.getD_some]
          unfold appendName
          split
          · right
            exact ⟨c, cn, _, rfl, hl, by rw [hl]; rfl⟩
          · left
            rfl
        · left
          simp only [dollarNames, hl, ne_eq, not_false_eq_true, if_true, Option.getD_none]
          exact hfresh _
    · intro j hj
      cases hj
    · intro _
      unfold setDollarList
      simp only [hf]
      try rfl

/-- An object that the write into a backing array cannot reach is the same
object afterwards. -/
theorem deref_kept (st s0 : Store F) (k : Nat) (e : StringElem) (p : Ptr) (o : Obj F)
    (hs : s0.objs = st.objs ∨
      ((∃ A, s0.objs = writeSharedFrom st.arrays.slices A k e 0 st.objs) ∧
        ∀ dd aa, o = .CharVec dd aa → dd.length ≤ k))
    (hp : st.deref p = some o) : s0.deref p = some o := by
  cases p with
  | addr c =>
    simp only [Store.deref, List.get?_eq_getElem?] at hp ⊢
    rcases hs with h | ⟨⟨A, h⟩, ho⟩
    · rw [h]
      exact hp
    · rw [h, writeSharedFrom_get, hp]
      simp only [Option.map_some', writeSharedAt_keeps _ _ _ _ _ o ho]
  | nil => exact hp
  | NullValue => exact hp
  | MissingValue => exact hp

/-- The names `setDollar` works with, for a list whose `names` attribute, if
present, is not a promise. -/
theorem setDollar_names (ev : Evaluator F) (st : Store F) (x rhs : Ptr) (d : List Ptr)
    (a : Attrs) (vo : Obj F) (n : String)
    (hx : st.deref x = some (.ListVec d a))
    (hr : st.deref rhs = some vo) (hvn : ∀ e env f v er, vo ≠ .Promise e env f v er)
    (hnm : ∀ nm, mapGet a "names" = some nm →
      ∃ no, st.deref nm = some no ∧ ∀ e env f v er, no ≠ .Promise e env f v er) :
    ∃ (names0 : List StringElem) (fa : Option (Nat × List StringElem)),
      names0.length = d.length ∧ (dollarNames d fa st).1 = names0 ∧
      (∀ c cn, fa = some (c, cn) → mapGet a "names" = some (.addr c) ∧
        ∃ ca, st.deref (.addr c) = some (.CharVec cn ca)) ∧
      setDollar ev x n rhs st = setDollarList d a n rhs fa st ∧
      (∀ m a2, dollarM ev x m st =
        (dollar (some (.CharVec names0 [])) (.ListVec d a2 : Obj F) m, st)) ∧
      (st.listNames d a = names0 ∨
        (st.listNames d a = [] ∧ names0 = List.replicate d.length StringElem.na)) := by
  have fx := Force_of_not_promise ev st x _ hx (fun _ _ _ _ _ hc => by cases hc)
  have fr := Force_of_not_promise ev st rhs _ hr hvn
  have hdx : M.derefOpt x st = (.ok (some (.ListVec d a)), st) := by simp only [M.derefOpt, hx]
  have hsd : setDollar ev x n rhs st =
      (match mapGet a "names" with
        | none => setDollarList d a n rhs none
        | some nm => fun st =>
          match Force ev nm st with
          | (.ok nmv, st1) =>
            match nmv, st1.deref nmv with
            | .addr c, some (.CharVec cn _) => setDollarList d a n rhs (some (c, cn)) st1
            | _, _ => setDollarList d a n rhs none st1
          | (.error _, st1) => setDollarList d a n rhs none st1
          | (.panic w, st1) => (.panic w, st1)
          | (.outOfFuel, st1) => (.outOfFuel, st1)) st := by
    unfold setDollar
    rw [M.bind_of_ok fx, M.bind_of_ok fr, M.bind_of_ok hdx]
    try rfl
  cases hmg : mapGet a "names" with
  | none =>
    refine ⟨List.replicate d.length StringElem.na, none, ?_, ?_, ?_, ?_, ?_, Or.inr ⟨?_, rfl⟩⟩
    · simp
    · rfl
    · intro _ _ hc
      cases hc
    · rw [hsd, hmg]
    · intro m a2
      rw [(dollarM_list ev st x d a m hx).1 hmg, dollar_na_names]
      rfl
    · simp only [Store.listNames, hmg]
  | some nm =>
    obtain ⟨no, hno, hnp⟩ := hnm nm hmg
    have fn := Force_of_not_promise ev st nm no hno hnp
    have hdm : ∀ m, dollarM ev x m st = (dollar (some no) (.ListVec d a : Obj F) m, st) :=
      fun m => (dollarM_list ev st x d a m hx).2 nm no hmg hno hnp
    by_cases hcv : ∃ cn ca, no = .CharVec cn ca
    · obtain ⟨cn, ca, hcn⟩ := hcv
      subst hcn
      obtain ⟨c, hc⟩ : ∃ c, nm = .addr c := by
        cases nm with
        | addr c => exact ⟨c, rfl⟩
        | nil => cases hno
        | NullValue => cases hno
        | MissingValue => cases hno
      subst hc
      have hrun : setDollar ev x n rhs st = setDollarList d a n rhs (some (c, cn)) st := by
        rw [hsd, hmg]
        simp only [fn, hno]
      by_cases hlen : cn.length = d.length
      · refine ⟨cn, some (c, cn), hlen, ?_, ?_, hrun, ?_, Or.inl ?_⟩
        · simp only [dollarNames, hlen, ne_eq, not_true_eq_false, if_false]
        · intro c2 cn2 h2
          cases h2
          exact ⟨rfl, ca, hno⟩
        · intro m a2
          rw [hdm m]
          simp only [dollar]
        · simp only [Store.listNames, hmg, hno, hlen, if_true]
      · refine ⟨List.replicate d.length StringElem.na, some (c, cn), ?_, ?_, ?_, hrun, ?_,
          Or.inr ⟨?_, rfl⟩⟩
        · simp
        · simp only [dollarNames, hlen, ne_eq, not_false_eq_true, if_true]
        · intro c2 cn2 h2
          cases h2
          exact ⟨rfl, ca, hno⟩
        · intro m a2
          rw [hdm m, dollar_na_names]
          simp only [dollar, hlen, if_false]
        · simp only [Store.listNames, hmg, hno, hlen, if_false]
    · have hrun : setDollar ev x n rhs st = setDollarList d a n rhs none st := by
        rw [hsd, hmg]
        simp only [fn]
        cases nm with
        | addr c =>
          cases no with
          | CharVec cn ca => exact absurd ⟨cn, ca, rfl⟩ hcv
          | _ => simp only [hno]
        | nil => cases hno
        | NullValue => simp only [hno]
        | MissingValue => simp only [hno]
      refine ⟨List.replicate d.length StringElem.na, none, ?_, ?_, ?_, hrun, ?_,
        Or.inr ⟨?_, rfl⟩⟩
      · simp
      · rfl
      · intro _ _ hc
        cases hc
      · intro m a2
        rw [hdm m, dollar_na_names]
        cases no with
        | CharVec cn ca => exact absurd ⟨cn, ca, rfl⟩ hcv
        | _ => rfl
      · simp only [Store.listNames, hmg, hno]
        cases no with
        | CharVec cn ca => exact absurd ⟨cn, ca, rfl⟩ hcv
        | _ => rfl

/-- C18: for every list `x`, name `n` and value `v`, `setDollar(x, n, v)`
returns a new list `r` with `dollar(r, n) = v`; the `names` attribute of `r`
is a character vector of the length of `r`; for every other name `m`,
`dollar(r, m) = dollar(x, m)`; and the length of `r` is `length(x)` if `n` was
a name of `x` and `length(x) + 1` otherwise. The list `x` itself reads as
before, for every name, although `append` may have written into the backing
array of its names. -/
theorem setDollar_dollar (ev : Evaluator F) (st : Store F) (x rhs : Ptr) (d : List Ptr)
    (a : Attrs) (vo : Obj F) (n : String)
    (hx : st.deref x = some (.ListVec d a))
    (hr : st.deref rhs = some vo) (hvn : ∀ e env f v er, vo ≠ .Promise e env f v er)
    (hnm : ∀ nm, mapGet a "names" = some nm →
      ∃ no, st.deref nm = some no ∧ ∀ e env f v er, no ≠ .Promise e env f v er) :
    ∃ r st' d' a', setDollar ev x n rhs st = (.ok r, st') ∧
      st'.deref r = some (.ListVec d' a') ∧
      dollarM ev r n st' = (.ok rhs, st') ∧
      (∃ nmp cn ca, mapGet a' "names" = some nmp ∧ st'.deref nmp = some (.CharVec cn ca) ∧
        cn.length = d'.length) ∧
      (∀ m, m ≠ n → ∃ v, dollarM ev x m st = (.ok v, st) ∧ dollarM ev r m st' = (.ok v, st')) ∧
      (st.hasName d a n → d'.length = d.length) ∧
      (¬ st.hasName d a n → d'.length = d.length + 1) ∧
      (∀ m, ∃ v, dollarM ev x m st = (.ok v, st) ∧ dollarM ev x m st' = (.ok v, st')) := by
  obtain ⟨names0, fa, hlen, hdn, hfa, hsd, hdm, hln⟩ :=
    setDollar_names ev st x rhs d a vo n hx hr hvn hnm
  obtain ⟨s0, hs0, hfound, happend⟩ := setDollarList_runs d a n rhs fa st
  rw [hdn] at hfound happend
  have hnull : ∀ (m : String) (a2 : Attrs) (dd : List Ptr),
      ∃ v, dollar (some (.CharVec names0 [])) (.ListVec d a2 : Obj F) m = .ok v := by
    intro m a2 dd
    simp only [dollar, hlen, if_true]
    cases hk : names0.findIdx? (fun e => !e.NA && e.Val == m) with
    | none => exact ⟨_, rfl⟩
    | some k =>
      obtain ⟨hklt, _, _⟩ := List.findIdx?_eq_some_iff_getElem.mp hk
      exact ⟨_, goIndex_lt d k (by omega)⟩
  have hkeep : ∀ p o, st.deref p = some o →
      (s0.objs = st.objs ∨ ∀ dd aa, o = .CharVec dd aa → dd.length ≤ d.length) →
      ∀ o1 o2, ((s0.alloc o1).2.alloc o2).2.deref p = some o := by
    intro p o hp ho o1 o2
    refine deref_alloc_old _ _ _ _ (deref_alloc_old _ _ _ _
      (deref_kept st s0 d.length ⟨n, false⟩ p o ?_ hp))
    rcases hs0 with h | ⟨c, cn, A, _, hl, h⟩
    · exact Or.inl h
    · rcases ho with ho | ho
      · exact Or.inl ho
      · exact Or.inr ⟨⟨A, by rw [← hl]; exact h⟩, ho⟩
  have hxkeep : ∀ o1 o2 m, ∃ v, dollarM ev x m st = (.ok v, st) ∧
      dollarM ev x m ((s0.alloc o1).2.alloc o2).2 = (.ok v, ((s0.alloc o1).2.alloc o2).2) := by
    intro o1 o2 m
    have hx2 := hkeep x _ hx (Or.inr fun _ _ hc => by cases hc) o1 o2
    obtain ⟨v, hv⟩ := hnull m a d
    refine ⟨v, by rw [hdm m a, hv], ?_⟩
    cases hmg : mapGet a "names" with
    | none =>
      rw [(dollarM_list ev _ x d a m hx2).1 hmg]
      have h1 := hdm m a
      rw [(dollarM_list ev st x d a m hx).1 hmg] at h1
      rw [(Prod.mk.inj h1).1, hv]
    | some nm =>
      obtain ⟨no, hno, hnp⟩ := hnm nm hmg
      have hno2 : ((s0.alloc o1).2.alloc o2).2.deref nm = some no := by
        apply hkeep nm no hno
        rcases hs0 with h | ⟨c, cn, A, hfc, hl, h⟩
        · exact Or.inl h
        · right
          intro dd aa hdd
          subst hdd
          obtain ⟨hm1, ca, hd1⟩ := hfa c cn hfc
          rw [hmg] at hm1
          cases hm1
          rw [hno] at hd1
          cases hd1
          omega
      rw [(dollarM_list ev _ x d a m hx2).2 nm no hmg hno2 hnp]
      have h1 := hdm m a
      rw [(dollarM_list ev st x d a m hx).2 nm no hmg hno hnp] at h1
      rw [(Prod.mk.inj h1).1, hv]
  cases hf : names0.findIdx? (fun e => !e.NA && e.Val == n) with
  | some i =>
    obtain ⟨hilt, hip, _⟩ := List.findIdx?_eq_some_iff_getElem.mp hf
    have hres := hfound i hf
    have hdr := deref_alloc_new (s0.alloc (.CharVec names0 [])).2
      (.ListVec (d.set i rhs) (mapSet a "names" (s0.alloc (.CharVec names0 [])).1))
    have hdp := deref_alloc_old (s0.alloc (.CharVec names0 [])).2
      (.ListVec (d.set i rhs) (mapSet a "names" (s0.alloc (.CharVec names0 [])).1)) _ _
      (deref_alloc_new s0 (.CharVec names0 []))
    have hdm2 := fun m => (dollarM_list ev _ _ _ _ m hdr).2 _ _ (mapGet_mapSet_same a "names" _) hdp
      (fun _ _ _ _ _ hc => by cases hc)
    obtain ⟨hown, hother⟩ := (dollar_after_set (F := F) d names0 []
      (mapSet a "names" (s0.alloc (.CharVec names0 [])).1) n rhs hlen).1 i hf
    refine ⟨_, _, _, _, hsd.trans hres, hdr, ?_, ⟨_, _, _, mapGet_mapSet_same a "names" _, hdp, ?_⟩,
      ?_, ?_, ?_, hxkeep _ _⟩
    · rw [hdm2 n, hown]
    · simp only [List.length_set, hlen]
    · intro m hm
      obtain ⟨v, hv⟩ := hnull m (mapSet a "names" (s0.alloc (.CharVec names0 [])).1) d
      refine ⟨v, ?_, ?_⟩
      · rw [hdm m (mapSet a "names" (s0.alloc (.CharVec names0 [])).1), hv]
      · rw [hdm2 m, hother m hm, hv]
    · intro _
      simp only [List.length_set]
    · intro hno
      exfalso
      apply hno
      rcases hln with h | ⟨_, h⟩
      · refine ⟨names0.get ⟨i, hilt⟩, ?_, ?_⟩
        · rw [h]
          exact List.get_mem _ _ _
        · simpa using hip
      · rw [h, findIdx?_na_names] at hf
        cases hf
  | none =>
    have hres := happend hf
    have hdr := deref_alloc_new (s0.alloc (.CharVec (names0 ++ [⟨n, false⟩]) [])).2
      (.ListVec (d ++ [rhs])
        (mapSet a "names" (s0.alloc (.CharVec (names0 ++ [⟨n, false⟩]) [])).1))
    have hdp := deref_alloc_old (s0.alloc (.CharVec (names0 ++ [⟨n, false⟩]) [])).2
      (.ListVec (d ++ [rhs])
        (mapSet a "names" (s0.alloc (.CharVec (names0 ++ [⟨n, false⟩]) [])).1)) _ _
      (deref_alloc_new s0 (.CharVec (names0 ++ [⟨n, false⟩]) []))
    have hdm2 := fun m => (dollarM_list ev _ _ _ _ m hdr).2 _ _ (mapGet_mapSet_same a "names" _) hdp
      (fun _ _ _ _ _ hc => by cases hc)
    obtain ⟨hown, hother⟩ := (dollar_after_set (F := F) d names0 []
      (mapSet a "names" (s0.alloc (.CharVec (names0 ++ [⟨n, false⟩]) [])).1) n rhs hlen).2 hf
    refine ⟨_, _, _, _, hsd.trans hres, hdr, ?_, ⟨_, _, _, mapGet_mapSet_same a "names" _, hdp, ?_⟩,
      ?_, ?_, ?_, hxkeep _ _⟩
    · rw [hdm2 n, hown]
    · simp only [List.length_append, List.length_singleton, hlen]
    · intro m hm
      obtain ⟨v, hv⟩ := hnull m
        (mapSet a "names" (s0.alloc (.CharVec (names0 ++ [⟨n, false⟩]) [])).1) d
      refine ⟨v, ?_, ?_⟩
      · rw [hdm m (mapSet a "names" (s0.alloc (.CharVec (names0 ++ [⟨n, false⟩]) [])).1), hv]
      · rw [hdm2 m, hother m hm, hv]
    · intro hhas
      exfalso
      obtain ⟨e, he, hna, hval⟩ := hhas
      rcases hln with h | ⟨h, _⟩
      · rw [h] at he
        have := (List.findIdx?_eq_none_iff.mp hf) e he
        simp [hna, hval] at this
      · rw [h] at he
        cases he
    · intro _
      simp only [List.length_append, List.length_singleton]

end DollarTheorems

/-! ### Promises are forced at most once -/

section KeepTheorems
variable {F : Type}

theorem Store.KeepsForced.rfl (st : Store F) : st.KeepsForced st := fun _ _ h _ => h

theorem Store.KeepsForced.trans {s1 s2 s3 : Store F} (h1 : s1.KeepsForced s2)
    (h2 : s2.KeepsForced s3) : s1.KeepsForced s3 :=
  fun a o ho hf => h2 a o (h1 a o ho hf) hf

theorem Store.KeepsForced.of_objs {s1 s2 : Store F} (h : s2.objs = s1.objs) :
    s1.KeepsForced s2 := fun a o ho _ => by rw [h]; exact ho

theorem Store.KeepsForced.alloc (st : Store F) (o : Obj F) : st.KeepsForced (st.alloc o).2 := by
  intro a o' ho _
  simp only [Store.alloc, List.get?_eq_getElem?] at ho ⊢
  have hlt : a < st.objs.length := by
    by_contra hc
    rw [List.getElem?_eq_none (by omega)] at ho
    cases ho
  rw [List.getElem?_append_left hlt]
  exact ho

theorem keeps_bind {α β : Type} {m : M F α} {f : α → M F β} (hm : m.KeepsForced)
    (hf : ∀ x, (f x).KeepsForced) : (m.bind f).KeepsForced := by
  refine fun st => ?_
  have h1 := hm st
  unfold M.bind
  cases h : m st with
  | mk r st' =>
    rw [h] at h1
    cases r with
    | ok a => exact h1.trans (hf a st')
    | error e => exact h1
    | panic w => exact h1
    | outOfFuel => exact h1

theorem keeps_pure {α : Type} (a : α) : (pure a : M F α).KeepsForced :=
  fun st => Store.KeepsForced.rfl st

theorem keeps_lift {α : Type} (r : Res α) : (M.lift r : M F α).KeepsForced :=
  fun st => Store.KeepsForced.rfl st

theorem keeps_errorf {α : Type} (s : String) : (M.errorf s : M F α).KeepsForced :=
  fun st => Store.KeepsForced.rfl st

theorem keeps_alloc (o : Obj F) : (M.alloc o).KeepsForced :=
  fun st => Store.KeepsForced.alloc st o

theorem keeps_deref (p : Ptr) : (M.deref p : M F (Obj F)).KeepsForced := by
  refine fun st => ?_
  unfold M.deref
  split <;> exact Store.KeepsForced.rfl st

theorem keeps_derefOpt (p : Ptr) : (M.derefOpt p : M F (Option (Obj F))).KeepsForced :=
  fun st => Store.KeepsForced.rfl st

theorem keeps_get (e : Nat) (name : String) : (M.get e name : M F (Option Ptr)).KeepsForced :=
  fun st => Store.KeepsForced.rfl st

theorem keeps_setLocal (e : Nat) (name : String) (v : Ptr) :
    (M.setLocal e name v : M F Unit).KeepsForced :=
  fun _ => Store.KeepsForced.of_objs rfl

theorem keeps_assign (e : Nat) (name : String) (v : Ptr) :
    (M.assign e name v : M F Unit).KeepsForced :=
  fun _ => Store.KeepsForced.of_objs rfl

theorem keeps_produce (r : Produced F) : (M.produce r).KeepsForced := by
  unfold M.produce
  split
  · exact keeps_alloc _
  · exact keeps_pure _

/-- Changing an object that is not a forced promise keeps the forced ones. -/
theorem Store.KeepsForced.setObj (st : Store F) (a : Nat) (o o' : Obj F)
    (h : st.objs.get? a = some o) (hf : o.isForced = false) : st.KeepsForced (st.setObj a o') := by
  intro b ob hb hfb
  simp only [Store.setObj, List.get?_eq_getElem?] at h hb ⊢
  by_cases hab : a = b
  · subst hab
    rw [h] at hb
    cases hb
    rw [hf] at hfb
    cases hfb
  · rw [List.getElem?_set_ne hab]
    exact hb

theorem keeps_Force {ev : Evaluator F} (hev : ∀ env e, (ev env e).KeepsForced) (v : Ptr) :
    (Force ev v).KeepsForced := by
  refine fun st => ?_
  unfold Force
  cases v with
  | addr a =>
    simp only
    cases ho : st.objs.get? a with
    | none => exact Store.KeepsForced.rfl st
    | some o =>
      cases o with
      | Promise e env forced val err =>
        simp only
        cases forced with
        | true =>
          simp only [if_true]
          cases err <;> exact Store.KeepsForced.rfl st
        | false =>
          simp only [Bool.false_eq_true, if_false]
          have h0 : st.KeepsForced (st.setObj a (.Promise e env true val err)) :=
            Store.KeepsForced.setObj st a _ _ ho rfl
          have h1 := hev env e (st.setObj a (.Promise e env true val err))
          cases hr : ev env e (st.setObj a (.Promise e env true val err)) with
          | mk r st' =>
            rw [hr] at h1
            have h01 := h0.trans h1
            -- the promise at `a` is forced in the store the evaluation starts from
            have ha : st'.objs.get? a = some (.Promise e env true val err) := by
              apply h1
              · simp only [Store.setObj, List.get?_eq_getElem?]
                rw [List.getElem?_set_self]
                rw [List.get?_eq_getElem?] at ho
                by_contra hc
                rw [List.getElem?_eq_none (by omega)] at ho
                cases ho
              · rfl
            have hne : ∀ b ob, st.objs.get? b = some ob → ob.isForced = true → a ≠ b := by
              intro b ob hb hfb hab
              subst hab
              rw [ho] at hb
              cases hb
              cases hfb
            have hset : ∀ o', st.KeepsForced (st'.setObj a o') := by
              intro o' b ob hb hfb
              have := h01 b ob hb hfb
              simp only [Store.setObj, List.get?_eq_getElem?] at this ⊢
              rw [List.getElem?_set_ne (hne b ob hb hfb)]
              exact this
            cases r with
            | ok r => simp only [ha]; exact hset _
            | error er => simp only [ha]; exact hset _
            | panic w => exact h01
            | outOfFuel => exact h01
      | _ => exact Store.KeepsForced.rfl st
  | _ => exact Store.KeepsForced.rfl st

theorem keeps_forceObj {ev : Evaluator F} (hev : ∀ env e, (ev env e).KeepsForced) (v : Ptr) : (forceObj ev v).KeepsForced := by
  unfold forceObj
  exact keeps_bind (keeps_Force hev v) fun _ => keeps_deref _

theorem keeps_forceIgnoringError {ev : Evaluator F} (hev : ∀ env e, (ev env e).KeepsForced) (v : Ptr) : (forceIgnoringError ev v).KeepsForced := by
  refine fun st => ?_
  have h := keeps_Force hev v st
  unfold forceIgnoringError
  cases hr : Force ev v st with
  | mk r st1 =>
    rw [hr] at h
    cases r <;> exact h

section
variable [Float64 F]

theorem keeps_asLogicalScalarM {ev : Evaluator F} (hev : ∀ env e, (ev env e).KeepsForced) (v : Ptr) : (asLogicalScalarM ev v).KeepsForced := by
  unfold asLogicalScalarM
  exact keeps_bind (keeps_forceObj hev v) fun _ => keeps_lift _

theorem keeps_asFloatElemM {ev : Evaluator F} (hev : ∀ env e, (ev env e).KeepsForced) (v : Ptr) : (asFloatElemM ev v).KeepsForced := by
  unfold asFloatElemM
  exact keeps_bind (keeps_forceObj hev v) fun _ => keeps_lift _

theorem keeps_asLogicalVecM {ev : Evaluator F} (hev : ∀ env e, (ev env e).KeepsForced) (v : Ptr) : (asLogicalVecM ev v).KeepsForced := by
  unfold asLogicalVecM
  exact keeps_bind (keeps_forceObj hev v) fun _ => keeps_lift _

theorem keeps_asDoubleVecM {ev : Evaluator F} (hev : ∀ env e, (ev env e).KeepsForced) (v : Ptr) : (asDoubleVecM ev v).KeepsForced := by
  unfold asDoubleVecM
  exact keeps_bind (keeps_forceObj hev v) fun _ => keeps_lift _

theorem keeps_asCharVecM {ev : Evaluator F} (hev : ∀ env e, (ev env e).KeepsForced) (v : Ptr) : (asCharVecM ev v).KeepsForced := by
  unfold asCharVecM
  exact keeps_bind (keeps_forceObj hev v) fun _ => keeps_lift _

theorem keeps_coerceToIntVecM {ev : Evaluator F} (hev : ∀ env e, (ev env e).KeepsForced) (v : Ptr) : (coerceToIntVecM ev v).KeepsForced := by
  unfold coerceToIntVecM
  exact keeps_bind (keeps_forceObj hev v) fun _ => keeps_lift _

theorem keeps_unaryNot {ev : Evaluator F} (hev : ∀ env e, (ev env e).KeepsForced) (v : Ptr) : (unaryNot ev v).KeepsForced := by
  unfold unaryNot
  refine keeps_bind (keeps_deref v) fun o => ?_
  split
  · exact keeps_bind (keeps_asLogicalVecM hev v) fun _ => keeps_alloc _
  · refine keeps_bind (keeps_asLogicalScalarM hev v) fun r => ?_
    split <;> exact keeps_alloc _

theorem keeps_unaryPlus {ev : Evaluator F} (hev : ∀ env e, (ev env e).KeepsForced) (v : Ptr) : (unaryPlus ev v).KeepsForced := by
  unfold unaryPlus
  refine keeps_bind (keeps_asFloatElemM hev v) fun f => ?_
  split <;> exact keeps_alloc _

theorem keeps_unaryMinus {ev : Evaluator F} (hev : ∀ env e, (ev env e).KeepsForced) (v : Ptr) : (unaryMinus ev v).KeepsForced := by
  unfold unaryMinus
  refine keeps_bind (keeps_deref v) fun o => ?_
  split
  · refine keeps_bind (keeps_asFloatElemM hev v) fun f => ?_
    split <;> exact keeps_alloc _
  · exact keeps_bind (keeps_asDoubleVecM hev v) fun _ => keeps_alloc _

theorem keeps_evalNumericBinaryM {ev : Evaluator F} (hev : ∀ env e, (ev env e).KeepsForced) (op : TokenType) (a b : Ptr) :
    (evalNumericBinaryM ev op a b).KeepsForced := by
  unfold evalNumericBinaryM
  split
  · refine keeps_bind (keeps_asFloatElemM hev a) fun af =>
      keeps_bind (keeps_asFloatElemM hev b) fun bf => ?_
    split
    · exact keeps_alloc _
    · exact keeps_bind (keeps_lift _) fun _ => keeps_alloc _
  · refine keeps_bind (keeps_asDoubleVecM hev a) fun av =>
      keeps_bind (keeps_asDoubleVecM hev b) fun bv => ?_
    dsimp only
    split
    · exact keeps_alloc _
    · exact keeps_bind (keeps_lift _) fun _ => keeps_alloc _

theorem keeps_evalLogicalVectorM {ev : Evaluator F} (hev : ∀ env e, (ev env e).KeepsForced) (op : TokenType) (a b : Ptr) :
    (evalLogicalVectorM ev op a b).KeepsForced := by
  unfold evalLogicalVectorM
  exact keeps_bind (keeps_asLogicalVecM hev a) fun _ =>
    keeps_bind (keeps_asLogicalVecM hev b) fun _ => keeps_bind (keeps_lift _) fun _ =>
      keeps_alloc _

theorem keeps_evalCompareM {ev : Evaluator F} (hev : ∀ env e, (ev env e).KeepsForced) (op : TokenType) (a b : Ptr) :
    (evalCompareM ev op a b).KeepsForced := by
  unfold evalCompareM
  refine keeps_bind (keeps_forceIgnoringError hev a) fun a =>
    keeps_bind (keeps_forceIgnoringError hev b) fun b =>
    keeps_bind (keeps_deref a) fun oa => keeps_bind (keeps_deref b) fun ob => ?_
  split
  · exact keeps_bind (keeps_asCharVecM hev a) fun _ =>
      keeps_bind (keeps_asCharVecM hev b) fun _ => keeps_bind (keeps_lift _) fun _ =>
        keeps_alloc _
  · refine fun st => ?_
    beta_reduce
    have h1 := keeps_asDoubleVecM hev a st
    cases hr : asDoubleVecM ev a st with
    | mk r st1 =>
      rw [hr] at h1
      cases r with
      | ok av =>
        exact h1.trans (keeps_bind (keeps_asDoubleVecM hev b) (fun _ =>
          keeps_bind (keeps_lift _) fun _ => keeps_alloc _) st1)
      | error err =>
        dsimp only
        have h2 := keeps_asLogicalVecM hev a st1
        cases hr2 : asLogicalVecM ev a st1 with
        | mk r2 st2 =>
          rw [hr2] at h2
          cases r2 with
          | ok lv =>
            exact (h1.trans h2).trans (keeps_bind (keeps_asLogicalVecM hev b) (fun _ =>
              keeps_bind (keeps_lift _) fun _ => keeps_alloc _) st2)
          | error e2 => exact h1.trans h2
          | panic w => exact h1.trans h2
          | outOfFuel => exact h1.trans h2
      | panic w => exact h1
      | outOfFuel => exact h1

theorem keeps_evalBinaryM {ev : Evaluator F} (hev : ∀ env e, (ev env e).KeepsForced) (op : TokenType) (a b : Ptr) :
    (evalBinaryM ev op a b).KeepsForced := by
  unfold evalBinaryM
  split
  all_goals first
    | exact keeps_evalNumericBinaryM hev _ _ _
    | exact keeps_evalCompareM hev _ _ _
    | exact keeps_evalLogicalVectorM hev _ _ _
    | exact keeps_errorf _

end

theorem keeps_forcedNames {ev : Evaluator F} (hev : ∀ env e, (ev env e).KeepsForced) (x : Obj F) : (forcedNames ev x).KeepsForced := by
  unfold forcedNames
  split
  · exact keeps_pure _
  · exact keeps_bind (keeps_Force hev _) fun _ => keeps_bind (keeps_derefOpt _) fun _ =>
      keeps_pure _

theorem keeps_setDollarList (d : List Ptr) (a : Attrs) (name : String) (rhs : Ptr)
    (fromAttr : Option (Nat × List StringElem)) :
    (setDollarList d a name rhs fromAttr : M F Ptr).KeepsForced := by
  refine fun st => ?_
  obtain ⟨s0, hs0, hfound, happend⟩ := setDollarList_runs d a name rhs fromAttr st
  have h0 : st.KeepsForced s0 := by
    intro c o ho hf
    have hd : st.deref (.addr c) = some o := ho
    have hk : s0.deref (.addr c) = some o := by
      rcases hs0 with h | ⟨c2, cn, A, _, _, h⟩
      · exact deref_kept st s0 0 ⟨name, false⟩ _ o (Or.inl h) hd
      · refine deref_kept st s0 cn.length ⟨name, false⟩ _ o (Or.inr ⟨⟨A, h⟩, ?_⟩) hd
        intro dd aa hc
        subst hc
        cases hf
    exact hk
  cases hf : (dollarNames d fromAttr st).1.findIdx? (fun e => !e.NA && e.Val == name) with
  | some i =>
    rw [hfound i hf]
    exact h0.trans ((Store.KeepsForced.alloc s0 _).trans (Store.KeepsForced.alloc _ _))
  | none =>
    rw [happend hf]
    exact h0.trans ((Store.KeepsForced.alloc s0 _).trans (Store.KeepsForced.alloc _ _))

theorem keeps_setDollar {ev : Evaluator F} (hev : ∀ env e, (ev env e).KeepsForced) (x : Ptr) (name : String) (rhs : Ptr) :
    (setDollar ev x name rhs).KeepsForced := by
  unfold setDollar
  refine keeps_bind (keeps_Force hev x) fun x => keeps_bind (keeps_Force hev rhs) fun rhs =>
    keeps_bind (keeps_derefOpt x) fun ox => ?_
  split
  · rename_i d a
    split
    · exact keeps_setDollarList _ _ _ _ _
    · rename_i nm _
      refine fun st => ?_
      beta_reduce
      have h1 := keeps_Force hev nm st
      cases hr : Force ev nm st with
      | mk r st1 =>
        rw [hr] at h1
        cases r with
        | ok nmv =>
          dsimp only
          split <;> exact h1.trans (keeps_setDollarList _ _ _ _ _ st1)
        | error e => exact h1.trans (keeps_setDollarList _ _ _ _ _ st1)
        | panic w => exact h1
        | outOfFuel => exact h1
  · exact keeps_errorf _
  · exact keeps_lift _

section
variable [Float64 F]

theorem keeps_vectorElementM {ev : Evaluator F} (hev : ∀ env e, (ev env e).KeepsForced) (v : Ptr) (i : Nat) : (vectorElementM ev v i).KeepsForced := by
  unfold vectorElementM
  exact keeps_bind (keeps_forceObj hev v) fun _ => keeps_bind (keeps_lift _) keeps_produce

theorem keeps_normalizeIndexM {ev : Evaluator F} (hev : ∀ env e, (ev env e).KeepsForced) (idx : Ptr) (n : Nat) :
    (normalizeIndexM ev idx n).KeepsForced := by
  unfold normalizeIndexM
  exact keeps_bind (keeps_forceObj hev idx) fun _ => keeps_lift _

omit [Float64 F] in
theorem keeps_dollarM {ev : Evaluator F} (hev : ∀ env e, (ev env e).KeepsForced) (x : Ptr) (name : String) : (dollarM ev x name).KeepsForced := by
  unfold dollarM
  refine keeps_bind (keeps_forceObj hev x) fun ox => ?_
  split
  · exact keeps_bind (keeps_forcedNames hev _) fun _ => keeps_lift _
  · exact keeps_lift _

theorem keeps_subsetByNameM {ev : Evaluator F} (hev : ∀ env e, (ev env e).KeepsForced) (x idx : Obj F) : (subsetByNameM ev x idx).KeepsForced := by
  unfold subsetByNameM
  exact keeps_bind (keeps_forcedNames hev _) fun _ => keeps_bind (keeps_lift _) fun _ =>
    keeps_alloc _

theorem keeps_subsetAtomicM {ev : Evaluator F} (hev : ∀ env e, (ev env e).KeepsForced) (x : Obj F) (idx : Ptr) (oidx : Obj F) :
    (subsetAtomicM ev x idx oidx).KeepsForced := by
  refine fun st => ?_
  have h1 := keeps_normalizeIndexM hev idx x.Len st
  unfold subsetAtomicM
  cases hr : normalizeIndexM ev idx x.Len st with
  | mk r st1 =>
    rw [hr] at h1
    cases r with
    | ok im =>
      obtain ⟨indices, naMask⟩ := im
      dsimp only
      refine h1.trans ?_
      split
      all_goals first
        | exact keeps_alloc _ st1
        | exact keeps_errorf _ st1
    | error err =>
      dsimp only
      split
      · exact h1.trans (keeps_subsetByNameM hev x oidx st1)
      · exact h1
    | panic w => exact h1
    | outOfFuel => exact h1

theorem keeps_subsetM {ev : Evaluator F} (hev : ∀ env e, (ev env e).KeepsForced) (x idx : Ptr) (dbl : Bool) : (subsetM ev x idx dbl).KeepsForced := by
  unfold subsetM
  refine keeps_bind (keeps_Force hev x) fun x => keeps_bind (keeps_Force hev idx) fun idx =>
    keeps_bind (keeps_derefOpt x) fun ox => keeps_bind (keeps_derefOpt idx) fun oidx => ?_
  split
  · split
    · split
      · exact keeps_errorf _
      · refine keeps_bind (keeps_lift _) fun e => ?_
        split
        · exact keeps_errorf _
        · dsimp only
          split
          · exact keeps_errorf _
          · split
            · split
              · exact keeps_errorf _
              · exact keeps_lift _
            · split
              · exact keeps_errorf _
              · exact keeps_vectorElementM hev _ _
            · exact keeps_lift _
    · split
      · exact keeps_errorf _
      · refine keeps_bind (keeps_lift _) fun e => ?_
        split
        · exact keeps_errorf _
        · exact keeps_dollarM hev _ _
    · exact keeps_errorf _
    · exact keeps_lift _
  · split
    all_goals first
      | exact keeps_bind (keeps_normalizeIndexM hev _ _) fun _ => keeps_alloc _
      | exact keeps_subsetAtomicM hev _ _ _
      | exact keeps_lift _

theorem keeps_setSubset {ev : Evaluator F} (hev : ∀ env e, (ev env e).KeepsForced) (x idx rhs : Ptr) (dbl : Bool) :
    (setSubset ev x idx rhs dbl).KeepsForced := by
  unfold setSubset
  refine keeps_bind (keeps_Force hev x) fun x => keeps_bind (keeps_Force hev idx) fun idx =>
    keeps_bind (keeps_Force hev rhs) fun rhs =>
    keeps_bind (keeps_derefOpt x) fun ox => keeps_bind (keeps_derefOpt idx) fun oidx => ?_
  split
  · split
    · split
      · exact keeps_errorf _
      · dsimp only
        split
        · exact keeps_errorf _
        · split
          · exact keeps_alloc _
          · exact keeps_errorf _
          · exact keeps_lift _
    · exact keeps_errorf _
  · split
    · dsimp only
      split
      · refine keeps_bind (keeps_asDoubleVecM hev _) fun rv => ?_
        split
        · exact keeps_alloc _
        · exact keeps_bind (keeps_lift _) fun _ => keeps_alloc _
      · refine keeps_bind (keeps_coerceToIntVecM hev _) fun rv => ?_
        split
        · exact keeps_alloc _
        · exact keeps_bind (keeps_lift _) fun _ => keeps_alloc _
      · refine keeps_bind (keeps_asLogicalVecM hev _) fun rv => ?_
        split
        · exact keeps_alloc _
        · exact keeps_bind (keeps_lift _) fun _ => keeps_alloc _
      · refine keeps_bind (keeps_asCharVecM hev _) fun rv => ?_
        split
        · exact keeps_alloc _
        · exact keeps_bind (keeps_lift _) fun _ => keeps_alloc _
      · exact keeps_bind (keeps_derefOpt _) fun _ => keeps_bind (keeps_lift _) fun _ =>
          keeps_alloc _
      · exact keeps_errorf _
      · exact keeps_lift _
    · exact keeps_errorf _

end

theorem AssignSuper_objs {st st' : Store F} {e : Nat} {name : String} {v : Ptr}
    (h : Env.AssignSuper st e name v = .ok st') : st'.objs = st.objs := by
  unfold Env.AssignSuper at h
  split at h
  · cases h
  · rename_i fr _
    cases hf : Env.findDefining st.envs name (st.envs.length + 1) fr.parent with
    | ok r =>
      rw [hf] at h
      cases r with
      | some d =>
        cases h
        rfl
      | none =>
        simp only [Res.bind] at h
        cases ht : Env.top st.envs (st.envs.length + 1) e with
        | ok t =>
          rw [ht] at h
          cases h
          rfl
        | error er => rw [ht] at h; cases h
        | panic w => rw [ht] at h; cases h
        | outOfFuel => rw [ht] at h; cases h
    | error er => rw [hf] at h; cases h
    | panic w => rw [hf] at h; cases h
    | outOfFuel => rw [hf] at h; cases h

theorem keeps_bindParams (callEnv : Nat) : ∀ (ps : List (Param F)) (bs : List (Option Ptr)),
    (bindParams callEnv ps bs).KeepsForced := by
  intro ps
  induction ps with
  | nil => intro bs; exact keeps_pure _
  | cons p ps ih =>
    intro bs
    unfold bindParams
    split
    · exact ih _
    · split
      · exact keeps_bind (keeps_setLocal _ _ _) fun _ => ih _
      · split
        · exact keeps_bind (keeps_alloc _) fun _ => keeps_bind (keeps_setLocal _ _ _) fun _ => ih _
        · exact keeps_bind (keeps_setLocal _ _ _) fun _ => ih _

theorem keeps_closureResult (r : Res Ptr × Store F) : (closureResult r).2 = r.2 := by
  unfold closureResult
  split <;> rfl

theorem keeps_callClosure {ev : Evaluator F} (hev : ∀ env e, (ev env e).KeepsForced) (params : List (Param F)) (body : Expr F) (fenv : Nat)
    (args : List ArgValue) : (callClosure ev params body fenv args).KeepsForced := by
  refine fun st => ?_
  unfold callClosure
  dsimp only
  have h0 : st.KeepsForced (st.newEnv (some fenv)).2 := Store.KeepsForced.of_objs rfl
  cases hm : matchArgs params args with
  | ok s =>
    dsimp only
    have h1 := keeps_bindParams (st.newEnv (some fenv)).1 params s.binds (st.newEnv (some fenv)).2
    cases hb : bindParams (st.newEnv (some fenv)).1 params s.binds (st.newEnv (some fenv)).2 with
    | mk r st1 =>
      rw [hb] at h1
      cases r with
      | ok u =>
        dsimp only
        split
        · rw [keeps_closureResult]
          have h2 : st1.KeepsForced (st1.alloc (.Dots s.dotsArgs)).2 :=
            Store.KeepsForced.alloc st1 _
          have h3 : (st1.alloc (.Dots s.dotsArgs)).2.KeepsForced
              (Env.SetLocal (st1.alloc (.Dots s.dotsArgs)).2 (st.newEnv (some fenv)).1 "..."
                (st1.alloc (.Dots s.dotsArgs)).1) := Store.KeepsForced.of_objs rfl
          exact (((h0.trans h1).trans h2).trans h3).trans (hev _ _ _)
        · rw [keeps_closureResult]
          exact (h0.trans h1).trans (hev _ _ _)
      | error e => exact h0.trans h1
      | panic w => exact h0.trans h1
      | outOfFuel => exact h0.trans h1
  | error e => exact h0
  | panic w => exact h0
  | outOfFuel => exact h0

theorem keeps_callValue {B : Builtins F} (hB : B.KeepsForced) {ev : Evaluator F} (hev : ∀ env e, (ev env e).KeepsForced) :
    ∀ (k : Nat) (p : Ptr) (args : List ArgValue), (callValue B ev k p args).KeepsForced := by
  intro k
  induction k with
  | zero =>
    intro p args
    unfold callValue
    refine keeps_bind (keeps_derefOpt p) fun o => ?_
    split
    · exact keeps_callClosure hev _ _ _ _
    · exact keeps_lift _
    · exact keeps_errorf _
  | succ k ih =>
    intro p args
    unfold callValue
    refine keeps_bind (keeps_derefOpt p) fun o => ?_
    split
    · exact keeps_callClosure hev _ _ _ _
    · exact hB _ _ _ _ (keeps_Force hev) ih
    · exact keeps_errorf _

theorem keeps_buildArgs {ev : Evaluator F} (hev : ∀ env e, (ev env e).KeepsForced) (env : Nat) : ∀ (as : List (Arg F)) (acc : List ArgValue),
    (buildArgs ev env as acc).KeepsForced := by
  intro as
  induction as with
  | nil => intro acc; exact keeps_pure _
  | cons a rest ih =>
    intro acc
    have hplain : ((M.alloc (.Promise a.Value env false .nil none)).bind fun pr =>
        buildArgs ev env rest (acc ++ [⟨a.Name, pr⟩])).KeepsForced :=
      keeps_bind (keeps_alloc _) fun _ => ih _
    unfold buildArgs
    dsimp only
    split
    · refine keeps_bind (keeps_get _ _) fun r => ?_
      split
      · refine keeps_bind (keeps_Force hev _) fun dv => keeps_bind (keeps_derefOpt _) fun o => ?_
        split
        · exact ih _
        · exact hplain
      · exact hplain
    · exact hplain

theorem keeps_evalCall {B : Builtins F} (hB : B.KeepsForced) {ev : Evaluator F} (hev : ∀ env e, (ev env e).KeepsForced) (fuel env : Nat)
    (fn : Expr F) (args : List (Arg F)) : (evalCall B ev fuel env fn args).KeepsForced := by
  have hgen : ((ev env fn).bind fun fv => (Force ev fv).bind fun fv =>
      (M.derefOpt fv).bind fun o =>
        match o with
        | some (.ClosureFunc _ _ _) | some (.BuiltinFunc _) =>
          (buildArgs ev env args []).bind fun avs => callValue B ev fuel fv avs
        | _ => M.errorf "attempt to apply non-function").KeepsForced := by
    refine keeps_bind (hev _ _) fun fv => keeps_bind (keeps_Force hev _) fun fv =>
      keeps_bind (keeps_derefOpt _) fun o => ?_
    split
    · exact keeps_bind (keeps_buildArgs hev _ _ _) fun _ => keeps_callValue hB hev _ _ _
    · exact keeps_bind (keeps_buildArgs hev _ _ _) fun _ => keeps_callValue hB hev _ _ _
    · exact keeps_errorf _
  unfold evalCall
  dsimp only
  split
  · split
    · exact keeps_alloc _
    · exact keeps_errorf _
  · split
    · split
      · refine fun st => ?_
        beta_reduce
        split
        · exact keeps_alloc _ st
        · split <;> exact keeps_alloc _ st
        · exact Store.KeepsForced.rfl st
        · exact Store.KeepsForced.rfl st
        · exact Store.KeepsForced.rfl st
      · exact keeps_errorf _
    · exact keeps_errorf _
  · exact hgen

section
variable [Float64 F]

theorem keeps_evalAssign {ev : Evaluator F} (hev : ∀ env e, (ev env e).KeepsForced) (env : Nat) (op : TokenType) (left right : Expr F) :
    (evalAssign ev env op left right).KeepsForced := by
  unfold evalAssign
  split
  · refine keeps_bind (hev _ _) fun val => keeps_bind (keeps_Force hev _) fun val => ?_
    split
    · exact keeps_bind (keeps_assign _ _ _) fun _ => keeps_pure _
    · exact keeps_errorf _
  · refine keeps_bind (hev _ _) fun val => keeps_bind (keeps_Force hev _) fun val => ?_
    split
    · split
      · rename_i name _
        refine fun st => ?_
        beta_reduce
        cases hr : Env.AssignSuper st env name val with
        | ok st' => exact Store.KeepsForced.of_objs (AssignSuper_objs hr)
        | error e => exact Store.KeepsForced.rfl st
        | panic w => exact Store.KeepsForced.rfl st
        | outOfFuel => exact Store.KeepsForced.rfl st
      · exact keeps_bind (keeps_assign _ _ _) fun _ => keeps_pure _
    · refine keeps_bind (keeps_get _ _) fun r => ?_
      split
      · exact keeps_errorf _
      · exact keeps_bind (keeps_Force hev _) fun _ => keeps_bind (hev _ _) fun _ =>
          keeps_bind (keeps_Force hev _) fun _ => keeps_bind (keeps_setSubset hev _ _ _ _) fun _ =>
          keeps_bind (keeps_assign _ _ _) fun _ => keeps_pure _
    · refine keeps_bind (keeps_get _ _) fun r => ?_
      split
      · exact keeps_errorf _
      · exact keeps_bind (keeps_Force hev _) fun _ =>
          keeps_bind (keeps_setDollar hev _ _ _) fun _ =>
          keeps_bind (keeps_assign _ _ _) fun _ => keeps_pure _
    · exact keeps_errorf _

theorem keeps_evalScalarLogical {ev : Evaluator F} (hev : ∀ env e, (ev env e).KeepsForced) (env : Nat) (e : Expr F) :
    (evalScalarLogical ev env e).KeepsForced := by
  unfold evalScalarLogical
  exact keeps_bind (hev _ _) fun _ => keeps_bind (keeps_Force hev _) fun _ =>
    keeps_asLogicalScalarM hev _

theorem keeps_evalShortCircuit {ev : Evaluator F} (hev : ∀ env e, (ev env e).KeepsForced) (env : Nat) (op : TokenType) (left right : Expr F) :
    (evalShortCircuit ev env op left right).KeepsForced := by
  unfold evalShortCircuit
  refine keeps_bind (keeps_evalScalarLogical hev _ _) fun l => ?_
  have hr : ∀ k : Bool × Bool → M F Ptr, (∀ r, (k r).KeepsForced) →
      ((evalScalarLogical ev env right).bind k).KeepsForced :=
    fun k hk => keeps_bind (keeps_evalScalarLogical hev _ _) hk
  split
  · split
    · exact hr _ fun r => by split <;> exact keeps_alloc _
    · split
      · exact keeps_alloc _
      · exact hr _ fun r => by split <;> exact keeps_alloc _
  · split
    · exact hr _ fun r => by split <;> exact keeps_alloc _
    · split
      · exact keeps_alloc _
      · exact hr _ fun r => by split <;> exact keeps_alloc _

theorem keeps_evalCondition {ev : Evaluator F} (hev : ∀ env e, (ev env e).KeepsForced) (env : Nat) (cond : Expr F) :
    (evalCondition ev env cond).KeepsForced := by
  unfold evalCondition
  refine keeps_bind (keeps_evalScalarLogical hev _ _) fun c => ?_
  split
  · exact keeps_errorf _
  · exact keeps_pure _

end

theorem keeps_evalBlock {ev : Evaluator F} (hev : ∀ env e, (ev env e).KeepsForced) (env : Nat) : ∀ (es : List (Expr F)) (last : Ptr),
    (evalBlock ev env es last).KeepsForced := by
  intro es
  induction es with
  | nil => intro last; exact keeps_pure _
  | cons e rest ih =>
    intro last
    unfold evalBlock
    exact keeps_bind (hev _ _) fun _ => ih _

/-- The loops run the body and go on, stop or hand on its outcome. -/
theorem keeps_loopStep {ev : Evaluator F} (hev : ∀ env e, (ev env e).KeepsForced) (env : Nat) (body : Expr F) (goOn : Ptr → M F Ptr) (last : Ptr)
    (hgo : ∀ v, (goOn v).KeepsForced) :
    M.KeepsForced (fun st =>
      match ev env body st with
      | (.ok v, st') => goOn v st'
      | (.error (.control .ctrlNext _), st') => goOn last st'
      | (.error (.control .ctrlBreak _), st') => (.ok last, st')
      | r => r) := by
  refine fun st => ?_
  beta_reduce
  have h1 := hev env body st
  cases hr : ev env body st with
  | mk r st1 =>
    rw [hr] at h1
    cases r with
    | ok v => exact h1.trans (hgo v st1)
    | error e =>
      cases e with
      | msg s => exact h1
      | control k p =>
        cases k with
        | ctrlNone => exact h1
        | ctrlBreak => exact h1
        | ctrlNext => exact h1.trans (hgo last st1)
        | ctrlReturn => exact h1
    | panic w => exact h1
    | outOfFuel => exact h1

section
variable [Float64 F]

theorem keeps_forLoop {ev : Evaluator F} (hev : ∀ env e, (ev env e).KeepsForced) (env : Nat) (var : String) (seqV : Ptr) (body : Expr F) :
    ∀ (is : List Nat) (last : Ptr), (forLoop ev env var seqV body is last).KeepsForced := by
  intro is
  induction is with
  | nil => intro last; exact keeps_pure _
  | cons i rest ih =>
    intro last
    unfold forLoop
    exact keeps_bind (keeps_vectorElementM hev _ _) fun _ =>
      keeps_bind (keeps_assign _ _ _) fun _ => keeps_loopStep hev env body _ last (fun v => ih v)

theorem keeps_whileLoop {ev : Evaluator F} (hev : ∀ env e, (ev env e).KeepsForced) (env : Nat) (cond body : Expr F) :
    ∀ (k : Nat) (last : Ptr), (whileLoop ev env cond body k last).KeepsForced := by
  intro k
  induction k with
  | zero => intro last; exact keeps_lift _
  | succ k ih =>
    intro last
    unfold whileLoop
    refine keeps_bind (keeps_evalCondition hev _ _) fun b => ?_
    split
    · exact keeps_pure _
    · exact keeps_loopStep hev env body _ last (fun v => ih v)

end

theorem keeps_repeatLoop {ev : Evaluator F} (hev : ∀ env e, (ev env e).KeepsForced) (env : Nat) (body : Expr F) :
    ∀ (k : Nat) (last : Ptr), (repeatLoop ev env body k last).KeepsForced := by
  intro k
  induction k with
  | zero => intro last; exact keeps_lift _
  | succ k ih =>
    intro last
    unfold repeatLoop
    exact keeps_loopStep hev env body _ last (fun v => ih v)

section
variable [Float64 F]

/-- The evaluator changes no promise that is forced when it starts. -/
theorem Eval_keeps_forced {B : Builtins F} (hB : B.KeepsForced) :
    ∀ (n env : Nat) (e : Expr F), (Eval B n env e).KeepsForced := by
  intro n
  induction n with
  | zero => intro env e; exact keeps_lift _
  | succ n ih =>
    intro env e
    unfold Eval
    dsimp only
    split
    · exact keeps_errorf _
    · refine keeps_bind (keeps_get _ _) fun r => ?_
      split
      · exact keeps_pure _
      · exact keeps_errorf _
    · split <;> exact keeps_alloc _
    · exact keeps_alloc _
    · exact keeps_alloc _
    · exact keeps_pure _
    · exact keeps_alloc _
    · refine keeps_bind (ih _ _) fun x => keeps_bind (keeps_Force ih _) fun x => ?_
      split
      · exact keeps_unaryNot ih _
      · exact keeps_unaryPlus ih _
      · exact keeps_unaryMinus ih _
      · exact keeps_errorf _
    · split
      · exact keeps_evalShortCircuit ih _ _ _ _
      · exact keeps_bind (ih _ _) fun _ => keeps_bind (ih _ _) fun _ =>
          keeps_bind (keeps_Force ih _) fun _ => keeps_bind (keeps_Force ih _) fun _ =>
          keeps_evalBinaryM ih _ _ _
    · exact keeps_evalAssign ih _ _ _ _
    · exact keeps_evalBlock ih _ _ _
    · refine keeps_bind (keeps_evalCondition ih _ _) fun b => ?_
      split
      · exact ih _ _
      · split
        · exact ih _ _
        · exact keeps_pure _
    · exact keeps_bind (ih _ _) fun _ => keeps_bind (keeps_Force ih _) fun _ =>
        keeps_bind (keeps_deref _) fun _ => keeps_forLoop ih _ _ _ _ _ _
    · exact keeps_whileLoop ih _ _ _ _ _
    · exact keeps_repeatLoop ih _ _ _ _
    · exact keeps_lift _
    · exact keeps_lift _
    · split
      · exact keeps_bind (ih _ _) fun _ => keeps_bind (keeps_Force ih _) fun _ => keeps_lift _
      · exact keeps_lift _
    · exact keeps_alloc _
    · exact keeps_evalCall hB ih _ _ _ _
    · exact keeps_bind (ih _ _) fun _ => keeps_bind (keeps_Force ih _) fun _ =>
        keeps_bind (ih _ _) fun _ => keeps_bind (keeps_Force ih _) fun _ =>
        keeps_subsetM ih _ _ _
    · exact keeps_bind (ih _ _) fun _ => keeps_bind (keeps_Force ih _) fun _ =>
        keeps_dollarM ih _ _

end

section
variable [Float64 F]

theorem runSteps_keeps_forced {B : Builtins F} (hB : B.KeepsForced) :
    ∀ (steps : List (Step F)) (st : Store F), st.KeepsForced (runSteps B steps st) := by
  intro steps
  induction steps with
  | nil => intro st; exact Store.KeepsForced.rfl st
  | cons step rest ih =>
    intro st
    have h1 : st.KeepsForced (step.run B st) := by
      cases step with
      | eval k env e => exact Eval_keeps_forced hB k env e st
      | force k v => exact keeps_Force (Eval_keeps_forced hB k) v st
    exact h1.trans (ih _)

omit [Float64 F] in
/-- Forcing a forced promise returns what it holds and runs nothing. -/
theorem Force_forced (ev : Evaluator F) (st : Store F) (a : Nat) (e : Expr F) (env : Nat)
    (val : Ptr) (err : Option Err) (h : st.objs.get? a = some (.Promise e env true val err)) :
    Force ev (.addr a) st = (memoised val err, st) := by
  unfold Force
  simp only [h, if_true]
  cases err <;> rfl

/-- C12: `Promise.Force` evaluates the expression of a promise at most once.
After a `Force` on a promise has returned a value or an error, every later
`Force` on that promise, whatever the program has evaluated or forced in
between, returns the same value or error and leaves the store as it is: the
expression is not evaluated again. The built-ins are assumed to reach promises
only through the `Force` and `Call` they are given. -/
theorem Force_at_most_once (B : Builtins F) (hB : B.KeepsForced) (n a : Nat) (st st1 : Store F)
    (r : Res Ptr)
    (hp : ∃ e env f v er, st.objs.get? a = some (.Promise e env f v er))
    (h1 : Force (Eval B n) (.addr a) st = (r, st1))
    (hret : (∃ v, r = .ok v) ∨ (∃ er, r = .error er)) :
    ∀ (steps : List (Step F)) (ev' : Evaluator F),
      Force ev' (.addr a) (runSteps B steps st1) = (r, runSteps B steps st1) := by
  -- after the first `Force` the promise is forced and holds the outcome
  have key : ∃ e env val err, st1.objs.get? a = some (.Promise e env true val err) ∧
      r = memoised val err := by
    obtain ⟨e, env, f, v, er, ho⟩ := hp
    cases f with
    | true =>
      rw [Force_forced _ st a e env v er ho] at h1
      cases h1
      exact ⟨e, env, v, er, ho, rfl⟩
    | false =>
      have hlt : a < st.objs.length := by
        rw [List.get?_eq_getElem?] at ho
        by_contra hc
        rw [List.getElem?_eq_none (by omega)] at ho
        cases ho
      have hev := Eval_keeps_forced hB n env e (st.setObj a (.Promise e env true v er))
      have ha : (Eval B n env e (st.setObj a (.Promise e env true v er))).2.objs.get? a =
          some (.Promise e env true v er) := by
        apply hev
        · simp only [Store.setObj, List.get?_eq_getElem?]
          rw [List.getElem?_set_self hlt]
        · rfl
      unfold Force at h1
      simp only [ho, Bool.false_eq_true, if_false] at h1
      cases hr : Eval B n env e (st.setObj a (.Promise e env true v er)) with
      | mk r0 st' =>
        rw [hr] at h1 ha
        have hlt' : a < st'.objs.length := by
          simp only [List.get?_eq_getElem?] at ha
          by_contra hc
          rw [List.getElem?_eq_none (by omega)] at ha
          cases ha
        cases r0 with
        | ok w =>
          simp only [ha] at h1
          cases h1
          refine ⟨e, env, w, none, ?_, rfl⟩
          simp only [Store.setObj, List.get?_eq_getElem?]
          rw [List.getElem?_set_self hlt']
        | error er0 =>
          simp only [ha] at h1
          cases h1
          refine ⟨e, env, .nil, some er0, ?_, rfl⟩
          simp only [Store.setObj, List.get?_eq_getElem?]
          rw [List.getElem?_set_self hlt']
        | panic w =>
          cases h1
          rcases hret with ⟨_, h⟩ | ⟨_, h⟩ <;> cases h
        | outOfFuel =>
          cases h1
          rcases hret with ⟨_, h⟩ | ⟨_, h⟩ <;> cases h
  obtain ⟨e, env, val, err, ho, hr⟩ := key
  intro steps ev'
  have h2 := runSteps_keeps_forced hB steps st1 a _ ho rfl
  rw [Force_forced ev' _ a e env val err h2, hr]

end

end KeepTheorems

/-! ### The index claims at concrete inputs -/

/-- C13 (as amended) at `x <- c(10L, 20L, 30L); x[c(1L, -1L)]`. -/
theorem subset_mixed_signs_error_witness :
    ((Obj.IntVec [⟨10, false⟩, ⟨20, false⟩, ⟨30, false⟩] [] : Obj Whole).isVector = true ∧
      indexInts (Obj.IntVec [⟨1, false⟩, ⟨-1, false⟩] [] : Obj Whole) =
        some [⟨1, false⟩, ⟨-1, false⟩] ∧
      (∃ e, e ∈ [(⟨1, false⟩ : IntElem), ⟨-1, false⟩] ∧ e.NA = false ∧ 0 < e.Val) ∧
      (∃ e, e ∈ [(⟨1, false⟩ : IntElem), ⟨-1, false⟩] ∧ e.NA = false ∧ e.Val < 0)) ∧
    subset none (Obj.IntVec [⟨10, false⟩, ⟨20, false⟩, ⟨30, false⟩] [] : Obj Whole)
      (.IntVec [⟨1, false⟩, ⟨-1, false⟩] []) false =
        .error (.msg "only 0's may be mixed with negative subscripts") :=
  ⟨⟨rfl, rfl, ⟨⟨1, false⟩, by decide, rfl, by decide⟩, ⟨⟨-1, false⟩, by decide, rfl, by decide⟩⟩,
    subset_mixed_signs_error none _ _ [⟨1, false⟩, ⟨-1, false⟩] rfl rfl
      ⟨⟨1, false⟩, by decide, rfl, by decide⟩ ⟨⟨-1, false⟩, by decide, rfl, by decide⟩⟩

/-- C13 as stated fails: in `x <- c(10L, 20L, 30L); x[c(0.5, -1)]` the index has
the positive entry `0.5` and the negative entry `-1`, and the read returns
`c(20L, 30L)`, since `0.5` is converted to `0`. -/
theorem subset_fraction_index_counterexample :
    Float64.lt (Float64.ofInt 0) (⟨1⟩ : Half) = true ∧
    Float64.lt (⟨-2⟩ : Half) (Float64.ofInt 0) = true ∧
    subset none (Obj.IntVec [⟨10, false⟩, ⟨20, false⟩, ⟨30, false⟩] [] : Obj Half)
      (.DoubleVec [⟨⟨1⟩, false⟩, ⟨⟨-2⟩, false⟩] []) false =
        .ok (.fresh (.IntVec [⟨20, false⟩, ⟨30, false⟩] [])) :=
  ⟨rfl, rfl, rfl⟩

/-- C14 at `x <- c("a", "b", "c"); x[c(-2L, 0L)]`. -/
theorem subset_negative_excludes_witness :
    ((Obj.CharVec [⟨"a", false⟩, ⟨"b", false⟩, ⟨"c", false⟩] [] : Obj Whole).isAtomic = true ∧
      (∀ e, e ∈ [(⟨-2, false⟩ : IntElem), ⟨0, false⟩] → -2 ^ 63 ≤ e.Val ∧ e.Val < 2 ^ 63) ∧
      (∀ e, e ∈ [(⟨-2, false⟩ : IntElem), ⟨0, false⟩] → e.NA = false → e.Val ≤ 0) ∧
      (∃ e, e ∈ [(⟨-2, false⟩ : IntElem), ⟨0, false⟩] ∧ e.NA = false ∧ e.Val < 0)) ∧
    ∃ r, subset none (Obj.CharVec [⟨"a", false⟩, ⟨"b", false⟩, ⟨"c", false⟩] [] : Obj Whole)
        (.IntVec [⟨-2, false⟩, ⟨0, false⟩] []) false = .ok (.fresh r) ∧
      r = (Obj.CharVec [⟨"a", false⟩, ⟨"b", false⟩, ⟨"c", false⟩] [] : Obj Whole).selectAt
        ((List.range 3).filter fun (k : Nat) =>
          !([(⟨-2, false⟩ : IntElem), ⟨0, false⟩].any fun e =>
            !e.NA && e.Val == -((k : Int) + 1))) ∧
      r.Type = "character" :=
  ⟨⟨rfl, by decide, by decide, ⟨⟨-2, false⟩, by decide, rfl, by decide⟩⟩,
    subset_negative_excludes none _ [⟨-2, false⟩, ⟨0, false⟩] [] rfl (by decide) (by decide)
      ⟨⟨-2, false⟩, by decide, rfl, by decide⟩⟩

/-- C15 (as amended) at `x <- c(10L, 20L)`: `x[[2L]]` is `20L`, `x[[NA]]` with
an integer NA and `x[[3L]]` are out of bounds, `x[["a"]]` is the error of `$`
on an atomic vector; at the list `list(a = 5L)`, `l[["a"]]` is the element
and `l[["b"]]` is Null. -/
theorem subset_double_bracket_witness :
    ((Obj.IntVec [⟨10, false⟩, ⟨20, false⟩] [] : Obj Whole).isVector = true ∧
      (((Obj.IntVec [⟨10, false⟩, ⟨20, false⟩] [] : Obj Whole).Len : Int) < 2 ^ 63) ∧
      (∀ e, e ∈ [(⟨2, false⟩ : IntElem)] → -2 ^ 63 ≤ e.Val ∧ e.Val < 2 ^ 63)) ∧
    (∃ r, subset none (Obj.IntVec [⟨10, false⟩, ⟨20, false⟩] [] : Obj Whole)
        (.IntVec [⟨2, false⟩] []) true = .ok (.fresh r) ∧ r = IntScalar 20) ∧
    subset none (Obj.IntVec [⟨10, false⟩, ⟨20, false⟩] [] : Obj Whole)
      (.IntVec [IntElem.na] []) true = .error (.msg "subscript out of bounds") ∧
    subset none (Obj.IntVec [⟨10, false⟩, ⟨20, false⟩] [] : Obj Whole)
      (.IntVec [⟨3, false⟩] []) true = .error (.msg "subscript out of bounds") ∧
    subset none (Obj.IntVec [⟨10, false⟩, ⟨20, false⟩] [] : Obj Whole)
      (.IntVec [⟨1, false⟩, ⟨2, false⟩] []) true = .error (.msg "[[ expects a single index") ∧
    subset none (Obj.IntVec [⟨10, false⟩, ⟨20, false⟩] [] : Obj Whole)
      (.CharVec [⟨"a", false⟩] []) true =
        .error (.msg "$ operator is invalid for atomic vectors") ∧
    subset (some (.CharVec [⟨"a", false⟩] [])) (Obj.ListVec [.addr 1] [("names", .addr 2)] : Obj Whole)
      (.CharVec [⟨"a", false⟩] []) true = .ok (.existing (.addr 1)) ∧
    subset (some (.CharVec [⟨"a", false⟩] [])) (Obj.ListVec [.addr 1] [("names", .addr 2)] : Obj Whole)
      (.CharVec [⟨"b", false⟩] []) true = .ok (.existing .NullValue) ∧
    subset (some (.CharVec [⟨"a", false⟩] [])) (Obj.ListVec [.addr 1] [("names", .addr 2)] : Obj Whole)
      (.CharVec [StringElem.na] []) true = .error (.msg "subscript out of bounds") :=
  ⟨⟨rfl, by decide, by decide⟩, by
    obtain ⟨r, h1, _, _, _, h5⟩ :=
      ((subset_double_bracket none (Obj.IntVec [⟨10, false⟩, ⟨20, false⟩] [] : Obj Whole)
        [⟨2, false⟩] [] rfl (by decide) (by decide)).2.2.1
          ⟨2, false⟩ rfl rfl (by decide) (by decide)).2 rfl
    exact ⟨r, h1, h5 rfl⟩, rfl, rfl, rfl, rfl, rfl, rfl, rfl⟩

/-- C15 as stated fails: with `x <- c(10L, 20L)` the read `x[[2.0]]` with a
double index in range is an error, while `x[[2L]]` returns `20L`. -/
theorem subset_double_bracket_double_counterexample :
    subset none (Obj.IntVec [⟨10, false⟩, ⟨20, false⟩] [] : Obj Whole)
      (.DoubleVec [⟨⟨2⟩, false⟩] []) true = .error (.msg "invalid subscript type double") ∧
    subset none (Obj.IntVec [⟨10, false⟩, ⟨20, false⟩] [] : Obj Whole)
      (.IntVec [⟨2, false⟩] []) true = .ok (.fresh (IntScalar 20)) :=
  ⟨rfl, rfl⟩

/-- C16 as stated fails: after `x <- c(1L, 2L); x[c(1L, 1L)] <- c(10L, 20L)` the
position 1, which is the first positive entry of the index, holds `20L` and
not `v[0] = 10L`. -/
theorem setSubset_repeated_position_counterexample :
    assignPositions [⟨1, false⟩, ⟨1, false⟩] = [0, 0] ∧
    setSubset (Eval (noBuiltins : Builtins Whole) 0) (.addr 0) (.addr 1) (.addr 2) false
      ⟨[.IntVec [⟨1, false⟩, ⟨2, false⟩] [], .IntVec [⟨1, false⟩, ⟨1, false⟩] [],
        .IntVec [⟨10, false⟩, ⟨20, false⟩] []], [], "", Arrays.initial⟩ =
      (.ok (.addr 3),
        ⟨[.IntVec [⟨1, false⟩, ⟨2, false⟩] [], .IntVec [⟨1, false⟩, ⟨1, false⟩] [],
          .IntVec [⟨10, false⟩, ⟨20, false⟩] [], .IntVec [⟨20, false⟩, ⟨2, false⟩] []], [], "", Arrays.initial⟩) :=
  ⟨rfl, rfl⟩

/-- C16 (as amended) at `x <- c(1L, 2L); x[c(4L, 1L)] <- 10L`. -/
theorem setSubset_recycles_witness :
    ((Obj.IntVec [⟨1, false⟩, ⟨2, false⟩] [] : Obj Whole).isAtomic = true ∧
      (∀ e env f v er,
        (Obj.IntVec [⟨10, false⟩] [] : Obj Whole) ≠ .Promise e env f v er) ∧
      coerceLike (Obj.IntVec [⟨1, false⟩, ⟨2, false⟩] [] : Obj Whole)
        (.IntVec [⟨10, false⟩] []) = .ok (.IntVec [⟨10, false⟩] []) ∧
      0 < (Obj.IntVec [⟨10, false⟩] [] : Obj Whole).Len) ∧
    ∃ r, setSubset (Eval (noBuiltins : Builtins Whole) 0) (.addr 0) (.addr 1) (.addr 2) false
        ⟨[.IntVec [⟨1, false⟩, ⟨2, false⟩] [], .IntVec [⟨4, false⟩, ⟨1, false⟩] [],
          .IntVec [⟨10, false⟩] []], [], "", Arrays.initial⟩ =
        M.alloc r ⟨[.IntVec [⟨1, false⟩, ⟨2, false⟩] [], .IntVec [⟨4, false⟩, ⟨1, false⟩] [],
          .IntVec [⟨10, false⟩] []], [], "", Arrays.initial⟩ ∧
      r.Type = "integer" ∧ r.Len = 4 :=
  ⟨⟨rfl, (fun _ _ _ _ _ h => by cases h), rfl, by decide⟩, by
    obtain ⟨r, h1, h2, h3, _⟩ := setSubset_recycles (Eval (noBuiltins : Builtins Whole) 0)
      ⟨[.IntVec [⟨1, false⟩, ⟨2, false⟩] [], .IntVec [⟨4, false⟩, ⟨1, false⟩] [],
        .IntVec [⟨10, false⟩] []], [], "", Arrays.initial⟩ (.addr 0) (.addr 1) (.addr 2)
      (.IntVec [⟨1, false⟩, ⟨2, false⟩] []) (.IntVec [⟨10, false⟩] []) (.IntVec [⟨10, false⟩] [])
      [⟨4, false⟩, ⟨1, false⟩] [] rfl rfl rfl rfl (fun _ _ _ _ _ h => by cases h) rfl (by decide)
    exact ⟨r, h1, h2, h3⟩⟩

/-- C17 (as amended) at `x <- c(1L, 2L); x[2L] <- 10L`. -/
theorem setSubset_integer_positions_witness :
    ((Obj.IntVec [⟨1, false⟩, ⟨2, false⟩] [] : Obj Whole).isAtomic = true ∧
      (∀ e env f v er,
        (Obj.IntVec [⟨10, false⟩] [] : Obj Whole) ≠ .Promise e env f v er) ∧
      coerceLike (Obj.IntVec [⟨1, false⟩, ⟨2, false⟩] [] : Obj Whole)
        (.IntVec [⟨10, false⟩] []) = .ok (.IntVec [⟨10, false⟩] []) ∧
      0 < (Obj.IntVec [⟨10, false⟩] [] : Obj Whole).Len) ∧
    ∃ sel r, normalizeIndex (Obj.IntVec [⟨2, false⟩] [] : Obj Whole) 2 = .ok sel ∧
      setSubset (Eval (noBuiltins : Builtins Whole) 0) (.addr 0) (.addr 1) (.addr 2) false
        ⟨[.IntVec [⟨1, false⟩, ⟨2, false⟩] [], .IntVec [⟨2, false⟩] [],
          .IntVec [⟨10, false⟩] []], [], "", Arrays.initial⟩ =
        M.alloc r ⟨[.IntVec [⟨1, false⟩, ⟨2, false⟩] [], .IntVec [⟨2, false⟩] [],
          .IntVec [⟨10, false⟩] []], [], "", Arrays.initial⟩ ∧
      r.Type = "integer" :=
  ⟨⟨rfl, (fun _ _ _ _ _ h => by cases h), rfl, by decide⟩, by
    obtain ⟨sel, r, h1, h2, h3, _⟩ :=
      (setSubset_integer_positions (Eval (noBuiltins : Builtins Whole) 0)
        ⟨[.IntVec [⟨1, false⟩, ⟨2, false⟩] [], .IntVec [⟨2, false⟩] [],
          .IntVec [⟨10, false⟩] []], [], "", Arrays.initial⟩ (.addr 0) (.addr 1) (.addr 2)
        (.IntVec [⟨1, false⟩, ⟨2, false⟩] []) (.IntVec [⟨2, false⟩] [])
        (.IntVec [⟨10, false⟩] []) (.IntVec [⟨10, false⟩] [])
        rfl rfl rfl rfl (fun _ _ _ _ _ h => by cases h) rfl (by decide)).2
        [⟨2, false⟩] [] rfl (by decide)
    exact ⟨sel, r, h1, h2, h3⟩⟩

/-- C17 as stated fails. With `x <- c(1L, 2L, 3L)` the reads
`x[c(TRUE, FALSE, TRUE)]` and `x[-1L]` succeed, but the write
`x[c(TRUE, FALSE, TRUE)] <- 9L` fails and the write `x[-1L] <- 9L` changes
nothing. -/
theorem setSubset_normalization_counterexample :
    subset none (Obj.IntVec [⟨1, false⟩, ⟨2, false⟩, ⟨3, false⟩] [] : Obj Whole)
      (.LogicalVec [⟨true, false⟩, ⟨false, false⟩, ⟨true, false⟩] []) false =
      .ok (.fresh (.IntVec [⟨1, false⟩, ⟨3, false⟩] [])) ∧
    (setSubset (Eval (noBuiltins : Builtins Whole) 0) (.addr 0) (.addr 1) (.addr 2) false
      ⟨[.IntVec [⟨1, false⟩, ⟨2, false⟩, ⟨3, false⟩] [],
        .LogicalVec [⟨true, false⟩, ⟨false, false⟩, ⟨true, false⟩] [],
        .IntVec [⟨9, false⟩] []], [], "", Arrays.initial⟩).1 =
      .error (.msg "[<- only supports integer indices in smallR MVP") ∧
    subset none (Obj.IntVec [⟨1, false⟩, ⟨2, false⟩, ⟨3, false⟩] [] : Obj Whole)
      (.IntVec [⟨-1, false⟩] []) false = .ok (.fresh (.IntVec [⟨2, false⟩, ⟨3, false⟩] [])) ∧
    setSubset (Eval (noBuiltins : Builtins Whole) 0) (.addr 0) (.addr 1) (.addr 2) false
      ⟨[.IntVec [⟨1, false⟩, ⟨2, false⟩, ⟨3, false⟩] [], .IntVec [⟨-1, false⟩] [],
        .IntVec [⟨9, false⟩] []], [], "", Arrays.initial⟩ =
      (.ok (.addr 3),
        ⟨[.IntVec [⟨1, false⟩, ⟨2, false⟩, ⟨3, false⟩] [], .IntVec [⟨-1, false⟩] [],
          .IntVec [⟨9, false⟩] [], .IntVec [⟨1, false⟩, ⟨2, false⟩, ⟨3, false⟩] []], [], "", Arrays.initial⟩) :=
  ⟨rfl, rfl, rfl, rfl⟩

/-- C18 at `l <- list(a = 5L); l$b <- 7L`. -/
theorem setDollar_dollar_witness :
    ((∀ e env f v er, (IntScalar 7 : Obj Whole) ≠ .Promise e env f v er) ∧
      (∀ nm, mapGet [("names", Ptr.addr 2)] "names" = some nm →
        ∃ no, (⟨[.ListVec [.addr 1] [("names", .addr 2)], IntScalar 5,
            .CharVec [⟨"a", false⟩] [], IntScalar 7], [], "", Arrays.initial⟩ : Store Whole).deref nm = some no ∧
          ∀ e env f v er, no ≠ .Promise e env f v er)) ∧
    ∃ r st' d' a',
      setDollar (Eval (noBuiltins : Builtins Whole) 0) (.addr 0) "b" (.addr 3)
        ⟨[.ListVec [.addr 1] [("names", .addr 2)], IntScalar 5,
          .CharVec [⟨"a", false⟩] [], IntScalar 7], [], "", Arrays.initial⟩ = (.ok r, st') ∧
      st'.deref r = some (.ListVec d' a') ∧
      dollarM (Eval (noBuiltins : Builtins Whole) 0) r "b" st' = (.ok (.addr 3), st') :=
  ⟨⟨(fun _ _ _ _ _ h => by cases h), (fun nm h => by
      cases h
      exact ⟨_, rfl, fun _ _ _ _ _ h => by cases h⟩)⟩, by
    obtain ⟨r, st', d', a', h1, h2, h3, _⟩ :=
      setDollar_dollar (Eval (noBuiltins : Builtins Whole) 0)
        ⟨[.ListVec [.addr 1] [("names", .addr 2)], IntScalar 5,
          .CharVec [⟨"a", false⟩] [], IntScalar 7], [], "", Arrays.initial⟩ (.addr 0) (.addr 3) [.addr 1]
        [("names", .addr 2)] (IntScalar 7) "b" rfl rfl (fun _ _ _ _ _ h => by cases h)
        (fun nm h => by
          cases h
          exact ⟨_, rfl, fun _ _ _ _ _ h => by cases h⟩)
    exact ⟨r, st', d', a', h1, h2, h3⟩⟩

/-- The empty library changes no forced promise. -/
theorem noBuiltins_keeps_forced {F : Type} [Float64 F] : (noBuiltins : Builtins F).KeepsForced :=
  fun _ _ _ _ _ _ => keeps_errorf _

/-- C12 at a promise of `x <- 1L`: the first `Force` assigns `x`; the store after
it is the store after forcing once more, also with an evaluator that has no
fuel to evaluate anything. -/
theorem Force_at_most_once_witness :
    ((noBuiltins : Builtins Whole).KeepsForced ∧
      (∃ e env f v er, promiseStore.objs.get? 0 = some (.Promise e env f v er)) ∧
      Force (Eval (noBuiltins : Builtins Whole) 3) (.addr 0) promiseStore =
        (.ok (.addr 1), promiseStoreForced) ∧
      ((∃ v, (Res.ok (Ptr.addr 1) : Res Ptr) = .ok v) ∨
        (∃ er, (Res.ok (Ptr.addr 1) : Res Ptr) = .error er))) ∧
    Force (Eval (noBuiltins : Builtins Whole) 0) (.addr 0)
      (runSteps noBuiltins [.force 3 (.addr 0)] promiseStoreForced) =
      (.ok (.addr 1), runSteps noBuiltins [.force 3 (.addr 0)] promiseStoreForced) :=
  ⟨⟨noBuiltins_keeps_forced, ⟨_, _, _, _, _, rfl⟩, rfl, Or.inl ⟨_, rfl⟩⟩,
    Force_at_most_once noBuiltins noBuiltins_keeps_forced 3 0 promiseStore promiseStoreForced
      (.ok (.addr 1)) ⟨_, _, _, _, _, rfl⟩ rfl (Or.inl ⟨_, rfl⟩) [.force 3 (.addr 0)]
      (Eval noBuiltins 0)⟩

/-! ## The parser: precedence, associativity and the pipe -/

section ParserTheorems


variable {F : Type} [Float64 F]

theorem Parser.nextWhile_stop (c : Parser → Bool) (k : Nat) (p : Parser) (h : c p = false) :
    Parser.nextWhile c (k + 1) p = p := by
  simp [Parser.nextWhile, h]

theorem Parser.skipSeparatorsCur_id (p : Parser) (h1 : p.cur.Typ ≠ .NL) (h2 : p.cur.Typ ≠ .SEMI) :
    p.skipSeparatorsCur = p := by
  unfold Parser.skipSeparatorsCur
  exact Parser.nextWhile_stop _ _ _ (by simp [h1, h2])

theorem atomExpr_not_separator (t : Token) (A : Expr F) (h : atomExpr t = some A) :
    t.Typ ≠ .NL ∧ t.Typ ≠ .SEMI ∧ t.Typ ≠ .EOF := by
  unfold atomExpr at h
  refine ⟨?_, ?_, ?_⟩ <;> intro hc <;> rw [hc] at h <;> exact absurd h (by simp)

theorem atomExpr_not_nil (t : Token) (A : Expr F) (h : atomExpr t = some A) : A.isNil = false := by
  unfold atomExpr at h
  split at h <;> simp at h <;> try (subst h; rfl)
  obtain ⟨v, _, rfl⟩ := h
  rfl

theorem parsePrefix_atom (pe : ExprParser F) (n : Nat) (p : Parser) (A : Expr F)
    (h : atomExpr p.cur = some A) : parsePrefix pe n p = some (A, p) := by
  unfold atomExpr at h
  unfold parsePrefix
  split at h <;> rename_i ht <;> try simp only [ht]
  · cases h; rfl
  · simp only [Option.map_eq_some'] at h
    obtain ⟨v, hv, rfl⟩ := h
    simp [parseNumber, hv]
  · cases h; rfl
  · cases h; rfl
  · cases h; rfl
  · cases h; rfl
  · cases h; rfl
  · cases h

omit [Float64 F] in
theorem parseInfix_operator (pe : ExprParser F) (n : Nat) (left : Expr F) (p : Parser)
    (h : isInfixOperator p.cur.Typ = true) :
    parseInfix pe n left p =
      (pe (rightPrec p.cur.Typ) p.next.skipSeparatorsCur).map fun r =>
        (mkInfix p.cur.Typ left r.1, r.2) := by
  unfold parseInfix
  simp only [Parser.curPrecedence]
  cases ht : p.cur.Typ <;> rw [ht] at h <;> first
    | exact absurd h (by decide)
    | (simp [rightPrec, mkInfix, isAssignOperator, precedence]
       cases pe _ _ <;> rfl)

omit [Float64 F] in
theorem infixLoop_stop (pe : ExprParser F) (n prec k : Nat) (left : Expr F) (p : Parser)
    (h : continuesAt prec p = false) : infixLoop pe n prec (k + 1) left p = some (left, p) := by
  unfold continuesAt at h
  simp only [infixLoop, h]
  rfl

omit [Float64 F] in
theorem infixLoop_step (pe : ExprParser F) (n prec k : Nat) (left : Expr F) (p : Parser)
    (h : continuesAt prec p = true) :
    infixLoop pe n prec (k + 1) left p =
      match parseInfix pe n left p.next with
      | none => none
      | some (left, p) =>
        if left.isNil then some (.Nil, p) else infixLoop pe n prec k left p := by
  unfold continuesAt at h
  simp only [infixLoop, h]
  rfl

omit [Float64 F] in
theorem mkInfix_not_nil (op : TokenType) (l r : Expr F) : (mkInfix op l r).isNil = false := by
  unfold mkInfix pipeCall
  split
  · split <;> rfl
  · split <;> rfl

omit [Float64 F] in
theorem continuesAt_operator (prec : Nat) (p : Parser) (ho : isInfixOperator p.peek.Typ = true)
    (hp : prec < precedence p.peek.Typ) : continuesAt prec p = true := by
  unfold continuesAt Parser.peekIs Parser.peekPrecedence
  have h1 : p.peek.Typ ≠ .EOF := by intro hc; rw [hc] at ho; exact absurd ho (by decide)
  have h2 : p.peek.Typ ≠ .NL := by intro hc; rw [hc] at ho; exact absurd ho (by decide)
  have h3 : p.peek.Typ ≠ .SEMI := by intro hc; rw [hc] at ho; exact absurd ho (by decide)
  simp [h1, h2, h3, hp]

omit [Float64 F] in
theorem continuesAt_not_lt (prec : Nat) (p : Parser) (hp : ¬ prec < precedence p.peek.Typ) :
    continuesAt prec p = false := by
  unfold continuesAt Parser.peekPrecedence
  simp [hp]

omit [Float64 F] in
theorem continuesAt_ends (prec : Nat) (p : Parser) (h : endsExpression p.peek = true) :
    continuesAt prec p = false := by
  unfold endsExpression at h
  unfold continuesAt Parser.peekIs
  simp only [Bool.or_eq_true, decide_eq_true_eq] at h
  rcases h with (h | h) | h <;> simp [h]

theorem parseExpression_atom (n prec : Nat) (p : Parser) (A : Expr F)
    (h : atomExpr p.cur = some A) (hs : continuesAt prec p = false) :
    parseExpression (n + 2) prec p = some (A, p) := by
  obtain ⟨h1, h2, _⟩ := atomExpr_not_separator _ _ h
  simp only [parseExpression, Parser.skipSeparatorsCur_id p h1 h2, parsePrefix_atom _ _ _ _ h,
    atomExpr_not_nil _ _ h, infixLoop_stop _ _ _ _ _ _ hs]
  rfl

theorem parseExpression_infix (n prec : Nat) (p : Parser) (A B : Expr F)
    (hA : atomExpr p.cur = some A) (ho : isInfixOperator p.peek.Typ = true)
    (hp : prec < precedence p.peek.Typ) (hB : atomExpr p.next.next.cur = some B)
    (hs1 : continuesAt (rightPrec p.peek.Typ) p.next.next = false)
    (hs2 : continuesAt prec p.next.next = false) :
    parseExpression (n + 3) prec p = some (mkInfix p.peek.Typ A B, p.next.next) := by
  obtain ⟨h1, h2, _⟩ := atomExpr_not_separator _ _ hA
  obtain ⟨h3, h4, _⟩ := atomExpr_not_separator _ _ hB
  have hn : p.next.cur = p.peek := rfl
  simp only [parseExpression, Parser.skipSeparatorsCur_id p h1 h2, parsePrefix_atom _ _ _ _ hA,
    atomExpr_not_nil _ _ hA]
  rw [if_neg (by simp), infixLoop_step _ _ _ _ _ _ (continuesAt_operator _ _ ho hp),
    parseInfix_operator _ _ _ _ (by rw [hn]; exact ho), hn,
    Parser.skipSeparatorsCur_id _ h3 h4]
  have := parseExpression_atom n (rightPrec p.peek.Typ) p.next.next B hB hs1
  simp only [parseExpression] at this
  simp only [this, Option.map_some', mkInfix_not_nil, infixLoop_stop _ _ _ _ _ _ hs2]
  rfl

/-- Three operands and two operators: the first operator takes the second
operation as its right operand exactly when its `rightPrec` is below the
precedence of the second operator. -/
theorem parseExpression_two_operators (n prec : Nat) (p : Parser) (A B C : Expr F)
    (hA : atomExpr p.cur = some A) (ho1 : isInfixOperator p.peek.Typ = true)
    (hp1 : prec < precedence p.peek.Typ)
    (hB : atomExpr p.next.next.cur = some B)
    (ho2 : isInfixOperator p.next.next.peek.Typ = true)
    (hp2 : prec < precedence p.next.next.peek.Typ)
    (hC : atomExpr p.next.next.next.next.cur = some C)
    (he : endsExpression p.next.next.next.next.peek = true) :
    parseExpression (n + 4) prec p =
      some (if rightPrec p.peek.Typ < precedence p.next.next.peek.Typ
        then mkInfix p.peek.Typ A (mkInfix p.next.next.peek.Typ B C)
        else mkInfix p.next.next.peek.Typ (mkInfix p.peek.Typ A B) C,
        p.next.next.next.next) := by
  obtain ⟨h1, h2, _⟩ := atomExpr_not_separator _ _ hA
  obtain ⟨h3, h4, _⟩ := atomExpr_not_separator _ _ hB
  obtain ⟨h5, h6, _⟩ := atomExpr_not_separator _ _ hC
  have hn : p.next.cur = p.peek := rfl
  have hn2 : p.next.next.next.cur = p.next.next.peek := rfl
  have hstop : ∀ x, continuesAt x p.next.next.next.next = false :=
    fun x => continuesAt_ends x _ he
  simp only [parseExpression, Parser.skipSeparatorsCur_id p h1 h2, parsePrefix_atom _ _ _ _ hA,
    atomExpr_not_nil _ _ hA]
  rw [if_neg (by simp), infixLoop_step _ _ _ _ _ _ (continuesAt_operator _ _ ho1 hp1),
    parseInfix_operator _ _ _ _ (by rw [hn]; exact ho1), hn,
    Parser.skipSeparatorsCur_id _ h3 h4]
  by_cases hlt : rightPrec p.peek.Typ < precedence p.next.next.peek.Typ
  · have := parseExpression_infix n (rightPrec p.peek.Typ) p.next.next B C hB ho2 hlt hC
      (hstop _) (hstop _)
    simp only [parseExpression] at this
    simp only [this, Option.map_some', mkInfix_not_nil, infixLoop_stop _ _ _ _ _ _ (hstop _),
      if_pos hlt]
    rfl
  · have := parseExpression_atom (n + 1) (rightPrec p.peek.Typ) p.next.next B hB
      (continuesAt_not_lt _ _ hlt)
    simp only [parseExpression] at this
    simp only [this, Option.map_some', mkInfix_not_nil]
    rw [if_neg (by simp), infixLoop_step _ _ _ _ _ _ (continuesAt_operator _ _ ho2 hp2),
      parseInfix_operator _ _ _ _ (by rw [hn2]; exact ho2), hn2,
      Parser.skipSeparatorsCur_id _ h5 h6]
    have := parseExpression_atom (n + 1) (rightPrec p.next.next.peek.Typ) p.next.next.next.next C
      hC (hstop _)
    simp only [parseExpression] at this
    simp only [this, Option.map_some', mkInfix_not_nil, infixLoop_stop _ _ _ _ _ _ (hstop _),
      if_neg hlt]
    rfl

/-- A program of one expression that takes all tokens up to the end of
input. -/
theorem ParseProgram_single (fuel : Nat) (p r : Parser) (E : Expr F)
    (h1 : p.cur.Typ ≠ .NL) (h2 : p.cur.Typ ≠ .SEMI) (h3 : p.cur.Typ ≠ .EOF)
    (hE : parseExpression (fuel + 2) precLowest p = some (E, r)) (hnil : E.isNil = false)
    (hr1 : r.cur.Typ ≠ .NL) (hr2 : r.cur.Typ ≠ .SEMI) (hr3 : r.cur.Typ ≠ .EOF)
    (hr : r.peek.Typ = .EOF) :
    ParseProgram (fuel + 2) p = some ([E], r.errors.head?) := by
  have hn : r.next.cur.Typ = .EOF := hr
  have hsep : r.toSeparator = r.next := by
    unfold Parser.toSeparator
    rw [Parser.nextWhile, if_pos (by simp [hr1, hr2, hr3]),
      Parser.nextWhile_stop _ _ _ (by simp [hn])]
  unfold ParseProgram
  rw [Parser.skipSeparatorsCur_id p h1 h2]
  simp only [parseProgramLoop, Parser.curIs, h3, hE, hnil, hsep,
    Parser.skipSeparatorsCur_id r.next (by rw [hn]; decide) (by rw [hn]; decide), hn]
  rfl

/-- The tokens `a o1 b o2 c` as a program. -/
theorem ParseProgram_two_operators (fuel : Nat) (a o1 b o2 c : Token) (A B C : Expr F)
    (hA : atomExpr a = some A) (hB : atomExpr b = some B) (hC : atomExpr c = some C)
    (ho1 : isInfixOperator o1.Typ = true) (ho2 : isInfixOperator o2.Typ = true) :
    ParseProgram (fuel + 4) (Parser.New [a, o1, b, o2, c, eofToken]) =
      some ([if rightPrec o1.Typ < precedence o2.Typ
        then mkInfix o1.Typ A (mkInfix o2.Typ B C)
        else mkInfix o2.Typ (mkInfix o1.Typ A B) C], none) := by
  obtain ⟨h1, h2, h3⟩ := atomExpr_not_separator _ _ hA
  obtain ⟨h4, h5, h6⟩ := atomExpr_not_separator _ _ hC
  have hpos : ∀ o : Token, isInfixOperator o.Typ = true → precLowest < precedence o.Typ := by
    intro o ho
    cases ht : o.Typ <;> rw [ht] at ho <;> first | exact absurd ho (by decide) | decide
  have hrun := parseExpression_two_operators fuel precLowest
    (Parser.New [a, o1, b, o2, c, eofToken]) A B C hA ho1 (hpos o1 ho1) hB ho2 (hpos o2 ho2) hC rfl
  have hnil : (if rightPrec o1.Typ < precedence o2.Typ
        then mkInfix o1.Typ A (mkInfix o2.Typ B C)
        else mkInfix o2.Typ (mkInfix o1.Typ A B) C).isNil = false := by
    split <;> exact mkInfix_not_nil _ _ _
  exact ParseProgram_single (fuel + 2) (Parser.New [a, o1, b, o2, c, eofToken])
    ⟨[], c, eofToken, []⟩ _ h1 h2 h3 hrun hnil h4 h5 h6 rfl


omit [Float64 F] in
theorem parseArgsLoop_acc (pe : ExprParser F) (pre : List (Arg F)) :
    ∀ (k : Nat) (acc : List (Arg F)) (p : Parser),
      parseArgsLoop pe k (pre ++ acc) p =
        (parseArgsLoop pe k acc p).map fun r => (pre ++ r.1, r.2) := by
  intro k
  induction k with
  | zero => intro acc p; rfl
  | succ k ih =>
    intro acc p
    simp only [parseArgsLoop]
    split
    · split
      · exact ih _ _
      · split
        · rfl
        · rename_i a q _
          simp only [List.append_assoc]
          split
          · exact ih _ _
          · split
            · rfl
            · split
              · rfl
              · exact ih _ _
    · rfl

omit [Float64 F] in
theorem parseArgsLoop_mono (pe : ExprParser F) :
    ∀ (k : Nat) (acc : List (Arg F)) (p : Parser) (r : List (Arg F) × Parser),
      parseArgsLoop pe k acc p = some r → parseArgsLoop pe (k + 1) acc p = some r := by
  intro k
  induction k with
  | zero => intro acc p r h; cases h
  | succ k ih =>
    intro acc p r h
    rw [parseArgsLoop] at h ⊢
    split at h
    · rename_i hc
      rw [if_pos hc]
      dsimp only at h ⊢
      split at h
      · rename_i hc2
        rw [if_pos hc2]
        exact ih _ _ _ h
      · rename_i hc2
        rw [if_neg hc2]
        split at h
        · cases h
        · rename_i a q harg
          split at h
          · rename_i h1; rw [if_pos h1]; exact ih _ _ _ h
          · rename_i h1
            rw [if_neg h1]
            split at h
            · rename_i h2; rw [if_pos h2]; exact h
            · rename_i h2
              rw [if_neg h2]
              split at h
              · rename_i h3; rw [if_pos h3]; exact h
              · rename_i h3; rw [if_neg h3]; exact ih _ _ _ h
    · rename_i hc
      rw [if_neg hc]
      exact h

omit [Float64 F] in
theorem continuesAt_lparen (prec : Nat) (p : Parser) (h : p.peek.Typ = .LPAREN)
    (hp : prec < precCall) : continuesAt prec p = true := by
  unfold continuesAt Parser.peekIs Parser.peekPrecedence
  simp [h, precedence, hp]

omit [Float64 F] in
theorem parseInfix_lparen (pe : ExprParser F) (n : Nat) (left : Expr F) (p : Parser)
    (h : p.cur.Typ = .LPAREN) : parseInfix pe n left p = parseCall pe n left p := by
  unfold parseInfix
  simp only [h]

omit [Float64 F] in
/-- What `parseCall` does with the outcome of its loop. -/
theorem parseCall_eq (pe : ExprParser F) (n : Nat) (fn : Expr F) (p : Parser) :
    parseCall pe n fn p =
      if p.next.skipSeparatorsCur.curIs .RPAREN then some (.CallExpr fn [], p.next.skipSeparatorsCur)
      else
        (parseArgsLoop pe n [] p.next.skipSeparatorsCur).map fun r =>
          (.CallExpr fn r.1,
            if !r.2.curIs .RPAREN then
              if r.2.peekIs .RPAREN then r.2.next else r.2.errorf "expected ) to close call"
            else r.2) := by
  unfold parseCall
  dsimp only
  split
  · rfl
  · cases parseArgsLoop pe n [] p.next.skipSeparatorsCur <;> rfl

theorem parseExpression_of_atom (n prec : Nat) (p : Parser) (A : Expr F)
    (h : atomExpr p.cur = some A) :
    parseExpression (n + 1) prec p = infixLoop (parseExpression n) n prec n A p := by
  obtain ⟨h1, h2, _⟩ := atomExpr_not_separator _ _ h
  simp only [parseExpression, Parser.skipSeparatorsCur_id p h1 h2, parsePrefix_atom _ _ _ _ h,
    atomExpr_not_nil _ _ h]
  rfl

omit [Float64 F] in
theorem infixLoop_call (pe : ExprParser F) (n prec k : Nat) (left : Expr F) (p : Parser)
    (h : p.peek.Typ = .LPAREN) (hp : prec < precCall) :
    infixLoop pe n prec (k + 1) left p =
      match parseCall pe n left p.next with
      | none => none
      | some (left, p) =>
        if left.isNil then some (.Nil, p) else infixLoop pe n prec k left p := by
  rw [infixLoop_step _ _ _ _ _ _ (continuesAt_lparen _ _ h hp), parseInfix_lparen _ _ _ _ h]

/-- The pipe into a call and the call with the left operand as its first
argument, on tokens: if `parseCall` at the parenthesis of `f ( x , rest`
returns a node and stops in front of the end of an expression, then
`f ( x , rest` and `x |> f ( rest` parse to that node, which is a call of
`f` with `x` as first argument, and both stop at the same place. -/
theorem parseExpression_pipe_call (n : Nat) (x f lp comma pipe : Token) (rest : List Token)
    (X Fn E : Expr F) (q : Parser)
    (hx : atomExpr x = some X) (hf : atomExpr f = some Fn)
    (hlp : lp.Typ = .LPAREN) (hcomma : comma.Typ = .COMMA) (hpipe : pipe.Typ = .PIPE)
    (hrest : (rest.headD eofToken).Typ ≠ .NL ∧ (rest.headD eofToken).Typ ≠ .SEMI)
    (hcall : parseCall (parseExpression (n + 2)) (n + 2) Fn ⟨comma :: rest, lp, x, []⟩ = some (E, q))
    (hq : endsExpression q.peek = true) :
    (∃ args, E = .CallExpr Fn (.mk "" X :: args)) ∧
    parseExpression (n + 3) precLowest (Parser.New (f :: lp :: x :: comma :: rest)) = some (E, q) ∧
    parseExpression (n + 4) precLowest (Parser.New (x :: pipe :: f :: lp :: rest)) = some (E, q) := by
  obtain ⟨hx1, hx2, hx3⟩ := atomExpr_not_separator _ _ hx
  obtain ⟨hf1, hf2, hf3⟩ := atomExpr_not_separator _ _ hf
  have hstop : ∀ k, continuesAt k q = false := fun k => continuesAt_ends k q hq
  -- the state in front of the second argument
  let s : Parser := ⟨rest.tail.tail, rest.headD eofToken, rest.tail.headD eofToken, []⟩
  have hs : s.skipSeparatorsCur = s := Parser.skipSeparatorsCur_id s hrest.1 hrest.2
  -- the loop of the call form after its first argument
  have hxr : x.Typ ≠ .RPAREN := by
    intro hc; unfold atomExpr at hx; rw [hc] at hx; cases hx
  have hxc : x.Typ ≠ .COMMA := by
    intro hc; unfold atomExpr at hx; rw [hc] at hx; cases hx
  have hfirst : parseArgsLoop (parseExpression (n + 2)) (n + 2) [] ⟨rest, x, comma, []⟩ =
      (parseArgsLoop (parseExpression (n + 2)) (n + 1) [] s).map fun r =>
        (Arg.mk "" X :: r.1, r.2) := by
    have hp : (⟨rest, x, comma, []⟩ : Parser).skipSeparatorsCur = ⟨rest, x, comma, []⟩ :=
      Parser.skipSeparatorsCur_id _ hx1 hx2
    have hX := parseExpression_atom n precLowest ⟨rest, x, comma, []⟩ X hx
      (continuesAt_not_lt _ _ (by simp [hcomma, precedence]))
    rw [parseArgsLoop]
    simp only [Parser.curIs, hxr, hx3, hp, hxc, Parser.peekIs, hcomma, hX]
    rw [if_pos (by simp), if_neg (by simp), if_neg (by simp)]
    simp only [Option.map_some', hcomma, decide_True, if_true, List.nil_append]
    exact parseArgsLoop_acc (parseExpression (n + 2)) [Arg.mk "" X] (n + 1) [] s
  have hcall0 := hcall
  rw [parseCall_eq] at hcall
  have hnext : (⟨comma :: rest, lp, x, []⟩ : Parser).next.skipSeparatorsCur =
      ⟨rest, x, comma, []⟩ := Parser.skipSeparatorsCur_id _ hx1 hx2
  rw [hnext, if_neg (by simp [Parser.curIs, hxr]), hfirst] at hcall
  simp only [Option.map_map, Option.map_eq_some'] at hcall
  obtain ⟨⟨args, q1⟩, hloop, hE⟩ := hcall
  simp only [Function.comp, Prod.mk.injEq] at hE
  obtain ⟨hE, hq1⟩ := hE
  have hEnil : E.isNil = false := by rw [← hE]; rfl
  refine ⟨⟨args, hE.symm⟩, ?_, ?_⟩
  · -- the call form
    have hP : Parser.New (f :: lp :: x :: comma :: rest) = ⟨x :: comma :: rest, f, lp, []⟩ := rfl
    rw [hP, parseExpression_of_atom _ _ _ Fn hf, infixLoop_call _ _ _ _ _ _ hlp (by decide)]
    have hn : (⟨x :: comma :: rest, f, lp, []⟩ : Parser).next = ⟨comma :: rest, lp, x, []⟩ := rfl
    rw [hn, hcall0]
    simp only [hEnil, infixLoop_stop _ _ _ _ _ _ (hstop _)]
    rfl
  · -- the pipe form
    have hP : Parser.New (x :: pipe :: f :: lp :: rest) = ⟨f :: lp :: rest, x, pipe, []⟩ := rfl
    have hop : isInfixOperator (⟨f :: lp :: rest, x, pipe, []⟩ : Parser).peek.Typ = true := by
      show isInfixOperator pipe.Typ = true
      rw [hpipe]; rfl
    have hnc : (⟨f :: lp :: rest, x, pipe, []⟩ : Parser).next.cur.Typ = .PIPE := hpipe
    rw [hP, parseExpression_of_atom _ _ _ X hx,
      infixLoop_step _ _ _ _ _ _ (continuesAt_operator _ _ hop (by
        show precLowest < precedence pipe.Typ
        rw [hpipe]; decide)),
      parseInfix_operator _ _ _ _ (by rw [hnc]; rfl), hnc]
    have hu : (⟨f :: lp :: rest, x, pipe, []⟩ : Parser).next.next.skipSeparatorsCur =
        ⟨rest, f, lp, []⟩ := Parser.skipSeparatorsCur_id _ hf1 hf2
    rw [hu, show rightPrec TokenType.PIPE = precPipe from rfl,
      parseExpression_of_atom _ _ _ Fn hf, infixLoop_call _ _ _ _ _ _ hlp (by decide),
      parseCall_eq]
    have hs2 : (⟨rest, f, lp, []⟩ : Parser).next.next.skipSeparatorsCur = s := hs
    rw [hs2]
    have hinner : ∀ a : List (Arg F), (Expr.CallExpr Fn a).isNil = false := fun _ => rfl
    have hmk : ∀ a : List (Arg F),
        mkInfix TokenType.PIPE X (Expr.CallExpr Fn a) = Expr.CallExpr Fn (Arg.mk "" X :: a) :=
      fun _ => rfl
    by_cases hr : s.curIs .RPAREN = true
    · -- no further argument
      have hl : parseArgsLoop (parseExpression (F := F) (n + 2)) (n + 1) [] s = some ([], s) := by
        rw [parseArgsLoop, if_neg (by simp [hr])]
      rw [hl] at hloop
      cases hloop
      rw [if_neg (by simp [hr])] at hq1
      subst hq1
      rw [if_pos hr]
      simp only [hinner, infixLoop_stop _ _ _ _ _ _ (hstop _), Option.map_some', hmk, hE, hEnil,
        Bool.false_eq_true, if_false]
    · rw [if_neg hr, parseArgsLoop_mono _ _ _ _ _ hloop]
      simp only [Option.map_some', hq1, hinner, infixLoop_stop _ _ _ _ _ _ (hstop _), hmk, hE,
        hEnil, Bool.false_eq_true, if_false]


/-- A call without arguments, `f ( )`. -/
theorem parseExpression_empty_call (n prec : Nat) (p : Parser) (Fn : Expr F)
    (hf : atomExpr p.cur = some Fn) (hlp : p.peek.Typ = .LPAREN)
    (hrp : p.next.peek.Typ = .RPAREN) (hp : prec < precCall)
    (hs : continuesAt prec p.next.next = false) :
    parseExpression (n + 3) prec p = some (.CallExpr Fn [], p.next.next) := by
  have hc : p.next.next.cur.Typ = .RPAREN := hrp
  have hskip : p.next.next.skipSeparatorsCur = p.next.next :=
    Parser.skipSeparatorsCur_id _ (by rw [hc]; decide) (by rw [hc]; decide)
  rw [parseExpression_of_atom _ _ _ Fn hf, infixLoop_call _ _ _ _ _ _ hlp hp, parseCall_eq,
    hskip, if_pos (by simp [Parser.curIs, hc])]
  have hnil : (Expr.CallExpr Fn ([] : List (Arg F))).isNil = false := rfl
  simp only [hnil, infixLoop_stop _ _ _ _ _ _ hs]
  rfl

/-- A call with one operand as its argument, `f ( x )`. -/
theorem parseExpression_call_one (n prec : Nat) (p : Parser) (Fn X : Expr F)
    (hf : atomExpr p.cur = some Fn) (hlp : p.peek.Typ = .LPAREN)
    (hx : atomExpr p.next.next.cur = some X)
    (hrp : p.next.next.peek.Typ = .RPAREN) (hp : prec < precCall)
    (hs : continuesAt prec p.next.next.next = false) :
    parseExpression (n + 3) prec p = some (.CallExpr Fn [.mk "" X], p.next.next.next) := by
  obtain ⟨hx1, hx2, hx3⟩ := atomExpr_not_separator _ _ hx
  have hxr : p.next.next.cur.Typ ≠ .RPAREN := by
    intro hc; unfold atomExpr at hx; rw [hc] at hx; cases hx
  have hxc : p.next.next.cur.Typ ≠ .COMMA := by
    intro hc; unfold atomExpr at hx; rw [hc] at hx; cases hx
  have hskip : p.next.next.skipSeparatorsCur = p.next.next :=
    Parser.skipSeparatorsCur_id _ hx1 hx2
  have hX := parseExpression_atom n precLowest p.next.next X hx
    (continuesAt_not_lt _ _ (by simp [hrp, precedence]))
  have hloop : parseArgsLoop (parseExpression (F := F) (n + 2)) (n + 2) [] p.next.next =
      some ([.mk "" X], p.next.next.next) := by
    rw [parseArgsLoop]
    simp only [Parser.curIs, hxr, hx3, hskip, hxc, Parser.peekIs, hrp, hX]
    rw [if_pos (by simp), if_neg (by simp), if_neg (by simp)]
    simp only [Option.map_some', List.nil_append]
    rw [if_neg (by simp [hrp]), if_pos (by simp [hrp])]
  have hc : p.next.next.next.cur.Typ = .RPAREN := hrp
  rw [parseExpression_of_atom _ _ _ Fn hf, infixLoop_call _ _ _ _ _ _ hlp hp, parseCall_eq,
    hskip, if_neg (by simp [Parser.curIs, hxr]), hloop]
  have hnil : (Expr.CallExpr Fn [Arg.mk "" X]).isNil = false := rfl
  simp only [Option.map_some', Parser.curIs, hc, hnil]
  simp only [decide_True, Bool.not_true, Bool.false_eq_true, if_false]
  exact infixLoop_stop _ _ _ _ _ _ hs

omit [Float64 F] in
/-- One step of the loop of `parseExpression` at a pipe. -/
theorem infixLoop_pipe (pe : ExprParser F) (n prec k : Nat) (left : Expr F) (p : Parser)
    (h : p.peek.Typ = .PIPE) (hp : prec < precPipe) :
    infixLoop pe n prec (k + 1) left p =
      match pe precPipe p.next.next.skipSeparatorsCur with
      | none => none
      | some (right, q) => infixLoop pe n prec k (pipeCall left right) q := by
  have hop : isInfixOperator p.peek.Typ = true := by rw [h]; rfl
  have hnc : p.next.cur.Typ = .PIPE := h
  rw [infixLoop_step _ _ _ _ _ _ (continuesAt_operator _ _ hop (by rw [h]; exact hp)),
    parseInfix_operator _ _ _ _ (by rw [hnc]; rfl), hnc]
  rw [show rightPrec TokenType.PIPE = precPipe from rfl]
  cases pe precPipe p.next.next.skipSeparatorsCur with
  | none => rfl
  | some r =>
    have hnil : (mkInfix TokenType.PIPE left r.1).isNil = false := mkInfix_not_nil _ _ _
    simp only [Option.map_some', hnil]
    rfl

/-- The sources `f ( x )` and `x |> f ( )`. -/
theorem ParseProgram_pipe_empty_call (fuel : Nat) (x f : Token) (X Fn : Expr F)
    (hx : atomExpr x = some X) (hf : atomExpr f = some Fn) :
    ParseProgram (fuel + 4)
        (Parser.New [f, ⟨.LPAREN, "("⟩, x, ⟨.RPAREN, ")"⟩, eofToken]) =
      some ([.CallExpr Fn [.mk "" X]], none) ∧
    ParseProgram (fuel + 4)
        (Parser.New [x, ⟨.PIPE, "|>"⟩, f, ⟨.LPAREN, "("⟩, ⟨.RPAREN, ")"⟩, eofToken]) =
      some ([.CallExpr Fn [.mk "" X]], none) := by
  obtain ⟨hx1, hx2, hx3⟩ := atomExpr_not_separator _ _ hx
  obtain ⟨hf1, hf2, hf3⟩ := atomExpr_not_separator _ _ hf
  constructor
  · have hrun := parseExpression_call_one (fuel + 1) precLowest
      (Parser.New [f, ⟨.LPAREN, "("⟩, x, ⟨.RPAREN, ")"⟩, eofToken]) Fn X hf rfl hx rfl
      (by decide) (continuesAt_ends _ _ rfl)
    exact ParseProgram_single (fuel + 2) _ ⟨[], ⟨.RPAREN, ")"⟩, eofToken, []⟩ _ hf1 hf2 hf3 hrun rfl
      (by decide) (by decide) (by decide) rfl
  · have hinner := parseExpression_empty_call fuel precPipe
      (⟨[⟨.RPAREN, ")"⟩, eofToken], f, ⟨.LPAREN, "("⟩, []⟩ : Parser) Fn hf rfl rfl (by decide)
      (continuesAt_ends _ _ rfl)
    have hskip : (Parser.New [x, ⟨.PIPE, "|>"⟩, f, ⟨.LPAREN, "("⟩, ⟨.RPAREN, ")"⟩,
        eofToken]).next.next.skipSeparatorsCur =
        ⟨[⟨.RPAREN, ")"⟩, eofToken], f, ⟨.LPAREN, "("⟩, []⟩ :=
      Parser.skipSeparatorsCur_id _ hf1 hf2
    have hrun : parseExpression (fuel + 4) precLowest
        (Parser.New [x, ⟨.PIPE, "|>"⟩, f, ⟨.LPAREN, "("⟩, ⟨.RPAREN, ")"⟩, eofToken]) =
        some (Expr.CallExpr Fn [Arg.mk "" X], ⟨[], ⟨.RPAREN, ")"⟩, eofToken, []⟩) := by
      rw [parseExpression_of_atom _ _ _ X hx, infixLoop_pipe _ _ _ _ _ _ rfl (by decide), hskip,
        hinner]
      exact infixLoop_stop _ _ _ _ _ _ (continuesAt_ends _ _ rfl)
    exact ParseProgram_single (fuel + 2) _ ⟨[], ⟨.RPAREN, ")"⟩, eofToken, []⟩ _ hx1 hx2 hx3 hrun rfl
      (by decide) (by decide) (by decide) rfl

/-- A chain of two pipes into calls without arguments, `x |> f ( ) |> g ( )`. -/
theorem ParseProgram_pipe_chain (fuel : Nat) (x f g : Token) (X Fn G : Expr F)
    (hx : atomExpr x = some X) (hf : atomExpr f = some Fn) (hg : atomExpr g = some G) :
    ParseProgram (fuel + 5)
        (Parser.New [x, ⟨.PIPE, "|>"⟩, f, ⟨.LPAREN, "("⟩, ⟨.RPAREN, ")"⟩,
          ⟨.PIPE, "|>"⟩, g, ⟨.LPAREN, "("⟩, ⟨.RPAREN, ")"⟩, eofToken]) =
      some ([.CallExpr G [.mk "" (.CallExpr Fn [.mk "" X])]], none) := by
  obtain ⟨hx1, hx2, hx3⟩ := atomExpr_not_separator _ _ hx
  obtain ⟨hf1, hf2, hf3⟩ := atomExpr_not_separator _ _ hf
  obtain ⟨hg1, hg2, hg3⟩ := atomExpr_not_separator _ _ hg
  have hinner1 := parseExpression_empty_call (fuel + 1) precPipe
    (⟨[⟨.RPAREN, ")"⟩, ⟨.PIPE, "|>"⟩, g, ⟨.LPAREN, "("⟩, ⟨.RPAREN, ")"⟩, eofToken], f,
      ⟨.LPAREN, "("⟩, []⟩ : Parser) Fn hf rfl rfl (by decide)
    (continuesAt_not_lt _ _ (by show ¬ precPipe < precedence TokenType.PIPE; decide))
  have hinner2 := parseExpression_empty_call (fuel + 1) precPipe
    (⟨[⟨.RPAREN, ")"⟩, eofToken], g, ⟨.LPAREN, "("⟩, []⟩ : Parser) G hg rfl rfl (by decide)
    (continuesAt_ends _ _ rfl)
  have hskip1 : (Parser.New [x, ⟨.PIPE, "|>"⟩, f, ⟨.LPAREN, "("⟩, ⟨.RPAREN, ")"⟩,
      ⟨.PIPE, "|>"⟩, g, ⟨.LPAREN, "("⟩, ⟨.RPAREN, ")"⟩, eofToken]).next.next.skipSeparatorsCur =
      ⟨[⟨.RPAREN, ")"⟩, ⟨.PIPE, "|>"⟩, g, ⟨.LPAREN, "("⟩, ⟨.RPAREN, ")"⟩, eofToken], f,
        ⟨.LPAREN, "("⟩, []⟩ :=
    Parser.skipSeparatorsCur_id _ hf1 hf2
  have hskip2 : (⟨[g, ⟨.LPAREN, "("⟩, ⟨.RPAREN, ")"⟩, eofToken], ⟨.RPAREN, ")"⟩,
      ⟨.PIPE, "|>"⟩, []⟩ : Parser).next.next.skipSeparatorsCur =
      ⟨[⟨.RPAREN, ")"⟩, eofToken], g, ⟨.LPAREN, "("⟩, []⟩ :=
    Parser.skipSeparatorsCur_id _ hg1 hg2
  have hrun : parseExpression (fuel + 5) precLowest
      (Parser.New [x, ⟨.PIPE, "|>"⟩, f, ⟨.LPAREN, "("⟩, ⟨.RPAREN, ")"⟩,
        ⟨.PIPE, "|>"⟩, g, ⟨.LPAREN, "("⟩, ⟨.RPAREN, ")"⟩, eofToken]) =
      some (Expr.CallExpr G [Arg.mk "" (Expr.CallExpr Fn [Arg.mk "" X])],
        ⟨[], ⟨.RPAREN, ")"⟩, eofToken, []⟩) := by
    rw [parseExpression_of_atom _ _ _ X hx, infixLoop_pipe _ _ _ _ _ _ rfl (by decide), hskip1,
      hinner1]
    have hstate : (⟨[⟨.RPAREN, ")"⟩, ⟨.PIPE, "|>"⟩, g, ⟨.LPAREN, "("⟩, ⟨.RPAREN, ")"⟩,
        eofToken], f, ⟨.LPAREN, "("⟩, []⟩ : Parser).next.next =
        ⟨[g, ⟨.LPAREN, "("⟩, ⟨.RPAREN, ")"⟩, eofToken], ⟨.RPAREN, ")"⟩, ⟨.PIPE, "|>"⟩, []⟩ := rfl
    simp only [hstate]
    rw [infixLoop_pipe _ _ _ _ _ _ rfl (by decide), hskip2, hinner2]
    exact infixLoop_stop _ _ _ _ _ _ (continuesAt_ends _ _ rfl)
  exact ParseProgram_single (fuel + 3) _ ⟨[], ⟨.RPAREN, ")"⟩, eofToken, []⟩ _ hx1 hx2 hx3 hrun rfl
    (by decide) (by decide) (by decide) rfl


theorem precedence_eq_specLevel (o : TokenType) (h : isInfixOperator o = true) :
    precedence o = specLevel o := by
  cases o <;> first | rfl | exact absurd h (by decide)

theorem rightPrec_le (o : TokenType) : rightPrec o ≤ precedence o := by
  unfold rightPrec
  split <;> omega

theorem le_rightPrec (o1 o2 : TokenType) (h : precedence o1 < precedence o2) :
    precedence o1 ≤ rightPrec o2 := by
  unfold rightPrec
  split <;> omega

theorem pipeCall_atom (t : Token) (left G : Expr F) (h : atomExpr t = some G) :
    pipeCall left G = .CallExpr G [.mk "" left] := by
  unfold atomExpr at h
  split at h
  · cases h; rfl
  · simp only [Option.map_eq_some'] at h
    obtain ⟨v, _, rfl⟩ := h
    rfl
  · cases h; rfl
  · cases h; rfl
  · cases h; rfl
  · cases h; rfl
  · cases h; rfl
  · cases h

/-- C19: the parser groups binary operators by the precedence table. For
operands `a`, `b`, `c` of one token each (identifier, number, string, `TRUE`,
`FALSE`, `NULL`, `NA`) and a program that consists of the five tokens:
`precedence` is the table of the specification (assignment, pipe, `||`, `&&`,
`|`, `&`, comparison, additive, multiplicative, `:`, `^`, low to high); for
operators `o1` of lower and `o2` of higher level, `a o1 b o2 c` parses to the
node of `o1` with operands `a` and the node of `o2` on `b`, `c`, and
`a o2 b o1 c` to the node of `o1` with operands the node of `o2` on `a`, `b`,
and `c`; `a ^ b ^ c` parses to `a ^ (b ^ c)` and `a <- b <- c` to
`a <- (b <- c)`; for every other operator `o` that builds a binary node,
`a o b o c` parses to `(a o b) o c`, and `a |> b |> c` to the call `c(b(a))`;
and `2^3^2` evaluates to a value that renders as `512`. -/
theorem parse_groups_by_precedence (fuel : Nat) (a b c : Token) (A B C : Expr F)
    (hA : atomExpr a = some A) (hB : atomExpr b = some B) (hC : atomExpr c = some C) :
    (∀ o : TokenType, isInfixOperator o = true → precedence o = specLevel o) ∧
    (∀ o1 o2 : Token, isInfixOperator o1.Typ = true → isInfixOperator o2.Typ = true →
      specLevel o1.Typ < specLevel o2.Typ →
      ParseProgram (fuel + 4) (Parser.New [a, o1, b, o2, c, eofToken]) =
        some ([mkInfix o1.Typ A (mkInfix o2.Typ B C)], none) ∧
      ParseProgram (fuel + 4) (Parser.New [a, o2, b, o1, c, eofToken]) =
        some ([mkInfix o1.Typ (mkInfix o2.Typ A B) C], none)) ∧
    ParseProgram (fuel + 4)
        (Parser.New [a, ⟨.CARET, "^"⟩, b, ⟨.CARET, "^"⟩, c, eofToken]) =
      some ([.BinaryExpr .CARET A (.BinaryExpr .CARET B C)], none) ∧
    ParseProgram (fuel + 4)
        (Parser.New [a, ⟨.ASSIGN_LEFT, "<-"⟩, b, ⟨.ASSIGN_LEFT, "<-"⟩, c, eofToken]) =
      some ([.AssignExpr .ASSIGN_LEFT A (.AssignExpr .ASSIGN_LEFT B C)], none) ∧
    (∀ o1 o2 : Token, isBinaryOperator o1.Typ = true → o1.Typ ≠ .CARET → o2.Typ = o1.Typ →
      ParseProgram (fuel + 4) (Parser.New [a, o1, b, o2, c, eofToken]) =
        some ([.BinaryExpr o1.Typ (.BinaryExpr o1.Typ A B) C], none)) ∧
    ParseProgram (fuel + 4)
        (Parser.New [a, ⟨.PIPE, "|>"⟩, b, ⟨.PIPE, "|>"⟩, c, eofToken]) =
      some ([.CallExpr C [.mk "" (.CallExpr B [.mk "" A])]], none) ∧
    (∀ (Bi : Builtins Whole) (exprString : Expr Whole → String),
      ∃ v st, EvalString Bi asciiLib 12 0 "2^3^2" emptyContext = (.ok (⟨v, ""⟩, none), st) ∧
        valueString asciiLib exprString st 1 v = .ok "512") := by
  refine ⟨precedence_eq_specLevel, ?_, ?_, ?_, ?_, ?_, ?_⟩
  · intro o1 o2 h1 h2 hlt
    rw [← precedence_eq_specLevel _ h1, ← precedence_eq_specLevel _ h2] at hlt
    constructor
    · rw [ParseProgram_two_operators fuel a o1 b o2 c A B C hA hB hC h1 h2,
        if_pos (lt_of_le_of_lt (rightPrec_le _) hlt)]
    · rw [ParseProgram_two_operators fuel a o2 b o1 c A B C hA hB hC h2 h1,
        if_neg (not_lt.mpr (le_rightPrec _ _ hlt))]
  · exact ParseProgram_two_operators fuel a ⟨.CARET, "^"⟩ b ⟨.CARET, "^"⟩ c A B C hA hB hC rfl rfl
  · exact ParseProgram_two_operators fuel a ⟨.ASSIGN_LEFT, "<-"⟩ b ⟨.ASSIGN_LEFT, "<-"⟩ c A B C
      hA hB hC rfl rfl
  · intro o1 o2 h1 hne h2
    have hi1 : isInfixOperator o1.Typ = true := by unfold isInfixOperator; rw [h1]; rfl
    have hna : isAssignOperator o1.Typ = false := by
      cases ht : o1.Typ <;> rw [ht] at h1 <;> first | rfl | exact absurd h1 (by decide)
    have hnp : o1.Typ ≠ .PIPE := by
      intro hc; rw [hc] at h1; exact absurd h1 (by decide)
    have hr : rightPrec o1.Typ = precedence o1.Typ := by
      unfold rightPrec
      rw [if_neg]
      simp [hne, hna]
    rw [ParseProgram_two_operators fuel a o1 b o2 c A B C hA hB hC hi1 (by rw [h2]; exact hi1),
      h2, hr, if_neg (lt_irrefl _)]
    simp [mkInfix, hnp, hna]
  · rw [ParseProgram_two_operators fuel a ⟨.PIPE, "|>"⟩ b ⟨.PIPE, "|>"⟩ c A B C hA hB hC rfl rfl,
      if_neg (by decide)]
    simp only [mkInfix, if_pos, pipeCall_atom b A B hB, pipeCall_atom c _ C hC]
  · intro Bi es
    exact ⟨_, _, rfl, rfl⟩

/-- C20: the pipe is rewritten into a call at parse time. In `parseInfix` at
a pipe, for every left operand and whatever the right operand parses to: a
call on the right takes the left operand as an additional first, unnamed
argument in front of its own arguments, and a right operand that is not a call
becomes the callee of a call with the left operand as the only argument. On
tokens, for operands `x`, `f`, `g` of one token each: whenever `parseCall` at
the parenthesis of `f ( x , rest` returns a node and stops at a closing
parenthesis followed by the end of input, the programs `f ( x , rest` and
`x |> f ( rest` parse to the same single expression, a call of `f` whose first
argument is the unnamed `x`, with the same first error; `f ( x )` and
`x |> f ( )` both parse to the call `f(x)`; `x |> g` parses to the call
`g(x)`; and `x |> f ( ) |> g ( )` parses to `g(f(x))`. -/
theorem pipe_rewrite (fuel : Nat) (x f g : Token) (X Fn G : Expr F)
    (hx : atomExpr x = some X) (hf : atomExpr f = some Fn) (hg : atomExpr g = some G) :
    (∀ (pe : ExprParser F) (n : Nat) (left : Expr F) (p : Parser), p.cur.Typ = .PIPE →
      parseInfix pe n left p =
        (pe precPipe p.next.skipSeparatorsCur).map fun r => (pipeCall left r.1, r.2)) ∧
    (∀ (left fn : Expr F) (args : List (Arg F)),
      pipeCall left (.CallExpr fn args) = .CallExpr fn (.mk "" left :: args)) ∧
    (∀ left right : Expr F, right.isCall = false →
      pipeCall left right = .CallExpr right [.mk "" left]) ∧
    (∀ (rest : List Token) (E : Expr F) (q : Parser),
      (rest.headD eofToken).Typ ≠ .NL → (rest.headD eofToken).Typ ≠ .SEMI →
      parseCall (parseExpression (fuel + 2)) (fuel + 2) Fn
        ⟨⟨.COMMA, ","⟩ :: rest, ⟨.LPAREN, "("⟩, x, []⟩ = some (E, q) →
      q.cur.Typ = .RPAREN → q.peek.Typ = .EOF →
      (∃ args, E = .CallExpr Fn (.mk "" X :: args)) ∧
      ParseProgram (fuel + 3)
          (Parser.New (f :: ⟨.LPAREN, "("⟩ :: x :: ⟨.COMMA, ","⟩ :: rest)) =
        some ([E], q.errors.head?) ∧
      ParseProgram (fuel + 4)
          (Parser.New (x :: ⟨.PIPE, "|>"⟩ :: f :: ⟨.LPAREN, "("⟩ :: rest)) =
        some ([E], q.errors.head?)) ∧
    (ParseProgram (fuel + 4)
        (Parser.New [f, ⟨.LPAREN, "("⟩, x, ⟨.RPAREN, ")"⟩, eofToken]) =
      some ([.CallExpr Fn [.mk "" X]], none) ∧
    ParseProgram (fuel + 4)
        (Parser.New [x, ⟨.PIPE, "|>"⟩, f, ⟨.LPAREN, "("⟩, ⟨.RPAREN, ")"⟩, eofToken]) =
      some ([.CallExpr Fn [.mk "" X]], none)) ∧
    ParseProgram (fuel + 3) (Parser.New [x, ⟨.PIPE, "|>"⟩, g, eofToken]) =
      some ([.CallExpr G [.mk "" X]], none) ∧
    ParseProgram (fuel + 5)
        (Parser.New [x, ⟨.PIPE, "|>"⟩, f, ⟨.LPAREN, "("⟩, ⟨.RPAREN, ")"⟩,
          ⟨.PIPE, "|>"⟩, g, ⟨.LPAREN, "("⟩, ⟨.RPAREN, ")"⟩, eofToken]) =
      some ([.CallExpr G [.mk "" (.CallExpr Fn [.mk "" X])]], none) := by
  obtain ⟨hx1, hx2, hx3⟩ := atomExpr_not_separator _ _ hx
  obtain ⟨hf1, hf2, hf3⟩ := atomExpr_not_separator _ _ hf
  refine ⟨?_, fun _ _ _ => rfl, ?_, ?_, ParseProgram_pipe_empty_call fuel x f X Fn hx hf, ?_,
    ParseProgram_pipe_chain fuel x f g X Fn G hx hf hg⟩
  · intro pe n left p hp
    rw [parseInfix_operator _ _ _ _ (by rw [hp]; rfl), hp]
    rfl
  · intro left right hr
    cases right <;> first | rfl | cases hr
  · intro rest E q hr1 hr2 hcall hcur hpeek
    obtain ⟨hargs, hc, hp⟩ := parseExpression_pipe_call fuel x f ⟨.LPAREN, "("⟩ ⟨.COMMA, ","⟩
      ⟨.PIPE, "|>"⟩ rest X Fn E q hx hf rfl rfl rfl ⟨hr1, hr2⟩ hcall
      (by unfold endsExpression; rw [hpeek]; rfl)
    obtain ⟨args, hE⟩ := hargs
    have hnil : E.isNil = false := by rw [hE]; rfl
    refine ⟨⟨args, hE⟩, ?_, ?_⟩
    · exact ParseProgram_single (fuel + 1) _ q E hf1 hf2 hf3 hc hnil (by rw [hcur]; decide)
        (by rw [hcur]; decide) (by rw [hcur]; decide) hpeek
    · exact ParseProgram_single (fuel + 2) _ q E hx1 hx2 hx3 hp hnil (by rw [hcur]; decide)
        (by rw [hcur]; decide) (by rw [hcur]; decide) hpeek
  · have hrun := parseExpression_infix fuel precLowest
      (Parser.New [x, ⟨.PIPE, "|>"⟩, g, eofToken]) X G hx rfl
      (by show precLowest < precedence TokenType.PIPE; decide) hg
      (continuesAt_ends _ _ rfl) (continuesAt_ends _ _ rfl)
    have hmk : mkInfix TokenType.PIPE X G = .CallExpr G [.mk "" X] := pipeCall_atom g X G hg
    rw [show (Parser.New [x, ⟨.PIPE, "|>"⟩, g, eofToken]).peek.Typ = TokenType.PIPE from rfl,
      hmk] at hrun
    exact ParseProgram_single (fuel + 1) _ ⟨[], g, eofToken, []⟩ _ hx1 hx2 hx3 hrun rfl
      (atomExpr_not_separator _ _ hg).1 (atomExpr_not_separator _ _ hg).2.1
      (atomExpr_not_separator _ _ hg).2.2 rfl

end ParserTheorems

/-! ## The parser and the context at concrete sources -/

/-- C11 (the code does otherwise): in a context whose global frame is empty,
`EvalString` on `f <- function(x=2, y=x+1) y; f()` returns, without an error,
the promise of the default `x+1` of `y`, which is still unforced: the result
renders as `<promise>`, not as `3`. Forcing that promise gives a value that
renders as `3`, and the same source with the body `return(y)` does return a
value that renders as `3`. -/
theorem closure_call_returns_unforced_promise (B : Builtins Whole)
    (exprString : Expr Whole → String) :
    ∃ st : Store Whole,
      EvalString B asciiLib 12 0 "f <- function(x=2, y=x+1) y; f()" emptyContext =
        (.ok (⟨.addr 2, ""⟩, none), st) ∧
      st.objs.get? 2 = some (.Promise
        (.BinaryExpr .PLUS (.Ident "x") (.NumberLit "1" ⟨1⟩ true)) 1 false .nil none) ∧
      valueString asciiLib exprString st 2 (.addr 2) = .ok "<promise>" ∧
      (∃ v st2, Force (Eval B 12) (.addr 2) st = (.ok v, st2) ∧
        valueString asciiLib exprString st2 2 v = .ok "3") ∧
      (∃ v st3,
        EvalString B asciiLib 12 0 "f <- function(x=2, y=x+1) return(y); f()" emptyContext =
          (.ok (⟨v, ""⟩, none), st3) ∧
        valueString asciiLib exprString st3 2 v = .ok "3") :=
  ⟨_, rfl, rfl, rfl, ⟨_, _, rfl, rfl⟩, ⟨_, _, rfl, rfl⟩⟩

/-- C19 at `a + b * c` and `a * b + c`. -/
theorem parse_groups_by_precedence_witness :
    Lexer.tokens asciiLib "a + b * c" =
      some [⟨.IDENT, "a"⟩, ⟨.PLUS, "+"⟩, ⟨.IDENT, "b"⟩, ⟨.STAR, "*"⟩, ⟨.IDENT, "c"⟩, eofToken] ∧
    ParseProgram (F := Whole) 4 (Parser.New
        [⟨.IDENT, "a"⟩, ⟨.PLUS, "+"⟩, ⟨.IDENT, "b"⟩, ⟨.STAR, "*"⟩, ⟨.IDENT, "c"⟩, eofToken]) =
      some ([.BinaryExpr .PLUS (.Ident "a") (.BinaryExpr .STAR (.Ident "b") (.Ident "c"))],
        none) ∧
    ParseProgram (F := Whole) 4 (Parser.New
        [⟨.IDENT, "a"⟩, ⟨.STAR, "*"⟩, ⟨.IDENT, "b"⟩, ⟨.PLUS, "+"⟩, ⟨.IDENT, "c"⟩, eofToken]) =
      some ([.BinaryExpr .PLUS (.BinaryExpr .STAR (.Ident "a") (.Ident "b")) (.Ident "c")],
        none) :=
  ⟨rfl,
    (parse_groups_by_precedence (F := Whole) 0 ⟨.IDENT, "a"⟩ ⟨.IDENT, "b"⟩ ⟨.IDENT, "c"⟩ (.Ident "a")
      (.Ident "b") (.Ident "c") rfl rfl rfl).2.1 ⟨.PLUS, "+"⟩ ⟨.STAR, "*"⟩ rfl rfl (by decide)⟩

/-- C20 at `x |> f(1, b = 2)` and `f(x, 1, b = 2)`. -/
theorem pipe_rewrite_witness :
    Lexer.tokens asciiLib "x |> f(1, b = 2)" =
      some [⟨.IDENT, "x"⟩, ⟨.PIPE, "|>"⟩, ⟨.IDENT, "f"⟩, ⟨.LPAREN, "("⟩, ⟨.NUMBER, "1"⟩,
        ⟨.COMMA, ","⟩, ⟨.IDENT, "b"⟩, ⟨.ASSIGN_EQ, "="⟩, ⟨.NUMBER, "2"⟩, ⟨.RPAREN, ")"⟩,
        eofToken] ∧
    Lexer.tokens asciiLib "f(x, 1, b = 2)" =
      some [⟨.IDENT, "f"⟩, ⟨.LPAREN, "("⟩, ⟨.IDENT, "x"⟩, ⟨.COMMA, ","⟩, ⟨.NUMBER, "1"⟩,
        ⟨.COMMA, ","⟩, ⟨.IDENT, "b"⟩, ⟨.ASSIGN_EQ, "="⟩, ⟨.NUMBER, "2"⟩, ⟨.RPAREN, ")"⟩,
        eofToken] ∧
    ParseProgram (F := Whole) 4 (Parser.New
        [⟨.IDENT, "f"⟩, ⟨.LPAREN, "("⟩, ⟨.IDENT, "x"⟩, ⟨.COMMA, ","⟩, ⟨.NUMBER, "1"⟩,
          ⟨.COMMA, ","⟩, ⟨.IDENT, "b"⟩, ⟨.ASSIGN_EQ, "="⟩, ⟨.NUMBER, "2"⟩, ⟨.RPAREN, ")"⟩,
          eofToken]) =
      some ([.CallExpr (.Ident "f") [.mk "" (.Ident "x"), .mk "" (.NumberLit "1" ⟨1⟩ true),
        .mk "b" (.NumberLit "2" ⟨2⟩ true)]], none) ∧
    ParseProgram (F := Whole) 5 (Parser.New
        [⟨.IDENT, "x"⟩, ⟨.PIPE, "|>"⟩, ⟨.IDENT, "f"⟩, ⟨.LPAREN, "("⟩, ⟨.NUMBER, "1"⟩,
          ⟨.COMMA, ","⟩, ⟨.IDENT, "b"⟩, ⟨.ASSIGN_EQ, "="⟩, ⟨.NUMBER, "2"⟩, ⟨.RPAREN, ")"⟩,
          eofToken]) =
      some ([.CallExpr (.Ident "f") [.mk "" (.Ident "x"), .mk "" (.NumberLit "1" ⟨1⟩ true),
        .mk "b" (.NumberLit "2" ⟨2⟩ true)]], none) :=
  ⟨rfl, rfl,
    ((pipe_rewrite (F := Whole) 1 ⟨.IDENT, "x"⟩ ⟨.IDENT, "f"⟩ ⟨.IDENT, "g"⟩ (.Ident "x") (.Ident "f")
      (.Ident "g") rfl rfl rfl).2.2.2.1
      [⟨.NUMBER, "1"⟩, ⟨.COMMA, ","⟩, ⟨.IDENT, "b"⟩, ⟨.ASSIGN_EQ, "="⟩, ⟨.NUMBER, "2"⟩,
        ⟨.RPAREN, ")"⟩, eofToken]
      (.CallExpr (.Ident "f") [.mk "" (.Ident "x"), .mk "" (.NumberLit "1" ⟨1⟩ true),
        .mk "b" (.NumberLit "2" ⟨2⟩ true)])
      ⟨[], ⟨.RPAREN, ")"⟩, eofToken, []⟩ (by decide) (by decide) rfl rfl rfl).2⟩

/-! ## The parser: `else` after a newline (C21) -/

/-- C21: a newline between the `then` expression of an `if` and `else` is not
accepted, although `parseIf` has code meant to allow it ("allow separators
before else"). The block that holds `if (c) a`, a newline and `else b` is lexed
to the tokens shown and parsed to a block whose `if` has no else branch, with
the error `unexpected token: else`; with `else` on the line of `a` the same
block parses without error to an `if` with the else branch `b`. The skipping in
`parseIf` looks at the current token, which is the last token of the
then-expression, so the newline in `peek` is never passed. -/
theorem if_newline_else_is_parse_error {F : Type} [Float64 F] (fuel : Nat) :
    Lexer.tokens asciiLib "\x7b\n  if (c) a\n  else b\n\x7d" =
      some [⟨.LBRACE, "\x7b"⟩, ⟨.NL, "\n"⟩, ⟨.IF, "if"⟩, ⟨.LPAREN, "("⟩, ⟨.IDENT, "c"⟩,
        ⟨.RPAREN, ")"⟩, ⟨.IDENT, "a"⟩, ⟨.NL, "\n"⟩, ⟨.ELSE, "else"⟩, ⟨.IDENT, "b"⟩,
        ⟨.NL, "\n"⟩, ⟨.RBRACE, "\x7d"⟩, eofToken] ∧
    ParseProgram (F := F) (fuel + 6) (Parser.New
      [⟨.LBRACE, "\x7b"⟩, ⟨.NL, "\n"⟩, ⟨.IF, "if"⟩, ⟨.LPAREN, "("⟩, ⟨.IDENT, "c"⟩,
        ⟨.RPAREN, ")"⟩, ⟨.IDENT, "a"⟩, ⟨.NL, "\n"⟩, ⟨.ELSE, "else"⟩, ⟨.IDENT, "b"⟩,
        ⟨.NL, "\n"⟩, ⟨.RBRACE, "\x7d"⟩, eofToken]) =
      some ([.BlockExpr [.IfExpr (.Ident "c") (.Ident "a") none]],
        some "unexpected token: else") ∧
    Lexer.tokens asciiLib "\x7b\n  if (c) a else b\n\x7d" =
      some [⟨.LBRACE, "\x7b"⟩, ⟨.NL, "\n"⟩, ⟨.IF, "if"⟩, ⟨.LPAREN, "("⟩, ⟨.IDENT, "c"⟩,
        ⟨.RPAREN, ")"⟩, ⟨.IDENT, "a"⟩, ⟨.ELSE, "else"⟩, ⟨.IDENT, "b"⟩,
        ⟨.NL, "\n"⟩, ⟨.RBRACE, "\x7d"⟩, eofToken] ∧
    ParseProgram (F := F) (fuel + 6) (Parser.New
      [⟨.LBRACE, "\x7b"⟩, ⟨.NL, "\n"⟩, ⟨.IF, "if"⟩, ⟨.LPAREN, "("⟩, ⟨.IDENT, "c"⟩,
        ⟨.RPAREN, ")"⟩, ⟨.IDENT, "a"⟩, ⟨.ELSE, "else"⟩, ⟨.IDENT, "b"⟩,
        ⟨.NL, "\n"⟩, ⟨.RBRACE, "\x7d"⟩, eofToken]) =
      some ([.BlockExpr [.IfExpr (.Ident "c") (.Ident "a") (some (.Ident "b"))]], none) :=
  ⟨rfl, rfl, rfl, rfl⟩

/-! ## Newlines after nested brackets, `return` at top level, and the counterexamples to C22, C24 and C25 -/

/-- C23: the newline after a nested single-bracket index such as `a[b[1]]` is
not delivered as a `NL` token. `Next` delivers `NL` at a newline when both
depths are 0 and skips the newline when a depth is positive; a `[` raises
`brackDepth` by one, and two closing brackets, read together as one `]]` token,
lower it by one only. So after `a[b[1]]` the depth is 1 although no group is
open: the tokens of `a[b[1]]`, newline, `x` hold no `NL`, while with a space
between the closing brackets the `NL` is there. -/
theorem newline_after_nested_index_is_skipped (L : GoLib) (k p b : Nat) (rest : List Char) :
    Lexer.Next L (k + 1) ⟨Char.ofNat 10 :: rest, 0, 0⟩ = some (⟨.NL, "\n"⟩, ⟨rest, 0, 0⟩) ∧
    Lexer.Next L (k + 1) ⟨Char.ofNat 10 :: rest, p + 1, b⟩ = Lexer.Next L k ⟨rest, p + 1, b⟩ ∧
    Lexer.Next L (k + 1) ⟨Char.ofNat 10 :: rest, p, b + 1⟩ = Lexer.Next L k ⟨rest, p, b + 1⟩ ∧
    Lexer.Next L (k + 1) ⟨'[' :: 'b' :: rest, p, b⟩ =
      some (⟨.LBRACK, "["⟩, ⟨'b' :: rest, p, b + 1⟩) ∧
    Lexer.Next L (k + 1) ⟨']' :: ']' :: rest, p, b + 2⟩ =
      some (⟨.RDBRACK, "]]"⟩, ⟨rest, p, b + 1⟩) ∧
    Lexer.tokens asciiLib "a[b[1]]\nx" =
      some [⟨.IDENT, "a"⟩, ⟨.LBRACK, "["⟩, ⟨.IDENT, "b"⟩, ⟨.LBRACK, "["⟩, ⟨.NUMBER, "1"⟩,
        ⟨.RDBRACK, "]]"⟩, ⟨.IDENT, "x"⟩, eofToken] ∧
    Lexer.tokens asciiLib "a[b[1] ]\nx" =
      some [⟨.IDENT, "a"⟩, ⟨.LBRACK, "["⟩, ⟨.IDENT, "b"⟩, ⟨.LBRACK, "["⟩, ⟨.NUMBER, "1"⟩,
        ⟨.RBRACK, "]"⟩, ⟨.RBRACK, "]"⟩, ⟨.NL, "\n"⟩, ⟨.IDENT, "x"⟩, eofToken] := by
  refine ⟨?_, ?_, ?_, ?_, ?_, rfl, rfl⟩
  · simp [Lexer.Next, skipWhitespaceAndComments]
  · simp [Lexer.Next, skipWhitespaceAndComments]
  · simp [Lexer.Next, skipWhitespaceAndComments]
  · simp [Lexer.Next, skipWhitespaceAndComments]
  · simp [Lexer.Next, skipWhitespaceAndComments]

/-- C27: a `return` at top level is returned as an error, not as the value.
`Eval` of `return(...)` yields a `ControlError` of kind return, and `EvalString`
has no case for it (only `callClosure` turns the signal into a value). For
`x <- 1; return(5); y <- 2` it returns that error, which carries the 5, with
the value of `x <- 1` (which renders as 1) as `Value`; `y` is not assigned.
For `return(5)` alone the `Value` is Null. Inside a call,
`f <- function() return(5); f()` gives 5 and no error. -/
theorem toplevel_return_is_an_error (B : Builtins Whole) (exprString : Expr Whole → String) :
    (∀ (n env : Nat) (st : Store Whole),
      Eval B (n + 1) env (.ReturnExpr none) st =
        (.error (.control .ctrlReturn .NullValue), st)) ∧
    (∃ st : Store Whole,
      EvalString B asciiLib 12 0 "x <- 1; return(5); y <- 2" emptyContext =
        (.ok (⟨.addr 0, ""⟩, some (.control .ctrlReturn (.addr 1))), st) ∧
      valueString asciiLib exprString st 2 (.addr 0) = .ok "1" ∧
      valueString asciiLib exprString st 2 (.addr 1) = .ok "5" ∧
      Env.Get st 0 "y" = .ok none) ∧
    (∃ st : Store Whole,
      EvalString B asciiLib 12 0 "return(5)" emptyContext =
        (.ok (⟨.NullValue, ""⟩, some (.control .ctrlReturn (.addr 0))), st)) ∧
    (∃ v st, EvalString B asciiLib 12 0 "f <- function() return(5); f()" emptyContext =
        (.ok (⟨v, ""⟩, none), st) ∧
      valueString asciiLib exprString st 2 v = .ok "5") :=
  ⟨fun _ _ _ => rfl, ⟨_, rfl, rfl, rfl, rfl⟩, ⟨_, rfl⟩, ⟨_, _, rfl, rfl⟩⟩

/-- C22 as stated fails: `ParseProgram` reports no error for `1 <- 2`, for
`f(x) <- 3` and for `5 -> 6`; each is parsed to an `AssignExpr`. -/
theorem assignment_target_parse_counterexample :
    Lexer.tokens asciiLib "1 <- 2" =
      some [⟨.NUMBER, "1"⟩, ⟨.ASSIGN_LEFT, "<-"⟩, ⟨.NUMBER, "2"⟩, eofToken] ∧
    ParseProgram (F := Whole) 8
        (Parser.New [⟨.NUMBER, "1"⟩, ⟨.ASSIGN_LEFT, "<-"⟩, ⟨.NUMBER, "2"⟩, eofToken]) =
      some ([.AssignExpr .ASSIGN_LEFT (.NumberLit "1" ⟨1⟩ true) (.NumberLit "2" ⟨2⟩ true)],
        none) ∧
    Lexer.tokens asciiLib "f(x) <- 3" =
      some [⟨.IDENT, "f"⟩, ⟨.LPAREN, "("⟩, ⟨.IDENT, "x"⟩, ⟨.RPAREN, ")"⟩,
        ⟨.ASSIGN_LEFT, "<-"⟩, ⟨.NUMBER, "3"⟩, eofToken] ∧
    ParseProgram (F := Whole) 8
        (Parser.New [⟨.IDENT, "f"⟩, ⟨.LPAREN, "("⟩, ⟨.IDENT, "x"⟩, ⟨.RPAREN, ")"⟩,
          ⟨.ASSIGN_LEFT, "<-"⟩, ⟨.NUMBER, "3"⟩, eofToken]) =
      some ([.AssignExpr .ASSIGN_LEFT (.CallExpr (.Ident "f") [.mk "" (.Ident "x")])
        (.NumberLit "3" ⟨3⟩ true)], none) ∧
    Lexer.tokens asciiLib "5 -> 6" =
      some [⟨.NUMBER, "5"⟩, ⟨.ASSIGN_RIGHT, "->"⟩, ⟨.NUMBER, "6"⟩, eofToken] ∧
    ParseProgram (F := Whole) 8
        (Parser.New [⟨.NUMBER, "5"⟩, ⟨.ASSIGN_RIGHT, "->"⟩, ⟨.NUMBER, "6"⟩, eofToken]) =
      some ([.AssignExpr .ASSIGN_RIGHT (.NumberLit "5" ⟨5⟩ true) (.NumberLit "6" ⟨6⟩ true)],
        none) :=
  ⟨rfl, rfl, rfl, rfl, rfl, rfl⟩

/-- C24 as stated fails for a string literal: the literal of a `STRING` token
is the decoded content without the quotes, so the source of `x`, `<-` and the
string `a b` gives the joined text `x <- a b`, which is lexed to two
identifiers in place of the string. -/
theorem lexer_round_trip_string_counterexample :
    Lexer.tokens asciiLib "x <- \"a b\"" =
      some [⟨.IDENT, "x"⟩, ⟨.ASSIGN_LEFT, "<-"⟩, ⟨.STRING, "a b"⟩, eofToken] ∧
    String.mk (joinLits (contentTokens
      [⟨.IDENT, "x"⟩, ⟨.ASSIGN_LEFT, "<-"⟩, ⟨.STRING, "a b"⟩, eofToken])) = "x <- a b" ∧
    Lexer.tokens asciiLib "x <- a b" =
      some [⟨.IDENT, "x"⟩, ⟨.ASSIGN_LEFT, "<-"⟩, ⟨.IDENT, "a"⟩, ⟨.IDENT, "b"⟩, eofToken] :=
  ⟨rfl, rfl, rfl⟩

section AssignTargets

variable {F : Type} [Float64 F]

/-- C22 (amended): the parser accepts an assignment operator between any two
operands, and the targets are checked when the assignment is evaluated. For
atoms `a` and `b` and an assignment operator `o`, `ParseProgram` on `a o b`
gives the one expression `AssignExpr o a b` and no error. `evalAssign` with
`<-`, `=` or `<<-` and a left-hand side that is not an identifier, an index on
an identifier or `$` on an identifier evaluates and forces the right-hand side
and then returns the error `invalid assignment target`; with `->` and a right
side that is not an identifier it evaluates and forces the left side and
returns `invalid right-assignment target`. -/
theorem assignment_target_checked_by_evalAssign :
    (∀ (fuel : Nat) (a o b : Token) (A B : Expr F),
      atomExpr a = some A → atomExpr b = some B → isAssignOperator o.Typ = true →
      ParseProgram (fuel + 3) (Parser.New [a, o, b, eofToken]) =
        some ([.AssignExpr o.Typ A B], none)) ∧
    (∀ (ev : Evaluator F) (env : Nat) (op : TokenType) (left right : Expr F)
        (st st1 st2 : Store F) (v w : Ptr),
      op ≠ .ASSIGN_RIGHT → left.isAssignTarget = false →
      ev env right st = (.ok v, st1) → Force ev v st1 = (.ok w, st2) →
      evalAssign ev env op left right st = (.error (.msg "invalid assignment target"), st2)) ∧
    (∀ (ev : Evaluator F) (env : Nat) (left right : Expr F) (st st1 st2 : Store F) (v w : Ptr),
      right.isIdent = false →
      ev env left st = (.ok v, st1) → Force ev v st1 = (.ok w, st2) →
      evalAssign ev env .ASSIGN_RIGHT left right st =
        (.error (.msg "invalid right-assignment target"), st2)) := by
  refine ⟨?_, ?_, ?_⟩
  · intro fuel a o b A B hA hB ho
    obtain ⟨h1, h2, h3⟩ := atomExpr_not_separator _ _ hA
    obtain ⟨h4, h5, h6⟩ := atomExpr_not_separator _ _ hB
    have hinf : isInfixOperator o.Typ = true := by simp [isInfixOperator, ho]
    have hprec : precLowest < precedence o.Typ := by
      cases ht : o.Typ <;> rw [ht] at ho <;> first | exact absurd ho (by decide) | decide
    have hrun := parseExpression_infix fuel precLowest (Parser.New [a, o, b, eofToken]) A B
      hA hinf hprec hB rfl rfl
    have hmk : mkInfix (Parser.New [a, o, b, eofToken]).peek.Typ A B = .AssignExpr o.Typ A B := by
      show mkInfix o.Typ A B = _
      unfold mkInfix
      rw [if_neg (by intro hc; rw [hc] at ho; exact absurd ho (by decide)), if_pos ho]
    rw [hmk] at hrun
    exact ParseProgram_single (fuel + 1) (Parser.New [a, o, b, eofToken])
      ⟨[], b, eofToken, []⟩ _ h1 h2 h3 hrun rfl h4 h5 h6 rfl
  · intro ev env op left right st st1 st2 v w hop hl h1 h2
    unfold evalAssign
    rw [if_neg hop]
    simp only [M.bind, h1, h2]
    cases left <;> first | rfl | skip
    · simp [Expr.isAssignTarget] at hl
    · next x index dbl =>
      cases x <;> first | rfl | simp [Expr.isAssignTarget] at hl
    · next x name =>
      cases x <;> first | rfl | simp [Expr.isAssignTarget] at hl
  · intro ev env left right st st1 st2 v w hr h1 h2
    unfold evalAssign
    rw [if_pos rfl]
    simp only [M.bind, h1, h2]
    cases right <;> first | rfl | simp [Expr.isIdent] at hr

end AssignTargets

/-- C22 (amended) at `1 <- 2`: the tokens are atoms around `<-`, the program
parses without error, and `evalAssign` rejects the target after it has
evaluated the 2. `EvalString` reports the errors for `1 <- 2`, `f(x) <- 3`
and `5 -> 6`. -/
theorem assignment_target_checked_by_evalAssign_witness :
    (atomExpr (F := Whole) ⟨.NUMBER, "1"⟩ = some (.NumberLit "1" ⟨1⟩ true) ∧
      atomExpr (F := Whole) ⟨.NUMBER, "2"⟩ = some (.NumberLit "2" ⟨2⟩ true) ∧
      isAssignOperator .ASSIGN_LEFT = true) ∧
    ParseProgram (F := Whole) (5 + 3)
        (Parser.New [⟨.NUMBER, "1"⟩, ⟨.ASSIGN_LEFT, "<-"⟩, ⟨.NUMBER, "2"⟩, eofToken]) =
      some ([.AssignExpr .ASSIGN_LEFT (.NumberLit "1" ⟨1⟩ true) (.NumberLit "2" ⟨2⟩ true)],
        none) ∧
    evalAssign (Eval (noBuiltins : Builtins Whole) 3) 0 .ASSIGN_LEFT (.NumberLit "1" ⟨1⟩ true)
        (.NumberLit "2" ⟨2⟩ true) emptyContext =
      (.error (.msg "invalid assignment target"),
        (emptyContext.alloc (IntScalar 2)).2) ∧
    (EvalString (noBuiltins : Builtins Whole) asciiLib 8 0 "1 <- 2" emptyContext).1 =
      .ok (⟨.NullValue, ""⟩, some (.msg "invalid assignment target")) ∧
    (EvalString (noBuiltins : Builtins Whole) asciiLib 8 0 "f(x) <- 3" emptyContext).1 =
      .ok (⟨.NullValue, ""⟩, some (.msg "invalid assignment target")) ∧
    (EvalString (noBuiltins : Builtins Whole) asciiLib 8 0 "5 -> 6" emptyContext).1 =
      .ok (⟨.NullValue, ""⟩, some (.msg "invalid right-assignment target")) :=
  ⟨⟨rfl, rfl, rfl⟩,
    (assignment_target_checked_by_evalAssign (F := Whole)).1 5 ⟨.NUMBER, "1"⟩
      ⟨.ASSIGN_LEFT, "<-"⟩ ⟨.NUMBER, "2"⟩ _ _ rfl rfl rfl,
    (assignment_target_checked_by_evalAssign (F := Whole)).2.1
      (Eval (noBuiltins : Builtins Whole) 3) 0 .ASSIGN_LEFT (.NumberLit "1" ⟨1⟩ true)
      (.NumberLit "2" ⟨2⟩ true) emptyContext (emptyContext.alloc (IntScalar 2)).2
      (emptyContext.alloc (IntScalar 2)).2 (.addr 0) (.addr 0) (by decide) rfl rfl rfl,
    rfl, rfl, rfl⟩

/-! ## The lexer round trip (C24) -/

section LexerLemmas

/-- Scanning a run again, in front of a text that does not continue it. -/
theorem span_relex {α : Type} (p : α → Bool) (t : List α) (ht : ∀ c ∈ t.head?, p c = false) :
    ∀ s : List α, ((s.span p).1 ++ t).span p = ((s.span p).1, t) := by
  have h0 : t.span p = ([], t) := by
    cases t with
    | nil => rfl
    | cons c t' =>
      have := ht c (by simp)
      simp [List.span_eq_take_drop, List.takeWhile, List.dropWhile, this]
  intro s
  induction s with
  | nil => simpa using h0
  | cons x s ih =>
    by_cases hx : p x = true
    · have e : (x :: s).span p = (x :: (s.span p).1, (s.span p).2) := by
        simp [List.span_eq_take_drop, List.takeWhile, List.dropWhile, hx]
      rw [e]
      simp only [List.cons_append]
      simp only [List.span_eq_take_drop, List.takeWhile, List.dropWhile, hx] at ih ⊢
      simp only [Prod.mk.injEq] at ih
      simp [ih.1, ih.2]
    · have e : (x :: s).span p = ([], x :: s) := by
        simp [List.span_eq_take_drop, List.takeWhile, List.dropWhile, hx]
      rw [e]
      simpa using h0

theorem span_append {α : Type} (p : α → Bool) (s : List α) : (s.span p).1 ++ (s.span p).2 = s := by
  simp [List.span_eq_take_drop]

theorem span_all {α : Type} (p : α → Bool) (s : List α) : ∀ c ∈ (s.span p).1, p c = true := by
  intro c hc
  rw [List.span_eq_take_drop] at hc
  exact List.mem_takeWhile_imp hc

theorem span_head {α : Type} (p : α → Bool) (s : List α) :
    ∀ c ∈ (s.span p).2.head?, p c = false := by
  intro c hc
  rw [List.span_eq_take_drop] at hc
  simp only at hc
  cases h : s.dropWhile p with
  | nil => rw [h] at hc; simp at hc
  | cons x r =>
    rw [h] at hc
    simp only [List.head?_cons, Option.mem_def, Option.some.injEq] at hc
    subst hc
    have := List.head_dropWhile_not p s (by rw [h]; simp)
    simpa [h] using this


theorem readNumber_eq (src : List Char) :
    readNumber src =
      (⟨.NUMBER, String.mk ((numberDot src).1 ++ ((numberDot src).2.span isDigit).1 ++
          (numberFraction ((numberDot src).2.span isDigit).2).1 ++
          (numberExponent (numberFraction ((numberDot src).2.span isDigit).2).2).1)⟩,
        (numberExponent (numberFraction ((numberDot src).2.span isDigit).2).2).2) := rfl

theorem numberDot_cons (c : Char) (r : List Char) (hc : c ≠ '.') :
    numberDot (c :: r) = ([], c :: r) := by
  unfold numberDot
  split
  · next r2 heq =>
    simp only [List.cons.injEq] at heq
    exact absurd heq.1 hc
  · rfl

theorem numberFraction_of_head (u : List Char) (hu : ∀ c ∈ u.head?, c ≠ '.') :
    numberFraction u = ([], u) := by
  unfold numberFraction
  split
  · next r => exact absurd rfl (hu '.' (by simp))
  · rfl

theorem numberFraction_relex (s u : List Char)
    (hu : ∀ c ∈ u.head?, isDigit c = false ∧ c ≠ '.') :
    numberFraction ((numberFraction s).1 ++ u) = ((numberFraction s).1, u) := by
  by_cases h : ∃ r, s = '.' :: r
  · obtain ⟨r, rfl⟩ := h
    have e : numberFraction ('.' :: r) = ('.' :: (r.span isDigit).1, (r.span isDigit).2) := rfl
    rw [e]
    show numberFraction ('.' :: ((r.span isDigit).1 ++ u)) = _
    have e2 : numberFraction ('.' :: ((r.span isDigit).1 ++ u)) =
        ('.' :: (((r.span isDigit).1 ++ u).span isDigit).1,
          (((r.span isDigit).1 ++ u).span isDigit).2) := rfl
    rw [e2, span_relex isDigit u (fun c hc => (hu c hc).1) r]
  · have e : numberFraction s = ([], s) := by
      unfold numberFraction
      split
      · next r => exact absurd ⟨r, rfl⟩ h
      · rfl
    rw [e]
    exact numberFraction_of_head u fun c hc => (hu c hc).2

theorem numberSign_of_head (u : List Char) (hu : ∀ c ∈ u.head?, c ≠ '+' ∧ c ≠ '-') :
    numberSign u = ([], u) := by
  unfold numberSign
  split
  · next s r2 =>
    have := hu s (by simp)
    rw [if_neg (by simp [this.1, this.2])]
  · rfl

theorem numberSign_relex (r u : List Char) (hu : ∀ c ∈ u.head?, c ≠ '+' ∧ c ≠ '-') :
    numberSign ((numberSign r).1 ++ u) = ((numberSign r).1, u) := by
  rcases r with _ | ⟨s, r2⟩
  · exact numberSign_of_head u hu
  · by_cases hs : s = '+' ∨ s = '-'
    · have e : numberSign (s :: r2) = ([s], r2) := by simp only [numberSign, if_pos hs]
      rw [e]
      show numberSign (s :: u) = _
      simp only [numberSign, if_pos hs]
    · have e : numberSign (s :: r2) = ([], s :: r2) := by simp only [numberSign, if_neg hs]
      rw [e]
      exact numberSign_of_head u hu

theorem numberExponent_of_head (u : List Char) (hu : ∀ c ∈ u.head?, c ≠ 'e' ∧ c ≠ 'E') :
    numberExponent u = ([], u) := by
  unfold numberExponent
  split
  · next e r =>
    have := hu e (by simp)
    rw [if_neg (by simp [this.1, this.2])]
  · rfl

theorem isDigit_not_sign (c : Char) (h : isDigit c = true) : c ≠ '+' ∧ c ≠ '-' := by
  constructor <;> rintro rfl <;> exact absurd h (by decide)

theorem numberExponent_relex (s t : List Char)
    (ht : ∀ c ∈ t.head?, isDigit c = false ∧ c ≠ 'e' ∧ c ≠ 'E' ∧ c ≠ '+' ∧ c ≠ '-') :
    numberExponent ((numberExponent s).1 ++ t) = ((numberExponent s).1, t) := by
  rcases s with _ | ⟨e, r⟩
  · exact numberExponent_of_head t fun c hc => ⟨(ht c hc).2.1, (ht c hc).2.2.1⟩
  · by_cases he : e = 'e' ∨ e = 'E'
    · have e1 : numberExponent (e :: r) =
          (e :: (numberSign r).1 ++ ((numberSign r).2.span isDigit).1,
            ((numberSign r).2.span isDigit).2) := by
        simp only [numberExponent, if_pos he]
      rw [e1]
      have hu : ∀ c ∈ (((numberSign r).2.span isDigit).1 ++ t).head?, c ≠ '+' ∧ c ≠ '-' := by
        intro c hc
        cases hd : ((numberSign r).2.span isDigit).1 with
        | nil =>
          rw [hd] at hc
          exact ⟨(ht c hc).2.2.2.1, (ht c hc).2.2.2.2⟩
        | cons x xs =>
          rw [hd] at hc
          simp only [List.cons_append, List.head?_cons, Option.mem_def, Option.some.injEq] at hc
          subst hc
          exact isDigit_not_sign _ (span_all isDigit (numberSign r).2 _ (by rw [hd]; simp))
      have e2 : numberExponent (e :: ((numberSign r).1 ++
          (((numberSign r).2.span isDigit).1 ++ t))) =
          (e :: (numberSign ((numberSign r).1 ++ (((numberSign r).2.span isDigit).1 ++ t))).1 ++
            ((numberSign ((numberSign r).1 ++
              (((numberSign r).2.span isDigit).1 ++ t))).2.span isDigit).1,
            ((numberSign ((numberSign r).1 ++
              (((numberSign r).2.span isDigit).1 ++ t))).2.span isDigit).2) := by
        simp only [numberExponent, if_pos he]
      have e3 : e :: (numberSign r).1 ++ ((numberSign r).2.span isDigit).1 ++ t =
          e :: ((numberSign r).1 ++ (((numberSign r).2.span isDigit).1 ++ t)) := by simp
      rw [e3, e2, numberSign_relex r _ hu,
        span_relex isDigit t (fun c hc => (ht c hc).1) (numberSign r).2]
    · have e1 : numberExponent (e :: r) = ([], e :: r) := by
        simp only [numberExponent, if_neg he]
      rw [e1]
      exact numberExponent_of_head t fun c hc => ⟨(ht c hc).2.1, (ht c hc).2.2.1⟩

theorem span_mem {α : Type} (p : α → Bool) (s : List α) : ∀ x ∈ (s.span p).2, x ∈ s := by
  intro x hx
  rw [← span_append p s]
  exact List.mem_append_right _ hx

theorem numberDot_mem (s : List Char) : ∀ x ∈ (numberDot s).2, x ∈ s := by
  intro x hx
  unfold numberDot at hx
  split at hx
  · exact List.mem_cons_of_mem _ hx
  · exact hx

theorem numberFraction_mem (s : List Char) : ∀ x ∈ (numberFraction s).2, x ∈ s := by
  intro x hx
  unfold numberFraction at hx
  split at hx
  · exact List.mem_cons_of_mem _ (span_mem _ _ x hx)
  · exact hx

theorem numberSign_mem (s : List Char) : ∀ x ∈ (numberSign s).2, x ∈ s := by
  intro x hx
  unfold numberSign at hx
  split at hx
  · split at hx
    · exact List.mem_cons_of_mem _ hx
    · exact hx
  · exact hx

theorem numberExponent_mem (s : List Char) : ∀ x ∈ (numberExponent s).2, x ∈ s := by
  intro x hx
  unfold numberExponent at hx
  split at hx
  · split at hx
    · exact List.mem_cons_of_mem _ (numberSign_mem _ x (span_mem _ _ x hx))
    · exact hx
  · exact hx

theorem numberFraction_head (s : List Char) :
    ∀ c ∈ (numberFraction s).1.head?, c = '.' := by
  intro c hc
  unfold numberFraction at hc
  split at hc
  · simpa using hc.symm
  · simp at hc

theorem numberExponent_head (s : List Char) :
    ∀ c ∈ (numberExponent s).1.head?, c = 'e' ∨ c = 'E' := by
  intro c hc
  unfold numberExponent at hc
  split at hc
  · split at hc
    · next e r he =>
      simp only [List.cons_append, List.head?_cons, Option.mem_def, Option.some.injEq] at hc
      subst hc
      exact he
    · simp at hc
  · simp at hc

theorem head?_append_mem {α : Type} (a b : List α) (c : α) (h : c ∈ (a ++ b).head?) :
    c ∈ a.head? ∨ (a = [] ∧ c ∈ b.head?) := by
  cases a with
  | nil => exact Or.inr ⟨rfl, h⟩
  | cons x xs => exact Or.inl h

theorem endsToken_head (t : List Char) (ht : endsToken t) : ∀ c ∈ t.head?, c = ' ' := by
  intro c hc
  rcases ht with rfl | ⟨r, rfl⟩
  · simp at hc
  · simpa using hc.symm

/-- A number literal is read again from its text. -/
theorem readNumber_relex (ch : Char) (rest t : List Char)
    (hnum : (isDigit ch || (ch = '.' && (rest.head?.map isDigit).getD false)) = true)
    (ht : endsToken t) :
    readNumber ((readNumber (ch :: rest)).1.Lit.toList ++ t) = ((readNumber (ch :: rest)).1, t) ∧
      (∃ r, (readNumber (ch :: rest)).1.Lit.toList = ch :: r ∧
        (isDigit ch || (ch = '.' && ((r ++ t).head?.map isDigit).getD false)) = true) ∧
      (∀ x ∈ (readNumber (ch :: rest)).2, x ∈ ch :: rest) := by
  have hsp := endsToken_head t ht
  -- the digits after the optional point are not empty
  obtain ⟨d, ds, hd1, hd2, hdot⟩ : ∃ d ds, ((numberDot (ch :: rest)).2.span isDigit).1 = d :: ds ∧
      isDigit d = true ∧
      ((numberDot (ch :: rest)).1 = [] ∧ d = ch ∨ (numberDot (ch :: rest)).1 = ['.'] ∧ ch = '.') := by
    by_cases hc : isDigit ch = true
    · have hne : ch ≠ '.' := by rintro rfl; exact absurd hc (by decide)
      rw [numberDot_cons ch rest hne]
      refine ⟨ch, ((rest.span isDigit)).1, ?_, hc, Or.inl ⟨rfl, rfl⟩⟩
      simp [List.span_eq_take_drop, List.takeWhile, hc]
    · simp only [hc, Bool.false_or, Bool.and_eq_true, decide_eq_true_eq] at hnum
      obtain ⟨rfl, h2⟩ := hnum
      rcases rest with _ | ⟨d, r⟩
      · simp at h2
      · simp only [List.head?_cons, Option.map_some', Option.getD_some] at h2
        refine ⟨d, (r.span isDigit).1, ?_, h2, Or.inr ⟨rfl, rfl⟩⟩
        show ((d :: r).span isDigit).1 = _
        simp [List.span_eq_take_drop, List.takeWhile, h2]
  have hdig : ∀ c : Char, isDigit c = true → c ≠ '.' ∧ c ≠ ' ' := by
    intro c h
    constructor <;> rintro rfl <;> exact absurd h (by decide)
  refine ⟨?_, ?_, ?_⟩
  · rw [readNumber_eq (ch :: rest)]
    simp only [String.toList]
    generalize hD : numberDot (ch :: rest) = D at hd1 hdot
    generalize hA : (D.2.span isDigit) = A at hd1
    generalize hFr : numberFraction A.2 = Fr
    generalize hEx : numberExponent Fr.2 = Ex
    have hFrh := numberFraction_head A.2
    rw [hFr] at hFrh
    have hExh := numberExponent_head Fr.2
    rw [hEx] at hExh
    -- the heads of the texts that follow each part
    have h3 : ∀ c ∈ (Ex.1 ++ t).head?, isDigit c = false ∧ c ≠ '.' := by
      intro c hc
      rcases head?_append_mem _ _ c hc with h | ⟨_, h⟩
      · rcases hExh c h with rfl | rfl <;> exact ⟨by decide, by decide⟩
      · rw [hsp c h]; exact ⟨by decide, by decide⟩
    have h2 : ∀ c ∈ (Fr.1 ++ (Ex.1 ++ t)).head?, isDigit c = false := by
      intro c hc
      rcases head?_append_mem _ _ c hc with h | ⟨_, h⟩
      · rw [hFrh c h]; decide
      · exact (h3 c h).1
    have h4 : ∀ c ∈ t.head?, isDigit c = false ∧ c ≠ 'e' ∧ c ≠ 'E' ∧ c ≠ '+' ∧ c ≠ '-' := by
      intro c hc
      rw [hsp c hc]
      exact ⟨by decide, by decide, by decide, by decide, by decide⟩
    have e1 : D.1 ++ A.1 ++ Fr.1 ++ Ex.1 ++ t = D.1 ++ (A.1 ++ (Fr.1 ++ (Ex.1 ++ t))) := by simp
    have e2 : numberDot (D.1 ++ (A.1 ++ (Fr.1 ++ (Ex.1 ++ t)))) =
        (D.1, A.1 ++ (Fr.1 ++ (Ex.1 ++ t))) := by
      rcases hdot with ⟨h, _⟩ | ⟨h, _⟩
      · rw [h, hd1]
        exact numberDot_cons d _ (hdig d hd2).1
      · rw [h]; rfl
    have e3 : (A.1 ++ (Fr.1 ++ (Ex.1 ++ t))).span isDigit = (A.1, Fr.1 ++ (Ex.1 ++ t)) := by
      rw [← hA]
      exact span_relex isDigit _ h2 D.2
    have e4 : numberFraction (Fr.1 ++ (Ex.1 ++ t)) = (Fr.1, Ex.1 ++ t) := by
      rw [← hFr]
      exact numberFraction_relex A.2 _ h3
    have e5 : numberExponent (Ex.1 ++ t) = (Ex.1, t) := by
      rw [← hEx]
      exact numberExponent_relex Fr.2 t h4
    rw [e1, readNumber_eq, e2]
    simp only [e3, e4, e5]
  · rw [readNumber_eq (ch :: rest)]
    simp only [String.toList]
    rcases hdot with ⟨h, rfl⟩ | ⟨h, rfl⟩
    · rw [h, hd1]
      exact ⟨_, rfl, by simp [hd2]⟩
    · rw [h, hd1]
      refine ⟨_, rfl, ?_⟩
      simp [hd2]
  · intro x hx
    rw [readNumber_eq (ch :: rest)] at hx
    exact numberDot_mem _ x (span_mem _ _ x (numberFraction_mem _ x (numberExponent_mem _ x hx)))

theorem readIdent_cons (L : GoLib) (ch : Char) (rest : List Char)
    (h3 : ∀ r, ch :: rest ≠ '.' :: '.' :: '.' :: r) :
    readIdent L (ch :: rest) =
      (⟨LookupIdent (String.mk (ch :: (rest.span fun c => isIdentPart L c || isDigit c).1)),
        String.mk (ch :: (rest.span fun c => isIdentPart L c || isDigit c).1)⟩,
        (rest.span fun c => isIdentPart L c || isDigit c).2) := by
  unfold readIdent
  split
  · next r heq => exact absurd heq (h3 r)
  · next first r heq =>
    simp only [List.cons.injEq] at heq
    obtain ⟨rfl, rfl⟩ := heq
    rfl
  · next heq => simp at heq

/-- An identifier or keyword is read again from its text. -/
theorem readIdent_relex (L : GoLib) (hsp : L.isLetter ' ' = false) (ch : Char)
    (rest t : List Char) (ht : endsToken t) :
    readIdent L ((readIdent L (ch :: rest)).1.Lit.toList ++ t) =
        ((readIdent L (ch :: rest)).1, t) ∧
      (∃ r, (readIdent L (ch :: rest)).1.Lit.toList = ch :: r ∧
        ((r ++ t).head?.map isDigit).getD false = (rest.head?.map isDigit).getD false) ∧
      (∀ x ∈ (readIdent L (ch :: rest)).2, x ∈ ch :: rest) := by
  have hth := endsToken_head t ht
  by_cases h3 : ∃ r, ch :: rest = '.' :: '.' :: '.' :: r
  · obtain ⟨r, h⟩ := h3
    simp only [List.cons.injEq] at h
    obtain ⟨rfl, rfl⟩ := h
    refine ⟨rfl, ⟨['.', '.'], rfl, rfl⟩, ?_⟩
    intro x hx
    exact List.mem_cons_of_mem _ (List.mem_cons_of_mem _ (List.mem_cons_of_mem _ hx))
  · have h3' : ∀ r, ch :: rest ≠ '.' :: '.' :: '.' :: r := fun r hr => h3 ⟨r, hr⟩
    rw [readIdent_cons L ch rest h3']
    generalize hP : (rest.span fun c => isIdentPart L c || isDigit c) = P
    have hrest : rest = P.1 ++ P.2 := by rw [← hP]; exact (span_append _ _).symm
    have hpt : ∀ c ∈ t.head?, (isIdentPart L c || isDigit c) = false := by
      intro c hc
      rw [hth c hc]
      simp [isIdentPart, hsp, isDigit]
    have hno : ∀ r, ch :: (P.1 ++ t) ≠ '.' :: '.' :: '.' :: r := by
      intro r hr
      simp only [List.cons.injEq] at hr
      obtain ⟨rfl, h2⟩ := hr
      rcases hp1 : P.1 with _ | ⟨x, _ | ⟨y, ys⟩⟩
      · rw [hp1] at h2
        have := hth '.' (by rw [show t = '.' :: '.' :: r from h2]; simp)
        exact absurd this (by decide)
      · rw [hp1] at h2
        simp only [List.cons_append, List.nil_append, List.cons.injEq] at h2
        have := hth '.' (by rw [h2.2]; simp)
        exact absurd this (by decide)
      · rw [hp1] at h2
        simp only [List.cons_append, List.cons.injEq] at h2
        obtain ⟨rfl, rfl, _⟩ := h2
        apply h3' (ys ++ P.2)
        rw [hrest, hp1]
        rfl
    refine ⟨?_, ⟨P.1, rfl, ?_⟩, ?_⟩
    · show readIdent L (ch :: (P.1 ++ t)) = _
      rw [readIdent_cons L ch _ hno]
      have := span_relex (fun c => isIdentPart L c || isDigit c) t hpt rest
      rw [hP] at this
      rw [this]
    · rcases hp1 : P.1 with _ | ⟨x, xs⟩
      · have h1 : ((([] : List Char) ++ t).head?.map isDigit).getD false = false := by
          rcases ht with rfl | ⟨r, rfl⟩ <;> rfl
        rw [h1]
        have hh := span_head (fun c => isIdentPart L c || isDigit c) rest
        rw [hP] at hh
        rw [hrest, hp1]
        cases hp2 : P.2 with
        | nil => rfl
        | cons y ys =>
          have := hh y (by rw [hp2]; simp)
          simp only [Bool.or_eq_false_iff] at this
          simp [this.2]
      · rw [hrest, hp1]
        rfl
    · intro x hx
      apply List.mem_cons_of_mem
      rw [← hP] at hx
      exact span_mem _ _ x hx


/-- An operator is read again from its text. -/
theorem lexOperator_relex (ch : Char) (rest t : List Char) (ht : endsToken t)
    (tok : Token) (rest2 : List Char) (h : lexOperator ch rest = (tok, rest2)) :
    (∀ x ∈ rest2, x ∈ rest) ∧
      (tok.Typ ≠ .ILLEGAL → ∃ r, tok.Lit.toList = ch :: r ∧ lexOperator ch (r ++ t) = (tok, t)) := by
  unfold lexOperator at h
  by_cases h0 : ch = '<'
  · subst h0
    rw [if_pos rfl] at h
    all_goals (try split at h)
    all_goals (obtain ⟨rfl, rfl⟩ := Prod.mk.inj h)
    all_goals refine ⟨fun x hx => by simp [hx], fun hne => ?_⟩
    all_goals first
      | exact absurd rfl hne
      | (refine ⟨_, rfl, ?_⟩
         rcases ht with rfl | ⟨t2, rfl⟩ <;> rfl)
  rw [if_neg h0] at h
  by_cases h1 : ch = '-'
  · subst h1
    rw [if_pos rfl] at h
    all_goals (try split at h)
    all_goals (obtain ⟨rfl, rfl⟩ := Prod.mk.inj h)
    all_goals refine ⟨fun x hx => by simp [hx], fun hne => ?_⟩
    all_goals first
      | exact absurd rfl hne
      | (refine ⟨_, rfl, ?_⟩
         rcases ht with rfl | ⟨t2, rfl⟩ <;> rfl)
  rw [if_neg h1] at h
  by_cases h2 : ch = '='
  · subst h2
    rw [if_pos rfl] at h
    all_goals (try split at h)
    all_goals (obtain ⟨rfl, rfl⟩ := Prod.mk.inj h)
    all_goals refine ⟨fun x hx => by simp [hx], fun hne => ?_⟩
    all_goals first
      | exact absurd rfl hne
      | (refine ⟨_, rfl, ?_⟩
         rcases ht with rfl | ⟨t2, rfl⟩ <;> rfl)
  rw [if_neg h2] at h
  by_cases h3 : ch = '!'
  · subst h3
    rw [if_pos rfl] at h
    all_goals (try split at h)
    all_goals (obtain ⟨rfl, rfl⟩ := Prod.mk.inj h)
    all_goals refine ⟨fun x hx => by simp [hx], fun hne => ?_⟩
    all_goals first
      | exact absurd rfl hne
      | (refine ⟨_, rfl, ?_⟩
         rcases ht with rfl | ⟨t2, rfl⟩ <;> rfl)
  rw [if_neg h3] at h
  by_cases h4 : ch = '>'
  · subst h4
    rw [if_pos rfl] at h
    all_goals (try split at h)
    all_goals (obtain ⟨rfl, rfl⟩ := Prod.mk.inj h)
    all_goals refine ⟨fun x hx => by simp [hx], fun hne => ?_⟩
    all_goals first
      | exact absurd rfl hne
      | (refine ⟨_, rfl, ?_⟩
         rcases ht with rfl | ⟨t2, rfl⟩ <;> rfl)
  rw [if_neg h4] at h
  by_cases h5 : ch = '+'
  · subst h5
    rw [if_pos rfl] at h
    all_goals (obtain ⟨rfl, rfl⟩ := Prod.mk.inj h)
    all_goals refine ⟨fun x hx => by simp [hx], fun hne => ?_⟩
    all_goals first
      | exact absurd rfl hne
      | (refine ⟨_, rfl, ?_⟩
         rcases ht with rfl | ⟨t2, rfl⟩ <;> rfl)
  rw [if_neg h5] at h
  by_cases h6 : ch = '*'
  · subst h6
    rw [if_pos rfl] at h
    all_goals (obtain ⟨rfl, rfl⟩ := Prod.mk.inj h)
    all_goals refine ⟨fun x hx => by simp [hx], fun hne => ?_⟩
    all_goals first
      | exact absurd rfl hne
      | (refine ⟨_, rfl, ?_⟩
         rcases ht with rfl | ⟨t2, rfl⟩ <;> rfl)
  rw [if_neg h6] at h
  by_cases h7 : ch = '/'
  · subst h7
    rw [if_pos rfl] at h
    all_goals (obtain ⟨rfl, rfl⟩ := Prod.mk.inj h)
    all_goals refine ⟨fun x hx => by simp [hx], fun hne => ?_⟩
    all_goals first
      | exact absurd rfl hne
      | (refine ⟨_, rfl, ?_⟩
         rcases ht with rfl | ⟨t2, rfl⟩ <;> rfl)
  rw [if_neg h7] at h
  by_cases h8 : ch = '^'
  · subst h8
    rw [if_pos rfl] at h
    all_goals (obtain ⟨rfl, rfl⟩ := Prod.mk.inj h)
    all_goals refine ⟨fun x hx => by simp [hx], fun hne => ?_⟩
    all_goals first
      | exact absurd rfl hne
      | (refine ⟨_, rfl, ?_⟩
         rcases ht with rfl | ⟨t2, rfl⟩ <;> rfl)
  rw [if_neg h8] at h
  by_cases h9 : ch = ':'
  · subst h9
    rw [if_pos rfl] at h
    all_goals (obtain ⟨rfl, rfl⟩ := Prod.mk.inj h)
    all_goals refine ⟨fun x hx => by simp [hx], fun hne => ?_⟩
    all_goals first
      | exact absurd rfl hne
      | (refine ⟨_, rfl, ?_⟩
         rcases ht with rfl | ⟨t2, rfl⟩ <;> rfl)
  rw [if_neg h9] at h
  by_cases h10 : ch = '&'
  · subst h10
    rw [if_pos rfl] at h
    all_goals (try split at h)
    all_goals (obtain ⟨rfl, rfl⟩ := Prod.mk.inj h)
    all_goals refine ⟨fun x hx => by simp [hx], fun hne => ?_⟩
    all_goals first
      | exact absurd rfl hne
      | (refine ⟨_, rfl, ?_⟩
         rcases ht with rfl | ⟨t2, rfl⟩ <;> rfl)
  rw [if_neg h10] at h
  by_cases h11 : ch = '|'
  · subst h11
    rw [if_pos rfl] at h
    all_goals (try split at h)
    all_goals (obtain ⟨rfl, rfl⟩ := Prod.mk.inj h)
    all_goals refine ⟨fun x hx => by simp [hx], fun hne => ?_⟩
    all_goals first
      | exact absurd rfl hne
      | (refine ⟨_, rfl, ?_⟩
         rcases ht with rfl | ⟨t2, rfl⟩ <;> rfl)
  rw [if_neg h11] at h
  by_cases h12 : ch = '%'
  · subst h12
    rw [if_pos rfl] at h
    all_goals (try split at h)
    all_goals (obtain ⟨rfl, rfl⟩ := Prod.mk.inj h)
    all_goals refine ⟨fun x hx => by simp [hx], fun hne => ?_⟩
    all_goals first
      | exact absurd rfl hne
      | (refine ⟨_, rfl, ?_⟩
         rcases ht with rfl | ⟨t2, rfl⟩ <;> rfl)
  rw [if_neg h12] at h
  obtain ⟨rfl, rfl⟩ := Prod.mk.inj h
  exact ⟨fun x hx => hx, fun hne => absurd rfl hne⟩

theorem skipWs_start (k : Nat) (ch : Char) (s : List Char)
    (h1 : ch ≠ ' ') (h2 : ch ≠ Char.ofNat 9) (h3 : ch ≠ Char.ofNat 13) (h4 : ch ≠ '#') :
    skipWhitespaceAndComments (k + 1) (ch :: s) = some (ch :: s) := by
  simp [skipWhitespaceAndComments, h1, h2, h3, h4]

theorem skipWs_result : ∀ (k : Nat) (s : List Char) (ch : Char) (rest : List Char),
    skipWhitespaceAndComments k s = some (ch :: rest) →
    (ch ≠ ' ' ∧ ch ≠ Char.ofNat 9 ∧ ch ≠ Char.ofNat 13 ∧ ch ≠ '#') ∧
      ∀ x ∈ ch :: rest, x ∈ s := by
  intro k
  induction k with
  | zero => intro s ch rest h; simp [skipWhitespaceAndComments] at h
  | succ k ih =>
    intro s ch rest h
    rcases s with _ | ⟨c, s⟩
    · simp [skipWhitespaceAndComments] at h
    · unfold skipWhitespaceAndComments at h
      by_cases hw : c = ' ' ∨ c = Char.ofNat 9 ∨ c = Char.ofNat 13
      · rw [if_pos hw] at h
        obtain ⟨h1, h2⟩ := ih s ch rest h
        exact ⟨h1, fun x hx => List.mem_cons_of_mem _ (h2 x hx)⟩
      · rw [if_neg hw] at h
        by_cases hc : c = '#'
        · rw [if_pos hc] at h
          obtain ⟨h1, h2⟩ := ih _ ch rest h
          exact ⟨h1, fun x hx => List.mem_cons_of_mem _ ((List.dropWhile_sublist _).subset (h2 x hx))⟩
        · rw [if_neg hc] at h
          simp only [Option.some.injEq, List.cons.injEq] at h
          obtain ⟨rfl, rfl⟩ := h
          simp only [not_or] at hw
          exact ⟨⟨hw.1, hw.2.1, hw.2.2, hc⟩, fun x hx => hx⟩


/-- `Next` at a character that starts a number, a name or an operator. -/
theorem Next_other (L : GoLib) (k : Nat) (ch : Char) (s : List Char) (p b : Nat)
    (h1 : ch ≠ ' ') (h2 : ch ≠ Char.ofNat 9) (h3 : ch ≠ Char.ofNat 13) (h4 : ch ≠ '#')
    (hn : ∀ x ∈ [Char.ofNat 10, '(', ')', '[', ']', Char.ofNat 123, Char.ofNat 125, ',', ';',
      '$', Char.ofNat 34, Char.ofNat 39, Char.ofNat 96], ch ≠ x) :
    Lexer.Next L (k + 1) ⟨ch :: s, p, b⟩ =
      if (isDigit ch || (ch = '.' && (s.head?.map isDigit).getD false)) = true then
        some ((readNumber (ch :: s)).1, ⟨(readNumber (ch :: s)).2, p, b⟩)
      else if isIdentStart L ch = true then
        some ((readIdent L (ch :: s)).1, ⟨(readIdent L (ch :: s)).2, p, b⟩)
      else some ((lexOperator ch s).1, ⟨(lexOperator ch s).2, p, b⟩) := by
  unfold Lexer.Next
  simp only [skipWs_start _ ch s h1 h2 h3 h4]
  rw [if_neg (hn _ (by simp)), if_neg (hn _ (by simp)), if_neg (hn _ (by simp)),
    if_neg (hn _ (by simp)), if_neg (hn _ (by simp)), if_neg (hn _ (by simp)),
    if_neg (hn _ (by simp)), if_neg (hn _ (by simp)), if_neg (hn _ (by simp)),
    if_neg (hn _ (by simp)),
    if_neg (by
      rintro (h | h)
      · exact hn _ (by simp) h
      · exact hn _ (by simp) h),
    if_neg (hn _ (by simp))]


theorem rereads_single (L : GoLib) (tok : Token) (c : Char) (hty : tok.Typ ≠ .EOF)
    (hlit : tok.Lit.toList = [c])
    (hc : c ≠ ' ' ∧ c ≠ Char.ofNat 9 ∧ c ≠ Char.ofNat 13 ∧ c ≠ '#' ∧ c ≠ Char.ofNat 10)
    (h : ∀ (t : List Char) (p b k : Nat), endsToken t →
      ∃ p2 b2, Lexer.Next L (k + 1) ⟨c :: t, p, b⟩ = some (tok, ⟨t, p2, b2⟩)) :
    tok.Rereads L :=
  ⟨hty, ⟨c, [], hlit, hc⟩, fun t p b k ht => by rw [hlit]; exact h t p b k ht⟩

/-- What `Next` delivers from a text without quote characters is read again
from its literal; the input that is left is a part of the input. -/
theorem Next_relex (L : GoLib) (hsp : L.isLetter ' ' = false) :
    ∀ (k : Nat) (l : Lexer) (tok : Token) (l2 : Lexer),
      (∀ c ∈ l.src, isQuoteChar c = false) → Lexer.Next L k l = some (tok, l2) →
      (∀ x ∈ l2.src, x ∈ l.src) ∧
        (tok.Typ ≠ .EOF → tok.Typ ≠ .NL → tok.Typ ≠ .ILLEGAL → tok.Rereads L) := by
  intro k
  induction k with
  | zero => intro l tok l2 _ h; simp [Lexer.Next] at h
  | succ k ih =>
    intro l tok l2 hq h
    unfold Lexer.Next at h
    cases hs : skipWhitespaceAndComments (l.src.length + 1) l.src with
    | none => rw [hs] at h; simp at h
    | some s =>
      rw [hs] at h
      rcases s with _ | ⟨ch, rest⟩
      · simp only [Option.some.injEq, Prod.mk.injEq] at h
        obtain ⟨rfl, rfl⟩ := h
        exact ⟨fun x hx => by simp at hx, fun h => absurd rfl h⟩
      · obtain ⟨⟨w1, w2, w3, w4⟩, hsub⟩ := skipWs_result _ _ _ _ hs
        have hrest : ∀ x ∈ rest, x ∈ l.src := fun x hx => hsub x (List.mem_cons_of_mem _ hx)
        have hchq := hq ch (hsub ch (List.mem_cons_self _ _))
        simp only at h
        by_cases c1 : ch = Char.ofNat 10
        · rw [if_pos c1] at h
          by_cases cd : l.parenDepth > 0 ∨ l.brackDepth > 0
          · rw [if_pos cd] at h
            obtain ⟨i1, i2⟩ := ih _ tok l2 (fun c hc => hq c (hrest c hc)) h
            exact ⟨fun x hx => hrest x (i1 x hx), i2⟩
          · rw [if_neg cd] at h
            simp only [Option.some.injEq, Prod.mk.injEq] at h
            obtain ⟨rfl, rfl⟩ := h
            exact ⟨hrest, fun _ h => absurd rfl h⟩
        rw [if_neg c1] at h
        by_cases c2 : ch = '('
        · rw [if_pos c2] at h
          simp only [Option.some.injEq, Prod.mk.injEq] at h
          obtain ⟨rfl, rfl⟩ := h
          refine ⟨hrest, fun _ _ _ => rereads_single L _ '(' (by decide) rfl (by decide) ?_⟩
          intro t p b k _
          exact ⟨p + 1, b, by simp [Lexer.Next, skipWhitespaceAndComments]⟩
        rw [if_neg c2] at h
        by_cases c3 : ch = ')'
        · rw [if_pos c3] at h
          simp only [Option.some.injEq, Prod.mk.injEq] at h
          obtain ⟨rfl, rfl⟩ := h
          refine ⟨hrest, fun _ _ _ => rereads_single L _ ')' (by decide) rfl (by decide) ?_⟩
          intro t p b k _
          exact ⟨p - 1, b, by simp [Lexer.Next, skipWhitespaceAndComments]⟩
        rw [if_neg c3] at h
        by_cases c4 : ch = '['
        · rw [if_pos c4] at h
          split at h
          · next r =>
            simp only [Option.some.injEq, Prod.mk.injEq] at h
            obtain ⟨rfl, rfl⟩ := h
            refine ⟨fun x hx => hrest x (List.mem_cons_of_mem _ hx), fun _ _ _ =>
              ⟨by decide, ⟨'[', ['['], rfl, by decide⟩, ?_⟩⟩
            intro t p b k _
            exact ⟨p, b + 1, by simp [Lexer.Next, skipWhitespaceAndComments]⟩
          · next r hr =>
            simp only [Option.some.injEq, Prod.mk.injEq] at h
            obtain ⟨rfl, rfl⟩ := h
            refine ⟨hrest, fun _ _ _ => rereads_single L _ '[' (by decide) rfl (by decide) ?_⟩
            intro t p b k ht
            rcases ht with rfl | ⟨t2, rfl⟩ <;>
              exact ⟨p, b + 1, by simp [Lexer.Next, skipWhitespaceAndComments]⟩
        rw [if_neg c4] at h
        by_cases c5 : ch = ']'
        · rw [if_pos c5] at h
          split at h
          · next r =>
            simp only [Option.some.injEq, Prod.mk.injEq] at h
            obtain ⟨rfl, rfl⟩ := h
            refine ⟨fun x hx => hrest x (List.mem_cons_of_mem _ hx), fun _ _ _ =>
              ⟨by decide, ⟨']', [']'], rfl, by decide⟩, ?_⟩⟩
            intro t p b k _
            exact ⟨p, b - 1, by simp [Lexer.Next, skipWhitespaceAndComments]⟩
          · next r hr =>
            simp only [Option.some.injEq, Prod.mk.injEq] at h
            obtain ⟨rfl, rfl⟩ := h
            refine ⟨hrest, fun _ _ _ => rereads_single L _ ']' (by decide) rfl (by decide) ?_⟩
            intro t p b k ht
            rcases ht with rfl | ⟨t2, rfl⟩ <;>
              exact ⟨p, b - 1, by simp [Lexer.Next, skipWhitespaceAndComments]⟩
        rw [if_neg c5] at h
        by_cases c6 : ch = Char.ofNat 123
        · rw [if_pos c6] at h
          simp only [Option.some.injEq, Prod.mk.injEq] at h
          obtain ⟨rfl, rfl⟩ := h
          refine ⟨hrest, fun _ _ _ =>
            rereads_single L _ (Char.ofNat 123) (by decide) rfl (by decide) ?_⟩
          intro t p b k _
          exact ⟨p, b, by simp [Lexer.Next, skipWhitespaceAndComments]⟩
        rw [if_neg c6] at h
        by_cases c7 : ch = Char.ofNat 125
        · rw [if_pos c7] at h
          simp only [Option.some.injEq, Prod.mk.injEq] at h
          obtain ⟨rfl, rfl⟩ := h
          refine ⟨hrest, fun _ _ _ =>
            rereads_single L _ (Char.ofNat 125) (by decide) rfl (by decide) ?_⟩
          intro t p b k _
          exact ⟨p, b, by simp [Lexer.Next, skipWhitespaceAndComments]⟩
        rw [if_neg c7] at h
        by_cases c8 : ch = ','
        · rw [if_pos c8] at h
          simp only [Option.some.injEq, Prod.mk.injEq] at h
          obtain ⟨rfl, rfl⟩ := h
          refine ⟨hrest, fun _ _ _ => rereads_single L _ ',' (by decide) rfl (by decide) ?_⟩
          intro t p b k _
          exact ⟨p, b, by simp [Lexer.Next, skipWhitespaceAndComments]⟩
        rw [if_neg c8] at h
        by_cases c9 : ch = ';'
        · rw [if_pos c9] at h
          simp only [Option.some.injEq, Prod.mk.injEq] at h
          obtain ⟨rfl, rfl⟩ := h
          refine ⟨hrest, fun _ _ _ => rereads_single L _ ';' (by decide) rfl (by decide) ?_⟩
          intro t p b k _
          exact ⟨p, b, by simp [Lexer.Next, skipWhitespaceAndComments]⟩
        rw [if_neg c9] at h
        by_cases c10 : ch = '$'
        · rw [if_pos c10] at h
          simp only [Option.some.injEq, Prod.mk.injEq] at h
          obtain ⟨rfl, rfl⟩ := h
          refine ⟨hrest, fun _ _ _ => rereads_single L _ '$' (by decide) rfl (by decide) ?_⟩
          intro t p b k _
          exact ⟨p, b, by simp [Lexer.Next, skipWhitespaceAndComments]⟩
        rw [if_neg c10] at h
        have c11 : ch ≠ Char.ofNat 34 := by
          rintro rfl; exact absurd hchq (by decide)
        have c12 : ch ≠ Char.ofNat 39 := by
          rintro rfl; exact absurd hchq (by decide)
        have c13 : ch ≠ Char.ofNat 96 := by
          rintro rfl; exact absurd hchq (by decide)
        rw [if_neg (by rintro (h | h) <;> [exact c11 h; exact c12 h]), if_neg c13] at h
        have hn : ∀ x ∈ [Char.ofNat 10, '(', ')', '[', ']', Char.ofNat 123, Char.ofNat 125, ',',
            ';', '$', Char.ofNat 34, Char.ofNat 39, Char.ofNat 96], ch ≠ x := by
          intro x hx
          simp only [List.mem_cons, List.mem_singleton, List.not_mem_nil, or_false] at hx
          rcases hx with rfl | rfl | rfl | rfl | rfl | rfl | rfl | rfl | rfl | rfl | rfl | rfl | rfl
          · exact c1
          · exact c2
          · exact c3
          · exact c4
          · exact c5
          · exact c6
          · exact c7
          · exact c8
          · exact c9
          · exact c10
          · exact c11
          · exact c12
          · exact c13
        have hstart : ch ≠ ' ' ∧ ch ≠ Char.ofNat 9 ∧ ch ≠ Char.ofNat 13 ∧ ch ≠ '#' ∧
            ch ≠ Char.ofNat 10 := ⟨w1, w2, w3, w4, c1⟩
        by_cases cn : (isDigit ch || (ch = '.' && (rest.head?.map isDigit).getD false)) = true
        · rw [if_pos cn] at h
          simp only [Option.some.injEq, Prod.mk.injEq] at h
          obtain ⟨rfl, rfl⟩ := h
          obtain ⟨_, ⟨r0, e0, _⟩, hm⟩ := readNumber_relex ch rest [] cn (Or.inl rfl)
          have hty : (readNumber (ch :: rest)).1.Typ ≠ .EOF := by
            rw [readNumber_eq]
            show TokenType.NUMBER ≠ TokenType.EOF
            decide
          refine ⟨fun x hx => hsub x (hm x hx), fun _ _ _ => ⟨hty, ⟨ch, r0, e0, hstart⟩, ?_⟩⟩
          intro t p b k ht
          obtain ⟨e1, ⟨r, e2, e3⟩, _⟩ := readNumber_relex ch rest t cn ht
          refine ⟨p, b, ?_⟩
          rw [e2] at e1 ⊢
          rw [List.cons_append] at e1 ⊢
          rw [Next_other L k ch (r ++ t) p b w1 w2 w3 w4 hn, if_pos e3, e1]
        rw [if_neg cn] at h
        by_cases ci : isIdentStart L ch = true
        · rw [if_pos ci] at h
          simp only [Option.some.injEq, Prod.mk.injEq] at h
          obtain ⟨rfl, rfl⟩ := h
          obtain ⟨_, ⟨r0, e0, _⟩, hm⟩ := readIdent_relex L hsp ch rest [] (Or.inl rfl)
          refine ⟨fun x hx => hsub x (hm x hx), fun hty _ _ =>
            ⟨hty, ⟨ch, r0, e0, hstart⟩, ?_⟩⟩
          intro t p b k ht
          obtain ⟨e1, ⟨r, e2, e3⟩, _⟩ := readIdent_relex L hsp ch rest t ht
          refine ⟨p, b, ?_⟩
          rw [e2] at e1 ⊢
          rw [List.cons_append] at e1 ⊢
          have cn2 : ¬ (isDigit ch || (ch = '.' && ((r ++ t).head?.map isDigit).getD false)) =
              true := by
            rw [e3]; exact cn
          rw [Next_other L k ch (r ++ t) p b w1 w2 w3 w4 hn, if_neg cn2, if_pos ci, e1]
        rw [if_neg ci] at h
        simp only [Option.some.injEq, Prod.mk.injEq] at h
        obtain ⟨rfl, rfl⟩ := h
        refine ⟨fun x hx => ?_, fun hty _ hill => ?_⟩
        · exact hrest x ((lexOperator_relex ch rest [] (Or.inl rfl) (lexOperator ch rest).1
            (lexOperator ch rest).2 rfl).1 x hx)
        · obtain ⟨r0, e0, _⟩ := (lexOperator_relex ch rest [] (Or.inl rfl) (lexOperator ch rest).1
            (lexOperator ch rest).2 rfl).2 hill
          refine ⟨hty, ⟨ch, r0, e0, hstart⟩, ?_⟩
          intro t p b k ht
          obtain ⟨r, e2, e1⟩ := (lexOperator_relex ch rest t ht (lexOperator ch rest).1
            (lexOperator ch rest).2 rfl).2 hill
          refine ⟨p, b, ?_⟩
          rw [e2, List.cons_append]
          have cn2 : ¬ (isDigit ch || (ch = '.' && ((r ++ t).head?.map isDigit).getD false)) =
              true := by
            have hd : isDigit ch = false := by
              cases hdd : isDigit ch
              · rfl
              · rw [hdd] at cn; simp at cn
            have hdot : ch ≠ '.' := by
              rintro rfl
              simp [isIdentStart] at ci
            simp [hd, hdot]
          rw [Next_other L k ch (r ++ t) p b w1 w2 w3 w4 hn, if_neg cn2, if_neg ci, e1]

/-- A space in front of a token is skipped. -/
theorem Next_space (L : GoLib) (k k2 : Nat) (ch : Char) (s : List Char) (p b : Nat)
    (h1 : ch ≠ ' ') (h2 : ch ≠ Char.ofNat 9) (h3 : ch ≠ Char.ofNat 13) (h4 : ch ≠ '#')
    (h5 : ch ≠ Char.ofNat 10) :
    Lexer.Next L (k + 1) ⟨' ' :: ch :: s, p, b⟩ = Lexer.Next L (k2 + 1) ⟨ch :: s, p, b⟩ := by
  have e1 : skipWhitespaceAndComments ((' ' :: ch :: s).length + 1) (' ' :: ch :: s) =
      some (ch :: s) := by
    rw [List.length_cons, skipWhitespaceAndComments, if_pos (Or.inl rfl), List.length_cons]
    exact skipWs_start _ ch s h1 h2 h3 h4
  have e2 : skipWhitespaceAndComments ((ch :: s).length + 1) (ch :: s) = some (ch :: s) :=
    skipWs_start _ ch s h1 h2 h3 h4
  unfold Lexer.Next
  simp only [e1, e2, if_neg h5]

theorem stream_empty (L : GoLib) (fuel p b : Nat) (sp : List Char) (hs : sp = [] ∨ sp = [' ']) :
    Lexer.stream L (fuel + 1) ⟨sp, p, b⟩ = some [eofToken] := by
  rcases hs with rfl | rfl <;>
    simp [Lexer.stream, Lexer.Next, skipWhitespaceAndComments, eofToken]

theorem joinLits_cons (tok : Token) (rest : List Token) :
    ∃ t, endsToken t ∧ joinLits (tok :: rest) = tok.Lit.toList ++ t ∧
      (rest = [] ∧ t = [] ∨ rest ≠ [] ∧ t = ' ' :: joinLits rest) := by
  cases rest with
  | nil => exact ⟨[], Or.inl rfl, by simp [joinLits], Or.inl ⟨rfl, rfl⟩⟩
  | cons t2 r =>
    exact ⟨' ' :: joinLits (t2 :: r), Or.inr ⟨_, rfl⟩, rfl, Or.inr ⟨by simp, rfl⟩⟩

/-- The literals of tokens that are read again, joined with spaces, are lexed
to these tokens. -/
theorem stream_joinLits (L : GoLib) : ∀ (cts : List Token), (∀ t ∈ cts, t.Rereads L) →
    ∀ (fuel p b : Nat) (sp : List Char), (sp = [] ∨ sp = [' ']) → cts.length + 1 ≤ fuel →
    Lexer.stream L fuel ⟨sp ++ joinLits cts, p, b⟩ = some (cts ++ [eofToken]) := by
  intro cts
  induction cts with
  | nil =>
    intro _ fuel p b sp hs hf
    obtain ⟨f, rfl⟩ : ∃ f, fuel = f + 1 := ⟨fuel - 1, by simp at hf; omega⟩
    simpa [joinLits] using stream_empty L f p b sp hs
  | cons tok rest ih =>
    intro hr fuel p b sp hs hf
    obtain ⟨f, rfl⟩ : ∃ f, fuel = f + 1 := ⟨fuel - 1, by simp at hf; omega⟩
    obtain ⟨hty, ⟨ch, r, hlit, w1, w2, w3, w4, w5⟩, hnext⟩ := hr tok (List.mem_cons_self _ _)
    obtain ⟨t, ht, hj, hcase⟩ := joinLits_cons tok rest
    obtain ⟨p2, b2, hn⟩ := hnext t p b (tok.Lit.toList ++ t).length ht
    have hN : Lexer.Next L ((sp ++ joinLits (tok :: rest)).length + 1)
        ⟨sp ++ joinLits (tok :: rest), p, b⟩ = some (tok, ⟨t, p2, b2⟩) := by
      rw [hj]
      rcases hs with rfl | rfl
      · exact hn
      · rw [hlit] at hn ⊢
        simp only [List.cons_append, List.nil_append] at hn ⊢
        rw [Next_space L _ (ch :: (r ++ t)).length ch (r ++ t) p b w1 w2 w3 w4 w5]
        exact hn
    have hrest : Lexer.stream L f ⟨t, p2, b2⟩ = some (rest ++ [eofToken]) := by
      have hr2 : ∀ t ∈ rest, t.Rereads L := fun x hx => hr x (List.mem_cons_of_mem _ hx)
      have hf2 : rest.length + 1 ≤ f := by simp at hf; omega
      rcases hcase with ⟨rfl, rfl⟩ | ⟨_, rfl⟩
      · exact ih hr2 f p2 b2 [] (Or.inl rfl) hf2
      · exact ih hr2 f p2 b2 [' '] (Or.inr rfl) hf2
    unfold Lexer.stream
    simp only [hN, hty, if_false, hrest, Option.map_some', List.cons_append]

theorem joinLits_length (L : GoLib) : ∀ (cts : List Token), (∀ t ∈ cts, t.Rereads L) →
    cts.length ≤ (joinLits cts).length := by
  intro cts
  induction cts with
  | nil => intro _; simp
  | cons tok rest ih =>
    intro hr
    obtain ⟨_, ⟨ch, r, hlit, _⟩, _⟩ := hr tok (List.mem_cons_self _ _)
    obtain ⟨t, _, hj, hcase⟩ := joinLits_cons tok rest
    have := ih fun x hx => hr x (List.mem_cons_of_mem _ hx)
    rw [hj, hlit]
    rcases hcase with ⟨rfl, rfl⟩ | ⟨_, rfl⟩
    · simp
    · simp only [List.cons_append, List.length_cons, List.length_append]
      omega

/-- The tokens of a text without quote characters and without an illegal token
are read again from their literals. -/
theorem stream_rereads (L : GoLib) (hsp : L.isLetter ' ' = false) :
    ∀ (fuel : Nat) (l : Lexer) (toks : List Token),
      (∀ c ∈ l.src, isQuoteChar c = false) → Lexer.stream L fuel l = some toks →
      (∀ t ∈ toks, t.Typ ≠ .ILLEGAL) → ∀ t ∈ contentTokens toks, t.Rereads L := by
  intro fuel
  induction fuel with
  | zero => intro l toks _ h; simp [Lexer.stream] at h
  | succ k ih =>
    intro l toks hq h hill
    unfold Lexer.stream at h
    cases hn : Lexer.Next L (l.src.length + 1) l with
    | none => rw [hn] at h; simp at h
    | some r =>
      obtain ⟨tok, l2⟩ := r
      rw [hn] at h
      simp only at h
      obtain ⟨hsub, hre⟩ := Next_relex L hsp _ l tok l2 hq hn
      by_cases he : tok.Typ = .EOF
      · rw [if_pos he] at h
        simp only [Option.some.injEq] at h
        subst h
        intro t ht
        simp [contentTokens, he] at ht
      · rw [if_neg he] at h
        cases hs : Lexer.stream L k l2 with
        | none => rw [hs] at h; simp at h
        | some rest =>
          rw [hs] at h
          simp only [Option.map_some', Option.some.injEq] at h
          subst h
          have ih2 := ih l2 rest (fun c hc => hq c (hsub c hc)) hs
            (fun t ht => hill t (List.mem_cons_of_mem _ ht))
          intro t ht
          simp only [contentTokens, List.filter_cons] at ht
          split at ht
          · next hk =>
            rcases List.mem_cons.mp ht with rfl | ht2
            · simp only [Token.isSeparator, Bool.not_eq_true', Bool.or_eq_false_iff,
                decide_eq_false_iff_not] at hk
              exact hre he hk.1.1 (hill _ (List.mem_cons_self _ _))
            · exact ih2 t ht2
          · exact ih2 t ht

end LexerLemmas

section RoundTrip

/-- C24 (amended): the round trip holds for sources without quote characters.
If the source holds no double quote, no apostrophe and no backtick, is lexed
without an `ILLEGAL` token, and the space is no letter for `unicode.IsLetter`,
then the literals of its tokens other than separators and `EOF`, joined with
single spaces, are lexed to exactly these tokens followed by `EOF`. -/
theorem lexer_round_trip_without_quotes (L : GoLib) (hsp : L.isLetter ' ' = false)
    (src : String) (toks : List Token)
    (hq : ∀ c ∈ src.toList, isQuoteChar c = false)
    (hlex : Lexer.tokens L src = some toks)
    (hill : ∀ t ∈ toks, t.Typ ≠ .ILLEGAL) :
    Lexer.tokens L (String.mk (joinLits (contentTokens toks))) =
      some (contentTokens toks ++ [eofToken]) := by
  have hr := stream_rereads L hsp _ (Lexer.New src) toks hq hlex hill
  have hlen := joinLits_length L _ hr
  have := stream_joinLits L _ hr ((joinLits (contentTokens toks)).length + 1) 0 0 []
    (Or.inl rfl) (by omega)
  simpa [Lexer.tokens, Lexer.New, String.length] using this

/-- C24 (amended) at a source with a newline inside parentheses, a semicolon,
a newline between statements, a number with point, exponent and sign, double
brackets, `%/in%` and `...`: the joined text is
`f ( a , b ) x <- .5e+3 y [[ i ]] %in% ... z`. -/
theorem lexer_round_trip_without_quotes_witness :
    (asciiLib.isLetter ' ' = false ∧
      (∀ c ∈ "f(a,\n b);x<-.5e+3\ny[[i]] %/in% ...z".toList, isQuoteChar c = false) ∧
      Lexer.tokens asciiLib "f(a,\n b);x<-.5e+3\ny[[i]] %/in% ...z" = some roundTripTokens ∧
      (∀ t ∈ roundTripTokens, t.Typ ≠ .ILLEGAL)) ∧
    String.mk (joinLits (contentTokens roundTripTokens)) =
      "f ( a , b ) x <- .5e+3 y [[ i ]] %in% ... z" ∧
    Lexer.tokens asciiLib (String.mk (joinLits (contentTokens roundTripTokens))) =
      some (contentTokens roundTripTokens ++ [eofToken]) :=
  ⟨⟨by decide, by decide, rfl, by decide⟩, by decide,
    lexer_round_trip_without_quotes asciiLib (by decide)
      "f(a,\n b);x<-.5e+3\ny[[i]] %/in% ...z" roundTripTokens (by decide) rfl (by decide)⟩

end RoundTrip

/-! ## The sequence operator (C25) -/

section ColonLemmas

theorem wrapInt64_id {x : Int} (h1 : -(2 ^ 63) ≤ x) (h2 : x < 2 ^ 63) : wrapInt64 x = x := by
  unfold wrapInt64
  have : (x + 2 ^ 63) % 2 ^ 64 = x + 2 ^ 63 := Int.emod_eq_of_lt (by omega) (by omega)
  omega

end ColonLemmas

section Colon

variable {F : Type} [Float64 F]

end Colon

/-! ## `break` and `next` outside a loop (C26) -/

section ControlLemmas

variable {F : Type}

/-- When the arguments match, `callClosure` evaluates the body in the new frame
and ends with `closureResult`. -/
theorem callClosure_runs_body (ev : Evaluator F) (params : List (Param F)) (body : Expr F)
    (fenv : Nat) (args : List ArgValue) (st : Store F) (s : MatchState)
    (h : matchArgs params args = .ok s) :
    ∃ stB, callClosure ev params body fenv args st =
      closureResult (ev (st.newEnv (some fenv)).1 body stB) := by
  obtain ⟨st1, h1, _⟩ := bindParams_ok (st.newEnv (some fenv)).1 params s.binds
    (st.newEnv (some fenv)).2
  unfold callClosure
  simp only [h, h1]
  split
  · exact ⟨_, rfl⟩
  · exact ⟨_, rfl⟩

/-- The top-level loop stops at the first expression that fails. -/
theorem evalExprs_error (ev : Evaluator F) (env : Nat) (e : Expr F) (es : List (Expr F))
    (last : Ptr) (st st1 : Store F) (er : Err) (h : ev env e st = (.error er, st1)) :
    evalExprs ev env (e :: es) last st = (.ok (last, some er), st1) := by
  simp only [evalExprs, h]

end ControlLemmas

section Control

variable {F : Type} [Float64 F]

/-- C26: `break` and `next` outside a loop are errors. (1) A closure call whose
arguments match evaluates the body in the new frame and ends with
`closureResult`: when the body ends in a break signal the call returns the
error `break used outside of a loop`, for a next signal
`next used outside of a loop`. (2) Such an error of the body of `for`, `while`
or `repeat` is the result of the loop, which neither ends normally nor runs
another iteration. (3) `Eval` of `break` and of `next` returns the signal, and
`EvalString` on a program that starts with `break` or `next` returns that
signal as its error, which is not nil. -/
theorem break_next_outside_loop_error (B : Builtins F) (ev : Evaluator F) :
    (∀ (params : List (Param F)) (body : Expr F) (fenv : Nat) (args : List ArgValue)
        (st : Store F) (s : MatchState), matchArgs params args = .ok s →
      ∃ stB, callClosure ev params body fenv args st =
          closureResult (ev (st.newEnv (some fenv)).1 body stB) ∧
        (∀ v st2, ev (st.newEnv (some fenv)).1 body stB = (.error (.control .ctrlBreak v), st2) →
          callClosure ev params body fenv args st =
            (.error (.msg "break used outside of a loop"), st2)) ∧
        (∀ v st2, ev (st.newEnv (some fenv)).1 body stB = (.error (.control .ctrlNext v), st2) →
          callClosure ev params body fenv args st =
            (.error (.msg "next used outside of a loop"), st2))) ∧
    (∀ (env : Nat) (var : String) (seqV : Ptr) (body : Expr F) (i : Nat) (rest : List Nat)
        (last elem : Ptr) (st sa sc : Store F) (m : String),
      vectorElementM ev seqV i st = (.ok elem, sa) →
      ev env body (Env.Assign sa env var elem) = (.error (.msg m), sc) →
      forLoop ev env var seqV body (i :: rest) last st = (.error (.msg m), sc)) ∧
    (∀ (env : Nat) (cond body : Expr F) (k : Nat) (last : Ptr) (st sa sc : Store F) (m : String),
      evalCondition ev env cond st = (.ok true, sa) →
      ev env body sa = (.error (.msg m), sc) →
      whileLoop ev env cond body (k + 1) last st = (.error (.msg m), sc)) ∧
    (∀ (env : Nat) (body : Expr F) (k : Nat) (last : Ptr) (st sc : Store F) (m : String),
      ev env body st = (.error (.msg m), sc) →
      repeatLoop ev env body (k + 1) last st = (.error (.msg m), sc)) ∧
    (∀ (n env : Nat) (st : Store F),
      Eval B (n + 1) env .BreakExpr st = (.error (.control .ctrlBreak .nil), st) ∧
      Eval B (n + 1) env .NextExpr st = (.error (.control .ctrlNext .nil), st)) ∧
    (∀ (L : GoLib) (n global : Nat) (src : String) (st : Store F) (toks : List Token)
        (e : Expr F) (rest : List (Expr F)) (k : ControlKind),
      (e = .BreakExpr ∧ k = .ctrlBreak ∨ e = .NextExpr ∧ k = .ctrlNext) →
      Lexer.tokens L src = some toks →
      ParseProgram (n + 1) (Parser.New toks) = some (e :: rest, none) →
      EvalString B L (n + 1) global src st =
        (.ok (⟨.NullValue, ""⟩, some (.control k .nil)), st)) := by
  refine ⟨?_, ?_, ?_, ?_, fun _ _ _ => ⟨rfl, rfl⟩, ?_⟩
  · intro params body fenv args st s h
    obtain ⟨stB, hB⟩ := callClosure_runs_body ev params body fenv args st s h
    refine ⟨stB, hB, ?_, ?_⟩
    · intro v st2 h2
      rw [hB, h2]; rfl
    · intro v st2 h2
      rw [hB, h2]; rfl
  · intro env var seqV body i rest last elem st sa sc m h1 h2
    simp only [forLoop, M.bind, h1, M.assign, h2]
  · intro env cond body k last st sa sc m h1 h2
    simp only [whileLoop, M.bind, h1, Bool.not_true, Bool.false_eq_true, if_false, h2]
  · intro env body k last st sc m h
    simp only [repeatLoop, h]
  · intro L n global src st toks e rest k hk h1 h2
    unfold EvalString
    simp only [h1, h2]
    rcases hk with ⟨rfl, rfl⟩ | ⟨rfl, rfl⟩
    · rw [evalExprs_error (Eval B (n + 1)) global .BreakExpr rest .NullValue
        ⟨st.objs, st.envs, "", st.arrays⟩ ⟨st.objs, st.envs, "", st.arrays⟩
        (.control .ctrlBreak .nil) rfl]
    · rw [evalExprs_error (Eval B (n + 1)) global .NextExpr rest .NullValue
        ⟨st.objs, st.envs, "", st.arrays⟩ ⟨st.objs, st.envs, "", st.arrays⟩
        (.control .ctrlNext .nil) rfl]

set_option maxRecDepth 4000 in
/-- C26 at the program `break`, and at calls in loops: a function whose body
is `break`, called in a `for` loop, and one whose body is `next`, called in a
`while` loop, make `EvalString` return the error of the call. -/
theorem break_next_outside_loop_error_witness :
    (Lexer.tokens asciiLib "break" = some [⟨.BREAK, "break"⟩, eofToken] ∧
      ParseProgram (F := Whole) (5 + 1) (Parser.New [⟨.BREAK, "break"⟩, eofToken]) =
        some ([.BreakExpr], none)) ∧
    EvalString (noBuiltins : Builtins Whole) asciiLib (5 + 1) 0 "break" emptyContext =
      (.ok (⟨.NullValue, ""⟩, some (.control .ctrlBreak .nil)), emptyContext) ∧
    (EvalString (noBuiltins : Builtins Whole) asciiLib 12 0
        "f <- function() break; for (i in 1:3) f()" emptyContext).1 =
      .ok (⟨.addr 0, ""⟩, some (.msg "break used outside of a loop")) ∧
    (EvalString (noBuiltins : Builtins Whole) asciiLib 12 0
        "f <- function() next; while (TRUE) f()" emptyContext).1 =
      .ok (⟨.addr 0, ""⟩, some (.msg "next used outside of a loop")) :=
  ⟨⟨rfl, rfl⟩,
    (break_next_outside_loop_error (noBuiltins : Builtins Whole) (Eval noBuiltins 0)).2.2.2.2.2
      asciiLib 5 0 "break" emptyContext [⟨.BREAK, "break"⟩, eofToken] .BreakExpr [] .ctrlBreak
      (Or.inl ⟨rfl, rfl⟩) rfl rfl,
    rfl, rfl⟩

end Control

/-! ## `tryCatch` (C28) -/

section TryCatch

variable {F : Type} [Float64 F]

/-- C28: the contract of `tryCatch(expr, error = handler)`, `expr` being the
first argument. (1) If forcing `expr` gives `v`, the result is `v` in the store
after the forcing, whatever `Call` does: the handler is not called. (2) If
forcing fails with `err` and no argument is named `error`, the result is the
error `err`. (3) If forcing fails with `err` and the argument named `error` is
forced to a closure or built-in `hv`, the result is that of `hv` called with
one unnamed argument, which points to a new character vector of length one
that holds the message `err.Error()`. (4) The built-in named `tryCatch` is this
function. -/
theorem tryCatch_contract (force : Ptr → M F Ptr) (call : Ptr → List ArgValue → M F Ptr)
    (a : ArgValue) (rest : List ArgValue) (st st1 : Store F) :
    (∀ v, force a.Val st = (.ok v, st1) →
      builtinTryCatch force call (a :: rest) st = (.ok v, st1)) ∧
    (∀ err, force a.Val st = (.error err, st1) → getNamed (a :: rest) "error" = none →
      builtinTryCatch force call (a :: rest) st = (.error err, st1)) ∧
    (∀ err handler hv st2, force a.Val st = (.error err, st1) →
      getNamed (a :: rest) "error" = some handler →
      force handler st1 = (.ok hv, st2) →
      ((∃ ps body env, st2.deref hv = some (.ClosureFunc ps body env)) ∨
        (∃ name, st2.deref hv = some (.BuiltinFunc name))) →
      builtinTryCatch force call (a :: rest) st =
          call hv [⟨"", (st2.alloc (CharScalar err.Error)).1⟩]
            (st2.alloc (CharScalar err.Error)).2 ∧
        (st2.alloc (CharScalar err.Error)).2.deref (st2.alloc (CharScalar err.Error)).1 =
          some (.CharVec [⟨err.Error, false⟩] [])) ∧
    (∀ (B : Builtins F), (stdBuiltins B).impl "tryCatch" force call (a :: rest) =
      builtinTryCatch force call (a :: rest)) := by
  refine ⟨?_, ?_, ?_, fun _ => rfl⟩
  · intro v h
    simp only [builtinTryCatch, h]
  · intro err h hn
    simp only [builtinTryCatch, h, hn]
  · intro err handler hv st2 h hn hf hc
    constructor
    · rcases hc with ⟨ps, body, env, hd⟩ | ⟨name, hd⟩
      · simp only [builtinTryCatch, h, hn, M.bind, hf, M.derefOpt, hd, M.alloc]
      · simp only [builtinTryCatch, h, hn, M.bind, hf, M.derefOpt, hd, M.alloc]
    · simp [Store.alloc, Store.deref, CharScalar]

end TryCatch

/-- C28 at `tryCatch(nosuch, error = function(e) e)`: forcing the first
argument fails, the handler is called with the message, and the call returns
the vector that holds the message. -/
theorem tryCatch_contract_witness :
    (Force (Eval (stdBuiltins noBuiltins) 4) (.addr 0) tryCatchStore =
        (.error (.msg "object 'nosuch' not found"),
          (Force (Eval (stdBuiltins noBuiltins) 4) (.addr 0) tryCatchStore).2) ∧
      getNamed [⟨"", .addr 0⟩, ⟨"error", .addr 1⟩] "error" = some (.addr 1) ∧
      Force (Eval (stdBuiltins noBuiltins) 4) (.addr 1)
          (Force (Eval (stdBuiltins noBuiltins) 4) (.addr 0) tryCatchStore).2 =
        (.ok (.addr 2), (Force (Eval (stdBuiltins noBuiltins) 4) (.addr 1)
          (Force (Eval (stdBuiltins noBuiltins) 4) (.addr 0) tryCatchStore).2).2)) ∧
    builtinTryCatch (Force (Eval (stdBuiltins noBuiltins) 4))
        (callValue (stdBuiltins noBuiltins) (Eval (stdBuiltins noBuiltins) 4) 3)
        [⟨"", .addr 0⟩, ⟨"error", .addr 1⟩] tryCatchStore =
      callValue (stdBuiltins noBuiltins) (Eval (stdBuiltins noBuiltins) 4) 3 (.addr 2)
        [⟨"", .addr 3⟩]
        (((Force (Eval (stdBuiltins noBuiltins) 4) (.addr 1)
          (Force (Eval (stdBuiltins noBuiltins) 4) (.addr 0) tryCatchStore).2).2).alloc
            (CharScalar "object 'nosuch' not found")).2 ∧
    (builtinTryCatch (Force (Eval (stdBuiltins noBuiltins) 4))
        (callValue (stdBuiltins noBuiltins) (Eval (stdBuiltins noBuiltins) 4) 3)
        [⟨"", .addr 0⟩, ⟨"error", .addr 1⟩] tryCatchStore).1 = .ok (.addr 3) :=
  ⟨⟨rfl, rfl, rfl⟩,
    ((tryCatch_contract (Force (Eval (stdBuiltins noBuiltins) 4))
      (callValue (stdBuiltins noBuiltins) (Eval (stdBuiltins noBuiltins) 4) 3)
      ⟨"", .addr 0⟩ [⟨"error", .addr 1⟩] tryCatchStore
      (Force (Eval (stdBuiltins noBuiltins) 4) (.addr 0) tryCatchStore).2).2.2.1
      (.msg "object 'nosuch' not found") (.addr 1) (.addr 2)
      (Force (Eval (stdBuiltins noBuiltins) 4) (.addr 1)
        (Force (Eval (stdBuiltins noBuiltins) 4) (.addr 0) tryCatchStore).2).2
      rfl rfl rfl (Or.inl ⟨_, _, _, rfl⟩)).1,
    rfl⟩

/-! ## `EvalString` on a failure (C29) -/

section EvalStringLemmas

variable {F : Type}

/-- The top-level loop on a list of expressions that is split in two. -/
theorem evalExprs_append (ev : Evaluator F) (env : Nat) (pre rest : List (Expr F)) :
    ∀ (last v : Ptr) (st st1 : Store F),
      evalExprs ev env pre last st = (.ok (v, none), st1) →
      evalExprs ev env (pre ++ rest) last st = evalExprs ev env rest v st1 := by
  induction pre with
  | nil =>
    intro last v st st1 h
    simp only [evalExprs, pure, Prod.mk.injEq, Res.ok.injEq, and_true] at h
    obtain ⟨rfl, rfl⟩ := h
    rfl
  | cons e es ih =>
    intro last v st st1 h
    simp only [List.cons_append, evalExprs] at h ⊢
    split at h
    · next w s hw => exact ih w v s st1 h
    · simp at h
    · simp at h
    · simp at h

/-- The value after a prefix that ran without error is the value of its last
expression. -/
theorem evalExprs_snoc (ev : Evaluator F) (env : Nat) (pre : List (Expr F)) (x : Expr F) :
    ∀ (last v : Ptr) (st st1 : Store F),
      evalExprs ev env (pre ++ [x]) last st = (.ok (v, none), st1) →
      ∃ w s, evalExprs ev env pre last st = (.ok (w, none), s) ∧ ev env x s = (.ok v, st1) := by
  induction pre with
  | nil =>
    intro last v st st1 h
    refine ⟨last, st, rfl, ?_⟩
    simp only [List.nil_append, evalExprs] at h
    split at h
    · next w s hw =>
      simp only [pure, Prod.mk.injEq, Res.ok.injEq, and_true] at h
      obtain ⟨rfl, rfl⟩ := h
      exact hw
    · simp at h
    · simp at h
    · simp at h
  | cons e es ih =>
    intro last v st st1 h
    simp only [List.cons_append, evalExprs] at h ⊢
    split at h
    · next w s hw => exact ih w v s st1 h
    · simp at h
    · simp at h
    · simp at h

end EvalStringLemmas

section EvalStringTheorems

variable {F : Type} [Float64 F]

/-- C29: `EvalString` when the k-th top-level expression fails. If the source
is lexed and parsed without error to `pre ++ e :: rest`, the expressions `pre`
evaluate without error from the context with an empty output buffer, giving
`v` and the store `st1`, and `e` fails there with `er` leaving `st2`, then
`EvalString` returns the error `er` with the result whose `Value` is `v` and
whose `Output` is the output in `st2`, which is all that was written before
the failure; `rest` plays no part; and the output sink of the context after
the call is the one before it. `v` is Null when `pre` is empty and otherwise
the value of the last expression of `pre`. -/
theorem EvalString_stops_at_failure (B : Builtins F) (L : GoLib) (fuel global : Nat)
    (src : String) (st st1 st2 : Store F) (toks : List Token) (pre rest : List (Expr F))
    (e : Expr F) (v : Ptr) (er : Err)
    (hlex : Lexer.tokens L src = some toks)
    (hparse : ParseProgram fuel (Parser.New toks) = some (pre ++ e :: rest, none))
    (hpre : evalExprs (Eval B fuel) global pre .NullValue { st with output := "" } =
      (.ok (v, none), st1))
    (hfail : Eval B fuel global e st1 = (.error er, st2)) :
    EvalString B L fuel global src st =
        (.ok (⟨v, st2.output⟩, some er), { st2 with output := st.output }) ∧
      (EvalString B L fuel global src st).2.output = st.output ∧
      (pre = [] → v = .NullValue ∧ st1 = { st with output := "" }) ∧
      (∀ pre1 x, pre = pre1 ++ [x] →
        ∃ w s, evalExprs (Eval B fuel) global pre1 .NullValue { st with output := "" } =
            (.ok (w, none), s) ∧
          Eval B fuel global x s = (.ok v, st1)) := by
  have key : EvalString B L fuel global src st =
      (.ok (⟨v, st2.output⟩, some er), { st2 with output := st.output }) := by
    unfold EvalString
    simp only [hlex, hparse]
    rw [evalExprs_append _ _ pre (e :: rest) _ v _ st1 hpre]
    simp only [evalExprs, hfail]
  refine ⟨key, by rw [key], ?_, ?_⟩
  · rintro rfl
    simp only [evalExprs, pure, Prod.mk.injEq, Res.ok.injEq, and_true] at hpre
    exact ⟨hpre.1.symm, hpre.2.symm⟩
  · rintro pre1 x rfl
    exact evalExprs_snoc _ _ pre1 x _ v _ st1 hpre

end EvalStringTheorems

/-- C29 at `print(1); nosuch; print(2)` in a context whose sink holds
`earlier`: the error is that `nosuch` is not found, the `Value` is the value
of `print(1)`, the `Output` is the line printed by it, and the sink holds
`earlier` again. -/
theorem EvalString_stops_at_failure_witness :
    (Lexer.tokens asciiLib "print(1); nosuch; print(2)" = some printProgramTokens ∧
      ParseProgram (F := Whole) 8 (Parser.New printProgramTokens) =
        some ([printCall "1" ⟨1⟩] ++ .Ident "nosuch" :: [printCall "2" ⟨2⟩], none) ∧
      evalExprs (Eval sampleBuiltins 8) 0 [printCall "1" ⟨1⟩] .NullValue
          { writtenContext with output := "" } = (.ok (.addr 4, none), afterPrintOne) ∧
      Eval sampleBuiltins 8 0 (.Ident "nosuch") afterPrintOne =
        (.error (.msg "object 'nosuch' not found"), afterPrintOne)) ∧
    afterPrintOne.output = "1\n" ∧
    EvalString sampleBuiltins asciiLib 8 0 "print(1); nosuch; print(2)" writtenContext =
      (.ok (⟨.addr 4, afterPrintOne.output⟩, some (.msg "object 'nosuch' not found")),
        { afterPrintOne with output := writtenContext.output }) :=
  ⟨⟨rfl, rfl, rfl, rfl⟩, rfl,
    (EvalString_stops_at_failure sampleBuiltins asciiLib 8 0
      "print(1); nosuch; print(2)" writtenContext afterPrintOne afterPrintOne printProgramTokens
      [printCall "1" ⟨1⟩] [printCall "2" ⟨2⟩] (.Ident "nosuch") (.addr 4)
      (.msg "object 'nosuch' not found") (by rfl) (by rfl) (by rfl) (by rfl)).1⟩

/-! ## `c` on atomic vectors (C30) -/

section CombineLemmas

variable {F : Type} [Float64 F]

omit [Float64 F] in
theorem isAtomic_not_promise (o : Obj F) (h : o.isAtomic = true) :
    ∀ e env f v er, o ≠ .Promise e env f v er := by
  intro e env f v er hc
  subst hc
  simp [Obj.isAtomic] at h

omit [Float64 F] in
/-- The first loop of `builtinC` on atomic vectors: no list is seen, and the
target is the widest type met. -/
theorem cTarget_atomic : ∀ (os : List (Obj F)) (t : String),
    (∀ o ∈ os, o.isAtomic = true) →
    (t = "logical" ∨ t = "integer" ∨ t = "double" ∨ t = "character") →
    (cTarget os (t, false)).2 = false ∧
      ((cTarget os (t, false)).1 = "logical" ∨ (cTarget os (t, false)).1 = "integer" ∨
        (cTarget os (t, false)).1 = "double" ∨ (cTarget os (t, false)).1 = "character") ∧
      typeRank (cTarget os (t, false)).1 = max (typeRank t) (widestRank os) := by
  intro os
  induction os with
  | nil =>
    intro t _ ht
    refine ⟨rfl, ht, ?_⟩
    simp [cTarget, widestRank]
  | cons o rest ih =>
    intro t hat ht
    have hrest : ∀ o ∈ rest, o.isAtomic = true := fun x hx => hat x (List.mem_cons_of_mem _ hx)
    have ho := hat o (List.mem_cons_self _ _)
    have hw : widestRank (o :: rest) = max (typeRank o.Type) (widestRank rest) := rfl
    cases o <;> simp [Obj.isAtomic] at ho
    · -- logical
      have := ih t hrest ht
      simp only [cTarget, Obj.Type, hw]
      simp only [show ("logical" : String) ≠ "list" by decide,
        show ("logical" : String) ≠ "character" by decide,
        show ("logical" : String) ≠ "double" by decide,
        show ("logical" : String) ≠ "integer" by decide, if_false, if_true]
      refine ⟨this.1, this.2.1, ?_⟩
      rw [this.2.2]
      simp [typeRank]
    · -- integer
      simp only [cTarget, Obj.Type, hw]
      simp only [show ("integer" : String) ≠ "list" by decide,
        show ("integer" : String) ≠ "character" by decide,
        show ("integer" : String) ≠ "double" by decide, if_false, if_true]
      rcases ht with rfl | rfl | rfl | rfl
      · have := ih "integer" hrest (by simp)
        simp only [show ("logical" : String) ≠ "character" by decide,
          show ("logical" : String) ≠ "double" by decide, ne_eq, not_false_eq_true, and_self,
          if_true]
        refine ⟨this.1, this.2.1, ?_⟩
        rw [this.2.2]; simp [typeRank]
      · have := ih "integer" hrest (by simp)
        simp only [show ("integer" : String) ≠ "character" by decide,
          show ("integer" : String) ≠ "double" by decide, ne_eq, not_false_eq_true, and_self,
          if_true]
        refine ⟨this.1, this.2.1, ?_⟩
        rw [this.2.2]; simp [typeRank]
      · have := ih "double" hrest (by simp)
        simp only [ne_eq, not_true_eq_false, and_false, if_false]
        refine ⟨this.1, this.2.1, ?_⟩
        rw [this.2.2]; simp [typeRank]; omega
      · have := ih "character" hrest (by simp)
        simp only [ne_eq, not_true_eq_false, false_and, if_false]
        refine ⟨this.1, this.2.1, ?_⟩
        rw [this.2.2]; simp [typeRank]; omega
    · -- double
      simp only [cTarget, Obj.Type, hw]
      simp only [show ("double" : String) ≠ "list" by decide,
        show ("double" : String) ≠ "character" by decide, if_false, if_true]
      rcases ht with rfl | rfl | rfl | rfl
      · have := ih "double" hrest (by simp)
        simp only [show ("logical" : String) ≠ "character" by decide, ne_eq, not_false_eq_true,
          if_true]
        refine ⟨this.1, this.2.1, ?_⟩
        rw [this.2.2]; simp [typeRank]
      · have := ih "double" hrest (by simp)
        simp only [show ("integer" : String) ≠ "character" by decide, ne_eq, not_false_eq_true,
          if_true]
        refine ⟨this.1, this.2.1, ?_⟩
        rw [this.2.2]; simp [typeRank]
      · have := ih "double" hrest (by simp)
        simp only [show ("double" : String) ≠ "character" by decide, ne_eq, not_false_eq_true,
          if_true]
        refine ⟨this.1, this.2.1, ?_⟩
        rw [this.2.2]; simp [typeRank]
      · have := ih "character" hrest (by simp)
        simp only [ne_eq, not_true_eq_false, if_false]
        refine ⟨this.1, this.2.1, ?_⟩
        rw [this.2.2]; simp [typeRank]; omega
    · -- character
      simp only [cTarget, Obj.Type, hw]
      simp only [show ("character" : String) ≠ "list" by decide, if_false, if_true]
      have := ih "character" hrest (by simp)
      refine ⟨this.1, this.2.1, ?_⟩
      rw [this.2.2]
      have h3 : typeRank t ≤ 3 := by
        rcases ht with rfl | rfl | rfl | rfl <;> simp [typeRank]
      have h4 : typeRank "character" = 3 := by simp [typeRank]
      rw [h4]
      omega

omit [Float64 F] in
theorem derefArgs_atomic (st : Store F) : ∀ (fargs : List ArgValue) (os : List (Obj F)),
    List.Forall₂ (fun a o => st.deref a.Val = some o ∧ o.isAtomic = true) fargs os →
    derefArgs fargs st = (.ok os, st) := by
  intro fargs os h
  induction h with
  | nil => rfl
  | cons hd _ ih =>
    simp only [derefArgs, M.bind, M.deref, hd.1, ih]
    rfl

omit [Float64 F] in
/-- A collecting loop of `builtinC` on values that are no promises: the
coerced data in order, and no change of the store. -/
theorem cCollect_atomic {α : Type} (ev : Evaluator F) (coerce : Obj F → Res (List α))
    (st : Store F) : ∀ (fargs : List ArgValue) (os : List (Obj F)) (parts : List (List α))
      (out : List α),
    List.Forall₂ (fun a o => st.deref a.Val = some o ∧ o.isAtomic = true) fargs os →
    List.Forall₂ (fun o p => coerce o = .ok p) os parts →
    cCollect (Force ev) coerce fargs out st = (.ok (out ++ parts.flatten), st) := by
  intro fargs os parts out h
  induction h generalizing parts out with
  | nil =>
    intro hp
    cases hp
    simp [cCollect, pure]
  | cons hd _ ih =>
    intro hp
    cases hp with
    | cons hc hrest =>
      simp only [cCollect, M.bind,
        Force_of_not_promise ev st _ _ hd.1 (isAtomic_not_promise _ hd.2), M.deref, hd.1,
        M.lift, hc]
      rw [ih _ _ hrest]
      simp

/-- The elements of one part inside the concatenation of the parts. -/
theorem join_segment {α : Type} (d : α) : ∀ (parts : List (List α)) (j : Nat) (p : List α),
    parts[j]? = some p →
    (List.range p.length).map (fun i =>
      parts.flatten.getD (((parts.take j).map List.length).sum + i) d) = p := by
  intro parts
  induction parts with
  | nil => intro j p h; simp at h
  | cons q rest ih =>
    intro j p h
    cases j with
    | zero =>
      simp only [List.getElem?_cons_zero, Option.some.injEq] at h
      subst h
      apply List.ext_getElem
      · simp
      · intro i h1 h2
        simp only [List.length_map, List.length_range] at h1
        simp [List.getD_eq_getElem?_getD, List.getElem?_append_left h1, h1]
    | succ j =>
      simp only [List.getElem?_cons_succ] at h
      have := ih j p h
      apply List.ext_getElem
      · simp
      · intro i h1 h2
        simp only [List.length_map, List.length_range] at h1
        have hi := congrArg (fun l => l[i]?) this
        simp only [List.getElem?_map, List.getElem?_range h1, Option.map_some',
          List.getElem?_eq_getElem h2] at hi
        simp only [List.getElem_map, List.getElem_range, List.take_succ_cons, List.map_cons,
          List.sum_cons, List.flatten_cons]
        rw [List.getD_eq_getElem?_getD, List.getElem?_append_right (by omega)]
        rw [List.getD_eq_getElem?_getD] at hi
        have e : q.length + ((rest.take j).map List.length).sum + i - q.length =
            ((rest.take j).map List.length).sum + i := by omega
        rw [e]
        exact Option.some.inj hi

omit [Float64 F] in
theorem forall2_parts {α : Type} (coerce : Obj F → Res (List α)) (P : Obj F → List α → Prop) :
    ∀ (os : List (Obj F)), (∀ o ∈ os, ∃ p, coerce o = .ok p ∧ P o p) →
    ∃ parts, List.Forall₂ (fun o p => coerce o = .ok p ∧ P o p) os parts := by
  intro os
  induction os with
  | nil => intro _; exact ⟨[], List.Forall₂.nil⟩
  | cons o rest ih =>
    intro h
    obtain ⟨p, hp⟩ := h o (List.mem_cons_self _ _)
    obtain ⟨ps, hps⟩ := ih fun x hx => h x (List.mem_cons_of_mem _ hx)
    exact ⟨p :: ps, List.Forall₂.cons hp hps⟩

omit [Float64 F] in
theorem forall2_lengths {α : Type} (R : Obj F → List α → Prop)
    (hR : ∀ o p, R o p → p.length = o.Len) :
    ∀ (os : List (Obj F)) (parts : List (List α)), List.Forall₂ R os parts →
    (parts.map List.length = os.map Obj.Len) := by
  intro os parts h
  induction h with
  | nil => rfl
  | cons hd _ ih => simp [hR _ _ hd, ih]

theorem forall2_index {α β : Type} (R : α → β → Prop) :
    ∀ (xs : List α) (ys : List β), List.Forall₂ R xs ys → ∀ (j : Nat) (x : α),
    xs[j]? = some x → ∃ y, ys[j]? = some y ∧ R x y := by
  intro xs ys h
  induction h with
  | nil => intro j x hx; simp at hx
  | cons hd _ ih =>
    intro j x hx
    cases j with
    | zero =>
      simp only [List.getElem?_cons_zero, Option.some.injEq] at hx
      subst hx
      exact ⟨_, List.getElem?_cons_zero, hd⟩
    | succ j =>
      rw [List.getElem?_cons_succ] at hx
      obtain ⟨y, hy, hr⟩ := ih j x hx
      exact ⟨y, by rw [List.getElem?_cons_succ]; exact hy, hr⟩

/-- The result of a collecting loop of `builtinC`, for any of the four atomic
types: `mk` builds the vector, `coerce` is the coercion to its type. -/
theorem combine_elements {α : Type} (coerce : Obj F → Res (List α)) (na : α) (naOf : α → Bool)
    (mk : List α → Obj F)
    (hsel : ∀ d js, (mk d).selectAt js = mk (js.map fun j => d.getD j na))
    (hlen : ∀ d, (mk d).Len = d.length)
    (hflags : ∀ d, (mk d).naFlags = d.map naOf)
    (hlike : ∀ d o, coerceLike (mk d) o = (coerce o).bind fun p => .ok (mk p))
    (os : List (Obj F))
    (hco : ∀ o ∈ os, ∃ p, coerce o = .ok p ∧ p.length = o.Len ∧ p.map naOf = o.naFlags) :
    ∃ parts, List.Forall₂ (fun o p => coerce o = .ok p) os parts ∧
      (mk parts.flatten).Len = (os.map Obj.Len).sum ∧
      ∀ j o, os[j]? = some o → ∃ c, coerceLike (mk parts.flatten) o = .ok c ∧
        c.naFlags = o.naFlags ∧
        (mk parts.flatten).selectAt ((List.range o.Len).map fun i => segmentStart os j + i) =
          c := by
  obtain ⟨parts, hparts⟩ := forall2_parts coerce
    (fun o p => p.length = o.Len ∧ p.map naOf = o.naFlags) os hco
  have hl := forall2_lengths _ (fun o p (h : coerce o = .ok p ∧ p.length = o.Len ∧
    p.map naOf = o.naFlags) => h.2.1) os parts hparts
  refine ⟨parts, hparts.imp fun _ _ h => h.1, ?_, ?_⟩
  · rw [hlen, List.length_flatten, hl]
  · intro j o hj
    obtain ⟨p, hpj, hp1, hp2, hp3⟩ := forall2_index _ os parts hparts j o hj
    refine ⟨mk p, ?_, ?_, ?_⟩
    · rw [hlike, hp1]; rfl
    · rw [hflags, hp3]
    · rw [hsel, List.map_map]
      have hs : segmentStart os j = ((parts.take j).map List.length).sum := by
        unfold segmentStart
        rw [List.map_take, List.map_take, hl]
      have := join_segment na parts j p hpj
      rw [← hp2, hs]
      exact congrArg mk this

omit [Float64 F] in
theorem typeRank_le_widestRank : ∀ (os : List (Obj F)) (o : Obj F), o ∈ os →
    typeRank o.Type ≤ widestRank os := by
  intro os
  induction os with
  | nil => intro o h; simp at h
  | cons x rest ih =>
    intro o h
    have hw : widestRank (x :: rest) = max (typeRank x.Type) (widestRank rest) := rfl
    rw [hw]
    rcases List.mem_cons.mp h with rfl | h
    · exact le_max_left _ _
    · exact le_trans (ih o h) (le_max_right _ _)

omit [Float64 F] in
theorem isNumeric_of_rank (o : Obj F) (h : o.isAtomic = true) (hr : typeRank o.Type < 3) :
    o.isNumeric = true := by
  cases o <;> simp [Obj.isAtomic] at h <;> first | rfl | simp [Obj.Type, typeRank] at hr

theorem coerceToIntVec_numeric (a : Obj F) (ha : a.isNumeric = true) :
    ∃ iv, coerceToIntVec a = .ok iv ∧ iv.length = a.Len ∧ iv.map (·.NA) = a.naFlags := by
  cases a <;> simp [Obj.isNumeric] at ha
  · refine ⟨_, rfl, by simp [Obj.Len], ?_⟩
    simp only [Obj.naFlags, List.map_map]
    apply List.map_congr_left
    intro e _
    by_cases h : e.NA = true <;> by_cases h2 : e.Val = true <;> simp [h, h2, IntElem.na]
  · exact ⟨_, rfl, by simp [Obj.Len], rfl⟩
  · refine ⟨_, rfl, by simp [Obj.Len], ?_⟩
    simp only [Obj.naFlags, List.map_map]
    apply List.map_congr_left
    intro e _
    by_cases h : e.NA = true <;> simp [h, IntElem.na]

end CombineLemmas

section Combine

variable {F : Type} [Float64 F]

/-- C30: `c(...)` on atomic vectors. If forcing the arguments gives, in the
store `st1`, values `os` that are all atomic vectors, then `builtinC` allocates
a new vector `r` in `st1` and returns it; `r` is atomic and has no attributes;
its type is the widest among the types of `os` in the order logical, integer,
double, character (logical when there is no argument); its length is the sum
of the lengths; and for every argument `o` at position `j`, the elements of `r`
from `segmentStart os j` on are `o` coerced to the type of `r` (`coerceLike`),
with the NA flags of `o`. -/
theorem builtinC_atomic (ev : Evaluator F) (args fargs : List ArgValue) (os : List (Obj F))
    (st st1 : Store F)
    (hforce : forceArgs (Force ev) args st = (.ok fargs, st1))
    (hos : List.Forall₂ (fun a o => st1.deref a.Val = some o ∧ o.isAtomic = true) fargs os) :
    ∃ r : Obj F,
      builtinC (Force ev) args st = (.ok (st1.alloc r).1, (st1.alloc r).2) ∧
      (st1.alloc r).2.deref (st1.alloc r).1 = some r ∧
      r.isAtomic = true ∧ r.attrs = [] ∧
      typeRank r.Type = widestRank os ∧
      r.Len = (os.map Obj.Len).sum ∧
      ∀ j o, os[j]? = some o → ∃ c, coerceLike r o = .ok c ∧ c.naFlags = o.naFlags ∧
        r.selectAt ((List.range o.Len).map fun i => segmentStart os j + i) = c := by
  have hat : ∀ o ∈ os, o.isAtomic = true := by
    intro o ho
    obtain ⟨j, hj⟩ := List.getElem?_of_mem ho
    obtain ⟨a, _, ha⟩ := forall2_index _ os fargs hos.flip j o hj
    exact ha.2
  obtain ⟨h2, hname, hrank⟩ := cTarget_atomic os "logical" hat (Or.inl rfl)
  have hrank' : typeRank (cTarget os ("logical", false)).1 = widestRank os := by
    rw [hrank]; simp [typeRank]
  have hd := derefArgs_atomic st1 fargs os hos
  have hderef : ∀ r : Obj F, (st1.alloc r).2.deref (st1.alloc r).1 = some r := by
    intro r; simp [Store.alloc, Store.deref]
  have hnum : typeRank (cTarget os ("logical", false)).1 < 3 → ∀ o ∈ os, o.isNumeric = true :=
    fun h o ho => isNumeric_of_rank o (hat o ho)
      (lt_of_le_of_lt (typeRank_le_widestRank os o ho) (hrank' ▸ h))
  have hb : builtinC (Force ev) args st =
      (if (cTarget os ("logical", false)).1 = "character" then
        (cCollect (Force ev) asCharVec fargs []).bind fun out => M.alloc (.CharVec out [])
      else if (cTarget os ("logical", false)).1 = "double" then
        (cCollect (Force ev) asDoubleVec fargs []).bind fun out => M.alloc (.DoubleVec out [])
      else if (cTarget os ("logical", false)).1 = "integer" then
        (cCollect (Force ev) coerceToIntVec fargs []).bind fun out => M.alloc (.IntVec out [])
      else (cCollect (Force ev) asLogicalVec fargs []).bind fun out =>
        M.alloc (.LogicalVec out [])) st1 := by
    unfold builtinC
    simp only [M.bind, hforce, hd, h2, Bool.false_eq_true, if_false]
  rcases hname with hn | hn | hn | hn
  · -- logical
    have hlt : typeRank (cTarget os ("logical", false)).1 < 3 := by rw [hn]; simp [typeRank]
    obtain ⟨parts, hparts, hlen, hel⟩ := combine_elements asLogicalVec LogicalElem.na
      (fun e => e.NA) (fun d => Obj.LogicalVec d []) (fun _ _ => rfl) (fun _ => rfl)
      (fun _ => rfl) (fun _ _ => rfl) os
      (fun o ho => asLogicalVec_numeric o (hnum hlt o ho))
    refine ⟨.LogicalVec parts.flatten [], ?_, hderef _, rfl, rfl, ?_, hlen, hel⟩
    · rw [hb, hn]
      simp only [show ("logical" : String) ≠ "character" by decide,
        show ("logical" : String) ≠ "double" by decide,
        show ("logical" : String) ≠ "integer" by decide, if_false, M.bind,
        cCollect_atomic ev asLogicalVec st1 fargs os parts [] hos hparts, List.nil_append,
        M.alloc]
    · rw [← hrank', hn]; rfl
  · -- integer
    have hlt : typeRank (cTarget os ("logical", false)).1 < 3 := by rw [hn]; simp [typeRank]
    obtain ⟨parts, hparts, hlen, hel⟩ := combine_elements coerceToIntVec IntElem.na
      (fun e => e.NA) (fun d => Obj.IntVec d []) (fun _ _ => rfl) (fun _ => rfl)
      (fun _ => rfl) (fun _ _ => rfl) os
      (fun o ho => coerceToIntVec_numeric o (hnum hlt o ho))
    refine ⟨.IntVec parts.flatten [], ?_, hderef _, rfl, rfl, ?_, hlen, hel⟩
    · rw [hb, hn]
      simp only [show ("integer" : String) ≠ "character" by decide,
        show ("integer" : String) ≠ "double" by decide, if_false, if_true, M.bind,
        cCollect_atomic ev coerceToIntVec st1 fargs os parts [] hos hparts, List.nil_append,
        M.alloc]
    · rw [← hrank', hn]; rfl
  · -- double
    have hlt : typeRank (cTarget os ("logical", false)).1 < 3 := by rw [hn]; simp [typeRank]
    obtain ⟨parts, hparts, hlen, hel⟩ := combine_elements asDoubleVec (FloatElem.na (F := F))
      (fun e => e.NA) (fun d => Obj.DoubleVec d []) (fun _ _ => rfl) (fun _ => rfl)
      (fun _ => rfl) (fun _ _ => rfl) os
      (fun o ho => asDoubleVec_numeric o (hnum hlt o ho))
    refine ⟨.DoubleVec parts.flatten [], ?_, hderef _, rfl, rfl, ?_, hlen, hel⟩
    · rw [hb, hn]
      simp only [show ("double" : String) ≠ "character" by decide, if_false, if_true, M.bind,
        cCollect_atomic ev asDoubleVec st1 fargs os parts [] hos hparts, List.nil_append,
        M.alloc]
    · rw [← hrank', hn]; rfl
  · -- character
    obtain ⟨parts, hparts, hlen, hel⟩ := combine_elements asCharVec StringElem.na
      (fun e => e.NA) (fun d => Obj.CharVec (F := F) d []) (fun _ _ => rfl) (fun _ => rfl)
      (fun _ => rfl) (fun _ _ => rfl) os
      (fun o ho => asCharVec_atomic o (hat o ho))
    refine ⟨.CharVec parts.flatten [], ?_, hderef _, rfl, rfl, ?_, hlen, hel⟩
    · rw [hb, hn]
      simp only [if_true, M.bind,
        cCollect_atomic ev asCharVec st1 fargs os parts [] hos hparts, List.nil_append,
        M.alloc]
    · rw [← hrank', hn]; rfl

end Combine

/-- C30 at `c` of the logical vector `TRUE NA` and the integer vector `2`:
the result is the integer vector `1 NA 2`; and `c(TRUE, 2, NA, "a")` evaluates
to a character vector that keeps the NA. -/
theorem builtinC_atomic_witness :
    (forceArgs (Force (Eval sampleBuiltins 3)) [⟨"", .addr 0⟩, ⟨"", .addr 1⟩] combineStore =
        (.ok [⟨"", .addr 0⟩, ⟨"", .addr 1⟩], combineStore) ∧
      List.Forall₂ (fun (a : ArgValue) (o : Obj Whole) =>
          combineStore.deref a.Val = some o ∧ o.isAtomic = true)
        [⟨"", .addr 0⟩, ⟨"", .addr 1⟩] combineValues) ∧
    (∃ r : Obj Whole,
      builtinC (Force (Eval sampleBuiltins 3)) [⟨"", .addr 0⟩, ⟨"", .addr 1⟩] combineStore =
        (.ok (combineStore.alloc r).1, (combineStore.alloc r).2) ∧
      (combineStore.alloc r).2.deref (combineStore.alloc r).1 = some r ∧
      r.isAtomic = true ∧ r.attrs = [] ∧
      typeRank r.Type = widestRank combineValues ∧
      r.Len = (combineValues.map Obj.Len).sum ∧
      ∀ j o, combineValues[j]? = some o →
        ∃ c, coerceLike r o = .ok c ∧ c.naFlags = o.naFlags ∧
          r.selectAt ((List.range o.Len).map fun i => segmentStart combineValues j + i) = c) ∧
    builtinC (Force (Eval sampleBuiltins 3)) [⟨"", .addr 0⟩, ⟨"", .addr 1⟩] combineStore =
      (.ok (.addr 2), (combineStore.alloc
        (.IntVec [⟨1, false⟩, IntElem.na, ⟨2, false⟩] [])).2) ∧
    (∃ v st, EvalString sampleBuiltins asciiLib 8 0 "c(TRUE, 2, NA, \"a\")" builtinContext =
        (.ok (⟨v, ""⟩, none), st) ∧
      valueString asciiLib (fun _ => "") st 2 v = .ok "\"TRUE\" \"2\" NA \"a\"") :=
  ⟨⟨rfl, .cons ⟨rfl, rfl⟩ (.cons ⟨rfl, rfl⟩ .nil)⟩,
    builtinC_atomic (Eval sampleBuiltins 3) [⟨"", .addr 0⟩, ⟨"", .addr 1⟩]
      [⟨"", .addr 0⟩, ⟨"", .addr 1⟩] combineValues
      combineStore combineStore rfl (.cons ⟨rfl, rfl⟩ (.cons ⟨rfl, rfl⟩ .nil)),
    rfl, ⟨_, _, rfl, rfl⟩⟩

/-! ### The built-ins on vectors, `%in%`, `[[<-` beyond the end, `tryCatch` and control signals, skipped tokens, `DebugTokens` -/

section CumulativeLemmas

variable {F : Type} [Float64 F]

omit [Float64 F] in
/-- A coercion applied to a value that is not a promise is the type switch on
the object, with the store unchanged. -/
theorem coerceArg_value {α : Type} (ev : Evaluator F) (coerce : Obj F → Res α) (st : Store F)
    (v : Ptr) (o : Obj F) (h : st.deref v = some o)
    (hn : ∀ e env f v er, o ≠ .Promise e env f v er) :
    coerceArg (Force ev) coerce v st = (coerce o, st) := by
  unfold coerceArg
  rw [M.bind_of_ok (Force_of_not_promise ev st v o h hn)]
  simp only [M.bind, M.deref, h, M.lift]

omit [Float64 F] in
theorem isNumeric_not_promise (o : Obj F) (h : o.isNumeric = true) :
    ∀ e env f v er, o ≠ .Promise e env f v er := by
  intro e env f v er hc
  subst hc
  simp [Obj.isNumeric] at h

/-- A cumulative built-in on an argument whose forced value coerces to `dv`
returns a new double vector that holds the output of its loop. -/
theorem cumulative_runs (usage : String) (step : F → F → F) (init : F) (ev : Evaluator F)
    (a : ArgValue) (v : Ptr) (x : Obj F) (dv : List (FloatElem F)) (st st1 : Store F)
    (hforce : Force ev a.Val st = (.ok v, st1)) (hv : st1.deref v = some x)
    (hn : ∀ e env f v er, x ≠ .Promise e env f v er) (hdv : asDoubleVec x = .ok dv) :
    cumulative usage step init (Force ev) [a] st =
      (.ok (st1.alloc (.DoubleVec (cumLoop step init dv) [])).1,
        (st1.alloc (.DoubleVec (cumLoop step init dv) [])).2) := by
  show ((Force ev a.Val).bind fun v =>
    (coerceArg (Force ev) asDoubleVec v).bind fun dv =>
      M.alloc (Obj.DoubleVec (cumLoop step init dv) [])) st = _
  rw [M.bind_of_ok hforce, M.bind_of_ok (by rw [coerceArg_value ev _ st1 v x hv hn, hdv])]
  rfl

theorem cumLoop_length (step : F → F → F) : ∀ (dv : List (FloatElem F)) (acc : F),
    (cumLoop step acc dv).length = dv.length := by
  intro dv
  induction dv with
  | nil => intro acc; rfl
  | cons e rest ih =>
    intro acc
    unfold cumLoop
    split
    · simp
    · simp [ih]

theorem cumLoop_na (step : F → F → F) : ∀ (dv : List (FloatElem F)) (acc : F) (i : Nat)
    (e : FloatElem F), (cumLoop step acc dv)[i]? = some e →
    (e.NA = true ↔ ∃ (j : Nat) (x : FloatElem F), j ≤ i ∧ dv[j]? = some x ∧ x.NA = true) := by
  intro dv
  induction dv with
  | nil => intro acc i e h; simp [cumLoop] at h
  | cons x rest ih =>
    intro acc i e h
    unfold cumLoop at h
    by_cases hx : x.NA = true
    · rw [if_pos hx] at h
      have he : e = FloatElem.na := by
        rw [List.getElem?_replicate] at h
        split at h
        · exact (Option.some.inj h).symm
        · cases h
      subst he
      exact ⟨fun _ => ⟨0, x, Nat.zero_le _, by simp, hx⟩, fun _ => rfl⟩
    · rw [if_neg hx] at h
      cases i with
      | zero =>
        have he : e = ⟨step acc x.Val, false⟩ := by simpa using h.symm
        subst he
        constructor
        · intro hc; cases hc
        · rintro ⟨j, y, hj, hy, hna⟩
          obtain rfl : j = 0 := by omega
          have : y = x := by simpa using hy.symm
          subst this
          exact absurd hna hx
      | succ i =>
        have h2 : (cumLoop step (step acc x.Val) rest)[i]? = some e := by simpa using h
        rw [ih _ i e h2]
        constructor
        · rintro ⟨j, y, hj, hy, hna⟩
          exact ⟨j + 1, y, by omega, by simpa using hy, hna⟩
        · rintro ⟨j, y, hj, hy, hna⟩
          cases j with
          | zero =>
            have : y = x := by simpa using hy.symm
            subst this
            exact absurd hna hx
          | succ j => exact ⟨j, y, by omega, by simpa using hy, hna⟩

/-- The running value of the loop before the first NA: the fold of the update
over the values so far. -/
theorem cumLoop_value (step : F → F → F) : ∀ (dv : List (FloatElem F)) (acc : F) (i : Nat)
    (e : FloatElem F), (cumLoop step acc dv)[i]? = some e →
    (∀ x ∈ dv.take (i + 1), x.NA = false) →
    e.Val = (valuesUpTo dv i).foldl step acc := by
  intro dv
  induction dv with
  | nil => intro acc i e h; simp [cumLoop] at h
  | cons x rest ih =>
    intro acc i e h hna
    have hx : x.NA = false := hna x (by simp)
    unfold cumLoop at h
    rw [if_neg (by simp [hx])] at h
    cases i with
    | zero =>
      have he : e = ⟨step acc x.Val, false⟩ := by simpa using h.symm
      subst he
      simp [valuesUpTo]
    | succ i =>
      have h2 : (cumLoop step (step acc x.Val) rest)[i]? = some e := by simpa using h
      have := ih (step acc x.Val) i e h2 (fun y hy => hna y (by simp [hy]))
      rw [this]
      simp [valuesUpTo]

omit [Float64 F] in
/-- The fold of "take the new value if the old one is less" over ordered
values keeps a largest value. -/
theorem foldl_pick_largest (less : F → F → Bool) (bot : F) :
    ∀ (rest seen : List F) (acc : F),
    OrdersFrom less bot (seen ++ rest) →
    ((seen = [] ∧ acc = bot) ∨ IsLargest less seen acc) →
    ((seen ++ rest = [] ∧ rest.foldl (fun m v => if less m v then v else m) acc = bot) ∨
      IsLargest less (seen ++ rest) (rest.foldl (fun m v => if less m v then v else m) acc)) := by
  intro rest
  induction rest with
  | nil =>
    intro seen acc _ h
    simpa using h
  | cons v rest ih =>
    intro seen acc hord hinv
    have hord' : OrdersFrom less bot ((seen ++ [v]) ++ rest) := by simpa using hord
    have key := ih (seen ++ [v]) (if less acc v then v else acc) hord' ?_
    · simpa using key
    · right
      obtain ⟨hirr, htr, hbot⟩ := hord
      have hvm : v ∈ seen ++ v :: rest := by simp
      have hsm : ∀ u ∈ seen, u ∈ seen ++ v :: rest := fun u hu => by simp [hu]
      rcases hinv with ⟨rfl, rfl⟩ | ⟨hmem, hmax⟩
      · rcases hbot v hvm with hlt | heq
        · rw [if_pos hlt]
          exact ⟨by simp, fun u hu => by
            have : u = v := by simpa using hu
            subst this
            exact hirr u hvm⟩
        · subst heq
          have : (if less v v = true then v else v) = v := by split <;> rfl
          rw [this]
          exact ⟨by simp, fun u hu => by
            have : u = v := by simpa using hu
            subst this
            exact hirr u hvm⟩
      · by_cases hlt : less acc v = true
        · rw [if_pos hlt]
          refine ⟨by simp, fun u hu => ?_⟩
          rcases List.mem_append.mp hu with hu | hu
          · cases huv : less v u
            · rfl
            · have := htr acc (hsm acc hmem) v hvm u (hsm u hu) hlt huv
              rw [hmax u hu] at this
              cases this
          · have : u = v := by simpa using hu
            subst this
            exact hirr u hvm
        · rw [if_neg hlt]
          refine ⟨by simp [hmem], fun u hu => ?_⟩
          rcases List.mem_append.mp hu with hu | hu
          · exact hmax u hu
          · have : u = v := by simpa using hu
            subst this
            simpa using hlt

omit [Float64 F] in
theorem foldl_pick_nonempty (less : F → F → Bool) (bot : F) (vals : List F) (hne : vals ≠ [])
    (hord : OrdersFrom less bot vals) :
    IsLargest less vals (vals.foldl (fun m v => if less m v then v else m) bot) := by
  have := foldl_pick_largest less bot vals [] bot (by simpa using hord) (Or.inl ⟨rfl, rfl⟩)
  rcases this with ⟨h, _⟩ | h
  · exact absurd (by simpa using h) hne
  · simpa using h

omit [Float64 F] in
theorem valuesUpTo_ne_nil (dv : List (FloatElem F)) (i : Nat) (e : FloatElem F)
    (h : dv[i]? = some e) : valuesUpTo dv i ≠ [] := by
  cases dv with
  | nil => simp at h
  | cons x rest => simp [valuesUpTo]

end CumulativeLemmas

section Cumulative

variable {F : Type} [Float64 F] [GoMath F]

/-- C31 (amended): the cumulative built-ins on a numeric vector. If forcing
the argument gives, in the store `st1`, a logical, integer or double vector
`x`, then `x` coerces to doubles `dv` of the same length with the same NA
flags, and each of `cumsum`, `cumprod`, `cummax` and `cummin` returns a new
double vector without attributes, allocated in `st1`. Each output has the
length of `dv`, and its element at a position is NA exactly when `dv` has an
NA at that position or before it. For a position `i` with no NA up to it whose
values up to `i` are ordered by `<` as floats other than NaN are (no value is
less than itself, `<` is transitive, and negative infinity is less than every
value other than itself), the element of `cummax` at `i` is a largest of the
values up to `i`: it is one of them, and it is less than none of them. The
same holds for `cummin` with `>` in place of `<` and positive infinity. -/
theorem cumulative_contract (ev : Evaluator F) (a : ArgValue) (v : Ptr) (x : Obj F)
    (st st1 : Store F)
    (hforce : Force ev a.Val st = (.ok v, st1)) (hv : st1.deref v = some x)
    (hnum : x.isNumeric = true) :
    ∃ dv sums prods maxs mins : List (FloatElem F),
      asDoubleVec x = .ok dv ∧ dv.length = x.Len ∧ dv.map (fun e => e.NA) = x.naFlags ∧
      builtinCumsum (Force ev) [a] st =
        (.ok (st1.alloc (.DoubleVec sums [])).1, (st1.alloc (.DoubleVec sums [])).2) ∧
      builtinCumprod (Force ev) [a] st =
        (.ok (st1.alloc (.DoubleVec prods [])).1, (st1.alloc (.DoubleVec prods [])).2) ∧
      builtinCummax (Force ev) [a] st =
        (.ok (st1.alloc (.DoubleVec maxs [])).1, (st1.alloc (.DoubleVec maxs [])).2) ∧
      builtinCummin (Force ev) [a] st =
        (.ok (st1.alloc (.DoubleVec mins [])).1, (st1.alloc (.DoubleVec mins [])).2) ∧
      NAFromFirst dv sums ∧ NAFromFirst dv prods ∧ NAFromFirst dv maxs ∧ NAFromFirst dv mins ∧
      (∀ (i : Nat) (e : FloatElem F), maxs[i]? = some e →
        (∀ y ∈ dv.take (i + 1), y.NA = false) →
        OrdersFrom (fun p q => Float64.lt p q) (GoMath.Inf (-1)) (valuesUpTo dv i) →
        IsLargest (fun p q => Float64.lt p q) (valuesUpTo dv i) e.Val) ∧
      (∀ (i : Nat) (e : FloatElem F), mins[i]? = some e →
        (∀ y ∈ dv.take (i + 1), y.NA = false) →
        OrdersFrom (fun p q => Float64.lt q p) (GoMath.Inf 1) (valuesUpTo dv i) →
        IsLargest (fun p q => Float64.lt q p) (valuesUpTo dv i) e.Val) := by
  obtain ⟨dv, hdv, hlen, hna⟩ := asDoubleVec_numeric x hnum
  have hnp := isNumeric_not_promise x hnum
  have hrun := fun usage step init =>
    cumulative_runs usage step init ev a v x dv st st1 hforce hv hnp hdv
  have hNA : ∀ (step : F → F → F) (init : F), NAFromFirst dv (cumLoop step init dv) :=
    fun step init => ⟨cumLoop_length step dv init, cumLoop_na step dv init⟩
  have hnonempty : ∀ (step : F → F → F) (init : F) (i : Nat) (e : FloatElem F),
      (cumLoop step init dv)[i]? = some e → valuesUpTo dv i ≠ [] := by
    intro step init i e h
    have hi : i < dv.length := by
      have := (List.getElem?_eq_some_iff.mp h).1
      rwa [cumLoop_length] at this
    exact valuesUpTo_ne_nil dv i _ (List.getElem?_eq_getElem hi)
  refine ⟨dv, _, _, _, _, hdv, hlen, hna, hrun _ _ _, hrun _ _ _, hrun _ _ _, hrun _ _ _,
    hNA _ _, hNA _ _, hNA _ _, hNA _ _, ?_, ?_⟩
  · intro i e h hnona hord
    rw [cumLoop_value maxStep dv _ i e h hnona]
    exact foldl_pick_nonempty _ _ _ (hnonempty _ _ i e h) hord
  · intro i e h hnona hord
    rw [cumLoop_value minStep dv _ i e h hnona]
    exact foldl_pick_nonempty (fun p q => Float64.lt q p) _ _ (hnonempty _ _ i e h) hord

end Cumulative

/-- C31 (amended) at the double vector `1 3 2 NA`: the hypotheses hold, the
values `1 3 2` are ordered, and the four built-ins return `1 4 6 NA`,
`1 3 6 NA`, `1 3 3 NA` and `1 1 1 NA`; the four calls of `TestCumulative`
evaluate to the renderings that the test expects, and `cummax(c(1, NA, 3))`
to `1 NA NA`. -/
theorem cumulative_contract_witness :
    (Force (Eval extendedBuiltins 3) (.addr 0) cumulativeStore = (.ok (.addr 0), cumulativeStore) ∧
      cumulativeStore.deref (.addr 0) =
        some (.DoubleVec [⟨.fin 1, false⟩, ⟨.fin 3, false⟩, ⟨.fin 2, false⟩, FloatElem.na] []) ∧
      OrdersFrom (fun p q => Float64.lt p q) (GoMath.Inf (-1))
        (valuesUpTo [⟨Extended.fin 1, false⟩, ⟨.fin 3, false⟩, ⟨.fin 2, false⟩, FloatElem.na] 2) ∧
      OrdersFrom (fun p q => Float64.lt q p) (GoMath.Inf 1)
        (valuesUpTo [⟨Extended.fin 1, false⟩, ⟨.fin 3, false⟩, ⟨.fin 2, false⟩, FloatElem.na] 2)) ∧
    (∃ dv sums prods maxs mins : List (FloatElem Extended),
      asDoubleVec (.DoubleVec [⟨.fin 1, false⟩, ⟨.fin 3, false⟩, ⟨.fin 2, false⟩, FloatElem.na] []) =
        .ok dv ∧
      dv.length = (Obj.DoubleVec [⟨Extended.fin 1, false⟩, ⟨.fin 3, false⟩, ⟨.fin 2, false⟩,
        FloatElem.na] []).Len ∧
      dv.map (fun e => e.NA) = (Obj.DoubleVec [⟨Extended.fin 1, false⟩, ⟨.fin 3, false⟩,
        ⟨.fin 2, false⟩, FloatElem.na] []).naFlags ∧
      builtinCumsum (Force (Eval extendedBuiltins 3)) [⟨"", .addr 0⟩] cumulativeStore =
        (.ok (cumulativeStore.alloc (.DoubleVec sums [])).1,
          (cumulativeStore.alloc (.DoubleVec sums [])).2) ∧
      builtinCumprod (Force (Eval extendedBuiltins 3)) [⟨"", .addr 0⟩] cumulativeStore =
        (.ok (cumulativeStore.alloc (.DoubleVec prods [])).1,
          (cumulativeStore.alloc (.DoubleVec prods [])).2) ∧
      builtinCummax (Force (Eval extendedBuiltins 3)) [⟨"", .addr 0⟩] cumulativeStore =
        (.ok (cumulativeStore.alloc (.DoubleVec maxs [])).1,
          (cumulativeStore.alloc (.DoubleVec maxs [])).2) ∧
      builtinCummin (Force (Eval extendedBuiltins 3)) [⟨"", .addr 0⟩] cumulativeStore =
        (.ok (cumulativeStore.alloc (.DoubleVec mins [])).1,
          (cumulativeStore.alloc (.DoubleVec mins [])).2) ∧
      NAFromFirst dv sums ∧ NAFromFirst dv prods ∧ NAFromFirst dv maxs ∧ NAFromFirst dv mins ∧
      (∀ (i : Nat) (e : FloatElem Extended), maxs[i]? = some e →
        (∀ y ∈ dv.take (i + 1), y.NA = false) →
        OrdersFrom (fun p q => Float64.lt p q) (GoMath.Inf (-1)) (valuesUpTo dv i) →
        IsLargest (fun p q => Float64.lt p q) (valuesUpTo dv i) e.Val) ∧
      (∀ (i : Nat) (e : FloatElem Extended), mins[i]? = some e →
        (∀ y ∈ dv.take (i + 1), y.NA = false) →
        OrdersFrom (fun p q => Float64.lt q p) (GoMath.Inf 1) (valuesUpTo dv i) →
        IsLargest (fun p q => Float64.lt q p) (valuesUpTo dv i) e.Val)) ∧
    builtinCumsum (Force (Eval extendedBuiltins 3)) [⟨"", .addr 0⟩] cumulativeStore =
      (.ok (.addr 1), (cumulativeStore.alloc (.DoubleVec
        [⟨.fin 1, false⟩, ⟨.fin 4, false⟩, ⟨.fin 6, false⟩, FloatElem.na] [])).2) ∧
    builtinCumprod (Force (Eval extendedBuiltins 3)) [⟨"", .addr 0⟩] cumulativeStore =
      (.ok (.addr 1), (cumulativeStore.alloc (.DoubleVec
        [⟨.fin 1, false⟩, ⟨.fin 3, false⟩, ⟨.fin 6, false⟩, FloatElem.na] [])).2) ∧
    builtinCummax (Force (Eval extendedBuiltins 3)) [⟨"", .addr 0⟩] cumulativeStore =
      (.ok (.addr 1), (cumulativeStore.alloc (.DoubleVec
        [⟨.fin 1, false⟩, ⟨.fin 3, false⟩, ⟨.fin 3, false⟩, FloatElem.na] [])).2) ∧
    builtinCummin (Force (Eval extendedBuiltins 3)) [⟨"", .addr 0⟩] cumulativeStore =
      (.ok (.addr 1), (cumulativeStore.alloc (.DoubleVec
        [⟨.fin 1, false⟩, ⟨.fin 1, false⟩, ⟨.fin 1, false⟩, FloatElem.na] [])).2) ∧
    runSource 8 "cumsum(c(1, 2, 3, 4))" = .value "1 3 6 10" ∧
    runSource 8 "cumprod(c(1, 2, 3, 4))" = .value "1 2 6 24" ∧
    runSource 8 "cummax(c(1, 3, 2, 5))" = .value "1 3 3 5" ∧
    runSource 8 "cummin(c(5, 3, 4, 1))" = .value "5 3 3 1" ∧
    runSource 8 "cummax(c(1, NA, 3))" = .value "1 NA NA" :=
  ⟨⟨rfl, rfl, by decide, by decide⟩,
    cumulative_contract (Eval extendedBuiltins 3) ⟨"", .addr 0⟩ (.addr 0)
      (.DoubleVec [⟨.fin 1, false⟩, ⟨.fin 3, false⟩, ⟨.fin 2, false⟩, FloatElem.na] [])
      cumulativeStore cumulativeStore rfl rfl rfl,
    rfl, rfl, rfl, rfl, by decide!, by decide!, by decide!, by decide!, by decide!⟩

/-- C31 as stated fails for NaN: the comparison `e.Val > curMax` is false when
`e.Val` is NaN, so `cummax` of the double vector `NaN`, which holds no NA,
is negative infinity, and `cummin` of it is positive infinity; neither is an
element of the vector. `cummax(NaN)` renders as `-Inf`, `cummin(NaN)` as
`Inf`, and `cummax(c(NaN, 1))` as `-Inf 1`. -/
theorem cummax_nan_counterexample :
    builtinCummax (Force (Eval extendedBuiltins 3)) [⟨"", .addr 0⟩] nanStore =
      (.ok (.addr 1), (nanStore.alloc (.DoubleVec [⟨Extended.negInf, false⟩] [])).2) ∧
    builtinCummin (Force (Eval extendedBuiltins 3)) [⟨"", .addr 0⟩] nanStore =
      (.ok (.addr 1), (nanStore.alloc (.DoubleVec [⟨Extended.posInf, false⟩] [])).2) ∧
    ¬ IsLargest (fun p q => Float64.lt p q) (valuesUpTo [⟨Extended.nan, false⟩] 0)
      Extended.negInf ∧
    ¬ IsLargest (fun p q => Float64.lt q p) (valuesUpTo [⟨Extended.nan, false⟩] 0)
      Extended.posInf ∧
    runSource 8 "cummax(NaN)" = .value "-Inf" ∧
    runSource 8 "cummin(NaN)" = .value "Inf" ∧
    runSource 8 "cummax(c(NaN, 1))" = .value "-Inf 1" :=
  ⟨rfl, rfl, by simp [IsLargest, valuesUpTo], by simp [IsLargest, valuesUpTo], by decide!,
    by decide!, by decide!⟩

section SortLemmas

variable {F : Type} [Float64 F]

omit [Float64 F] in
theorem ignoringError_ok {α : Type} (dflt : α) (m : M F α) (st st' : Store F) (a : α)
    (h : m st = (.ok a, st')) : ignoringError dflt m st = (.ok a, st') := by
  unfold ignoringError
  rw [h]

/-- The flag that `builtinSort` reads is the one described by `DecreasingFlag`. -/
theorem sortDecreasing_flag (ev : Evaluator F) (args : List ArgValue) (st1 st2 : Store F)
    (decreasing : Bool) (h : DecreasingFlag ev args st1 st2 decreasing) :
    sortDecreasing (Force ev) args st1 = (.ok decreasing, st2) := by
  unfold sortDecreasing
  rcases h with ⟨hn, rfl, rfl⟩ | ⟨dv, fv, fo, hn, hf, hd, hnp, hs⟩
  · rw [hn]; rfl
  · rw [hn]
    simp only
    rw [M.bind_of_ok (ignoringError_ok _ _ _ _ _ hf),
      M.bind_of_ok (ignoringError_ok _ _ _ _ _
        (by rw [coerceArg_value ev _ st2 fv fo hd hnp, hs]))]
    rfl

theorem strictWeakOn_flip {α : Type} (less : α → α → Bool) (xs : List α)
    (h : StrictWeakOn less xs) : StrictWeakOn (fun a b => less b a) xs := by
  obtain ⟨h1, h2, h3⟩ := h
  refine ⟨h1, fun a b c ha hb hc hab hbc => h2 c b a hc hb ha hbc hab,
    fun a b c ha hb hc h4 h5 h6 h7 => ?_⟩
  have := h3 a b c ha hb hc h5 h4 h7 h6
  exact ⟨this.2, this.1⟩

theorem strictWeakOn_key {α β : Type} [LinearOrder β] (val : α → β) (less : α → α → Bool)
    (hless : ∀ x y, less x y = true ↔ val x < val y) (xs : List α) : StrictWeakOn less xs := by
  have hf : ∀ x y, less x y = false ↔ val y ≤ val x := by
    intro x y
    rw [← not_lt, ← hless, Bool.not_eq_true]
  refine ⟨fun a _ => (hf a a).mpr le_rfl, fun a b c _ _ _ hab hbc => ?_,
    fun a b c _ _ _ h1 h2 h3 h4 => ?_⟩
  · rw [hless] at hab hbc ⊢
    exact lt_trans hab hbc
  · rw [hf] at h1 h2 h3 h4 ⊢
    rw [hf]
    exact ⟨le_trans h3 h1, le_trans h2 h4⟩

/-- `sort.Slice` with the comparison of `builtinSort` on a key that is
linearly ordered: a permutation in which the keys do not decrease, or do not
increase when `decreasing` is set. -/
theorem sort_by_key {α β : Type} [LinearOrder β] (S : SortSlice) (val : α → β)
    (less : α → α → Bool) (hless : ∀ x y, less x y = true ↔ val x < val y)
    (decreasing : Bool) (xs : List α) :
    (S.sort (fun x y => if decreasing then less y x else less x y) xs).Perm xs ∧
    (S.sort (fun x y => if decreasing then less y x else less x y) xs).Pairwise
      (fun p q => if decreasing then val q ≤ val p else val p ≤ val q) := by
  have hf : ∀ x y, less x y = false ↔ val y ≤ val x := by
    intro x y
    rw [← not_lt, ← hless, Bool.not_eq_true]
  refine ⟨S.perm _ _, ?_⟩
  cases decreasing with
  | false =>
    simp only [Bool.false_eq_true, if_false]
    exact (S.sorted _ xs (strictWeakOn_key val less hless xs)).imp (fun h => (hf _ _).mp h)
  | true =>
    simp only [if_true]
    exact (S.sorted _ xs (strictWeakOn_flip _ xs (strictWeakOn_key val less hless xs))).imp
      (fun h => (hf _ _).mp h)

/-- `sort.Slice` with the comparison of `builtinSort` on doubles that `<`
orders strictly weakly. -/
theorem sort_doubles (S : SortSlice) (decreasing : Bool) (xs : List (FloatElem F))
    (h : StrictWeakOn (fun p q : FloatElem F => Float64.lt p.Val q.Val) xs) :
    (S.sort (fun x y : FloatElem F =>
        if decreasing then Float64.lt y.Val x.Val else Float64.lt x.Val y.Val) xs).Perm xs ∧
    (S.sort (fun x y : FloatElem F =>
        if decreasing then Float64.lt y.Val x.Val else Float64.lt x.Val y.Val) xs).Pairwise
      (fun p q => if decreasing then Float64.lt p.Val q.Val = false
        else Float64.lt q.Val p.Val = false) := by
  refine ⟨S.perm _ _, ?_⟩
  cases decreasing with
  | false =>
    simp only [Bool.false_eq_true, if_false]
    exact S.sorted _ xs h
  | true =>
    simp only [if_true]
    exact S.sorted _ xs (strictWeakOn_flip _ xs h)

end SortLemmas

section SortClaim

variable {F : Type} [Float64 F]

/-- C32: `sort(x)` and `sort(x, decreasing = ...)`. Let forcing the first
argument give the value `x`, and let `decreasing` be the flag as
`DecreasingFlag` describes it: false when no argument has that name, else the
logical value, not NA, of that argument. If `x` is an integer vector,
`builtinSort` returns a new integer vector without attributes whose elements
are a permutation of the elements of `x` that are not NA (so multiplicities
are kept), and in which no later element is smaller than an earlier one, or
larger when `decreasing` is true. The same holds for a character vector with
the order `<` of strings. For a double vector the result is a new double
vector whose elements are a permutation of the elements of `x` that are not
NA, and it is ordered in the same way when `<` orders these elements strictly
weakly; that is what `sort.Slice` asks of its comparison, and it holds for
doubles other than NaN. -/
theorem builtinSort_sorts (S : SortSlice) (ev : Evaluator F) (a : ArgValue)
    (rest : List ArgValue) (v : Ptr) (x : Obj F) (st st1 st2 : Store F) (decreasing : Bool)
    (hforce : Force ev a.Val st = (.ok v, st1))
    (hflag : DecreasingFlag ev (a :: rest) st1 st2 decreasing)
    (hv : st2.deref v = some x) :
    (∀ d attrs, x = .IntVec d attrs → ∃ out,
      builtinSort S (Force ev) (a :: rest) st =
        (.ok (st2.alloc (.IntVec out [])).1, (st2.alloc (.IntVec out [])).2) ∧
      out.Perm (d.filter fun e => !e.NA) ∧
      out.Pairwise (fun p q => if decreasing then q.Val ≤ p.Val else p.Val ≤ q.Val)) ∧
    (∀ d attrs, x = .CharVec d attrs → ∃ out,
      builtinSort S (Force ev) (a :: rest) st =
        (.ok (st2.alloc (.CharVec out [])).1, (st2.alloc (.CharVec out [])).2) ∧
      out.Perm (d.filter fun e => !e.NA) ∧
      out.Pairwise (fun p q => if decreasing then ¬ p.Val < q.Val else ¬ q.Val < p.Val)) ∧
    (∀ d attrs, x = .DoubleVec d attrs → ∃ out,
      builtinSort S (Force ev) (a :: rest) st =
        (.ok (st2.alloc (.DoubleVec out [])).1, (st2.alloc (.DoubleVec out [])).2) ∧
      out.Perm (d.filter fun e => !e.NA) ∧
      (StrictWeakOn (fun p q : FloatElem F => Float64.lt p.Val q.Val)
          (d.filter fun e => !e.NA) →
        out.Pairwise (fun p q => if decreasing then Float64.lt p.Val q.Val = false
          else Float64.lt q.Val p.Val = false))) := by
  have hrun : builtinSort S (Force ev) (a :: rest) st = sortSwitch S decreasing x st2 := by
    show ((Force ev a.Val).bind fun v => (sortDecreasing (Force ev) (a :: rest)).bind _) st = _
    rw [M.bind_of_ok hforce, M.bind_of_ok (sortDecreasing_flag ev _ st1 st2 decreasing hflag)]
    simp only [M.bind, M.deref, hv]
  refine ⟨?_, ?_, ?_⟩
  · rintro d attrs rfl
    obtain ⟨hp, hs⟩ := sort_by_key S (fun e : IntElem => e.Val)
      (fun x y => decide (x.Val < y.Val)) (fun x y => by simp) decreasing
      (d.filter fun e => !e.NA)
    refine ⟨_, ?_, hp, hs⟩
    rw [hrun]
    rfl
  · rintro d attrs rfl
    obtain ⟨hp, hs⟩ := sort_by_key S (fun e : StringElem => e.Val)
      (fun x y => decide (x.Val < y.Val)) (fun x y => by simp) decreasing
      (d.filter fun e => !e.NA)
    refine ⟨_, ?_, hp, hs.imp (fun h => ?_)⟩
    · rw [hrun]
      rfl
    · cases decreasing <;> simpa using h
  · rintro d attrs rfl
    refine ⟨_, ?_, S.perm _ _,
      fun hord => (sort_doubles S decreasing (d.filter fun e => !e.NA) hord).2⟩
    rw [hrun]
    rfl

end SortClaim

/-- C32 at the double vector `3 NA 1 2` with `decreasing = TRUE`: the
hypotheses hold, and `builtinSort` with insertion sort for `sort.Slice`
returns `3 2 1`, and `1 2 3` without the flag; the two calls of `TestSort`
evaluate to `1 2 3` and `3 2 1`, an integer vector with NA and a repeated
element is sorted to `2 3 3`, and character vectors are sorted both ways. -/
theorem builtinSort_sorts_witness :
    (Force (Eval extendedBuiltins 3) (.addr 0) sortStore = (.ok (.addr 0), sortStore) ∧
      DecreasingFlag (Eval extendedBuiltins 3) [⟨"", .addr 0⟩, ⟨"decreasing", .addr 1⟩]
        sortStore sortStore true ∧
      sortStore.deref (.addr 0) = some
        (.DoubleVec [⟨.fin 3, false⟩, FloatElem.na, ⟨.fin 1, false⟩, ⟨.fin 2, false⟩] []) ∧
      StrictWeakOn (fun p q : FloatElem Extended => Float64.lt p.Val q.Val)
        ([⟨.fin 3, false⟩, FloatElem.na, ⟨.fin 1, false⟩, ⟨.fin 2, false⟩].filter
          fun e => !e.NA)) ∧
    ((∀ d attrs, (Obj.DoubleVec [⟨.fin 3, false⟩, FloatElem.na, ⟨.fin 1, false⟩, ⟨.fin 2, false⟩]
          [] : Obj Extended) = .IntVec d attrs → ∃ out,
        builtinSort goInsertionSort (Force (Eval extendedBuiltins 3))
            [⟨"", .addr 0⟩, ⟨"decreasing", .addr 1⟩] sortStore =
          (.ok (sortStore.alloc (.IntVec out [])).1, (sortStore.alloc (.IntVec out [])).2) ∧
        out.Perm (d.filter fun e => !e.NA) ∧
        out.Pairwise (fun p q => if true then q.Val ≤ p.Val else p.Val ≤ q.Val)) ∧
      (∀ d attrs, (Obj.DoubleVec [⟨.fin 3, false⟩, FloatElem.na, ⟨.fin 1, false⟩, ⟨.fin 2, false⟩]
          [] : Obj Extended) = .CharVec d attrs → ∃ out,
        builtinSort goInsertionSort (Force (Eval extendedBuiltins 3))
            [⟨"", .addr 0⟩, ⟨"decreasing", .addr 1⟩] sortStore =
          (.ok (sortStore.alloc (.CharVec out [])).1, (sortStore.alloc (.CharVec out [])).2) ∧
        out.Perm (d.filter fun e => !e.NA) ∧
        out.Pairwise (fun p q => if true then ¬ p.Val < q.Val else ¬ q.Val < p.Val)) ∧
      (∀ d attrs, (Obj.DoubleVec [⟨.fin 3, false⟩, FloatElem.na, ⟨.fin 1, false⟩, ⟨.fin 2, false⟩]
          [] : Obj Extended) = .DoubleVec d attrs → ∃ out,
        builtinSort goInsertionSort (Force (Eval extendedBuiltins 3))
            [⟨"", .addr 0⟩, ⟨"decreasing", .addr 1⟩] sortStore =
          (.ok (sortStore.alloc (.DoubleVec out [])).1,
            (sortStore.alloc (.DoubleVec out [])).2) ∧
        out.Perm (d.filter fun e => !e.NA) ∧
        (StrictWeakOn (fun p q : FloatElem Extended => Float64.lt p.Val q.Val)
            (d.filter fun e => !e.NA) →
          out.Pairwise (fun p q => if true then Float64.lt p.Val q.Val = false
            else Float64.lt q.Val p.Val = false)))) ∧
    builtinSort goInsertionSort (Force (Eval extendedBuiltins 3))
        [⟨"", .addr 0⟩, ⟨"decreasing", .addr 1⟩] sortStore =
      (.ok (.addr 2), (sortStore.alloc
        (.DoubleVec [⟨.fin 3, false⟩, ⟨.fin 2, false⟩, ⟨.fin 1, false⟩] [])).2) ∧
    builtinSort goInsertionSort (Force (Eval extendedBuiltins 3)) [⟨"", .addr 0⟩] sortStore =
      (.ok (.addr 2), (sortStore.alloc
        (.DoubleVec [⟨.fin 1, false⟩, ⟨.fin 2, false⟩, ⟨.fin 3, false⟩] [])).2) ∧
    runSource 8 "sort(c(3, 1, 2))" = .value "1 2 3" ∧
    runSource 8 "sort(c(3, 1, 2), decreasing=TRUE)" = .value "3 2 1" ∧
    runSource 8 "sort(c(3, NA, 2, 3))" = .value "2 3 3" ∧
    runSource 8 "sort(c(\"b\", NA, \"a\"))" = .value "\"a\" \"b\"" ∧
    runSource 8 "sort(c(\"b\", \"a\"), decreasing=TRUE)" = .value "\"b\" \"a\"" :=
  ⟨⟨rfl, Or.inr ⟨.addr 1, .addr 1, LogicalScalar true, rfl, rfl, rfl,
      (fun _ _ _ _ _ hc => by cases hc), rfl⟩, rfl, by
      refine ⟨?_, ?_, ?_⟩
      · intro a ha
        simp only [List.filter, FloatElem.na, Bool.not_true, Bool.not_false, List.mem_cons,
          List.mem_singleton, List.not_mem_nil, or_false] at ha
        rcases ha with rfl | rfl | rfl <;> decide
      · intro a b c ha hb hc
        simp only [List.filter, FloatElem.na, Bool.not_true, Bool.not_false, List.mem_cons,
          List.mem_singleton, List.not_mem_nil, or_false] at ha hb hc
        rcases ha with rfl | rfl | rfl <;> rcases hb with rfl | rfl | rfl <;>
          rcases hc with rfl | rfl | rfl <;> decide
      · intro a b c ha hb hc
        simp only [List.filter, FloatElem.na, Bool.not_true, Bool.not_false, List.mem_cons,
          List.mem_singleton, List.not_mem_nil, or_false] at ha hb hc
        rcases ha with rfl | rfl | rfl <;> rcases hb with rfl | rfl | rfl <;>
          rcases hc with rfl | rfl | rfl <;> decide⟩,
    builtinSort_sorts goInsertionSort (Eval extendedBuiltins 3) ⟨"", .addr 0⟩
      [⟨"decreasing", .addr 1⟩] (.addr 0)
      (.DoubleVec [⟨.fin 3, false⟩, FloatElem.na, ⟨.fin 1, false⟩, ⟨.fin 2, false⟩] [])
      sortStore sortStore sortStore true rfl
      (Or.inr ⟨.addr 1, .addr 1, LogicalScalar true, rfl, rfl, rfl,
        (fun _ _ _ _ _ hc => by cases hc), rfl⟩) rfl,
    rfl, rfl, by decide!, by decide!, by decide!, by decide!, by decide!⟩

/-- On the carrier with NaN and the infinities, `<` orders the elements of a
double vector strictly weakly when none of them is NaN. -/
theorem lt_strictWeak_without_nan (xs : List (FloatElem Extended))
    (h : ∀ e, e ∈ xs → e.Val ≠ Extended.nan) :
    StrictWeakOn (fun p q : FloatElem Extended => Float64.lt p.Val q.Val) xs := by
  have key : ∀ a b c : Extended, a ≠ .nan → b ≠ .nan → c ≠ .nan →
      Extended.lt a a = false ∧
      (Extended.lt a b = true → Extended.lt b c = true → Extended.lt a c = true) ∧
      (Extended.lt a b = false → Extended.lt b a = false → Extended.lt b c = false →
        Extended.lt c b = false → Extended.lt a c = false ∧ Extended.lt c a = false) := by
    intro a b c ha hb hc
    cases a <;> cases b <;> cases c <;> simp [Extended.lt] at ha hb hc ⊢
    omega
  refine ⟨fun a ha => ?_, fun a b c ha hb hc => ?_, fun a b c ha hb hc => ?_⟩
  · exact (key a.Val a.Val a.Val (h a ha) (h a ha) (h a ha)).1
  · exact (key a.Val b.Val c.Val (h a ha) (h b hb) (h c hc)).2.1
  · exact (key a.Val b.Val c.Val (h a ha) (h b hb) (h c hc)).2.2

/-- C32 as stated fails for a double vector that holds NaN. The insertion
sort that `sort.Slice` runs on a short slice leaves `NaN -Inf 1 NaN 0` as it
is, because no comparison with NaN is true: the result holds 1 before 0, so it
is not in non-decreasing order; and `1 NaN 2` sorted with `decreasing = TRUE`
stays as it is, with 2 after 1. -/
theorem sort_nan_counterexample :
    builtinSort goInsertionSort (Force (Eval extendedBuiltins 3)) [⟨"", .addr 0⟩] nanSortStore =
      (.ok (.addr 1), (nanSortStore.alloc (.DoubleVec [⟨.nan, false⟩, ⟨.negInf, false⟩,
        ⟨.fin 1, false⟩, ⟨.nan, false⟩, ⟨.fin 0, false⟩] [])).2) ∧
    Float64.lt (Extended.fin 0) (Extended.fin 1) = true ∧
    ¬ ([⟨.nan, false⟩, ⟨.negInf, false⟩, ⟨.fin 1, false⟩, ⟨.nan, false⟩, ⟨.fin 0, false⟩] :
        List (FloatElem Extended)).Pairwise (fun p q => Float64.lt q.Val p.Val = false) ∧
    runSource 20 "sort(c(NaN, -Inf, 1, NaN, 0))" = .value "NaN -Inf 1 NaN 0" ∧
    runSource 20 "sort(c(1, NaN, 2), decreasing = TRUE)" = .value "1 NaN 2" ∧
    runSource 20 "sort(c(-Inf, 0, 1))" = .value "-Inf 0 1" :=
  ⟨rfl, rfl, by decide, by decide!, by decide!, by decide!⟩

section UniqueLemmas

/-- The loop of the integer, character and logical cases of `builtinUnique`
appends no NA element. -/
theorem uniqueLoop_no_na {α β : Type} [DecidableEq β] (isNA : α → Bool) (val : α → β) :
    ∀ (d : List α) (seen : List β) (out : List α) (e : α),
      e ∈ uniqueLoop isNA val d seen out → e ∈ out ∨ isNA e = false := by
  intro d
  induction d with
  | nil => intro seen out e h; exact Or.inl h
  | cons x rest ih =>
    intro seen out e h
    unfold uniqueLoop at h
    by_cases hx : isNA x = true
    · rw [if_pos hx] at h
      exact ih _ _ e h
    · rw [if_neg hx] at h
      split at h
      · rcases ih _ _ e h with h1 | h1
        · rcases List.mem_append.mp h1 with h2 | h2
          · exact Or.inl h2
          · have : e = x := by simpa using h2
            subst this
            exact Or.inr (by simpa using hx)
        · exact Or.inr h1
      · exact ih _ _ e h

end UniqueLemmas

/-- C33: `unique` does not count NA as one value. In the integer, character
and logical cases the loop passes over every NA element, so the result never
holds an NA: `unique(c(1, NA))` is `1`. In the double case an NA element is
appended whenever `seen[0]` is not set ("use 0 as NA sentinel"), and nothing
but the value 0 sets it: the double vector `1 NA NA` is returned with both
NA, and from `0 NA` the NA is dropped. Without NA the call of `TestUnique`
evaluates to `1 2 3`. -/
theorem unique_mishandles_na :
    (∀ (d : List IntElem) (e : IntElem),
      e ∈ uniqueLoop (fun e : IntElem => e.NA) (fun e => e.Val) d [] [] → e.NA = false) ∧
    (∀ (d : List StringElem) (e : StringElem),
      e ∈ uniqueLoop (fun e : StringElem => e.NA) (fun e => e.Val) d [] [] → e.NA = false) ∧
    (∀ (d : List LogicalElem) (e : LogicalElem),
      e ∈ uniqueLoop (fun e : LogicalElem => e.NA) (fun e => e.Val) d [] [] → e.NA = false) ∧
    builtinUnique (Force (Eval extendedBuiltins 3)) [⟨"", .addr 0⟩] uniqueStore =
      (.ok (.addr 3), (uniqueStore.alloc
        (.DoubleVec [⟨.fin 1, false⟩, FloatElem.na, FloatElem.na] [])).2) ∧
    builtinUnique (Force (Eval extendedBuiltins 3)) [⟨"", .addr 1⟩] uniqueStore =
      (.ok (.addr 3), (uniqueStore.alloc (.DoubleVec [⟨.fin 0, false⟩] [])).2) ∧
    builtinUnique (Force (Eval extendedBuiltins 3)) [⟨"", .addr 2⟩] uniqueStore =
      (.ok (.addr 3), (uniqueStore.alloc (.IntVec [⟨1, false⟩] [])).2) ∧
    runSource 8 "unique(c(1, 2, 2, 3, 1))" = .value "1 2 3" ∧
    runSource 8 "unique(c(1, NA))" = .value "1" ∧
    runSource 8 "unique(c(\"a\", NA, \"a\"))" = .value "\"a\"" ∧
    runSource 8 "unique(c(NA, TRUE, NA))" = .value "TRUE" ∧
    runSource 8 "unique(c(Inf, NA, NA))" = .value "Inf NA NA" ∧
    runSource 8 "unique(c(1, NA, NA) / 1)" = .value "1 NA NA" ∧
    runSource 8 "unique(c(0, NA) / 1)" = .value "0" := by
  refine ⟨?_, ?_, ?_, rfl, rfl, rfl, by decide!, by decide!, by decide!, by decide!, by decide!,
    by decide!, by decide!⟩
  · intro d e h
    rcases uniqueLoop_no_na _ _ d [] [] e h with h1 | h1
    · cases h1
    · exact h1
  · intro d e h
    rcases uniqueLoop_no_na _ _ d [] [] e h with h1 | h1
    · cases h1
    · exact h1
  · intro d e h
    rcases uniqueLoop_no_na _ _ d [] [] e h with h1 | h1
    · cases h1
    · exact h1

section IfelseLemmas

variable {F : Type} [Float64 F]

/-- The loop of `builtinIfelse` on non-empty `yes` and `no`: one output
element for each test element. -/
theorem ifelseLoop_spec {α : Type} (na : α) (yd nv : List α) (hy : yd ≠ []) (hn : nv ≠ []) :
    ∀ (lv : List LogicalElem) (i0 : Nat), ∃ out, ifelseLoop na yd nv lv i0 = .ok out ∧
      out.length = lv.length ∧
      ∀ (i : Nat) (t : LogicalElem), lv[i]? = some t →
        out[i]? = if t.NA then some na
          else if t.Val then yd[(i0 + i) % yd.length]? else nv[(i0 + i) % nv.length]? := by
  have hyl : 0 < yd.length := List.length_pos.mpr hy
  have hnl : 0 < nv.length := List.length_pos.mpr hn
  intro lv
  induction lv with
  | nil => intro i0; exact ⟨[], rfl, rfl, fun i t h => by simp at h⟩
  | cons e rest ih =>
    intro i0
    obtain ⟨out, hout, hlen, hel⟩ := ih (i0 + 1)
    have hhead : ∃ x, (if e.NA then Res.ok na
        else if e.Val then (goMod i0 yd.length).bind fun k => goIndex yd k
        else (goMod i0 nv.length).bind fun k => goIndex nv k) = .ok x ∧
        some x = if e.NA then some na
          else if e.Val then yd[i0 % yd.length]? else nv[i0 % nv.length]? := by
      by_cases h1 : e.NA = true
      · exact ⟨na, by simp [h1], by simp [h1]⟩
      · by_cases h2 : e.Val = true
        · have hlt : i0 % yd.length < yd.length := Nat.mod_lt _ hyl
          refine ⟨yd.get ⟨i0 % yd.length, hlt⟩, ?_, ?_⟩
          · simp only [h1, h2, if_true, Bool.false_eq_true, if_false, goMod,
              Nat.pos_iff_ne_zero.mp hyl, Res.bind, goIndex_lt yd _ hlt]
          · simp [h1, h2, List.getElem?_eq_getElem hlt]
        · have hlt : i0 % nv.length < nv.length := Nat.mod_lt _ hnl
          refine ⟨nv.get ⟨i0 % nv.length, hlt⟩, ?_, ?_⟩
          · simp only [h1, h2, Bool.false_eq_true, if_false, goMod,
              Nat.pos_iff_ne_zero.mp hnl, Res.bind, goIndex_lt nv _ hlt]
          · simp [h1, h2, List.getElem?_eq_getElem hlt]
    obtain ⟨x, hx, hxs⟩ := hhead
    refine ⟨x :: out, ?_, by simp [hlen], ?_⟩
    · rw [ifelseLoop, hx]
      simp only [Res.bind, hout]
    · intro i t h
      cases i with
      | zero =>
        have : t = e := by simpa using h.symm
        subst this
        simpa using hxs
      | succ i =>
        have h2 : rest[i]? = some t := by simpa using h
        have := hel i t h2
        simp only [List.getElem?_cons_succ, this]
        rw [show i0 + 1 + i = i0 + (i + 1) by omega]

omit [Float64 F] in
/-- An atomic case of `builtinIfelse`, when `no` coerces to `nv`. -/
theorem ifelse_case {α : Type} (ev : Evaluator F) (na : α) (coerce : Obj F → Res (List α))
    (mk : List α → Obj F) (yd nv : List α) (lv : List LogicalElem) (no : Ptr) (noObj : Obj F)
    (st : Store F) (hn : st.deref no = some noObj)
    (hnn : ∀ e env f v er, noObj ≠ .Promise e env f v er) (hnv : coerce noObj = .ok nv)
    (hy : yd ≠ []) (hne : nv ≠ []) :
    ∃ out, ((ignoringError [] (coerceArg (Force ev) coerce no)).bind fun nv =>
        (M.lift (ifelseLoop na yd nv lv 0)).bind fun out => M.alloc (mk out)) st =
        (.ok (st.alloc (mk out)).1, (st.alloc (mk out)).2) ∧
      out.length = lv.length ∧
      ∀ (i : Nat) (t : LogicalElem), lv[i]? = some t →
        out[i]? = if t.NA then some na
          else if t.Val then yd[i % yd.length]? else nv[i % nv.length]? := by
  obtain ⟨out, hout, hlen, hel⟩ := ifelseLoop_spec na yd nv hy hne lv 0
  refine ⟨out, ?_, hlen, fun i t h => by simpa using hel i t h⟩
  rw [M.bind_of_ok (ignoringError_ok _ _ _ _ _
    (by rw [coerceArg_value ev _ st no noObj hn hnn, hnv]))]
  simp only [M.bind, M.lift, hout]
  rfl

end IfelseLemmas

section Ifelse

variable {F : Type} [Float64 F]

/-- The built-in `ifelse` on the three types of `yes` for which its type
switch has a case. If the three arguments are forced in turn to `test`, `yes`
and `no`, `test` reads as the logical vector `lv`, `yes` is a double, integer
or character vector with the elements `yd`, not empty, and `no` coerces to that
type (with `asDoubleVec`, `coerceToIntVec` or `asCharVec`) as `nv`, not empty,
then `builtinIfelse` returns a new vector of the type of `yes`, without
attributes and of the length of `lv`, whose element at position `i` is NA
when `lv[i]` is NA, `yd[i mod length yd]` when `lv[i]` is TRUE and
`nv[i mod length nv]` when it is FALSE. -/
theorem builtinIfelse_atomic (ev : Evaluator F) (a0 a1 a2 : ArgValue) (test yes no : Ptr)
    (ot oy noObj : Obj F) (lv : List LogicalElem) (st s1 s2 s3 : Store F)
    (h0 : Force ev a0.Val st = (.ok test, s1)) (h1 : Force ev a1.Val s1 = (.ok yes, s2))
    (h2 : Force ev a2.Val s2 = (.ok no, s3))
    (ht : s3.deref test = some ot) (hy : s3.deref yes = some oy) (hn : s3.deref no = some noObj)
    (htn : ∀ e env f v er, ot ≠ .Promise e env f v er)
    (hnn : ∀ e env f v er, noObj ≠ .Promise e env f v er)
    (hlv : asLogicalVec ot = .ok lv) :
    (∀ yd attrs nv, oy = .DoubleVec yd attrs → asDoubleVec noObj = .ok nv → yd ≠ [] → nv ≠ [] →
      ∃ out, builtinIfelse (Force ev) [a0, a1, a2] st =
          (.ok (s3.alloc (.DoubleVec out [])).1, (s3.alloc (.DoubleVec out [])).2) ∧
        out.length = lv.length ∧
        ∀ (i : Nat) (t : LogicalElem), lv[i]? = some t →
          out[i]? = if t.NA then some FloatElem.na
            else if t.Val then yd[i % yd.length]? else nv[i % nv.length]?) ∧
    (∀ yd attrs nv, oy = .IntVec yd attrs → coerceToIntVec noObj = .ok nv → yd ≠ [] → nv ≠ [] →
      ∃ out, builtinIfelse (Force ev) [a0, a1, a2] st =
          (.ok (s3.alloc (.IntVec out [])).1, (s3.alloc (.IntVec out [])).2) ∧
        out.length = lv.length ∧
        ∀ (i : Nat) (t : LogicalElem), lv[i]? = some t →
          out[i]? = if t.NA then some IntElem.na
            else if t.Val then yd[i % yd.length]? else nv[i % nv.length]?) ∧
    (∀ yd attrs nv, oy = .CharVec yd attrs → asCharVec noObj = .ok nv → yd ≠ [] → nv ≠ [] →
      ∃ out, builtinIfelse (Force ev) [a0, a1, a2] st =
          (.ok (s3.alloc (.CharVec out [])).1, (s3.alloc (.CharVec out [])).2) ∧
        out.length = lv.length ∧
        ∀ (i : Nat) (t : LogicalElem), lv[i]? = some t →
          out[i]? = if t.NA then some StringElem.na
            else if t.Val then yd[i % yd.length]? else nv[i % nv.length]?) := by
  have hrun : builtinIfelse (Force ev) [a0, a1, a2] st =
      ifelseSwitch (Force ev) yes no lv (some oy) s3 := by
    show ((Force ev a0.Val).bind fun test => (Force ev a1.Val).bind fun yes =>
      (Force ev a2.Val).bind fun no => (coerceArg (Force ev) asLogicalVec test).bind fun lv =>
      (M.derefOpt yes).bind fun oy => ifelseSwitch (Force ev) yes no lv oy) st = _
    rw [M.bind_of_ok h0, M.bind_of_ok h1, M.bind_of_ok h2,
      M.bind_of_ok (by rw [coerceArg_value ev _ s3 test ot ht htn, hlv])]
    simp only [M.bind, M.derefOpt, hy]
  refine ⟨?_, ?_, ?_⟩
  · rintro yd attrs nv rfl hnv hyd hne
    rw [hrun]
    exact ifelse_case ev FloatElem.na asDoubleVec (fun out => .DoubleVec out []) yd nv lv no noObj s3
      hn hnn hnv hyd hne
  · rintro yd attrs nv rfl hnv hyd hne
    rw [hrun]
    exact ifelse_case ev IntElem.na coerceToIntVec (fun out => .IntVec out []) yd nv lv no noObj s3
      hn hnn hnv hyd hne
  · rintro yd attrs nv rfl hnv hyd hne
    rw [hrun]
    exact ifelse_case ev StringElem.na asCharVec (fun out => .CharVec out []) yd nv lv no noObj s3
      hn hnn hnv hyd hne

end Ifelse

/-- The built-in `ifelse` at the test `TRUE FALSE NA TRUE`, the double vector
`1 2` for `yes` and the integer vector `10 20 30` for `no`: the result is the
double vector `1 20 NA 2`; the call of `TestIfelse` evaluates to `1 20 3`. -/
theorem builtinIfelse_atomic_example :
    (Force (Eval extendedBuiltins 3) (.addr 0) ifelseStore = (.ok (.addr 0), ifelseStore) ∧
      Force (Eval extendedBuiltins 3) (.addr 1) ifelseStore = (.ok (.addr 1), ifelseStore) ∧
      Force (Eval extendedBuiltins 3) (.addr 2) ifelseStore = (.ok (.addr 2), ifelseStore) ∧
      asLogicalVec (.LogicalVec [⟨true, false⟩, ⟨false, false⟩, LogicalElem.na, ⟨true, false⟩] []
        : Obj Extended) =
        .ok [⟨true, false⟩, ⟨false, false⟩, LogicalElem.na, ⟨true, false⟩] ∧
      asDoubleVec (.IntVec [⟨10, false⟩, ⟨20, false⟩, ⟨30, false⟩] [] : Obj Extended) =
        .ok [⟨.fin 10, false⟩, ⟨.fin 20, false⟩, ⟨.fin 30, false⟩]) ∧
    (∃ out, builtinIfelse (Force (Eval extendedBuiltins 3))
          [⟨"", .addr 0⟩, ⟨"", .addr 1⟩, ⟨"", .addr 2⟩] ifelseStore =
        (.ok (ifelseStore.alloc (.DoubleVec out [])).1,
          (ifelseStore.alloc (.DoubleVec out [])).2) ∧
      out.length =
        [(⟨true, false⟩ : LogicalElem), ⟨false, false⟩, LogicalElem.na, ⟨true, false⟩].length ∧
      ∀ (i : Nat) (t : LogicalElem),
        [(⟨true, false⟩ : LogicalElem), ⟨false, false⟩, LogicalElem.na, ⟨true, false⟩][i]? =
          some t →
        out[i]? = if t.NA then some FloatElem.na
          else if t.Val then
            [(⟨.fin 1, false⟩ : FloatElem Extended), ⟨.fin 2, false⟩][i %
              [(⟨.fin 1, false⟩ : FloatElem Extended), ⟨.fin 2, false⟩].length]?
          else
            [(⟨.fin 10, false⟩ : FloatElem Extended), ⟨.fin 20, false⟩, ⟨.fin 30, false⟩][i %
              [(⟨.fin 10, false⟩ : FloatElem Extended), ⟨.fin 20, false⟩,
                ⟨.fin 30, false⟩].length]?) ∧
    builtinIfelse (Force (Eval extendedBuiltins 3))
        [⟨"", .addr 0⟩, ⟨"", .addr 1⟩, ⟨"", .addr 2⟩] ifelseStore =
      (.ok (.addr 5), (ifelseStore.alloc (.DoubleVec
        [⟨.fin 1, false⟩, ⟨.fin 20, false⟩, FloatElem.na, ⟨.fin 2, false⟩] [])).2) ∧
    runSource 8 "ifelse(c(TRUE, FALSE, TRUE), c(1, 2, 3), c(10, 20, 30))" = .value "1 20 3" ∧
    runSource 8 "ifelse(c(TRUE, FALSE, NA, FALSE), 1, c(5, 6))" = .value "1 6 NA 6" ∧
    runSource 8 "ifelse(c(TRUE, FALSE), \"a\", 2)" = .value "\"a\" \"2\"" :=
  ⟨⟨rfl, rfl, rfl, rfl, rfl⟩,
    (builtinIfelse_atomic (Eval extendedBuiltins 3) ⟨"", .addr 0⟩ ⟨"", .addr 1⟩ ⟨"", .addr 2⟩
      (.addr 0) (.addr 1) (.addr 2)
      (.LogicalVec [⟨true, false⟩, ⟨false, false⟩, LogicalElem.na, ⟨true, false⟩] [])
      (.DoubleVec [⟨.fin 1, false⟩, ⟨.fin 2, false⟩] [])
      (.IntVec [⟨10, false⟩, ⟨20, false⟩, ⟨30, false⟩] [])
      [⟨true, false⟩, ⟨false, false⟩, LogicalElem.na, ⟨true, false⟩]
      ifelseStore ifelseStore ifelseStore ifelseStore rfl rfl rfl rfl rfl rfl
      (fun _ _ _ _ _ hc => by cases hc) (fun _ _ _ _ _ hc => by cases hc) rfl).1
      [⟨.fin 1, false⟩, ⟨.fin 2, false⟩] []
      [⟨.fin 10, false⟩, ⟨.fin 20, false⟩, ⟨.fin 30, false⟩] rfl rfl (by simp) (by simp),
    rfl, by decide!, by decide!, by decide!⟩

/-- C34: for a logical `yes` the result of `ifelse` is a list, not a logical
vector. The type switch of `builtinIfelse` ("result type follows yes") has the
cases double, integer and character only, so a logical `yes` takes the branch
"generic: use list": for the test `TRUE FALSE NA TRUE`, `yes = TRUE` and
`no = FALSE` the built-in returns a list of three new length-1 logical vectors
and Null, and `ifelse(c(TRUE, FALSE, NA), TRUE, FALSE)` renders as a list. The
error of coercing `no` is dropped as well, which leaves an empty slice: with
an integer `yes` and a character `no`, an element whose test is FALSE makes
the loop take `i % 0`, so `ifelse(FALSE, 1, "a")` and
`ifelse(c(TRUE, FALSE), 1, "2")` panic with `integer divide by zero`. -/
theorem ifelse_logical_yes_gives_list :
    (builtinIfelse (Force (Eval extendedBuiltins 3))
        [⟨"", .addr 0⟩, ⟨"", .addr 3⟩, ⟨"", .addr 4⟩] ifelseStore).1 = .ok (.addr 8) ∧
    (builtinIfelse (Force (Eval extendedBuiltins 3))
        [⟨"", .addr 0⟩, ⟨"", .addr 3⟩, ⟨"", .addr 4⟩] ifelseStore).2.deref (.addr 8) =
      some (.ListVec [.addr 5, .addr 6, .NullValue, .addr 7] []) ∧
    runSource 8 "ifelse(c(TRUE, FALSE, NA), TRUE, FALSE)" =
      .value "list(\n  [[1]] TRUE,\n  [[2]] FALSE,\n  [[3]] NULL\n)" ∧
    runSource 8 "ifelse(c(TRUE, FALSE), 1, \"2\")" = .panic "integer divide by zero" ∧
    runSource 8 "ifelse(FALSE, 1, \"a\")" = .panic "integer divide by zero" ∧
    runSource 8 "ifelse(TRUE, 1, \"a\")" = .value "1" :=
  ⟨rfl, rfl, by decide!, by decide!, by decide!, by decide!⟩

section SwitchLemmas

variable {F : Type} [Float64 F]

end SwitchLemmas

section Switch

variable {F : Type} [Float64 F]

end Switch

/-- C36: `x %in% table` is lexed and parsed, but its evaluation fails for all
operands. `evalBinary` has no case for the operator `%in%` and returns the
error `unsupported binary op %in%` from its default branch, whatever the
operands are; the lexer delivers `%in%` as one token and the parser builds a
binary node with it. The three cases of `TestInOperator`, which expect `TRUE`,
`FALSE` and `TRUE FALSE TRUE`, end with that error, while `==` on the same
vectors works. -/
theorem in_operator_unsupported :
    (∀ (F : Type) [Float64 F] (ev : Evaluator F) (a b : Ptr) (st : Store F),
      evalBinaryM ev .INOP a b st = (.error (.msg "unsupported binary op %in%"), st)) ∧
    (∀ (F : Type) [Float64 F] (a b : Obj F),
      evalBinary .INOP a b = .error (.msg "unsupported binary op %in%")) ∧
    Lexer.tokens asciiLib "x %in% y" =
      some [⟨.IDENT, "x"⟩, ⟨.INOP, "%in%"⟩, ⟨.IDENT, "y"⟩, eofToken] ∧
    (ParseProgram 8 (Parser.New [⟨.IDENT, "x"⟩, ⟨.INOP, "%in%"⟩, ⟨.IDENT, "y"⟩, eofToken]) :
        Option (List (Expr Extended) × Option String)) =
      some ([.BinaryExpr .INOP (.Ident "x") (.Ident "y")], none) ∧
    runSource 8 "1 %in% c(1, 2, 3)" = .error "unsupported binary op %in%" ∧
    runSource 8 "5 %in% c(1, 2, 3)" = .error "unsupported binary op %in%" ∧
    runSource 8 "c(1, 4, 2) %in% c(1, 2, 3)" = .error "unsupported binary op %in%" ∧
    runSource 8 "c(1, 4, 2) == c(1, 2, 3)" = .value "TRUE FALSE FALSE" :=
  ⟨fun _ _ _ _ _ _ => rfl, fun _ _ _ _ => rfl, by decide!, by rfl, by decide!, by decide!,
    by decide!, by decide!⟩

section Extension

variable {F : Type} [Float64 F]

/-- C37: a double-bracket assignment beyond the end of a list makes its names
unusable. For a list `x` with elements `d` whose `names` attribute is a
character vector `cn` of the same length, and an integer index `k + 1` with
`length d <= k`, `setSubset` returns a new list of length `k + 1`: the old
elements, Null padding, and the new value at position `k`. The attributes are
those of `x`, so `names` still refers to `cn`, whose length is no longer the
length of the list; `dollar` uses names only when the lengths agree, so
reading `$m` from the result gives Null for every name `m`, although reading
`$m` from `x` gave the element at the first position named `m`. -/
theorem double_bracket_extension_drops_names (ev : Evaluator F) (st : Store F)
    (x idx rhs nm : Ptr) (d : List Ptr) (a ca ia : Attrs) (cn : List StringElem) (k : Nat)
    (vo : Obj F)
    (hx : st.deref x = some (.ListVec d a))
    (hnm : mapGet a "names" = some nm) (hcn : st.deref nm = some (.CharVec cn ca))
    (hlen : cn.length = d.length)
    (hidx : st.deref idx = some (.IntVec [⟨(k : Int) + 1, false⟩] ia))
    (hk : d.length ≤ k) (hk2 : (k : Int) + 1 < 2 ^ 63)
    (hr : st.deref rhs = some vo) (hvn : ∀ e env f v er, vo ≠ .Promise e env f v er) :
    ∃ r st' d', setSubset ev x idx rhs true st = (.ok r, st') ∧
      st'.deref r = some (.ListVec d' a) ∧
      d'.length = k + 1 ∧ d'[k]? = some rhs ∧
      (∀ j, j < d.length → d'[j]? = d[j]?) ∧
      (∀ j, d.length ≤ j → j < k → d'[j]? = some Ptr.NullValue) ∧
      st'.deref nm = some (.CharVec cn ca) ∧ cn.length ≠ d'.length ∧
      (∀ m, dollarM ev r m st' = (.ok Ptr.NullValue, st')) ∧
      (∀ m j, cn.findIdx? (fun e => !e.NA && e.Val == m) = some j →
        ∃ v, d[j]? = some v ∧ dollarM ev x m st = (.ok v, st)) := by
  have fx := Force_of_not_promise ev st x _ hx (fun _ _ _ _ _ hc => by cases hc)
  have fi := Force_of_not_promise ev st idx _ hidx (fun _ _ _ _ _ hc => by cases hc)
  have fr := Force_of_not_promise ev st rhs _ hr hvn
  have hw : wrapInt64 ((k : Int) + 1 - 1) = (k : Int) := by
    rw [show (k : Int) + 1 - 1 = (k : Int) by omega]
    exact wrapInt64_id (by omega) (by omega)
  have hrun : setSubset ev x idx rhs true st =
      (.ok (st.alloc (.ListVec
          ((d ++ List.replicate (k + 1 - d.length) Ptr.NullValue).set k rhs) a)).1,
        (st.alloc (.ListVec
          ((d ++ List.replicate (k + 1 - d.length) Ptr.NullValue).set k rhs) a)).2) := by
    unfold setSubset
    rw [M.bind_of_ok fx, M.bind_of_ok fi, M.bind_of_ok fr]
    simp only [M.bind, M.derefOpt, hx, hidx, if_true, Bool.false_eq_true, if_false, hw]
    rw [if_neg (by omega)]
    simp only [Int.toNat_ofNat]
    rfl
  have hnew := deref_alloc_new st
    (.ListVec ((d ++ List.replicate (k + 1 - d.length) Ptr.NullValue).set k rhs) a)
  have hold := deref_alloc_old st
    (.ListVec ((d ++ List.replicate (k + 1 - d.length) Ptr.NullValue).set k rhs) a) nm _ hcn
  have hl : ((d ++ List.replicate (k + 1 - d.length) Ptr.NullValue).set k rhs).length = k + 1 := by
    simp only [List.length_set, List.length_append, List.length_replicate]
    omega
  refine ⟨_, _, _, hrun, hnew, hl, ?_, ?_, ?_, hold, by rw [hl, hlen]; omega, ?_, ?_⟩
  · rw [List.getElem?_set_self (by rw [List.length_append, List.length_replicate]; omega)]
  · intro j hj
    rw [List.getElem?_set_ne (by omega), List.getElem?_append_left hj]
  · intro j hj1 hj2
    rw [List.getElem?_set_ne (by omega), List.getElem?_append_right hj1,
      List.getElem?_replicate, if_pos (by omega)]
  · intro m
    rw [(dollarM_list ev _ _ _ _ m hnew).2 nm _ hnm hold (fun _ _ _ _ _ hc => by cases hc)]
    simp only [dollar, hl, hlen]
    rw [if_neg (by omega)]
  · intro m j hj
    obtain ⟨hjlt, _, _⟩ := List.findIdx?_eq_some_iff_getElem.mp hj
    have hjd : j < d.length := by omega
    refine ⟨d.get ⟨j, hjd⟩, by simp [List.getElem?_eq_getElem hjd], ?_⟩
    rw [(dollarM_list ev _ _ _ _ m hx).2 nm _ hnm hcn (fun _ _ _ _ _ hc => by cases hc)]
    simp only [dollar, hlen, if_true, hj, goIndex_lt d j hjd]

end Extension

/-- C37 at the list with the names `a` and `b`, the index 4 and the value 5:
the result has four elements and the two old names, `$a` gave the first
element before and gives Null afterwards. Evaluated from source text,
`l <- list(a = 1, b = 2); l[[4]] <- 5; l$a` is `NULL`, while an assignment
within the length keeps the names, and `$<-` appends a name with its
element. -/
theorem double_bracket_extension_drops_names_witness :
    (∃ r st' d', setSubset (Eval extendedBuiltins 3) (.addr 3) (.addr 4) (.addr 5) true
        namedListStore = (.ok r, st') ∧
      st'.deref r = some (.ListVec d' [("names", .addr 0)]) ∧
      d'.length = 3 + 1 ∧ d'[3]? = some (.addr 5) ∧
      (∀ j, j < [Ptr.addr 1, Ptr.addr 2].length → d'[j]? = [Ptr.addr 1, Ptr.addr 2][j]?) ∧
      (∀ j, [Ptr.addr 1, Ptr.addr 2].length ≤ j → j < 3 → d'[j]? = some Ptr.NullValue) ∧
      st'.deref (.addr 0) = some (.CharVec [⟨"a", false⟩, ⟨"b", false⟩] []) ∧
      [(⟨"a", false⟩ : StringElem), ⟨"b", false⟩].length ≠ d'.length ∧
      (∀ m, dollarM (Eval extendedBuiltins 3) r m st' = (.ok Ptr.NullValue, st')) ∧
      (∀ m j, [(⟨"a", false⟩ : StringElem), ⟨"b", false⟩].findIdx?
          (fun e => !e.NA && e.Val == m) = some j →
        ∃ v, [Ptr.addr 1, Ptr.addr 2][j]? = some v ∧
          dollarM (Eval extendedBuiltins 3) (.addr 3) m namedListStore = (.ok v, namedListStore))) ∧
    dollarM (Eval extendedBuiltins 3) (.addr 3) "a" namedListStore =
      (.ok (.addr 1), namedListStore) ∧
    runSource 12 "l <- list(a = 1, b = 2); l$a" = .value "1" ∧
    runSource 12 "l <- list(a = 1, b = 2); l[[4]] <- 5; l$a" = .value "NULL" ∧
    runSource 12 "l <- list(a = 1, b = 2); l[[4]] <- 5; l$b" = .value "NULL" ∧
    runSource 12 "l <- list(a = 1, b = 2); l[[2]] <- 5; l$a" = .value "1" ∧
    runSource 12 "l <- list(a = 1, b = 2); l$c <- 5; l$a" = .value "1" :=
  ⟨double_bracket_extension_drops_names (Eval extendedBuiltins 3) namedListStore (.addr 3)
      (.addr 4) (.addr 5) (.addr 0) [.addr 1, .addr 2] [("names", .addr 0)] [] []
      [⟨"a", false⟩, ⟨"b", false⟩] 3 (IntScalar 5) rfl rfl rfl rfl rfl (by decide) (by decide)
      rfl (fun _ _ _ _ _ hc => by cases hc),
    by rfl, by decide!, by decide!, by decide!, by decide!, by decide!⟩

/-- The names of two lists can share a backing array: `append` in `setDollar`
writes the new name behind the names of `l`, where the names of `x` already
hold the name `d`. After `l$c <- 3; x <- l; x$d <- 4; l$e <- 5` the fourth slot
of `x` is named `e`; without the last assignment, and when the array of the
names of `l` is full, `x$d` is 4. -/
theorem setDollar_shares_names_array :
    runSource 40 "l <- list(a = 1, b = 2); l$c <- 3; x <- l; x$d <- 4; l$e <- 5; x$d" =
      .value "NULL" ∧
    runSource 40 "l <- list(a = 1, b = 2); l$c <- 3; x <- l; x$d <- 4; l$e <- 5; x$e" =
      .value "4" ∧
    runSource 40 "l <- list(a = 1, b = 2); l$c <- 3; x <- l; x$d <- 4; x$d" =
      .value "4" ∧
    runSource 40 "l <- list(a = 1); l$c <- 3; x <- l; x$d <- 4; l$e <- 5; x$d" =
      .value "4" := by
  decide!

/-- C38: `tryCatch` treats `break`, `next` and `return` signals as errors.
`builtinTryCatch` tests only `err != nil`: when forcing its first argument
ends in a control signal and an argument named `error` is a function, the
handler is called with the text of the signal (`break`, `next` or `return`)
as a length-1 character vector, and the result of the handler is the result
of `tryCatch`; the signal does not propagate. Only without a handler is the
signal returned unchanged. So `for (i in 1:3) tryCatch(break, error =
function(e) 0)` does not leave the loop at the first iteration: all three
iterations run and the value is 0; a counter incremented after such a
`tryCatch` reaches 3, while it stays 0 with a plain `break` or with a
`tryCatch` without handler; and a `return(1)` inside `tryCatch` with a handler
does not end the function. -/
theorem tryCatch_catches_control_signals :
    (∀ (F : Type) [Float64 F] (force : Ptr → M F Ptr) (call : Ptr → List ArgValue → M F Ptr)
        (a : ArgValue) (rest : List ArgValue) (kind : ControlKind) (value handler handlerV : Ptr)
        (ho : Obj F) (st st1 st2 : Store F),
      force a.Val st = (.error (.control kind value), st1) →
      getNamed (a :: rest) "error" = some handler →
      force handler st1 = (.ok handlerV, st2) →
      st2.deref handlerV = some ho →
      (ho.Type = "function") →
      builtinTryCatch force call (a :: rest) st =
        call handlerV [⟨"", (st2.alloc (CharScalar (Err.control kind value).Error)).1⟩]
          (st2.alloc (CharScalar (Err.control kind value).Error)).2) ∧
    (∀ (F : Type) [Float64 F] (force : Ptr → M F Ptr) (call : Ptr → List ArgValue → M F Ptr)
        (a : ArgValue) (rest : List ArgValue) (kind : ControlKind) (value : Ptr)
        (st st1 : Store F),
      force a.Val st = (.error (.control kind value), st1) →
      getNamed (a :: rest) "error" = none →
      builtinTryCatch force call (a :: rest) st = (.error (.control kind value), st1)) ∧
    runSource 12 "for (i in 1:3) tryCatch(break, error = function(e) 0)" = .value "0" ∧
    runSource 12
        "n <- 0; for (i in 1:3) \x7b tryCatch(break, error = function(e) 0); n <- n + 1 \x7d; n" =
      .value "3" ∧
    runSource 12 "n <- 0; for (i in 1:3) \x7b tryCatch(break); n <- n + 1 \x7d; n" = .value "0" ∧
    runSource 12 "n <- 0; for (i in 1:3) \x7b break; n <- n + 1 \x7d; n" = .value "0" ∧
    runSource 12 "n <- 0; for (i in 1:3) \x7b n <- n + tryCatch(next, error = function(e) 10) \x7d; n" =
      .value "30" ∧
    runSource 12 "f <- function() \x7b tryCatch(return(1), error = function(e) e); 3 \x7d; f()" =
      .value "3" ∧
    runSource 12 "f <- function() \x7b tryCatch(return(1), error = function(e) e) \x7d; f()" =
      .value "\"return\"" ∧
    runSource 12 "f <- function() \x7b tryCatch(return(1)); 3 \x7d; f()" = .value "1" := by
  refine ⟨?_, ?_, by decide!, by decide!, by decide!, by decide!, by decide!, by decide!,
    by decide!, by decide!⟩
  · intro F _ force call a rest kind value handler handlerV ho st st1 st2 h1 h2 h3 h4 h5
    simp only [builtinTryCatch, h1, h2, M.bind, h3, M.derefOpt, h4]
    cases ho <;> first | rfl | (simp [Obj.Type] at h5)
  · intro F _ force call a rest kind value st st1 h1 h2
    simp only [builtinTryCatch, h1, h2]

section SkipLemmas

theorem atTokens_tokens (p : Parser) : Parser.atTokens p.tokens p.errors = p := rfl

theorem atTokens_next (t : Token) (r : List Token) (errs : List String) :
    (Parser.atTokens (t :: r) errs).next = Parser.atTokens r errs := by
  cases r with
  | nil => rfl
  | cons u s => cases s <;> rfl

/-- A loop of `next` on a condition on the current token drops the tokens
that satisfy it, up to the first that does not, and records no error. -/
theorem nextWhile_dropWhile (c : Token → Bool) (hc : c eofToken = false) (errs : List String) :
    ∀ (ts : List Token) (k : Nat), ts.length ≤ k →
      Parser.nextWhile (fun p => c p.cur) k (Parser.atTokens ts errs) =
        Parser.atTokens (ts.dropWhile c) errs := by
  intro ts
  induction ts with
  | nil =>
    intro k _
    cases k with
    | zero => rfl
    | succ j => exact Parser.nextWhile_stop _ _ _ hc
  | cons t r ih =>
    intro k hk
    obtain ⟨j, rfl⟩ : ∃ j, k = j + 1 := ⟨k - 1, by simp at hk; omega⟩
    have hcur : (Parser.atTokens (t :: r) errs).cur = t := rfl
    rw [Parser.nextWhile]
    by_cases ht : c t = true
    · rw [if_pos (by rw [hcur]; exact ht), atTokens_next, List.dropWhile_cons_of_pos ht]
      exact ih j (by simp at hk; omega)
    · rw [if_neg (by rw [hcur]; exact ht), List.dropWhile_cons_of_neg ht]

theorem toSeparator_drops (p : Parser) :
    p.toSeparator = Parser.atTokens (p.tokens.dropWhile fun t => !endsExpression t) p.errors := by
  have h := nextWhile_dropWhile (fun t => t.Typ ≠ .EOF && t.Typ ≠ .NL && t.Typ ≠ .SEMI)
    (by decide) p.errors p.tokens (p.l.length + 2) (by simp [Parser.tokens])
  rw [atTokens_tokens] at h
  unfold Parser.toSeparator
  rw [h]
  congr 2
  funext t
  simp only [endsExpression]
  cases t.Typ <;> rfl

theorem toBlockSeparator_drops (p : Parser) :
    p.toBlockSeparator =
      Parser.atTokens (p.tokens.dropWhile fun t => !endsStatement t) p.errors := by
  have h := nextWhile_dropWhile
    (fun t => t.Typ ≠ .EOF && t.Typ ≠ .RBRACE && t.Typ ≠ .NL && t.Typ ≠ .SEMI)
    (by decide) p.errors p.tokens (p.l.length + 2) (by simp [Parser.tokens])
  rw [atTokens_tokens] at h
  unfold Parser.toBlockSeparator
  rw [h]
  congr 2
  funext t
  simp only [endsStatement, endsExpression]
  cases t.Typ <;> rfl

theorem skipSeparatorsCur_drops (ts : List Token) (errs : List String) :
    (Parser.atTokens ts errs).skipSeparatorsCur =
      Parser.atTokens (ts.dropWhile isSeparator) errs := by
  have h := nextWhile_dropWhile (fun t => t.Typ = .NL || t.Typ = .SEMI) (by decide) errs ts
    ((Parser.atTokens ts errs).l.length + 2) (by simp [Parser.atTokens]; omega)
  unfold Parser.skipSeparatorsCur
  rw [h]
  rfl

theorem dropWhile_line (skipped rest : List Token) (term : Token)
    (h : ∀ t ∈ skipped, endsExpression t = false) (hterm : endsExpression term = true) :
    (skipped ++ term :: rest).dropWhile (fun t => !endsExpression t) = term :: rest := by
  induction skipped with
  | nil => exact List.dropWhile_cons_of_neg (by simp [hterm])
  | cons t s ih =>
    rw [List.cons_append, List.dropWhile_cons_of_pos (by simp [h t (List.mem_cons_self _ _)])]
    exact ih fun x hx => h x (List.mem_cons_of_mem _ hx)

theorem lineTokens_head (l : Token × List Token) (rest : List (Token × List Token)) :
    ∃ tail, lineTokens (l :: rest) = l.1 :: tail := by
  cases rest with
  | nil => exact ⟨_, rfl⟩
  | cons l2 r2 => exact ⟨_, rfl⟩

/-- The tokens of lines: the first line, the token that ends it, and behind
the separators the tokens of the other lines. -/
theorem lineTokens_cons (l : Token × List Token) (rest : List (Token × List Token))
    (hrest : ∀ l2 ∈ rest, isSeparator l2.1 = false) :
    ∃ term tail, lineTokens (l :: rest) = l.1 :: (l.2 ++ term :: tail) ∧
      endsExpression term = true ∧ (term :: tail).dropWhile isSeparator = lineTokens rest := by
  cases rest with
  | nil => exact ⟨eofToken, [], rfl, rfl, rfl⟩
  | cons l2 r2 =>
    refine ⟨⟨.NL, "\n"⟩, lineTokens (l2 :: r2), rfl, rfl, ?_⟩
    obtain ⟨tail, ht⟩ := lineTokens_head l2 r2
    rw [List.dropWhile_cons_of_pos (by rfl), ht,
      List.dropWhile_cons_of_neg (by simp [hrest l2 (List.mem_cons_self _ _)])]

end SkipLemmas

section Skip

variable {F : Type} [Float64 F]

/-- The program loop on lines that each begin with an operand. -/
theorem parseProgramLoop_lines (f : Nat) :
    ∀ (lines : List (Token × List Token)) (k : Nat) (exprs : List (Expr F)),
      lines.length + 1 ≤ k →
      (∀ l ∈ lines, (atomExpr (F := F) l.1).isSome = true ∧
        (∀ t, l.2.head? = some t → precedence t.Typ = precLowest) ∧
        ∀ t ∈ l.2, endsExpression t = false) →
      parseProgramLoop (f + 2) k exprs (Parser.atTokens (lineTokens lines) []) =
        some (exprs ++ lines.filterMap (fun l => atomExpr l.1),
          Parser.atTokens [eofToken] []) := by
  intro lines
  induction lines with
  | nil =>
    intro k exprs hk _
    obtain ⟨j, rfl⟩ : ∃ j, k = j + 1 := ⟨k - 1, by simp at hk; omega⟩
    simp [parseProgramLoop, lineTokens, Parser.curIs, Parser.atTokens, eofToken]
  | cons l rest ih =>
    intro k exprs hk h
    obtain ⟨j, rfl⟩ : ∃ j, k = j + 1 := ⟨k - 1, by simp at hk; omega⟩
    obtain ⟨hsome, hfirst, hskip⟩ := h l (List.mem_cons_self _ _)
    obtain ⟨A, hA⟩ := Option.isSome_iff_exists.mp hsome
    obtain ⟨h1, h2, h3⟩ := atomExpr_not_separator _ _ hA
    have hsep : ∀ l2 ∈ rest, isSeparator l2.1 = false := by
      intro l2 hl2
      obtain ⟨A2, hA2⟩ := Option.isSome_iff_exists.mp (h l2 (List.mem_cons_of_mem _ hl2)).1
      obtain ⟨g1, g2, _⟩ := atomExpr_not_separator _ _ hA2
      simp [isSeparator, g1, g2]
    obtain ⟨term, tail, hts, hterm, hdrop⟩ := lineTokens_cons l rest hsep
    have hp : Parser.atTokens (lineTokens (l :: rest)) [] =
        ⟨(l.2 ++ term :: tail).drop 1, l.1, (l.2 ++ term :: tail).headD eofToken, []⟩ := by
      rw [hts]
      rfl
    have htok : (Parser.atTokens (lineTokens (l :: rest)) []).tokens =
        l.1 :: (l.2 ++ term :: tail) := by
      rw [hp]
      cases hl : l.2 with
      | nil => rfl
      | cons t s => rfl
    have hcont : continuesAt precLowest (Parser.atTokens (lineTokens (l :: rest)) []) = false := by
      rw [hp]
      cases hl : l.2 with
      | nil => exact continuesAt_ends _ _ hterm
      | cons t s =>
        apply continuesAt_not_lt
        have := hfirst t (by rw [hl]; rfl)
        show ¬ precLowest < precedence t.Typ
        omega
    have hE := parseExpression_atom f precLowest _ A (by rw [hp]; exact hA) hcont
    have hnext : (Parser.atTokens (lineTokens (l :: rest)) []).toSeparator.skipSeparatorsCur =
        Parser.atTokens (lineTokens rest) [] := by
      rw [toSeparator_drops, htok, skipSeparatorsCur_drops,
        List.dropWhile_cons_of_pos (by simp [endsExpression, h1, h2, h3]),
        dropWhile_line _ _ _ hskip hterm, hdrop]
      rfl
    have hcur : (Parser.atTokens (lineTokens (l :: rest)) []).curIs .EOF = false := by
      rw [hp]
      simp [Parser.curIs, h3]
    rw [parseProgramLoop]
    simp only [hcur, Bool.not_false, if_true, hE, atomExpr_not_nil _ _ hA, Bool.false_eq_true,
      if_false, hnext]
    rw [ih j (exprs ++ [A]) (by simp at hk; omega)
      (fun l2 hl2 => h l2 (List.mem_cons_of_mem _ hl2))]
    simp [List.filterMap_cons, hA]

/-- C39 (amended): what stands between a statement and the next separator is
dropped without an error. (1) In `ParseProgram`, after every top-level
expression: when the parser is not at the end of input and `parseExpression`
returns the expression `e` and the parser `r`, whose current token is the last
token of `e`, the loop goes on with `e` appended (unless it is nil) at the
tokens of `r` from the first newline, semicolon or end of input on, less the
separators in front, with the errors of `r` and no other; the tokens of `r`
before that point are passed over. (2) In `parseBlock`, after every statement
of the block: the same, where the tokens are passed over up to the first
newline, semicolon, closing brace or end of input. (3) So for every source of
lines that each begin with a token `a` that is an operand by itself, followed
by tokens that hold no separator and of which the first is not an infix
operator, an opening parenthesis, a bracket or `$` (its precedence is the
lowest), `ParseProgram` returns, without error, the operands of the lines:
of each line only the first expression is in the program. -/
theorem ParseProgram_skips_to_separator (fuel k : Nat) (exprs : List (Expr F)) (p r : Parser)
    (e : Expr F) (pe : ExprParser F) :
    (p.curIs .EOF = false → parseExpression fuel precLowest p = some (e, r) →
      parseProgramLoop fuel (k + 1) exprs p =
        parseProgramLoop fuel k (if e.isNil then exprs else exprs ++ [e])
          (Parser.atTokens
            ((r.tokens.dropWhile fun t => !endsExpression t).dropWhile isSeparator)
            r.errors)) ∧
    (p.curIs .RBRACE = false → p.curIs .EOF = false → pe precLowest p = some (e, r) →
      parseBlockLoop pe (k + 1) exprs p =
        parseBlockLoop pe k (if e.isNil then exprs else exprs ++ [e])
          (Parser.atTokens
            ((r.tokens.dropWhile fun t => !endsStatement t).dropWhile isSeparator)
            r.errors)) ∧
    (∀ lines : List (Token × List Token),
      (∀ l ∈ lines, (atomExpr (F := F) l.1).isSome = true ∧
        (∀ t, l.2.head? = some t → precedence t.Typ = precLowest) ∧
        ∀ t ∈ l.2, endsExpression t = false) →
      ParseProgram (fuel + lines.length + 2) (Parser.New (lineTokens lines)) =
        some (lines.filterMap (fun l => atomExpr (F := F) l.1), none)) := by
  refine ⟨?_, ?_, ?_⟩
  · intro hcur hparse
    rw [parseProgramLoop]
    simp only [hcur, Bool.not_false, if_true, hparse, toSeparator_drops,
      skipSeparatorsCur_drops]
  · intro hb hcur hparse
    rw [parseBlockLoop]
    simp only [hb, hcur, Bool.not_false, Bool.and_self, if_true, hparse, toBlockSeparator_drops,
      skipSeparatorsCur_drops]
  · intro lines h
    have hnew : Parser.New (lineTokens lines) = Parser.atTokens (lineTokens lines) [] := rfl
    have hstart : (lineTokens lines).dropWhile isSeparator = lineTokens lines := by
      cases lines with
      | nil => rfl
      | cons l2 r2 =>
        obtain ⟨A2, hA2⟩ := Option.isSome_iff_exists.mp (h l2 (List.mem_cons_self _ _)).1
        obtain ⟨g1, g2, _⟩ := atomExpr_not_separator _ _ hA2
        obtain ⟨tail, ht⟩ := lineTokens_head l2 r2
        rw [ht, List.dropWhile_cons_of_neg (by simp [isSeparator, g1, g2])]
    unfold ParseProgram
    rw [hnew, skipSeparatorsCur_drops, hstart,
      show fuel + lines.length + 2 = (fuel + lines.length) + 2 from rfl,
      parseProgramLoop_lines (fuel + lines.length) lines _ [] (by omega) h]
    rfl

end Skip

/-- C39 (amended) at the two lines `1 2 *` and `x y`: the program is `1` and
`x`, with no error; after the expression `1` of the tokens `1 2 ; 3` the loop
of `ParseProgram` goes on at `3`, and the loop of `parseBlock` on the tokens
`1 2` and a closing brace goes on at the brace; `1 2` is parsed to the program
of `1`, and the block that holds `1 2` to a block of `1`. -/
theorem ParseProgram_skips_to_separator_witness :
    (ParseProgram 10 (Parser.New (lineTokens [(⟨.NUMBER, "1"⟩, [⟨.NUMBER, "2"⟩, ⟨.STAR, "*"⟩]),
        (⟨.IDENT, "x"⟩, [⟨.IDENT, "y"⟩])])) :
        Option (List (Expr Extended) × Option String)) =
      some ([.NumberLit "1" (.fin 1) true, .Ident "x"], none) ∧
    lineTokens [(⟨.NUMBER, "1"⟩, [⟨.NUMBER, "2"⟩, ⟨.STAR, "*"⟩]), (⟨.IDENT, "x"⟩, [⟨.IDENT, "y"⟩])] =
      [⟨.NUMBER, "1"⟩, ⟨.NUMBER, "2"⟩, ⟨.STAR, "*"⟩, ⟨.NL, "\n"⟩, ⟨.IDENT, "x"⟩, ⟨.IDENT, "y"⟩,
        eofToken] ∧
    Lexer.tokens asciiLib "1 2 *\nx y" = some (lineTokens
      [(⟨.NUMBER, "1"⟩, [⟨.NUMBER, "2"⟩, ⟨.STAR, "*"⟩]), (⟨.IDENT, "x"⟩, [⟨.IDENT, "y"⟩])]) ∧
    (parseProgramLoop 8 8 [] (Parser.New [⟨.NUMBER, "1"⟩, ⟨.NUMBER, "2"⟩, ⟨.SEMI, ";"⟩,
        ⟨.NUMBER, "3"⟩, eofToken]) : Option (List (Expr Extended) × Parser)) =
      parseProgramLoop 8 7 [.NumberLit "1" (.fin 1) true]
        (Parser.New [⟨.NUMBER, "3"⟩, eofToken]) ∧
    (parseBlockLoop (parseExpression 8) 8 [] (Parser.New [⟨.NUMBER, "1"⟩, ⟨.NUMBER, "2"⟩,
        ⟨.RBRACE, "\x7d"⟩, eofToken]) : Option (List (Expr Extended) × Parser)) =
      parseBlockLoop (parseExpression 8) 7 [.NumberLit "1" (.fin 1) true]
        (Parser.New [⟨.RBRACE, "\x7d"⟩, eofToken]) ∧
    (ParseProgram 8 (Parser.New [⟨.NUMBER, "1"⟩, ⟨.NUMBER, "2"⟩, eofToken]) :
        Option (List (Expr Extended) × Option String)) =
      some ([.NumberLit "1" (.fin 1) true], none) ∧
    (ParseProgram 8 (Parser.New [⟨.LBRACE, "\x7b"⟩, ⟨.NUMBER, "1"⟩, ⟨.NUMBER, "2"⟩,
        ⟨.RBRACE, "\x7d"⟩, eofToken]) : Option (List (Expr Extended) × Option String)) =
      some ([.BlockExpr [.NumberLit "1" (.fin 1) true]], none) :=
  ⟨(ParseProgram_skips_to_separator (F := Extended) 6 0 [] (Parser.New []) (Parser.New [])
      .Nil (parseExpression 0)).2.2
      [(⟨.NUMBER, "1"⟩, [⟨.NUMBER, "2"⟩, ⟨.STAR, "*"⟩]), (⟨.IDENT, "x"⟩, [⟨.IDENT, "y"⟩])]
      (by decide),
    rfl, by decide!,
    (ParseProgram_skips_to_separator (F := Extended) 8 7 []
      (Parser.New [⟨.NUMBER, "1"⟩, ⟨.NUMBER, "2"⟩, ⟨.SEMI, ";"⟩, ⟨.NUMBER, "3"⟩, eofToken])
      (Parser.New [⟨.NUMBER, "1"⟩, ⟨.NUMBER, "2"⟩, ⟨.SEMI, ";"⟩, ⟨.NUMBER, "3"⟩, eofToken])
      (.NumberLit "1" (.fin 1) true) (parseExpression 8)).1 rfl rfl,
    (ParseProgram_skips_to_separator (F := Extended) 8 7 []
      (Parser.New [⟨.NUMBER, "1"⟩, ⟨.NUMBER, "2"⟩, ⟨.RBRACE, "\x7d"⟩, eofToken])
      (Parser.New [⟨.NUMBER, "1"⟩, ⟨.NUMBER, "2"⟩, ⟨.RBRACE, "\x7d"⟩, eofToken])
      (.NumberLit "1" (.fin 1) true) (parseExpression 8)).2.1 rfl rfl rfl,
    (ParseProgram_skips_to_separator (F := Extended) 5 0 [] (Parser.New []) (Parser.New [])
      .Nil (parseExpression 0)).2.2 [(⟨.NUMBER, "1"⟩, [⟨.NUMBER, "2"⟩])] (by decide),
    by rfl⟩

/-- C39 as stated fails: `1 2` is lexed to two numbers and parsed, without
error, to the program of the one expression `1`; the block that holds `1 2`
is parsed without error to a block of the one expression `1`. Evaluated,
`1 2` gives 1, and in `x <- 1 y <- 2` the second assignment is dropped: `x` is
1 and `y` is not found, while with a semicolon between them `y` is 2. -/
theorem parse_unseparated_counterexample :
    Lexer.tokens asciiLib "1 2" = some [⟨.NUMBER, "1"⟩, ⟨.NUMBER, "2"⟩, eofToken] ∧
    (ParseProgram 8 (Parser.New [⟨.NUMBER, "1"⟩, ⟨.NUMBER, "2"⟩, eofToken]) :
        Option (List (Expr Extended) × Option String)) =
      some ([.NumberLit "1" (.fin 1) true], none) ∧
    Lexer.tokens asciiLib "\x7b 1 2 \x7d" =
      some [⟨.LBRACE, "\x7b"⟩, ⟨.NUMBER, "1"⟩, ⟨.NUMBER, "2"⟩, ⟨.RBRACE, "\x7d"⟩, eofToken] ∧
    (ParseProgram 8 (Parser.New [⟨.LBRACE, "\x7b"⟩, ⟨.NUMBER, "1"⟩, ⟨.NUMBER, "2"⟩,
        ⟨.RBRACE, "\x7d"⟩, eofToken]) : Option (List (Expr Extended) × Option String)) =
      some ([.BlockExpr [.NumberLit "1" (.fin 1) true]], none) ∧
    runSource 8 "1 2" = .value "1" ∧
    runSource 8 "x <- 1 y <- 2; x" = .value "1" ∧
    runSource 8 "x <- 1 y <- 2; y" = .error "object 'y' not found" ∧
    runSource 8 "x <- 1; y <- 2; y" = .value "2" :=
  ⟨by decide!, by rfl, by decide!, by rfl, by decide!, by decide!, by decide!, by decide!⟩

section ProgressLemmas

theorem span_length_le {α : Type} (p : α → Bool) (s : List α) : (s.span p).2.length ≤ s.length := by
  have := congrArg List.length (span_append p s)
  rw [List.length_append] at this
  omega

theorem numberDot_length (s : List Char) : (numberDot s).2.length ≤ s.length := by
  unfold numberDot
  split
  · simp
  · exact Nat.le_refl _

theorem numberFraction_length (s : List Char) : (numberFraction s).2.length ≤ s.length := by
  unfold numberFraction
  split
  · next r =>
    have := span_length_le isDigit r
    simp only [List.length_cons]
    omega
  · exact Nat.le_refl _

theorem numberSign_length (s : List Char) : (numberSign s).2.length ≤ s.length := by
  unfold numberSign
  split
  · split
    · simp
    · exact Nat.le_refl _
  · exact Nat.le_refl _

theorem numberExponent_length (s : List Char) : (numberExponent s).2.length ≤ s.length := by
  unfold numberExponent
  split
  · next e r =>
    split
    · have h1 := span_length_le isDigit (numberSign r).2
      have h2 := numberSign_length r
      simp only [List.length_cons]
      omega
    · exact Nat.le_refl _
  · exact Nat.le_refl _

/-- A number literal takes at least its first character. -/
theorem readNumber_length (ch : Char) (rest : List Char)
    (hnum : (isDigit ch || (ch = '.' && (rest.head?.map isDigit).getD false)) = true) :
    (readNumber (ch :: rest)).2.length ≤ rest.length := by
  rw [readNumber_eq]
  have h1 := numberExponent_length (numberFraction ((numberDot (ch :: rest)).2.span isDigit).2).2
  have h2 := numberFraction_length ((numberDot (ch :: rest)).2.span isDigit).2
  have h3 : ((numberDot (ch :: rest)).2.span isDigit).2.length ≤ rest.length := by
    by_cases hc : isDigit ch = true
    · have hne : ch ≠ '.' := by rintro rfl; exact absurd hc (by decide)
      rw [numberDot_cons ch rest hne]
      have e : ((ch :: rest).span isDigit).2 = (rest.span isDigit).2 := by
        simp [List.span_eq_take_drop, List.dropWhile, hc]
      rw [e]
      exact span_length_le _ _
    · have hd : ch = '.' := by
        simp only [hc, Bool.false_or, Bool.and_eq_true, decide_eq_true_eq] at hnum
        exact hnum.1
      subst hd
      exact span_length_le _ _
  simp only
  omega

/-- A name takes at least its first character. -/
theorem readIdent_length (L : GoLib) (ch : Char) (rest : List Char) :
    (readIdent L (ch :: rest)).2.length ≤ rest.length := by
  unfold readIdent
  split
  · next r heq =>
    simp only [List.cons.injEq] at heq
    obtain ⟨_, rfl⟩ := heq
    simp only [List.length_cons]
    omega
  · next first r heq =>
    simp only [List.cons.injEq] at heq
    obtain ⟨_, rfl⟩ := heq
    exact span_length_le _ _
  · next heq => simp at heq

theorem readStringLoop_length (quote : Char) : ∀ (n : Nat) (s out : List Char), s.length ≤ n →
    (readStringLoop quote s out).2.length ≤ s.length := by
  intro n
  induction n with
  | zero =>
    intro s out h
    have : s = [] := List.length_eq_zero.mp (by omega)
    subst this
    simp [readStringLoop]
  | succ n ih =>
    intro s out h
    cases s with
    | nil => simp [readStringLoop]
    | cons ch rest =>
      unfold readStringLoop
      simp only [List.length_cons] at h
      split
      · simp
      · split
        · cases rest with
          | nil => simp
          | cons esc rest2 =>
            have := ih rest2 (out ++ [if esc = 'n' then Char.ofNat 10
              else if esc = 't' then Char.ofNat 9
              else if esc = 'r' then Char.ofNat 13 else esc])
              (by simp only [List.length_cons] at h; omega)
            simp only [List.length_cons] at this ⊢
            omega
        · have := ih rest (out ++ [ch]) (by omega)
          simp only [List.length_cons]
          omega

theorem readBacktickLoop_length : ∀ (s out : List Char),
    (readBacktickLoop s out).2.length ≤ s.length := by
  intro s
  induction s with
  | nil => intro out; simp [readBacktickLoop]
  | cons ch rest ih =>
    intro out
    unfold readBacktickLoop
    split
    · simp
    · have := ih (out ++ [ch])
      simp only [List.length_cons]
      omega

/-- An operator, or an unknown character, takes at least that character. -/
theorem lexOperator_length (ch : Char) (rest : List Char) (tok : Token) (rest2 : List Char)
    (h : lexOperator ch rest = (tok, rest2)) : rest2.length ≤ rest.length := by
  unfold lexOperator at h
  by_cases h0 : ch = '<'
  · subst h0
    rw [if_pos rfl] at h
    all_goals (try split at h)
    all_goals (obtain ⟨rfl, rfl⟩ := Prod.mk.inj h)
    all_goals first | exact Nat.le_refl _ | (simp only [List.length_cons]; omega)
  rw [if_neg h0] at h
  by_cases h1 : ch = '-'
  · subst h1
    rw [if_pos rfl] at h
    all_goals (try split at h)
    all_goals (obtain ⟨rfl, rfl⟩ := Prod.mk.inj h)
    all_goals first | exact Nat.le_refl _ | (simp only [List.length_cons]; omega)
  rw [if_neg h1] at h
  by_cases h2 : ch = '='
  · subst h2
    rw [if_pos rfl] at h
    all_goals (try split at h)
    all_goals (obtain ⟨rfl, rfl⟩ := Prod.mk.inj h)
    all_goals first | exact Nat.le_refl _ | (simp only [List.length_cons]; omega)
  rw [if_neg h2] at h
  by_cases h3 : ch = '!'
  · subst h3
    rw [if_pos rfl] at h
    all_goals (try split at h)
    all_goals (obtain ⟨rfl, rfl⟩ := Prod.mk.inj h)
    all_goals first | exact Nat.le_refl _ | (simp only [List.length_cons]; omega)
  rw [if_neg h3] at h
  by_cases h4 : ch = '>'
  · subst h4
    rw [if_pos rfl] at h
    all_goals (try split at h)
    all_goals (obtain ⟨rfl, rfl⟩ := Prod.mk.inj h)
    all_goals first | exact Nat.le_refl _ | (simp only [List.length_cons]; omega)
  rw [if_neg h4] at h
  by_cases h5 : ch = '+'
  · subst h5
    rw [if_pos rfl] at h
    all_goals (obtain ⟨rfl, rfl⟩ := Prod.mk.inj h)
    all_goals exact Nat.le_refl _
  rw [if_neg h5] at h
  by_cases h6 : ch = '*'
  · subst h6
    rw [if_pos rfl] at h
    all_goals (obtain ⟨rfl, rfl⟩ := Prod.mk.inj h)
    all_goals exact Nat.le_refl _
  rw [if_neg h6] at h
  by_cases h7 : ch = '/'
  · subst h7
    rw [if_pos rfl] at h
    all_goals (obtain ⟨rfl, rfl⟩ := Prod.mk.inj h)
    all_goals exact Nat.le_refl _
  rw [if_neg h7] at h
  by_cases h8 : ch = '^'
  · subst h8
    rw [if_pos rfl] at h
    all_goals (obtain ⟨rfl, rfl⟩ := Prod.mk.inj h)
    all_goals exact Nat.le_refl _
  rw [if_neg h8] at h
  by_cases h9 : ch = ':'
  · subst h9
    rw [if_pos rfl] at h
    all_goals (obtain ⟨rfl, rfl⟩ := Prod.mk.inj h)
    all_goals exact Nat.le_refl _
  rw [if_neg h9] at h
  by_cases h10 : ch = '&'
  · subst h10
    rw [if_pos rfl] at h
    all_goals (try split at h)
    all_goals (obtain ⟨rfl, rfl⟩ := Prod.mk.inj h)
    all_goals first | exact Nat.le_refl _ | (simp only [List.length_cons]; omega)
  rw [if_neg h10] at h
  by_cases h11 : ch = '|'
  · subst h11
    rw [if_pos rfl] at h
    all_goals (try split at h)
    all_goals (obtain ⟨rfl, rfl⟩ := Prod.mk.inj h)
    all_goals first | exact Nat.le_refl _ | (simp only [List.length_cons]; omega)
  rw [if_neg h11] at h
  by_cases h12 : ch = '%'
  · subst h12
    rw [if_pos rfl] at h
    all_goals (try split at h)
    all_goals (obtain ⟨rfl, rfl⟩ := Prod.mk.inj h)
    all_goals first | exact Nat.le_refl _ | (simp only [List.length_cons]; omega)
  rw [if_neg h12] at h
  obtain ⟨rfl, rfl⟩ := Prod.mk.inj h
  exact Nat.le_refl _

/-- `skipWhitespaceAndComments` ends within the length of the input, and what
it leaves is not longer. -/
theorem skipWs_total : ∀ (k : Nat) (s : List Char), s.length < k →
    ∃ r, skipWhitespaceAndComments k s = some r ∧ r.length ≤ s.length := by
  intro k
  induction k with
  | zero => intro s h; omega
  | succ k ih =>
    intro s h
    cases s with
    | nil => exact ⟨[], rfl, Nat.le_refl _⟩
    | cons ch rest =>
      simp only [List.length_cons] at h
      unfold skipWhitespaceAndComments
      by_cases hw : ch = ' ' ∨ ch = Char.ofNat 9 ∨ ch = Char.ofNat 13
      · rw [if_pos hw]
        obtain ⟨r, hr, hl⟩ := ih rest (by omega)
        exact ⟨r, hr, by simp only [List.length_cons]; omega⟩
      · rw [if_neg hw]
        by_cases hc : ch = '#'
        · rw [if_pos hc]
          have hd : (rest.dropWhile fun c => c ≠ Char.ofNat 10).length ≤ rest.length :=
            (List.dropWhile_sublist _).length_le
          obtain ⟨r, hr, hl⟩ := ih (rest.dropWhile fun c => c ≠ Char.ofNat 10) (by omega)
          exact ⟨r, hr, by simp only [List.length_cons]; omega⟩
        · rw [if_neg hc]
          exact ⟨ch :: rest, rfl, Nat.le_refl _⟩

/-- `Next` returns within the length of the input, and it takes at least one
character unless the input is empty. -/
theorem Next_progress (L : GoLib) : ∀ (k : Nat) (l : Lexer), l.src.length < k →
    ∃ tok l2, Lexer.Next L k l = some (tok, l2) ∧ l2.src.length ≤ l.src.length ∧
      (l.src ≠ [] → l2.src.length < l.src.length) := by
  intro k
  induction k with
  | zero => intro l h; omega
  | succ k ih =>
    intro l h
    obtain ⟨src, p, b⟩ := l
    simp only at h ⊢
    obtain ⟨r, hr, hl⟩ := skipWs_total (src.length + 1) src (by omega)
    cases r with
    | nil =>
      unfold Lexer.Next
      simp only [hr]
      refine ⟨_, _, rfl, by simp, fun hne => ?_⟩
      simp only [List.length_nil]
      exact List.length_pos.mpr hne
    | cons ch rest =>
      simp only [List.length_cons] at hl
      have fin : ∀ (tok : Token) (l2 : Lexer), l2.src.length ≤ rest.length →
          ∃ tok' l2', some (tok, l2) = some (tok', l2') ∧ l2'.src.length ≤ src.length ∧
            (src ≠ [] → l2'.src.length < src.length) :=
        fun tok l2 h2 => ⟨tok, l2, rfl, by omega, fun _ => by omega⟩
      unfold Lexer.Next
      rw [hr]
      show ∃ tok l2, (if ch = Char.ofNat 10 then _ else _) = some (tok, l2) ∧ _
      by_cases c1 : ch = Char.ofNat 10
      · rw [if_pos c1]
        by_cases cd : p > 0 ∨ b > 0
        · rw [if_pos cd]
          obtain ⟨tok, l2, h1, h2, _⟩ := ih ⟨rest, p, b⟩ (by simp only; omega)
          exact ⟨tok, l2, h1, by simp only at h2; omega, fun _ => by simp only at h2; omega⟩
        · rw [if_neg cd]
          exact fin _ _ (Nat.le_refl _)
      rw [if_neg c1]
      by_cases c2 : ch = '('
      · rw [if_pos c2]
        exact fin _ _ (Nat.le_refl _)
      rw [if_neg c2]
      by_cases c3 : ch = ')'
      · rw [if_pos c3]
        exact fin _ _ (Nat.le_refl _)
      rw [if_neg c3]
      by_cases c4 : ch = '['
      · rw [if_pos c4]
        split
        · exact fin _ _ (by simp)
        · exact fin _ _ (Nat.le_refl _)
      rw [if_neg c4]
      by_cases c5 : ch = ']'
      · rw [if_pos c5]
        split
        · exact fin _ _ (by simp)
        · exact fin _ _ (Nat.le_refl _)
      rw [if_neg c5]
      by_cases c6 : ch = Char.ofNat 123
      · rw [if_pos c6]
        exact fin _ _ (Nat.le_refl _)
      rw [if_neg c6]
      by_cases c7 : ch = Char.ofNat 125
      · rw [if_pos c7]
        exact fin _ _ (Nat.le_refl _)
      rw [if_neg c7]
      by_cases c8 : ch = ','
      · rw [if_pos c8]
        exact fin _ _ (Nat.le_refl _)
      rw [if_neg c8]
      by_cases c9 : ch = ';'
      · rw [if_pos c9]
        exact fin _ _ (Nat.le_refl _)
      rw [if_neg c9]
      by_cases c10 : ch = '$'
      · rw [if_pos c10]
        exact fin _ _ (Nat.le_refl _)
      rw [if_neg c10]
      by_cases c11 : ch = Char.ofNat 34 ∨ ch = Char.ofNat 39
      · rw [if_pos c11]
        exact fin _ _ (readStringLoop_length ch _ rest [] (Nat.le_refl _))
      rw [if_neg c11]
      by_cases c12 : ch = Char.ofNat 96
      · rw [if_pos c12]
        exact fin _ _ (readBacktickLoop_length rest [])
      rw [if_neg c12]
      by_cases c13 : (isDigit ch || (ch = '.' && (rest.head?.map isDigit).getD false)) = true
      · rw [if_pos c13]
        exact fin _ _ (readNumber_length ch rest c13)
      rw [if_neg c13]
      by_cases c14 : isIdentStart L ch = true
      · rw [if_pos c14]
        exact fin _ _ (readIdent_length L ch rest)
      rw [if_neg c14]
      exact fin _ _ (lexOperator_length ch rest _ _ rfl)

theorem Next_at_end (L : GoLib) (k p b : Nat) :
    Lexer.Next L (k + 1) ⟨[], p, b⟩ = some (⟨.EOF, ""⟩, ⟨[], p, b⟩) := by
  simp [Lexer.Next, skipWhitespaceAndComments]

/-- `DebugTokens` returns within the length of the input: some tokens that are
neither `EOF` nor `ILLEGAL`, then one that is, with the error set exactly for
`ILLEGAL`. -/
theorem DebugTokens_total (L : GoLib) : ∀ (k : Nat) (l : Lexer), l.src.length < k →
    ∃ init last err, Lexer.DebugTokens L k l = some (init ++ [last], err) ∧
      (∀ t ∈ init, t.Typ ≠ .EOF ∧ t.Typ ≠ .ILLEGAL) ∧
      (last.Typ = .EOF ∨ last.Typ = .ILLEGAL) ∧
      (err = none ↔ last.Typ = .EOF) ∧ (err ≠ none ↔ last.Typ = .ILLEGAL) := by
  intro k
  induction k with
  | zero => intro l h; omega
  | succ k ih =>
    intro l h
    obtain ⟨tok, l2, hn, hle, hlt⟩ := Next_progress L (l.src.length + 1) l (by omega)
    unfold Lexer.DebugTokens
    simp only [hn]
    by_cases hi : tok.Typ = .ILLEGAL
    · rw [if_pos hi]
      exact ⟨[], tok, _, rfl, by simp, Or.inr hi, by simp [hi], by simp [hi]⟩
    · rw [if_neg hi]
      by_cases he : tok.Typ = .EOF
      · rw [if_pos he]
        exact ⟨[], tok, _, rfl, by simp, Or.inl he, by simp [he], by simp [he]⟩
      · rw [if_neg he]
        have hne : l.src ≠ [] := by
          intro hc
          obtain ⟨src, p, b⟩ := l
          simp only at hc
          subst hc
          rw [Next_at_end] at hn
          simp only [Option.some.injEq, Prod.mk.injEq] at hn
          exact he (by rw [← hn.1])
        obtain ⟨init, last, err, hd, h1, h2, h3, h4⟩ := ih l2 (by have := hlt hne; omega)
        refine ⟨tok :: init, last, err, by simp [hd], ?_, h2, h3, h4⟩
        intro t ht
        rcases List.mem_cons.mp ht with rfl | ht
        · exact ⟨he, hi⟩
        · exact h1 t ht

end ProgressLemmas

/-- C40: `Lexer.DebugTokens` terminates on every input. For every state of
the lexer, `Next` returns a token within the length of the input that is left
(one step for each character is enough fuel, any more changes nothing), the
input it leaves is not longer, and it is shorter whenever input was left. With
that fuel `DebugTokens` returns a list of tokens that is not empty: tokens
that are neither `EOF` nor `ILLEGAL`, followed by a last token that is one of
the two; the error is nil exactly when the last token is `EOF`, and not nil
exactly when it is `ILLEGAL`. Examples: an illegal `%`, an unterminated
string, a newline inside parentheses, and the empty input. -/
theorem DebugTokens_terminates (L : GoLib) (l : Lexer) (extra : Nat) :
    (∃ tok l2, Lexer.Next L (l.src.length + 1 + extra) l = some (tok, l2) ∧
      l2.src.length ≤ l.src.length ∧ (l.src ≠ [] → l2.src.length < l.src.length)) ∧
    (∃ init last err,
      Lexer.DebugTokens L (l.src.length + 1 + extra) l = some (init ++ [last], err) ∧
      (∀ t ∈ init, t.Typ ≠ .EOF ∧ t.Typ ≠ .ILLEGAL) ∧
      (last.Typ = .EOF ∨ last.Typ = .ILLEGAL) ∧
      (err = none ↔ last.Typ = .EOF) ∧ (err ≠ none ↔ last.Typ = .ILLEGAL)) ∧
    Lexer.DebugTokens asciiLib 11 (Lexer.New "x <- 1 % 2") =
      some ([⟨.IDENT, "x"⟩, ⟨.ASSIGN_LEFT, "<-"⟩, ⟨.NUMBER, "1"⟩, ⟨.ILLEGAL, "%"⟩],
        some "illegal token: %") ∧
    Lexer.DebugTokens asciiLib 9 (Lexer.New "x <- \"ab") =
      some ([⟨.IDENT, "x"⟩, ⟨.ASSIGN_LEFT, "<-"⟩, ⟨.ILLEGAL, "unterminated string"⟩],
        some "illegal token: unterminated string") ∧
    Lexer.DebugTokens asciiLib 9 (Lexer.New "f(a,\n b)") =
      some ([⟨.IDENT, "f"⟩, ⟨.LPAREN, "("⟩, ⟨.IDENT, "a"⟩, ⟨.COMMA, ","⟩, ⟨.IDENT, "b"⟩,
        ⟨.RPAREN, ")"⟩, ⟨.EOF, ""⟩], none) ∧
    Lexer.DebugTokens asciiLib 1 (Lexer.New "") = some ([⟨.EOF, ""⟩], none) :=
  ⟨Next_progress L _ l (by omega), DebugTokens_total L _ l (by omega), by decide!, by decide!,
    by decide!, by decide!⟩

end SmallR
